import Mathlib

/-!
# Locally shortest paths on a triangle mesh (Bsurf)

Shallow embedding of
`Polygon_mesh_processing/include/CGAL/Polygon_mesh_processing/Bsurf/locally_shortest_path.h`.

* The number type `FT` of the kernel is a linearly ordered field `F`; the
  kernel square root is a parameter `sqrt : F → F`.
* Descriptors (vertices, halfedges, edges, faces) are natural numbers and the
  mesh is the record of its topology queries and of its vertex point map.
* A call that violates an assertion of the source, reads a vector out of
  bounds or divides by zero yields `none`.
-/

namespace Bsurf

/-! ## Data model -/

/-- Kernel vector of the plane, `K::Vector_2`. -/
structure Vector_2 (F : Type) where
  x : F
  y : F
deriving DecidableEq

/-- Kernel point of space, `K::Point_3`. -/
structure Point_3 (F : Type) where
  x : F
  y : F
  z : F
deriving DecidableEq

/-- An array of three values, `std::array<T, 3>`: three barycentric weights or
the three corners of a flattened triangle. -/
structure Array3 (α : Type) where
  a0 : α
  a1 : α
  a2 : α
deriving DecidableEq

/-- A point of the surface: `std::pair<face_descriptor, std::array<FT, 3>>`. -/
structure Face_location (F : Type) where
  first : Nat
  second : Array3 F
deriving DecidableEq

/-- An edge crossing: `std::pair<edge_descriptor, std::array<FT, 2>>`. -/
structure Edge_location (F : Type) where
  first : Nat
  second : F × F
deriving DecidableEq

/-- Four control points, `std::array<Face_location, 4>`. -/
structure Bezier_segment (F : Type) where
  p0 : Face_location F
  p1 : Face_location F
  p2 : Face_location F
  p3 : Face_location F
deriving DecidableEq

/-- The mesh collaborator: the topology queries the header uses, the queries on
edge descriptors, and the vertex point map. -/
structure TriangleMesh (F : Type) where
  next : Nat → Nat
  prev : Nat → Nat
  opposite : Nat → Nat
  source : Nat → Nat
  target : Nat → Nat
  face : Nat → Nat
  halfedge : Nat → Nat
  edge : Nat → Nat
  edge_halfedge : Nat → Nat
  edge_source : Nat → Nat
  edge_target : Nat → Nat
  vpm : Nat → Point_3 F

section Kernel

variable {F : Type} [LinearOrderedField F]

/-- Sum of the three weights. -/
def Array3.sum (b : Array3 F) : F := b.a0 + b.a1 + b.a2

/-- Squared Euclidean distance of two points of space. -/
def squared_distance (p q : Point_3 F) : F :=
  (p.x - q.x) * (p.x - q.x) + (p.y - q.y) * (p.y - q.y) + (p.z - q.z) * (p.z - q.z)

/-- Modelled from the spec: the two-point `Barycentric_point_constructor` of
`locate.h`, which is not among the sources; "linear interpolation of the
edge's two endpoint positions by the given barycentric weights". -/
def barycentric_point_2 (p : Point_3 F) (wp : F) (q : Point_3 F) (wq : F) : Point_3 F :=
  ⟨wp * p.x + wq * q.x, wp * p.y + wq * q.y, wp * p.z + wq * q.z⟩

/-- Modelled from the spec: the three-point `Barycentric_point_constructor` of
`locate.h`, the combination of three positions by the barycentric weights. -/
def barycentric_point_3 (p : Point_3 F) (wp : F) (q : Point_3 F) (wq : F)
    (r : Point_3 F) (wr : F) : Point_3 F :=
  ⟨wp * p.x + wq * q.x + wr * r.x, wp * p.y + wq * q.y + wr * r.y,
   wp * p.z + wq * q.z + wr * r.z⟩

/-- Modelled from the spec: `construct_point(Face_location, mesh)` of `locate.h`,
the point of the face with the given barycentric coordinates, the vertices of
the face being read from `halfedge(face)` as `source`, `target`,
`target(next)`. -/
def construct_point_face (mesh : TriangleMesh F) (loc : Face_location F) : Point_3 F :=
  let hd := mesh.halfedge loc.first
  barycentric_point_3 (mesh.vpm (mesh.source hd)) loc.second.a0
    (mesh.vpm (mesh.target hd)) loc.second.a1
    (mesh.vpm (mesh.target (mesh.next hd))) loc.second.a2

/-- `construct_point(Edge_location, mesh)`, lines 44-83. -/
def construct_point (mesh : TriangleMesh F) (loc : Edge_location F) : Point_3 F :=
  let ed := loc.first
  let p0 := mesh.vpm (mesh.edge_source ed)
  let p1 := mesh.vpm (mesh.edge_target ed)
  barycentric_point_2 p0 loc.second.1 p1 loc.second.2

/-- Linear interpolation of two points of space. -/
def lerp_point (t : F) (p q : Point_3 F) : Point_3 F :=
  ⟨(1 - t) * p.x + t * q.x, (1 - t) * p.y + t * q.y, (1 - t) * p.z + t * q.z⟩

/-! ## Plane vectors -/

instance : Add (Vector_2 F) := ⟨fun a b => ⟨a.x + b.x, a.y + b.y⟩⟩

instance : Sub (Vector_2 F) := ⟨fun a b => ⟨a.x - b.x, a.y - b.y⟩⟩

/-- Product of a vector by a scalar, `v * c`. -/
def Vector_2.scale (v : Vector_2 F) (c : F) : Vector_2 F := ⟨v.x * c, v.y * c⟩

/-- Quotient of a vector by a scalar, `v / c`. -/
def Vector_2.div (v : Vector_2 F) (c : F) : Vector_2 F := ⟨v.x / c, v.y / c⟩

/-- `v.squared_length()`. -/
def Vector_2.squared_length (v : Vector_2 F) : F := v.x * v.x + v.y * v.y

/-- `determinant(v, w)` of two plane vectors. -/
def determinant (v w : Vector_2 F) : F := v.x * w.y - v.y * w.x

/-- `scalar_product(v, w)` of two plane vectors. -/
def scalar_product (v w : Vector_2 F) : F := v.x * w.x + v.y * w.y

/-! ## Triangle unfolder (`Locally_shortest_path_imp`) -/

/-- `intersect_circles(c2, R2, c1, R1)`, lines 122-139; `none` when one of the
two assertions `R > 0`, `s >= 0` fails. -/
def intersect_circles (sqrt : F → F) (c2 : Vector_2 F) (R2 : F) (c1 : Vector_2 F) (R1 : F) :
    Option (Vector_2 F) :=
  let R := (c2 - c1).squared_length
  if ¬ (R > 0) then none
  else
    let invR := 1 / R
    let result := c1 + c2
    let result := result + (c2 - c1).scale ((R1 - R2) * invR)
    let A := 2 * (R1 + R2) * invR
    let B := (R1 - R2) * invR
    let s := A - B * B - 1
    if ¬ (s ≥ 0) then none
    else
      let result := result + (Vector_2.mk (c2.y - c1.y) (c1.x - c2.x)).scale (sqrt s)
      some (result.div 2)

/-- `init_flat_triangle(h, vpm, mesh)`, lines 141-160. -/
def init_flat_triangle (sqrt : F → F) (h : Nat) (mesh : TriangleMesh F) :
    Option (Array3 (Vector_2 F)) :=
  let v0 := mesh.source h
  let v1 := mesh.target h
  let v2 := mesh.target (mesh.next h)
  let tr2d0 : Vector_2 F := ⟨0, 0⟩
  let tr2d1 : Vector_2 F := ⟨0, sqrt (squared_distance (mesh.vpm v0) (mesh.vpm v1))⟩
  let rx := squared_distance (mesh.vpm v0) (mesh.vpm v2)
  let ry := squared_distance (mesh.vpm v1) (mesh.vpm v2)
  (intersect_circles sqrt tr2d0 rx tr2d1 ry).map (fun tr2d2 => ⟨tr2d0, tr2d1, tr2d2⟩)

/-- `unfold_face(h, vpm, mesh, flat_tid)` on a whole flattened triangle, lines
261-288. -/
def unfold_face (sqrt : F → F) (h : Nat) (mesh : TriangleMesh F)
    (flat_tid : Array3 (Vector_2 F)) : Option (Array3 (Vector_2 F)) :=
  let h_opp := mesh.opposite h
  let v := mesh.target (mesh.next h_opp)
  let a := mesh.target h_opp
  let b := mesh.source h_opp
  let r0 := squared_distance (mesh.vpm v) (mesh.vpm a)
  let r1 := squared_distance (mesh.vpm v) (mesh.vpm b)
  (intersect_circles sqrt flat_tid.a1 r1 flat_tid.a0 r0).map
    (fun v2 => ⟨flat_tid.a0, flat_tid.a1, v2⟩)

/-- Squared norm of the cross product of `p1 - p0` and `p2 - p0`, that is four
times the squared area of the triangle `p0 p1 p2`. -/
def cross_squared (p0 p1 p2 : Point_3 F) : F :=
  ((p1.y - p0.y) * (p2.z - p0.z) - (p1.z - p0.z) * (p2.y - p0.y)) ^ 2 +
  ((p1.z - p0.z) * (p2.x - p0.x) - (p1.x - p0.x) * (p2.z - p0.z)) ^ 2 +
  ((p1.x - p0.x) * (p2.y - p0.y) - (p1.y - p0.y) * (p2.x - p0.x)) ^ 2

/-- The triangle on the left of halfedge `h` is not degenerate: its three
vertices are not collinear. -/
def non_degenerate (mesh : TriangleMesh F) (h : Nat) : Prop :=
  cross_squared (mesh.vpm (mesh.source h)) (mesh.vpm (mesh.target h))
    (mesh.vpm (mesh.target (mesh.next h))) ≠ 0

/-- The discriminant `s` computed by `intersect_circles(c2, R2, c1, R1)`. -/
def circles_discriminant (c2 : Vector_2 F) (R2 : F) (c1 : Vector_2 F) (R1 : F) : F :=
  2 * (R1 + R2) * (1 / (c2 - c1).squared_length)
    - (R1 - R2) * (1 / (c2 - c1).squared_length) * ((R1 - R2) * (1 / (c2 - c1).squared_length))
    - 1

/-- Squared distance of two points of the plane. -/
def squared_distance_2 (p q : Vector_2 F) : F := (p - q).squared_length

/-! ## Funnel (`Locally_shortest_path_imp`) -/

/-- Subtraction `a - b` of two `std::size_t` values, both below `2 ^ 64`: it
wraps around when `a < b`. -/
def size_t_sub (a b : Nat) : Nat := if b ≤ a then a - b else 2 ^ 64 - (b - a)

/-- A point of the funnel path, `struct funnel_point`. -/
structure funnel_point (F : Type) where
  face : Nat
  pos : Vector_2 F
deriving DecidableEq

/-- `intersect_segments(start1, end1, start2, end2)`, lines 366-384; `none` when
`assert(det)` fails. -/
def intersect_segments (start1 end1 start2 end2 : Vector_2 F) : Option F :=
  if end1 = start2 then some 0
  else if end2 = start1 then some 1
  else if start2 = start1 then
    if end2 = end1 then some 1 else some 0
  else if end2 = end1 then some 1
  else
    let a := end1 - start1
    let b := start2 - end2
    let d := start2 - start1
    let det := a.x * b.y - a.y * b.x
    if det = 0 then none
    else some ((a.x * d.y - a.y * d.x) / det)

/-- The unit vector `v / sqrt(v.squared_length())`; the division is undefined
for a vector of length zero. -/
def unit_vector (sqrt : F → F) (v : Vector_2 F) : Option (Vector_2 F) :=
  if sqrt v.squared_length = 0 then none else some (v.div (sqrt v.squared_length))

/-- The loop of `max_curvature_point`, lines 392-405, entered with counter `i`;
`none` when `fuel` tests of the loop condition do not end it. -/
def max_curvature_loop (sqrt : F → F) (path : List (funnel_point F)) :
    Nat → Nat → Int → F → Option Int
  | 0, _, _, _ => none
  | fuel + 1, i, max_index, max_angle =>
    if i < size_t_sub path.length 1 then do
      let p ← path[i]?
      let prev ← path[i - 1]?
      let next ← path[i + 1]?
      let v0 ← unit_vector sqrt (p.pos - prev.pos)
      let v1 ← unit_vector sqrt (next.pos - p.pos)
      let angle := 1 - scalar_product v0 v1
      if angle > max_angle then
        max_curvature_loop sqrt path fuel (i + 1) (p.face : Int) angle
      else max_curvature_loop sqrt path fuel (i + 1) max_index max_angle
    else some max_index

/-- `max_curvature_point(path)`, lines 385-415: the face index of the interior
vertex of largest turning value, `-1` when there is none. -/
def max_curvature_point (sqrt : F → F) (path : List (funnel_point F)) : Option Int :=
  max_curvature_loop sqrt path (path.length + 1) 1 (-1) 0

/-- The local lambda `area` of `funnel`. -/
def area (a b c : Vector_2 F) : F := determinant (b - a) (c - a)

/-- The variables of the scan loop of `funnel`. -/
structure funnel_state (F : Type) where
  apex_index : Nat
  left_index : Nat
  right_index : Nat
  apex : Vector_2 F
  left_bound : Vector_2 F
  right_bound : Vector_2 F
  points : List (funnel_point F)

/-- "Insert left to path and restart scan from portal left point", lines
451-459. -/
def funnel_state.restart_left (st : funnel_state F) : funnel_state F where
  points := st.points ++ [⟨st.left_index, st.left_bound⟩]
  apex := st.left_bound
  apex_index := st.left_index
  left_bound := st.left_bound
  right_bound := st.left_bound
  left_index := st.left_index
  right_index := st.left_index

/-- The symmetric restart from the right bound, lines 475-483. -/
def funnel_state.restart_right (st : funnel_state F) : funnel_state F where
  points := st.points ++ [⟨st.right_index, st.right_bound⟩]
  apex := st.right_bound
  apex_index := st.right_index
  left_bound := st.right_bound
  right_bound := st.right_bound
  left_index := st.right_index
  right_index := st.right_index

/-- "Update left vertex", lines 467-489, for portal `i`: the value of the loop
counter for the next iteration and the new state. -/
def funnel_update_left (i : Nat) (left : Vector_2 F) (st : funnel_state F) :
    Nat × funnel_state F :=
  if area st.apex st.left_bound left ≥ 0 then
    if st.apex = st.left_bound ∨ area st.apex st.right_bound left < 0 then
      (i + 1, { st with left_bound := left, left_index := i })
    else if st.right_bound ≠ st.apex then
      (st.right_index + 1, st.restart_right)
    else (i + 1, st)
  else (i + 1, st)

/-- One iteration of the scan loop of `funnel`, lines 440-489, for portal `i`:
"update right vertex", then "update left vertex" unless the scan restarts. -/
def funnel_iteration (i : Nat) (left right : Vector_2 F) (st : funnel_state F) :
    Nat × funnel_state F :=
  if area st.apex st.right_bound right ≤ 0 then
    if st.apex = st.right_bound ∨ area st.apex st.left_bound right > 0 then
      funnel_update_left i left { st with right_bound := right, right_index := i }
    else if st.left_bound ≠ st.apex then
      (st.left_index + 1, st.restart_left)
    else funnel_update_left i left st
  else funnel_update_left i left st

/-- The scan loop of `funnel`, lines 438-490, entered with counter `i`; `none`
when `fuel` iterations do not end it. -/
def funnel_scan (portals : List (Vector_2 F × Vector_2 F)) :
    Nat → Nat → funnel_state F → Option (funnel_state F)
  | 0, _, _ => none
  | fuel + 1, i, st =>
    match portals[i]? with
    | none => some st
    | some portal =>
      funnel_scan portals fuel (funnel_iteration i portal.1 portal.2 st).1
        (funnel_iteration i portal.1 portal.2 st).2

/-- The path points of `funnel`, lines 421-497: the scan, then the target is
appended unless the path already ends there; `none` when `portals` is empty or
an assertion on the last point fails. -/
def funnel_points (portals : List (Vector_2 F × Vector_2 F)) : Option (List (funnel_point F)) := do
  let first ← portals[0]?
  let last ← portals[portals.length - 1]?
  let st ← funnel_scan portals ((portals.length + 2) * (portals.length + 2)) 0
    { apex_index := 0, left_index := 0, right_index := 0, apex := ⟨0, 0⟩,
      left_bound := first.1, right_bound := first.2, points := [⟨0, ⟨0, 0⟩⟩] }
  let back ← st.points[st.points.length - 1]?
  let points := if back.pos ≠ last.1 then st.points ++ [⟨portals.length - 1, last.1⟩]
    else st.points
  let back ← points[points.length - 1]?
  if back.pos ≠ last.1 then none
  else if back.pos ≠ last.2 then none
  else some points

/-- `std::clamp(s, 0.0, 1.0)`. -/
def clamp01 (s : F) : F := if s < 0 then 0 else if 1 < s then 1 else s

/-- The inner loop of the computation of the lerps, lines 504-518: the portals
`k, ..., face_b - 1` crossed by the segment `a b`, `count` of them. -/
def crossing_lerps (portals : List (Vector_2 F × Vector_2 F)) (a b : Vector_2 F) :
    Nat → Nat → Option (List F)
  | 0, _ => some []
  | count + 1, k => do
    let portal ← portals[k]?
    let s ← intersect_segments a b portal.1 portal.2
    let rest ← crossing_lerps portals a b count (k + 1)
    some (clamp01 s :: rest)

/-- The computation of the lerps, lines 499-519: for every pair of consecutive
path points, the portals from the face of the first to the face of the second,
the second excluded. -/
def funnel_lerps (portals : List (Vector_2 F × Vector_2 F)) :
    List (funnel_point F) → Option (List F)
  | p :: q :: points => do
    let lerps ← crossing_lerps portals p.pos q.pos (q.face - p.face) p.face
    let rest ← funnel_lerps portals (q :: points)
    some (lerps ++ rest)
  | _ => some []

/-- The loop that sets the face of the path points, lines 521-541, entered at
portal `i` (`fuel` portals are left); `none` when `points[index]` is read out
of bounds. -/
def funnel_set_faces (portals : List (Vector_2 F × Vector_2 F)) :
    Nat → Nat → Nat → List (funnel_point F) → Option (List (funnel_point F))
  | 0, _, _, points => some points
  | fuel + 1, i, index, points => do
    let portal ← portals[i]?
    let p ← points[index]?
    if portal.1 = p.pos ∨ portal.2 = p.pos then
      funnel_set_faces portals fuel (i + 1) (index + 1) (points.set index { p with face := i })
    else funnel_set_faces portals fuel (i + 1) index points

/-- Conversion of the `int` returned by `max_curvature_point` to the
`std::size_t` output parameter `max_index`. -/
def to_size_t (x : Int) : Nat := (x % 2 ^ 64).toNat

/-- `funnel(portals, max_index)`, lines 417-545: the lerps and `max_index`. -/
def funnel (sqrt : F → F) (portals : List (Vector_2 F × Vector_2 F)) : Option (List F × Nat) := do
  let points ← funnel_points portals
  let lerps ← funnel_lerps portals points
  let points ← funnel_set_faces portals portals.length 0 1 points
  let max_index ← max_curvature_point sqrt points
  some (lerps, to_size_t max_index)

/-! ## Strip unfolding (`Locally_shortest_path_imp`) -/

/-- The re-basing of the barycentric coordinates of a location of the face of
`h` onto the halfedge `h`, lines 184-198 and 231-245; `none` when the assertion
`next(href) == h` fails. -/
def rebase_bary (mesh : TriangleMesh F) (h : Nat) (loc : Face_location F) : Option (Array3 F) :=
  let href := mesh.halfedge loc.first
  if href ≠ h then
    if href = mesh.next h then some ⟨loc.second.a2, loc.second.a0, loc.second.a1⟩
    else if mesh.next href = h then some ⟨loc.second.a1, loc.second.a2, loc.second.a0⟩
    else none
  else some loc.second

/-- The combination `tr2d[0] * b[0] + tr2d[1] * b[1] + tr2d[2] * b[2]`. -/
def flat_point (tr2d : Array3 (Vector_2 F)) (b : Array3 F) : Vector_2 F :=
  tr2d.a0.scale b.a0 + tr2d.a1.scale b.a1 + tr2d.a2.scale b.a2

/-- `init_source_triangle(hopp, vpm, mesh, src)`, lines 162-210. -/
def init_source_triangle (sqrt : F → F) (hopp : Nat) (mesh : TriangleMesh F)
    (src : Face_location F) : Option (Vector_2 F × Vector_2 F) := do
  let h := mesh.opposite hopp
  let v0 := mesh.source h
  let v1 := mesh.target h
  let v2 := mesh.target (mesh.next h)
  let tr2d0 : Vector_2 F := ⟨0, 0⟩
  let tr2d1 : Vector_2 F := ⟨0, sqrt (squared_distance (mesh.vpm v0) (mesh.vpm v1))⟩
  let rx := squared_distance (mesh.vpm v0) (mesh.vpm v2)
  let ry := squared_distance (mesh.vpm v1) (mesh.vpm v2)
  let tr2d2 ← intersect_circles sqrt tr2d0 rx tr2d1 ry
  let bary ← rebase_bary mesh h src
  let point_coords := flat_point ⟨tr2d0, tr2d1, tr2d2⟩ bary
  some (tr2d0 - point_coords, tr2d1 - point_coords)

/-- `init_target_triangle(h, flat_tid, vpm, mesh, tgt)`, lines 212-259. -/
def init_target_triangle (sqrt : F → F) (h : Nat) (flat_tid : Vector_2 F × Vector_2 F)
    (mesh : TriangleMesh F) (tgt : Face_location F) : Option (Vector_2 F × Vector_2 F) := do
  let v0 := mesh.source h
  let v1 := mesh.target h
  let v2 := mesh.target (mesh.next h)
  let tr2d0 := flat_tid.2
  let tr2d1 := flat_tid.1
  let rx := squared_distance (mesh.vpm v0) (mesh.vpm v2)
  let ry := squared_distance (mesh.vpm v1) (mesh.vpm v2)
  let tr2d2 ← intersect_circles sqrt tr2d0 rx tr2d1 ry
  let bary ← rebase_bary mesh h tgt
  let point_coords := flat_point ⟨tr2d0, tr2d1, tr2d2⟩ bary
  some (point_coords, point_coords)

/-- `unfold_face(h_curr, h_next, vpm, mesh, flat_tid)` on a portal, lines
290-337; `none` when an assertion fails. -/
def unfold_face_portal (sqrt : F → F) (h_curr h_next : Nat) (mesh : TriangleMesh F)
    (flat_tid : Vector_2 F × Vector_2 F) : Option (Vector_2 F × Vector_2 F) :=
  let h_next_opp := mesh.opposite h_next
  if mesh.face h_curr ≠ mesh.face h_next_opp then none
  else
    let v := mesh.target (mesh.next h_curr)
    let a := mesh.target h_curr
    let b := mesh.source h_curr
    let r0 := squared_distance (mesh.vpm v) (mesh.vpm a)
    let r1 := squared_distance (mesh.vpm v) (mesh.vpm b)
    match intersect_circles sqrt flat_tid.2 r1 flat_tid.1 r0 with
    | none => none
    | some v2 =>
      if mesh.next h_curr = h_next_opp then some (flat_tid.1, v2)
      else if mesh.prev h_curr = h_next_opp then some (v2, flat_tid.2)
      else none

/-- The loop of `unfold_strip`, lines 351-352: `h_curr` is `initial_path[i-1]`,
`flat_tid` is `result[i-1]`, the list holds `initial_path[i], ...`; the value is
`result[i], ...` followed by the last halfedge and the last portal. -/
def unfold_faces (sqrt : F → F) (mesh : TriangleMesh F) :
    Nat → Vector_2 F × Vector_2 F → List Nat →
      Option (List (Vector_2 F × Vector_2 F) × Nat × (Vector_2 F × Vector_2 F))
  | h_curr, flat_tid, [] => some ([], h_curr, flat_tid)
  | h_curr, flat_tid, h_next :: path => do
    let portal ← unfold_face_portal sqrt h_curr h_next mesh flat_tid
    let (result, back, last) ← unfold_faces sqrt mesh h_next portal path
    some (portal :: result, back, last)

/-- `unfold_strip(initial_path, src, tgt, vpm, mesh)`, lines 338-360; `none` on
an empty path (`initial_path[0]` is read). -/
def unfold_strip (sqrt : F → F) (initial_path : List Nat) (src tgt : Face_location F)
    (mesh : TriangleMesh F) : Option (List (Vector_2 F × Vector_2 F)) :=
  match initial_path with
  | [] => none
  | h0 :: path => do
    let first ← init_source_triangle sqrt h0 mesh src
    let (result, back, last) ← unfold_faces sqrt mesh h0 first path
    let target ← init_target_triangle sqrt back last mesh tgt
    some (first :: result ++ [target])

/-! ## Dual-graph router (`Geodesic_circle_impl`) -/

/-- `dual_geodesic_solver::edge`. -/
structure dual_edge (F : Type) where
  node : Int
  length : F
deriving DecidableEq

/-- Read of a vector at an `int` index; `none` out of bounds. -/
def get_at {α : Type} (l : List α) (i : Int) : Option α :=
  if i < 0 then none else l[i.toNat]?

/-- Write of a vector at an `int` index; `none` out of bounds. -/
def set_at {α : Type} (l : List α) (i : Int) (a : α) : Option (List α) :=
  if i < 0 then none else if i.toNat < l.length then some (l.set i.toNat a) else none

/-- Write of `std::array<T, 3>` at index `i < 3`. -/
def Array3.set {α : Type} (r : Array3 α) (i : Nat) (a : α) : Array3 α :=
  if i = 0 then { r with a0 := a } else if i = 1 then { r with a1 := a } else { r with a2 := a }

/-- Read of `std::array<T, 3>` at index `i < 3`. -/
def Array3.get {α : Type} (r : Array3 α) (i : Nat) : α :=
  if i = 0 then r.a0 else if i = 1 then r.a1 else r.a2

/-- The lambda `compute_dual_weights` of `make_dual_geodesic_solver`, lines
1420-1430. -/
def compute_dual_weights (sqrt : F → F) (mesh : TriangleMesh F) (h : Nat) : Option F := do
  let flat_tid ← init_flat_triangle sqrt h mesh
  let flat_nei ← unfold_face sqrt h mesh flat_tid
  let c0 := (flat_tid.a0 + flat_tid.a1 + flat_tid.a2).scale (33 / 100)
  let c1 := (flat_nei.a0 + flat_nei.a1 + flat_nei.a2).scale (33 / 100)
  some (sqrt (c1 - c0).squared_length)

/-- The inner loop of `make_dual_geodesic_solver`, lines 1437-1440, for
`i, ..., 2` (`count` values): every entry is written from the same halfedge
`h`, which the loop does not advance. -/
def fill_entries (sqrt : F → F) (mesh : TriangleMesh F) (tidmap : Nat → Nat) (entry : Nat)
    (h : Nat) : Nat → Nat → List (Array3 (dual_edge F)) → Option (List (Array3 (dual_edge F)))
  | 0, _, graph => some graph
  | count + 1, i, graph => do
    let row ← graph[entry]?
    let length ← compute_dual_weights sqrt mesh h
    let row := row.set i ⟨(tidmap (mesh.face (mesh.opposite h)) : Int), length⟩
    fill_entries sqrt mesh tidmap entry h count (i + 1) (graph.set entry row)

/-- The loop over the faces of `make_dual_geodesic_solver`, lines 1434-1442;
`h = next(h, mesh)` of line 1441 stands after the inner loop and its value is
not used. -/
def fill_faces (sqrt : F → F) (mesh : TriangleMesh F) (tidmap : Nat → Nat) :
    List Nat → List (Array3 (dual_edge F)) → Option (List (Array3 (dual_edge F)))
  | [], graph => some graph
  | f :: faces, graph => do
    let h := mesh.halfedge f
    let entry := tidmap f
    let graph ← fill_entries sqrt mesh tidmap entry h 3 0 graph
    fill_faces sqrt mesh tidmap faces graph

/-- `make_dual_geodesic_solver(vpm, tidmap, mesh)`, lines 1414-1444; `faces` is
`faces(mesh)` and `DBL_MAX` the constant of `<cfloat>`.  The value is
`solver.graph`. -/
def make_dual_geodesic_solver (sqrt : F → F) (DBL_MAX : F) (tidmap : Nat → Nat)
    (faces : List Nat) (mesh : TriangleMesh F) : Option (List (Array3 (dual_edge F))) :=
  fill_faces sqrt mesh tidmap faces
    (List.replicate faces.length ⟨⟨-1, DBL_MAX⟩, ⟨-1, DBL_MAX⟩, ⟨-1, DBL_MAX⟩⟩)

/-- The variables of `visit_dual_geodesic_graph`, with the state `user` that the
callback `update` writes. -/
structure visit_state (F σ : Type) where
  field : List F
  in_queue : List Bool
  cumulative_weight : F
  queue : List Int
  user : σ
deriving DecidableEq

/-- The "large label last" loop, lines 1586-1592, for `tries` more attempts. -/
def large_label_last (field : List F) (average_weight : F) :
    Nat → List Int → Int → Option (List Int × Int)
  | 0, queue, node => some (queue, node)
  | tries + 1, queue, node => do
    let label ← get_at field node
    if label ≤ average_weight then some (queue, node)
    else
      match queue with
      | [] => none
      | _ :: rest => do
        let front ← (rest ++ [node]).head?
        large_label_last field average_weight tries (rest ++ [node]) front

/-- One iteration of the loop over the neighbours, lines 1605-1633. -/
def relax_neighbor {σ : Type} (update : σ → Int → Int → F → σ) (node : Int) (e : dual_edge F)
    (st : visit_state F σ) : Option (visit_state F σ) := do
  let label ← get_at st.field node
  let new_distance := label + e.length
  let neighbor := e.node
  let old_distance ← get_at st.field neighbor
  if new_distance ≥ old_distance then some st
  else do
    let queued ← get_at st.in_queue neighbor
    let st1 ← (if queued then
        some { st with cumulative_weight := st.cumulative_weight + (new_distance - old_distance) }
      else do
        let at_front ← (match st.queue with
          | [] => some true
          | front :: _ => (get_at st.field front).map (fun l => decide (new_distance < l)))
        let in_queue ← set_at st.in_queue neighbor true
        some { st with
          queue := if at_front then neighbor :: st.queue else st.queue ++ [neighbor]
          in_queue := in_queue
          cumulative_weight := st.cumulative_weight + new_distance })
    let field ← set_at st1.field neighbor new_distance
    some { st1 with field := field, user := update st1.user node neighbor new_distance }

/-- The main loop of `visit_dual_geodesic_graph`, lines 1581-1635, run for
`fuel` iterations at most (`none` beyond).  The value is the final state and
the node on which `exit` ended the search, if it did. -/
def visit_loop {σ : Type} (graph : List (Array3 (dual_edge F)))
    (update : σ → Int → Int → F → σ) (stop exit : Int → Bool) :
    Nat → visit_state F σ → Option (visit_state F σ × Option Int)
  | 0, _ => none
  | fuel + 1, st =>
    match st.queue with
    | [] => some (st, none)
    | front :: _ => do
      let average_weight := st.cumulative_weight / (st.queue.length : F)
      let (queue, node) ← large_label_last st.field average_weight (st.queue.length + 1)
        st.queue front
      let label ← get_at st.field node
      let in_queue ← set_at st.in_queue node false
      let st : visit_state F σ := { st with
        queue := queue.tail
        in_queue := in_queue
        cumulative_weight := st.cumulative_weight - label }
      if exit node then some (st, some node)
      else if stop node then visit_loop graph update stop exit fuel st
      else do
        let row ← get_at graph node
        let st ← relax_neighbor update node row.a0 st
        let st ← relax_neighbor update node row.a1 st
        let st ← relax_neighbor update node row.a2 st
        visit_loop graph update stop exit fuel st

/-- The set-up of the queue, lines 1575-1579. -/
def push_sources {σ : Type} : List Int → visit_state F σ → Option (visit_state F σ)
  | [], st => some st
  | source :: sources, st => do
    let in_queue ← set_at st.in_queue source true
    let label ← get_at st.field source
    push_sources sources { st with
      in_queue := in_queue
      cumulative_weight := st.cumulative_weight + label
      queue := st.queue ++ [source] }

/-- `visit_dual_geodesic_graph(field, solver, sources, update, stop, exit)`,
lines 1542-1636. -/
def visit_dual_geodesic_graph {σ : Type} (fuel : Nat) (field : List F)
    (graph : List (Array3 (dual_edge F))) (sources : List Int) (user : σ)
    (update : σ → Int → Int → F → σ) (stop exit : Int → Bool) :
    Option (visit_state F σ × Option Int) := do
  let st ← push_sources sources
    { field := field, in_queue := List.replicate graph.length false, cumulative_weight := 0,
      queue := [], user := user }
  visit_loop graph update stop exit fuel st

/-- The lambda `common_halfedge` of `strip_on_dual_graph`, lines 1807-1816;
`none` when the assertion is reached. -/
def common_halfedge (mesh : TriangleMesh F) (f1 f2 : Nat) : Option Nat :=
  let h := mesh.halfedge f1
  if mesh.face (mesh.opposite h) = f2 then some h
  else if mesh.face (mesh.opposite (mesh.next h)) = f2 then some (mesh.next h)
  else if mesh.face (mesh.opposite (mesh.next (mesh.next h))) = f2 then
    some (mesh.next (mesh.next h))
  else none

/-- The search of `strip_on_dual_graph`, lines 1818-1831: the vector `parents`
and the vector `field` after `visit_dual_geodesic_graph`, and the node on which
the search exited. -/
def dual_graph_search (fuel : Nat) (DBL_MAX : F) (graph : List (Array3 (dual_edge F)))
    (src tgt : Int) : Option (visit_state F (List Int) × Option Int) := do
  let parents : List Int := List.replicate graph.length (-1)
  let field ← set_at (List.replicate graph.length DBL_MAX) src 0
  visit_dual_geodesic_graph fuel field graph [src] parents
    (fun parents node neighbor _ => (set_at parents neighbor node).getD parents)
    (fun _ => false) (fun node => decide (node = tgt))

/-- The loop "extract_strip" of `strip_on_dual_graph`, lines 1839-1842, for
`fuel` iterations at most. -/
def extract_strip (mesh : TriangleMesh F) (id_to_face_map : List Nat) (parents : List Int) :
    Nat → Int → List Nat → Option (List Nat)
  | 0, _, _ => none
  | fuel + 1, node, strip =>
    if node ≠ -1 then do
      let f1 ← get_at id_to_face_map node
      let parent ← get_at parents node
      let f2 ← get_at id_to_face_map parent
      let h ← common_halfedge mesh f1 f2
      extract_strip mesh id_to_face_map parents fuel parent (strip ++ [h])
    else some strip

/-- `strip_on_dual_graph(solver, mesh, src, tgt)`, lines 1798-1845; `faces` is
`faces(mesh)`. -/
def strip_on_dual_graph (fuel : Nat) (DBL_MAX : F) (graph : List (Array3 (dual_edge F)))
    (mesh : TriangleMesh F) (faces : List Nat) (src tgt : Int) : Option (List Nat) :=
  if src = tgt then some []
  else do
    let (st, _) ← dual_graph_search fuel DBL_MAX graph src tgt
    let parent ← get_at st.user tgt
    if parent = -1 then none
    else do
      let strip ← extract_strip mesh faces st.user (st.user.length + 1) tgt []
      some strip.reverse

/-- A walk of the dual graph from `src`: `is_walk graph src node d` when `node`
is reached from `src` along edges of the graph of total length `d`. -/
inductive is_walk (graph : List (Array3 (dual_edge F))) (src : Int) : Int → F → Prop
  | start : is_walk graph src src 0
  | step (node : Int) (d : F) (row : Array3 (dual_edge F)) (i : Nat) :
      is_walk graph src node d → get_at graph node = some row → i < 3 →
      is_walk graph src (row.get i).node (d + (row.get i).length)

/-- The label of `node` is the length of a walk from `src` to `node`. -/
def walk_label (graph : List (Array3 (dual_edge F))) (src : Int) (field : List F) (node : Int) :
    Prop :=
  ∃ d, get_at field node = some d ∧ is_walk graph src node d

/-- The true shortest-path distance from `src` to `tgt` in the dual graph. -/
def is_shortest_distance (graph : List (Array3 (dual_edge F))) (src tgt : Int) (d : F) : Prop :=
  is_walk graph src tgt d ∧ ∀ d', is_walk graph src tgt d' → d ≤ d'

/-! ## Arc-length parameters and evaluation (`Bezier_tracing_impl`) -/

/-- `get_positions`: the 3D polyline `src, crossings..., tgt`. -/
def get_positions (edge_locations : List (Edge_location F)) (mesh : TriangleMesh F)
    (src tgt : Face_location F) : List (Point_3 F) :=
  construct_point_face mesh src ::
    (edge_locations.map (construct_point mesh) ++ [construct_point_face mesh tgt])

/-- Body of the first loop of `path_parameters` for `i >= 1`: `prev` is
`pos[i-1]`, `L` the length accumulated so far. -/
def arc_lengths (sqrt : F → F) : Point_3 F → F → List (Point_3 F) → List F
  | _, _, [] => []
  | prev, L, p :: ps =>
    (L + sqrt (squared_distance p prev)) ::
      arc_lengths sqrt p (L + sqrt (squared_distance p prev)) ps

/-- First loop of `path_parameters`: `result[i]` is the length of the polyline
up to `pos[i]`. -/
def cumulative_lengths (sqrt : F → F) : List (Point_3 F) → List F
  | [] => []
  | p :: ps => 0 :: arc_lengths sqrt p 0 ps

/-- `path_parameters`: the cumulative lengths divided by the total length `L`.
The division `t /= L` is undefined for `L = 0`: that call yields `none`. -/
def path_parameters (sqrt : F → F) (edge_locations : List (Edge_location F))
    (mesh : TriangleMesh F) (src tgt : Face_location F) : Option (List F) :=
  let pos := get_positions edge_locations mesh src tgt
  let result := cumulative_lengths sqrt pos
  let L := result.getLast?.getD 0
  if L = 0 then none else some (result.map (fun t => t / L))

/-- The search loop of `eval_point_on_geodesic`, lines 1170-1174, entered with
counter `i`; `fuel` bounds the number of iterations, every iteration that does
not leave the loop has read `parameters[i + 1]` within bounds. -/
def locate_interval (parameters : List F) (t : F) : Nat → Nat → Option Nat
  | 0, _ => none
  | fuel + 1, i =>
    if i < size_t_sub parameters.length 1 then
      match parameters[i + 1]? with
      | none => none
      | some p => if p ≥ t then some i else locate_interval parameters t fuel (i + 1)
    else some i

/-- The lambda `edge_barycentric_coordinate` of `eval_point_on_geodesic`. -/
def edge_barycentric_coordinate (mesh : TriangleMesh F) (h_face h_edge : Nat)
    (bary_edge : F × F) : Array3 F :=
  if h_face ≠ h_edge then
    if h_face = mesh.next h_edge then ⟨bary_edge.2, 0, bary_edge.1⟩
    else ⟨0, bary_edge.1, bary_edge.2⟩
  else ⟨bary_edge.1, bary_edge.2, 0⟩

/-- Coordinate-wise `(1 - a) * low + a * high`. -/
def lerp_bary (a : F) (low high : Array3 F) : Array3 F :=
  ⟨(1 - a) * low.a0 + a * high.a0, (1 - a) * low.a1 + a * high.a1,
   (1 - a) * low.a2 + a * high.a2⟩

/-- `eval_point_on_geodesic`, lines 1148-1241. -/
def eval_point_on_geodesic (edge_locations : List (Edge_location F)) (mesh : TriangleMesh F)
    (src tgt : Face_location F) (parameters : List F) (t : F) : Option (Face_location F) :=
  if t = 0 then some src
  else if t = 1 then some tgt
  else if src.first = tgt.first then
    some ⟨src.first, lerp_bary t src.second tgt.second⟩
  else do
    let i ← locate_interval parameters t (parameters.length + 1) 0
    let t_low ← parameters[i]?
    let t_high ← parameters[i + 1]?
    if t_high = t_low then none
    else
      let alpha := (t - t_low) / (t_high - t_low)
      let curr_tid ← (if i = 0 then some src.first
        else (edge_locations[i - 1]?).map (fun e => mesh.face (mesh.edge_halfedge e.first)))
      let h_face := mesh.halfedge curr_tid
      let bary_low ← (if i = 0 then some src.second
        else (edge_locations[i - 1]?).map (fun e =>
          edge_barycentric_coordinate mesh h_face (mesh.edge_halfedge e.first) e.second))
      let bary_high ← (if i = size_t_sub parameters.length 2 then some tgt.second
        else match edge_locations[i]? with
          | none => none
          | some e =>
            if mesh.face (mesh.opposite (mesh.edge_halfedge e.first)) ≠ curr_tid then none
            else some (edge_barycentric_coordinate mesh h_face
              (mesh.opposite (mesh.edge_halfedge e.first)) (e.second.2, e.second.1)))
      some ⟨curr_tid, lerp_bary alpha bary_low bary_high⟩

/-! ## Top-level entry and the Bézier layer -/

/-- The four stages `locally_shortest_path` runs after its same-face test:
`strip_on_dual_graph` (lines 1952-1954), `unfold_strip`, `funnel` and
`straighten_path` (lines 1957-1960).  A stage that fails or does not return
yields `none`. -/
structure Path_stages (F : Type) where
  strip_on_dual_graph : TriangleMesh F → Nat → Nat → Option (List Nat)
  unfold_strip : List Nat → Face_location F → Face_location F → TriangleMesh F →
    Option (List (Vector_2 F × Vector_2 F))
  funnel : List (Vector_2 F × Vector_2 F) → Option (List F × Nat)
  straighten_path : List (Vector_2 F × Vector_2 F) → List F → List Nat →
    Face_location F → Face_location F → TriangleMesh F → Nat → Option (List F × List Nat)

/-- The final loop of `locally_shortest_path`, lines 1963-1967. -/
def emplace_edge_locations (mesh : TriangleMesh F) : List Nat → List F → List (Edge_location F)
  | h :: path, l :: lerps => ⟨mesh.edge h, (l, 1 - l)⟩ :: emplace_edge_locations mesh path lerps
  | _, _ => []

/-- `locally_shortest_path`, lines 1850-1968: the value is the content of
`edge_locations` on return. -/
def locally_shortest_path (stages : Path_stages F) (src tgt : Face_location F)
    (tmesh : TriangleMesh F) (edge_locations : List (Edge_location F)) :
    Option (List (Edge_location F)) :=
  if src.first = tgt.first then some edge_locations
  else do
    let initial_path ← stages.strip_on_dual_graph tmesh src.first tgt.first
    let portals ← stages.unfold_strip initial_path src tgt tmesh
    let (lerps, max_index) ← stages.funnel portals
    let (lerps, initial_path) ←
      stages.straighten_path portals lerps initial_path src tgt tmesh max_index
    if lerps.length ≠ initial_path.length then none
    else some (edge_locations ++ emplace_edge_locations tmesh initial_path lerps)

/-- `geodesic_lerp`, lines 1243-1255. -/
def geodesic_lerp (stages : Path_stages F) (sqrt : F → F) (mesh : TriangleMesh F)
    (src tgt : Face_location F) (t : F) : Option (Face_location F) := do
  let edge_locations ← locally_shortest_path stages src tgt mesh []
  let parameters ← path_parameters sqrt edge_locations mesh src tgt
  eval_point_on_geodesic edge_locations mesh src tgt parameters t

/-- `subdivide_bezier_polygon`, lines 1258-1272, over an interpolation
`lerp src tgt t`. -/
def subdivide_bezier_polygon_with (lerp : Face_location F → Face_location F → F →
    Option (Face_location F)) (polygon : Bezier_segment F) (t : F) :
    Option (Bezier_segment F × Bezier_segment F) := do
  let Q0 ← lerp polygon.p0 polygon.p1 t
  let Q1 ← lerp polygon.p1 polygon.p2 t
  let Q2 ← lerp polygon.p2 polygon.p3 t
  let R0 ← lerp Q0 Q1 t
  let R1 ← lerp Q1 Q2 t
  let S ← lerp R0 R1 t
  some (⟨polygon.p0, Q0, R0, S⟩, ⟨S, R1, Q2, polygon.p3⟩)

/-- `subdivide_bezier_polygon`, lines 1258-1272. -/
def subdivide_bezier_polygon (stages : Path_stages F) (sqrt : F → F) (mesh : TriangleMesh F)
    (polygon : Bezier_segment F) (t : F) : Option (Bezier_segment F × Bezier_segment F) :=
  subdivide_bezier_polygon_with (geodesic_lerp stages sqrt mesh) polygon t

/-- Inner loop of `recursive_de_Casteljau`, lines 1988-1993, over an
interpolation `lerp`: every segment is split at `0.5` and both halves are
pushed. -/
def subdivide_segments (lerp : Face_location F → Face_location F → F →
    Option (Face_location F)) : List (Bezier_segment F) → Option (List (Bezier_segment F))
  | [] => some []
  | s :: segments => do
    let (split0, split1) ← subdivide_bezier_polygon_with lerp s (1 / 2)
    let result ← subdivide_segments lerp segments
    some (split0 :: split1 :: result)

/-- Outer loop of `recursive_de_Casteljau`, lines 1984-1995, run `n` times. -/
def subdivide_rounds (lerp : Face_location F → Face_location F → F →
    Option (Face_location F)) : Nat → List (Bezier_segment F) → Option (List (Bezier_segment F))
  | 0, segments => some segments
  | n + 1, segments => do
    let result ← subdivide_segments lerp segments
    subdivide_rounds lerp n result

/-- The contiguous reading of a vector of segments as face locations, lines
1997-2000. -/
def flatten_segments : List (Bezier_segment F) → List (Face_location F)
  | [] => []
  | s :: segments => s.p0 :: s.p1 :: s.p2 :: s.p3 :: flatten_segments segments

/-- `recursive_de_Casteljau`, lines 1970-2001, over an interpolation `lerp`; the
loop runs for `subdivision = 0, ..., num_subdiv - 1`, not at all for
`num_subdiv <= 0`. -/
def recursive_de_Casteljau_with (lerp : Face_location F → Face_location F → F →
    Option (Face_location F)) (control_points : Bezier_segment F) (num_subdiv : Int) :
    Option (List (Face_location F)) :=
  (subdivide_rounds lerp num_subdiv.toNat [control_points]).map flatten_segments

/-- `recursive_de_Casteljau`, lines 1970-2001: the interpolation is
`Impl::geodesic_lerp` on the mesh. -/
def recursive_de_Casteljau (stages : Path_stages F) (sqrt : F → F) (mesh : TriangleMesh F)
    (control_points : Bezier_segment F) (num_subdiv : Int) : Option (List (Face_location F)) :=
  recursive_de_Casteljau_with (geodesic_lerp stages sqrt mesh) control_points num_subdiv

/-- A list of segments read as a chain from `A` to `B`: the first segment
starts at `A`, every segment ends where the next one starts, the last one ends
at `B`. -/
def is_chain : Face_location F → Face_location F → List (Bezier_segment F) → Prop
  | A, B, [] => A = B
  | A, B, s :: segments => s.p0 = A ∧ is_chain s.p3 B segments

/-- Barycentric coordinates of a point of a face: non-negative, of sum 1. -/
def valid_bary (b : Array3 F) : Prop := 0 ≤ b.a0 ∧ 0 ≤ b.a1 ∧ 0 ≤ b.a2 ∧ b.sum = 1

/-- A valid `Face_location`: its coordinates are non-negative and sum to 1. -/
def valid_face_location (loc : Face_location F) : Prop := valid_bary loc.second

/-- A valid `Edge_location`: two weights in `[0, 1]` that sum to 1. -/
def valid_edge_location (e : Edge_location F) : Prop :=
  0 ≤ e.second.1 ∧ e.second.1 ≤ 1 ∧ 0 ≤ e.second.2 ∧ e.second.2 ≤ 1 ∧
    e.second.1 + e.second.2 = 1

/-- A valid strip from the face of `src` to the face of `tgt`: it is not empty,
the opposite of its first halfedge lies on the face of `src`, the face of every
halfedge is the face of the opposite of the next one, and its last halfedge
lies on the face of `tgt`. -/
def valid_strip (mesh : TriangleMesh F) (src tgt : Face_location F) (path : List Nat) : Prop :=
  path ≠ [] ∧
  (∀ h, path[0]? = some h → mesh.face (mesh.opposite h) = src.first) ∧
  (∀ i h h', path[i]? = some h → path[i + 1]? = some h' →
    mesh.face h = mesh.face (mesh.opposite h')) ∧
  (∀ h, path[path.length - 1]? = some h → mesh.face h = tgt.first)

/-- The halfedge `h` is consistent with its neighbours in a triangle mesh: its
opposite runs the other way, `next` and `prev` go round a triangle, and the
halfedge of its face is one of the three halfedges of that triangle. -/
def valid_halfedge (mesh : TriangleMesh F) (h : Nat) : Prop :=
  mesh.source (mesh.opposite h) = mesh.target h ∧
  mesh.target (mesh.opposite h) = mesh.source h ∧
  mesh.source (mesh.next h) = mesh.target h ∧
  mesh.target (mesh.prev h) = mesh.source h ∧
  mesh.source (mesh.prev h) = mesh.target (mesh.next h) ∧
  (mesh.halfedge (mesh.face h) = h ∨ mesh.halfedge (mesh.face h) = mesh.next h ∨
    mesh.next (mesh.halfedge (mesh.face h)) = h)

/-- The faces of consecutive halfedges of the strip agree. -/
def strip_faces (mesh : TriangleMesh F) : List Nat → Prop
  | h :: h' :: path =>
    mesh.face h = mesh.face (mesh.opposite h') ∧ strip_faces mesh (h' :: path)
  | _ => True

/-- Each halfedge of the strip leaves the face of the one before across one of
the two other edges of that face. -/
def strip_steps (mesh : TriangleMesh F) : List Nat → Prop
  | h :: h' :: path =>
    (mesh.next h = mesh.opposite h' ∨ mesh.prev h = mesh.opposite h') ∧
      strip_steps mesh (h' :: path)
  | _ => True

/-- The portal of `h_next` continues the portal `flat_tid` of `h_curr`: its
endpoints are at the squared distance of the end points of `h_next`; it keeps
the first endpoint when `next(h_curr) == opposite(h_next)` and the second one
otherwise, and its other endpoint is at the squared distances of the third
vertex of the face of `h_curr` from `target(h_curr)` and `source(h_curr)`. -/
def portal_step (mesh : TriangleMesh F) (h_curr : Nat) (flat_tid : Vector_2 F × Vector_2 F)
    (h_next : Nat) (portal : Vector_2 F × Vector_2 F) : Prop :=
  squared_distance_2 portal.2 portal.1
    = squared_distance (mesh.vpm (mesh.target h_next)) (mesh.vpm (mesh.source h_next)) ∧
  (mesh.next h_curr = mesh.opposite h_next →
    portal.1 = flat_tid.1 ∧
    squared_distance_2 portal.2 flat_tid.1 = squared_distance
      (mesh.vpm (mesh.target (mesh.next h_curr))) (mesh.vpm (mesh.target h_curr)) ∧
    squared_distance_2 portal.2 flat_tid.2 = squared_distance
      (mesh.vpm (mesh.target (mesh.next h_curr))) (mesh.vpm (mesh.source h_curr))) ∧
  (mesh.next h_curr ≠ mesh.opposite h_next →
    portal.2 = flat_tid.2 ∧
    squared_distance_2 portal.1 flat_tid.1 = squared_distance
      (mesh.vpm (mesh.target (mesh.next h_curr))) (mesh.vpm (mesh.target h_curr)) ∧
    squared_distance_2 portal.1 flat_tid.2 = squared_distance
      (mesh.vpm (mesh.target (mesh.next h_curr))) (mesh.vpm (mesh.source h_curr)))

/-- Every portal of the list continues the one before, from the portal
`flat_tid` of `h_curr` on. -/
def portal_chain (mesh : TriangleMesh F) :
    Nat → Vector_2 F × Vector_2 F → List Nat → List (Vector_2 F × Vector_2 F) → Prop
  | _, _, [], [] => True
  | h_curr, flat_tid, h_next :: path, portal :: result =>
    portal_step mesh h_curr flat_tid h_next portal ∧ portal_chain mesh h_next portal path result
  | _, _, _, _ => False

/-- Total length of a 3D polyline. -/
def polyline_length (sqrt : F → F) : List (Point_3 F) → F
  | p :: q :: ps => sqrt (squared_distance q p) + polyline_length sqrt (q :: ps)
  | _ => 0

/-- The halfedges `x`, `next(x)`, `next(next(x))` go round a triangle: each one
starts where the one before ends, and the third one ends where `x` starts. -/
def triangle_at (mesh : TriangleMesh F) (x : Nat) : Prop :=
  mesh.source (mesh.next x) = mesh.target x ∧
  mesh.target (mesh.next (mesh.next x)) = mesh.source x

/-- The centroid of a flattened triangle, the arithmetic mean of its three
corners. -/
def centroid (t : Array3 (Vector_2 F)) : Vector_2 F := (t.a0 + t.a1 + t.a2).div 3

/-- The weight of the dual edge across `h` as it is specified: the distance
between the centroid of the face of `h` flattened by `init_flat_triangle(h)`
and the centroid of the neighbour unfolded by `unfold_face(h, .)`. -/
def centroid_distance (sqrt : F → F) (mesh : TriangleMesh F) (h : Nat) : Option F := do
  let flat_tid ← init_flat_triangle sqrt h mesh
  let flat_nei ← unfold_face sqrt h mesh flat_tid
  some (sqrt (centroid flat_nei - centroid flat_tid).squared_length)

/-- The turning value of the interior point `i` of a funnel path, as
`max_curvature_point` computes it at lines 394-398: 1 minus the scalar product
of the unit vectors of the incoming and of the outgoing segment. -/
def turning_value (sqrt : F → F) (path : List (funnel_point F)) (i : Nat) : Option F := do
  let p ← path[i]?
  let prev ← path[i - 1]?
  let next ← path[i + 1]?
  let v0 ← unit_vector sqrt (p.pos - prev.pos)
  let v1 ← unit_vector sqrt (next.pos - p.pos)
  some (1 - scalar_product v0 v1)

/-- The state of the loop of `max_curvature_point` when it tests the point
`i`: `max_angle` bounds the turning values of the points before `i`, and
either nothing was recorded, or `max_index` is the face of the first point
before `i` whose turning value is `max_angle`, which is positive. -/
def max_curvature_invariant (sqrt : F → F) (path : List (funnel_point F)) (i : Nat)
    (max_index : Int) (max_angle : F) : Prop :=
  (∀ (j : Nat) (b : F), 1 ≤ j → j < i → turning_value sqrt path j = some b → b ≤ max_angle) ∧
  ((max_index = -1 ∧ max_angle = 0) ∨
    ∃ (m : Nat) (p : funnel_point F), 1 ≤ m ∧ m < i ∧ path[m]? = some p ∧
      max_index = (p.face : Int) ∧ turning_value sqrt path m = some max_angle ∧ 0 < max_angle ∧
      ∀ (j : Nat) (b : F), 1 ≤ j → j < m → turning_value sqrt path j = some b → b < max_angle)

/-! ## Straightening (`Locally_shortest_path_imp`) -/

/-- The pivot `new_vertex` of an iteration of `straighten_path`, lines 569-576;
`none` stands for `null_vertex()`. -/
def pivot (mesh : TriangleMesh F) (h_curr : Nat) (lerp : F) : Option Nat :=
  if lerp = 0 then some (mesh.target h_curr)
  else if lerp = 1 then some (mesh.source h_curr)
  else none

/-- The loops of lines 609-618 and 632-641, entered with `curr_index`:
`endpoint` is `target` or `source`; the value is `curr_index` after the loop,
`path.size()` when it is left by `break`; `none` when `path[curr_index]` is
read out of bounds. -/
def skip_incident (endpoint : Nat → Nat) (path : List Nat) (new_vertex : Option Nat) :
    Nat → Nat → Option Nat
  | 0, _ => none
  | fuel + 1, curr_index => do
    let h ← path[curr_index]?
    if some (endpoint h) = new_vertex then
      if curr_index = size_t_sub path.length 1 then some path.length
      else skip_incident endpoint path new_vertex fuel (curr_index + 1)
    else some curr_index

/-- The loops of lines 623-629 and 646-652, entered with `h_loop`: `advance` is
`opposite(prev(.))` or `opposite(next(.))`; the value is `new_hedges`; `none`
when `fuel` iterations do not end the loop. -/
def collect_ring (mesh : TriangleMesh F) (advance : Nat → Nat) (target_face : Nat) :
    Nat → Nat → Option (List Nat)
  | 0, _ => none
  | fuel + 1, h_loop =>
    if target_face ≠ mesh.face (advance h_loop) then
      (collect_ring mesh advance target_face fuel (advance h_loop)).map (fun l => h_loop :: l)
    else some [h_loop, advance h_loop]

/-- The face `target_face` of lines 611-620 and 634-643: the face of the target
when the loop over the incident halfedges is left by `break`, the face of
`opposite(path[curr_index])` otherwise. -/
def ring_target_face (mesh : TriangleMesh F) (tgt : Face_location F) (path : List Nat)
    (curr_index : Nat) : Option Nat :=
  if curr_index ≠ path.length then
    (path[curr_index]?).map (fun h => mesh.face (mesh.opposite h))
  else some tgt.first

/-- The halfedges `new_hedges` of lines 622-629 and 645-652. -/
def ring_hedges (fuel : Nat) (mesh : TriangleMesh F) (h_curr : Nat) (is_target : Bool)
    (target_face : Nat) : Option (List Nat) :=
  if is_target then
    collect_ring mesh (fun h => mesh.opposite (mesh.prev h)) target_face fuel
      (mesh.opposite (mesh.prev (mesh.opposite h_curr)))
  else
    collect_ring mesh (fun h => mesh.opposite (mesh.next h)) target_face fuel
      (mesh.opposite (mesh.next (mesh.opposite h_curr)))

/-- The re-routing of one iteration of `straighten_path`, lines 599-659, past
the test of the pivot: the two assertions, the search of `curr_index`, the
collection of `new_hedges` and the splice; the value is `new_path`. -/
def reroute (fuel : Nat) (mesh : TriangleMesh F) (tgt : Face_location F) (path : List Nat)
    (index : Nat) (h_curr h_next : Nat) (is_target : Bool) (new_vertex : Option Nat) :
    Option (List Nat) :=
  if is_target = true ∧ mesh.opposite (mesh.next h_curr) ≠ h_next then none
  else if is_target = false ∧ mesh.opposite (mesh.prev h_curr) ≠ h_next then none
  else
    (skip_incident (if is_target then mesh.target else mesh.source) path new_vertex
      (path.length + 1) (index + 1)).bind fun curr_index =>
    (ring_target_face mesh tgt path curr_index).bind fun target_face =>
    (ring_hedges fuel mesh h_curr is_target target_face).bind fun new_hedges =>
    some (path.take index ++ new_hedges ++ path.drop curr_index)

/-- The variables of the loop of `straighten_path`; `vertex` is `none` for
`null_vertex()`. -/
structure straighten_state (F : Type) where
  portals : List (Vector_2 F × Vector_2 F)
  lerps : List F
  path : List Nat
  index : Nat
  vertex : Option Nat
deriving DecidableEq

/-- The body of the loop of `straighten_path`, lines 561-661: the flag is
`true` when the loop is left by `break`, with the state as it was; `fuel`
bounds the number of halfedges collected around the pivot. -/
def straighten_iteration (sqrt : F → F) (fuel : Nat) (mesh : TriangleMesh F)
    (src tgt : Face_location F) (st : straighten_state F) :
    Option (Bool × straighten_state F) := do
  let h_curr ← st.path[st.index]?
  let h_next ← st.path[st.index + 1]?
  let lerp ← st.lerps[st.index]?
  let new_vertex := pivot mesh h_curr lerp
  if new_vertex = st.vertex then some (true, st)
  else do
    let new_path ← reroute fuel mesh tgt st.path st.index h_curr h_next (decide (lerp = 0))
      new_vertex
    let portals ← unfold_strip sqrt new_path src tgt mesh
    let (lerps, index) ← funnel sqrt portals
    some (false, { portals := portals, lerps := lerps, path := new_path, index := index,
                   vertex := new_vertex })

/-- The loop of `straighten_path`, lines 559-661, entered with counter `i`;
`none` when `rounds` iterations do not end it. -/
def straighten_loop (sqrt : F → F) (fuel : Nat) (mesh : TriangleMesh F)
    (src tgt : Face_location F) : Nat → Nat → straighten_state F → Option (straighten_state F)
  | 0, _, _ => none
  | rounds + 1, i, st =>
    if i < st.portals.length * 2 ∧ st.index ≠ 2 ^ 64 - 1 then
      match straighten_iteration sqrt fuel mesh src tgt st with
      | none => none
      | some (true, st') => some st'
      | some (false, st') => straighten_loop sqrt fuel mesh src tgt rounds (i + 1) st'
    else some st

/-- `straighten_path(portals, lerps, path, src, tgt, vpm, mesh, index)`, lines
546-662: the value is the content of `lerps` and `path` on return. -/
def straighten_path (sqrt : F → F) (fuel rounds : Nat)
    (portals : List (Vector_2 F × Vector_2 F)) (lerps : List F) (path : List Nat)
    (src tgt : Face_location F) (mesh : TriangleMesh F) (index : Nat) :
    Option (List F × List Nat) :=
  (straighten_loop sqrt fuel mesh src tgt rounds 0
    { portals := portals, lerps := lerps, path := path, index := index, vertex := none }).map
    (fun st => (st.lerps, st.path))

/-- The strip `path` leads from the face `f` to the face `t`: the opposite of
each halfedge lies on the face reached so far, and the face of the last
halfedge is `t`. -/
def strip_from (mesh : TriangleMesh F) : Nat → Nat → List Nat → Prop
  | f, t, [] => f = t
  | f, t, h :: path => mesh.face (mesh.opposite h) = f ∧ strip_from mesh (mesh.face h) t path

/-- The portal indices of a list of path points increase strictly. -/
def faces_increase : List (funnel_point F) → Prop
  | p :: q :: points => p.face < q.face ∧ faces_increase (q :: points)
  | _ => True

/-- The state of the scan loop of `funnel` over `n` portals when it comes to
portal `i`: the indices of the bounds lie between the index of the apex and
`i`; `c` is 1 before the first restart and 0 after it, when a bound that
differs from the apex has an index above the one of the apex; the path points
are the origin followed by the points pushed at the restarts, of increasing
portal index, the last one being the apex. -/
def scan_invariant (n i c : Nat) (st : funnel_state F) : Prop :=
  i ≤ n ∧ st.left_index ≤ i ∧ st.right_index ≤ i ∧
  st.apex_index ≤ st.left_index ∧ st.apex_index ≤ st.right_index ∧ c ≤ 1 ∧
  (c = 0 → (st.left_bound ≠ st.apex → st.apex_index < st.left_index) ∧
    (st.right_bound ≠ st.apex → st.apex_index < st.right_index) ∧ st.apex_index < i) ∧
  ∃ rest, st.points = ⟨0, ⟨0, 0⟩⟩ :: rest ∧ faces_increase rest ∧ (c = 1 → rest = []) ∧
    (∀ p, rest.getLast? = some p → p.face = st.apex_index) ∧
    rest.length + (n - st.apex_index) + c ≤ n + 1

/-- The segment from the origin to `T` crosses the portal strictly between its
end points, which both lie in the open half-plane facing `T`: seen from the
origin, `T` is strictly on the left of the first end point and strictly on the
right of the second one. -/
def crosses (T : Vector_2 F) (portal : Vector_2 F × Vector_2 F) : Prop :=
  0 < determinant portal.1 T ∧ determinant portal.2 T < 0 ∧
  0 < scalar_product portal.1 T ∧ 0 < scalar_product portal.2 T

/-- The parameter on the portal of its crossing with the line from the origin
to `T`. -/
def crossing_parameter (T : Vector_2 F) (portal : Vector_2 F × Vector_2 F) : F :=
  determinant portal.1 T / (determinant portal.1 T - determinant portal.2 T)

/-- The state of the scan loop of `funnel` while the funnel from the origin
stays open around `T`: the apex is the origin, no point was pushed, and `T` is
strictly between the two bounds, which lie in the half-plane facing `T`. -/
def straight_invariant (T : Vector_2 F) (st : funnel_state F) : Prop :=
  st.apex = ⟨0, 0⟩ ∧ st.apex_index = 0 ∧ st.points = [⟨0, ⟨0, 0⟩⟩] ∧
  0 < determinant st.left_bound T ∧ 0 < scalar_product st.left_bound T ∧
  determinant st.right_bound T < 0 ∧ 0 < scalar_product st.right_bound T

/-! ## Vertex-graph search (`Geodesic_circle_impl::visit_geodesic_graph`) -/

/-- The loop over the neighbours of `node`, lines 1508-1537 of
`visit_geodesic_graph` (the body is the one of `visit_dual_geodesic_graph`,
over a row of any length); a `geodesic_solver::graph_edge` has the two members
of a `dual_geodesic_solver::edge`. -/
def relax_edges {σ : Type} (update : σ → Int → Int → F → σ) (node : Int) :
    List (dual_edge F) → visit_state F σ → Option (visit_state F σ)
  | [], st => some st
  | e :: edges, st =>
    (relax_neighbor update node e st).bind (relax_edges update node edges)

/-- One iteration of the main loop of `visit_geodesic_graph`, lines 1484-1538,
on a queue of front `front`: the state after it, and the node on which `exit`
ended the search, if it did. -/
def visit_geodesic_iteration {σ : Type} (graph : List (List (dual_edge F)))
    (update : σ → Int → Int → F → σ) (stop exit : Int → Bool) (st : visit_state F σ)
    (front : Int) : Option (visit_state F σ × Option Int) := do
  let average_weight := st.cumulative_weight / (st.queue.length : F)
  let (queue, node) ← large_label_last st.field average_weight (st.queue.length + 1)
    st.queue front
  let label ← get_at st.field node
  let in_queue ← set_at st.in_queue node false
  let st : visit_state F σ := { st with
    queue := queue.tail
    in_queue := in_queue
    cumulative_weight := st.cumulative_weight - label }
  if exit node then some (st, some node)
  else if stop node then some (st, none)
  else do
    let row ← get_at graph node
    let st ← relax_edges update node row st
    some (st, none)

/-- The main loop of `visit_geodesic_graph`, lines 1484-1539, run for `fuel`
iterations at most (`none` beyond).  The value is the final state and the node
on which `exit` ended the search, if it did. -/
def visit_geodesic_loop {σ : Type} (graph : List (List (dual_edge F)))
    (update : σ → Int → Int → F → σ) (stop exit : Int → Bool) :
    Nat → visit_state F σ → Option (visit_state F σ × Option Int)
  | 0, _ => none
  | fuel + 1, st =>
    match st.queue with
    | [] => some (st, none)
    | front :: _ =>
      (visit_geodesic_iteration graph update stop exit st front).bind (fun r =>
        match r.2 with
        | some node => some (r.1, some node)
        | none => visit_geodesic_loop graph update stop exit fuel r.1)

/-- `visit_geodesic_graph(field, solver, sources, update, stop, exit)`, lines
1449-1540. -/
def visit_geodesic_graph {σ : Type} (fuel : Nat) (field : List F)
    (graph : List (List (dual_edge F))) (sources : List Int) (user : σ)
    (update : σ → Int → Int → F → σ) (stop exit : Int → Bool) :
    Option (visit_state F σ × Option Int) :=
  (push_sources sources
    { field := field, in_queue := List.replicate graph.length false, cumulative_weight := 0,
      queue := [], user := user }).bind (visit_geodesic_loop graph update stop exit fuel)

/-- The state at the head of the main loop of `visit_geodesic_graph` after `k`
iterations that `exit` did not end; `none` when the loop is over before. -/
def visit_geodesic_states {σ : Type} (graph : List (List (dual_edge F)))
    (update : σ → Int → Int → F → σ) (stop exit : Int → Bool) :
    Nat → visit_state F σ → Option (visit_state F σ)
  | 0, st => some st
  | k + 1, st =>
    match st.queue with
    | [] => none
    | front :: _ =>
      (visit_geodesic_iteration graph update stop exit st front).bind (fun r =>
        match r.2 with
        | some _ => none
        | none => visit_geodesic_states graph update stop exit k r.1)

/-- The rows of a dual graph as the adjacency lists of a graph. -/
def dual_rows (graph : List (Array3 (dual_edge F))) : List (List (dual_edge F)) :=
  graph.map (fun row => [row.a0, row.a1, row.a2])

/-- The index `v` names a node of a graph of `n` nodes. -/
def valid_node (n : Nat) (v : Int) : Prop := 0 ≤ v ∧ v < n

/-- The label of node `v` in `field` (0 out of bounds). -/
def label (field : List F) (v : Int) : F := (get_at field v).getD 0

/-- The edges out of node `u` (none out of bounds). -/
def edges_of (graph : List (List (dual_edge F))) (u : Int) : List (dual_edge F) :=
  (get_at graph u).getD []

/-- A graph whose edges lead to nodes of the graph and have non-negative
lengths. -/
def valid_graph (graph : List (List (dual_edge F))) : Prop :=
  ∀ row ∈ graph, ∀ e ∈ row, valid_node graph.length e.node ∧ 0 ≤ e.length

/-- The value `x` is the initial label of a source plus the length of a walk
from that source to the node. -/
inductive source_walk (graph : List (List (dual_edge F))) (field0 : List F)
    (sources : List Int) : Int → F → Prop
  | start (s : Int) : s ∈ sources → source_walk graph field0 sources s (label field0 s)
  | step (u : Int) (x : F) (e : dual_edge F) :
      source_walk graph field0 sources u x → e ∈ edges_of graph u →
      source_walk graph field0 sources e.node (x + e.length)

/-- The nodes of the list, last node first, form a walk from a source whose
value, the initial label of the source plus the lengths of the edges, is `x`,
and along which the label `lab` of every node is at most the value of the walk
up to that node. -/
inductive witness_path (graph : List (List (dual_edge F))) (field0 : List F)
    (sources : List Int) (lab : Int → F) : List Int → F → Prop
  | start (s : Int) : s ∈ sources → lab s ≤ label field0 s →
      witness_path graph field0 sources lab [s] (label field0 s)
  | step (u : Int) (p : List Int) (x : F) (e : dual_edge F) :
      witness_path graph field0 sources lab (u :: p) x → e ∈ edges_of graph u →
      lab e.node ≤ x + e.length →
      witness_path graph field0 sources lab (e.node :: u :: p) (x + e.length)

/-- The values of the walks of `k` edges at most from a source to node `v`. -/
def candidates (graph : List (List (dual_edge F))) (field0 : List F) (sources : List Int) :
    Nat → Int → Finset F
  | 0, v => if v ∈ sources then {label field0 v} else ∅
  | k + 1, v => candidates graph field0 sources k v ∪
      (Finset.range graph.length).biUnion (fun u =>
        ((edges_of graph (u : Int)).filter (fun e => e.node = v)).toFinset.biUnion (fun e =>
          (candidates graph field0 sources k (u : Int)).image (fun x => x + e.length)))

/-- The number of values of walks from a source, of fewer edges than the graph
has nodes, that are below the label of the node they lead to, over all nodes. -/
def label_rank (graph : List (List (dual_edge F))) (field0 : List F) (sources : List Int)
    (lab : Int → F) : Nat :=
  Finset.sum (Finset.range graph.length) (fun v =>
    ((candidates graph field0 sources (graph.length - 1) (v : Int)).filter
      (fun x => x < lab (v : Int))).card)

/-- The bookkeeping of the search is consistent for a graph of `n` nodes: the
two vectors have `n` entries, the queue holds nodes of the graph, each once,
`in_queue` marks exactly the nodes of the queue, and `cumulative_weight` is the
sum of their labels. -/
def consistent {σ : Type} (n : Nat) (st : visit_state F σ) : Prop :=
  st.field.length = n ∧ st.in_queue.length = n ∧
  (∀ q ∈ st.queue, valid_node n q) ∧ st.queue.Nodup ∧
  (∀ v, valid_node n v → (get_at st.in_queue v = some true ↔ v ∈ st.queue)) ∧
  st.cumulative_weight = (st.queue.map (label st.field)).sum

/-- The node `v` is a source or its label is below its initial label. -/
def touched (field0 : List F) (sources : List Int) (lab : Int → F) (v : Int) : Prop :=
  v ∈ sources ∨ lab v < label field0 v

/-- No edge out of `u` can lower a label. -/
def relaxed (graph : List (List (dual_edge F))) (lab : Int → F) (u : Int) : Prop :=
  ∀ e ∈ edges_of graph u, lab e.node ≤ lab u + e.length

/-- The invariant of the search on the labels `lab` and the queue, `cur` being
the node whose edges are being relaxed: labels are at most the initial ones,
the nodes of the queue are touched, the label of a touched node is the value of
a walk from a source without repeated node, and the touched nodes out of the
queue are relaxed. -/
def search_invariant (graph : List (List (dual_edge F))) (field0 : List F)
    (sources : List Int) (lab : Int → F) (queue : List Int) (cur : Option Int) : Prop :=
  (∀ v, lab v ≤ label field0 v) ∧
  (∀ q ∈ queue, touched field0 sources lab q) ∧
  (∀ v, touched field0 sources lab v →
    ∃ p, witness_path graph field0 sources lab (v :: p) (lab v) ∧ (v :: p).Nodup) ∧
  (∀ u, touched field0 sources lab u → u ∉ queue → some u ≠ cur → relaxed graph lab u)

end Kernel

/-! ## Concrete inputs -/

/-- A single triangle: halfedges `0, 1, 2` around face `0`, vertices `0, 1, 2`
at `(0,0,0)`, `(1,0,0)`, `(0,1,0)`. -/
def one_triangle : TriangleMesh ℚ where
  next := fun h => (h + 1) % 3
  prev := fun h => (h + 2) % 3
  opposite := fun h => h + 3
  source := fun h => h % 3
  target := fun h => (h + 1) % 3
  face := fun h => h / 3
  halfedge := fun f => 3 * f
  edge := fun h => h
  edge_halfedge := fun e => e
  edge_source := fun e => e % 3
  edge_target := fun e => (e + 1) % 3
  vpm := fun v => if v = 0 then ⟨0, 0, 0⟩ else if v = 1 then ⟨1, 0, 0⟩ else ⟨0, 1, 0⟩

/-- Two triangles that share an edge: halfedges `0, 1, 2` around face `0`
(vertices `0, 1, 2`), halfedges `3, 4, 5` around face `1` (vertices `1, 0, 3`),
`0` and `3` opposite; the halfedges from `6` on lie on the border.  An edge
descriptor is the halfedge it was made from.  The vertices are at `(0,0,0)`,
`(0,2,0)`, `(-1,1,0)`, `(1,1,0)`. -/
def two_triangles (F : Type) [LinearOrderedField F] : TriangleMesh F where
  next := fun h => if h < 6 then 3 * (h / 3) + (h + 1) % 3 else h
  prev := fun h => if h < 6 then 3 * (h / 3) + (h + 2) % 3 else h
  opposite := fun h =>
    if h = 0 then 3 else if h = 3 then 0 else if h = 1 then 6 else if h = 6 then 1
    else if h = 2 then 7 else if h = 7 then 2 else if h = 4 then 8 else if h = 8 then 4
    else if h = 5 then 9 else if h = 9 then 5 else h
  source := fun h =>
    if h = 0 then 0 else if h = 1 then 1 else if h = 2 then 2 else if h = 3 then 1
    else if h = 4 then 0 else if h = 5 then 3 else if h = 6 then 2 else if h = 7 then 0
    else if h = 8 then 3 else 1
  target := fun h =>
    if h = 0 then 1 else if h = 1 then 2 else if h = 2 then 0 else if h = 3 then 0
    else if h = 4 then 3 else if h = 5 then 1 else if h = 6 then 1 else if h = 7 then 2
    else if h = 8 then 0 else 3
  face := fun h => if h < 6 then h / 3 else 2 ^ 64 - 1
  halfedge := fun f => 3 * f
  edge := fun h => h
  edge_halfedge := fun e => e
  edge_source := fun e =>
    if e = 0 then 0 else if e = 1 then 1 else if e = 2 then 2 else if e = 3 then 1
    else if e = 4 then 0 else if e = 5 then 3 else if e = 6 then 2 else if e = 7 then 0
    else if e = 8 then 3 else 1
  edge_target := fun e =>
    if e = 0 then 1 else if e = 1 then 2 else if e = 2 then 0 else if e = 3 then 0
    else if e = 4 then 3 else if e = 5 then 1 else if e = 6 then 1 else if e = 7 then 2
    else if e = 8 then 0 else 3
  vpm := fun v =>
    if v = 0 then ⟨0, 0, 0⟩ else if v = 1 then ⟨0, 2, 0⟩ else if v = 2 then ⟨-1, 1, 0⟩
    else ⟨1, 1, 0⟩

/-- A tetrahedron: face `f` has the halfedges `3 f, 3 f + 1, 3 f + 2`; the faces
are the vertex triples `(0,1,2)`, `(1,0,3)`, `(2,1,3)`, `(0,2,3)`, so that face
`0` meets the faces `1, 2, 3` across its three halfedges, in this order.  The
vertices are at `(0,0,0)`, `(3,0,0)`, `(0,4,0)`, `(0,0,1)`. -/
def tetrahedron (F : Type) [LinearOrderedField F] : TriangleMesh F where
  next := fun h => 3 * (h / 3) + (h + 1) % 3
  prev := fun h => 3 * (h / 3) + (h + 2) % 3
  opposite := fun h =>
    if h = 0 then 3 else if h = 3 then 0 else if h = 1 then 6 else if h = 6 then 1
    else if h = 2 then 9 else if h = 9 then 2 else if h = 4 then 11 else if h = 11 then 4
    else if h = 5 then 7 else if h = 7 then 5 else if h = 8 then 10 else 8
  source := fun h =>
    if h = 0 then 0 else if h = 1 then 1 else if h = 2 then 2 else if h = 3 then 1
    else if h = 4 then 0 else if h = 5 then 3 else if h = 6 then 2 else if h = 7 then 1
    else if h = 8 then 3 else if h = 9 then 0 else if h = 10 then 2 else 3
  target := fun h =>
    if h = 0 then 1 else if h = 1 then 2 else if h = 2 then 0 else if h = 3 then 0
    else if h = 4 then 3 else if h = 5 then 1 else if h = 6 then 1 else if h = 7 then 3
    else if h = 8 then 2 else if h = 9 then 2 else if h = 10 then 3 else 0
  face := fun h => h / 3
  halfedge := fun f => 3 * f
  edge := fun h => h
  edge_halfedge := fun e => e
  edge_source := fun e =>
    if e = 0 then 0 else if e = 1 then 1 else if e = 2 then 2 else if e = 3 then 1
    else if e = 4 then 0 else if e = 5 then 3 else if e = 6 then 2 else if e = 7 then 1
    else if e = 8 then 3 else if e = 9 then 0 else if e = 10 then 2 else 3
  edge_target := fun e =>
    if e = 0 then 1 else if e = 1 then 2 else if e = 2 then 0 else if e = 3 then 0
    else if e = 4 then 3 else if e = 5 then 1 else if e = 6 then 1 else if e = 7 then 3
    else if e = 8 then 2 else if e = 9 then 2 else if e = 10 then 3 else 0
  vpm := fun v =>
    if v = 0 then ⟨0, 0, 0⟩ else if v = 1 then ⟨3, 0, 0⟩ else if v = 2 then ⟨0, 4, 0⟩
    else ⟨0, 0, 1⟩

/-- The face adjacency of `tetrahedron`, every edge of length 1. -/
def tetrahedron_graph : List (Array3 (dual_edge ℚ)) :=
  [⟨⟨1, 1⟩, ⟨2, 1⟩, ⟨3, 1⟩⟩, ⟨⟨0, 1⟩, ⟨3, 1⟩, ⟨2, 1⟩⟩,
   ⟨⟨0, 1⟩, ⟨1, 1⟩, ⟨3, 1⟩⟩, ⟨⟨0, 1⟩, ⟨2, 1⟩, ⟨1, 1⟩⟩]

/-- A dual graph on five nodes, with symmetric lengths: the edge from the
source `0` to the target `1` has length 10, the path `0, 3, 2, 1` has length 3,
and node `4` is far from everything. -/
def detour_graph : List (Array3 (dual_edge ℚ)) :=
  [⟨⟨3, 1⟩, ⟨1, 10⟩, ⟨2, 20⟩⟩, ⟨⟨0, 10⟩, ⟨2, 1⟩, ⟨4, 1000⟩⟩,
   ⟨⟨0, 20⟩, ⟨3, 1⟩, ⟨1, 1⟩⟩, ⟨⟨0, 1⟩, ⟨2, 1⟩, ⟨4, 100⟩⟩,
   ⟨⟨3, 100⟩, ⟨1, 1000⟩, ⟨4, 5⟩⟩]

/-- A dual graph of two nodes that are not linked. -/
def split_graph : List (Array3 (dual_edge ℚ)) :=
  [⟨⟨0, 1⟩, ⟨0, 1⟩, ⟨0, 1⟩⟩, ⟨⟨1, 1⟩, ⟨1, 1⟩, ⟨1, 1⟩⟩]

/-- A degenerate triangle: the mesh `one_triangle` with its three vertices on a
line, at `(0,0,0)`, `(0,2,0)`, `(0,1,0)`. -/
def collinear_triangle : TriangleMesh ℚ where
  next := fun h => (h + 1) % 3
  prev := fun h => (h + 2) % 3
  opposite := fun h => h + 3
  source := fun h => h % 3
  target := fun h => (h + 1) % 3
  face := fun h => h / 3
  halfedge := fun f => 3 * f
  edge := fun h => h
  edge_halfedge := fun e => e
  edge_source := fun e => e % 3
  edge_target := fun e => (e + 1) % 3
  vpm := fun v => if v = 0 then ⟨0, 0, 0⟩ else if v = 1 then ⟨0, 2, 0⟩ else ⟨0, 1, 0⟩

/-- A location of face `0` whose coordinates are negative or do not sum to 1. -/
def invalid_location : Face_location ℚ := ⟨0, ⟨2, -1, 5⟩⟩

/-- The centre of face `f` of a mesh. -/
def face_centre (F : Type) [LinearOrderedField F] (f : Nat) : Face_location F :=
  ⟨f, ⟨1 / 3, 1 / 3, 1 / 3⟩⟩

/-- The vertex `2` of `two_triangles`, as a location of face `0`. -/
def left_corner : Face_location ℚ := ⟨0, ⟨0, 0, 1⟩⟩

/-- The vertex `3` of `two_triangles`, as a location of face `1`. -/
def right_corner : Face_location ℚ := ⟨1, ⟨0, 0, 1⟩⟩

/-- The crossing of the shared edge of `two_triangles` at its midpoint, the
edge being given by the halfedge `3` of face `1`. -/
def middle_crossing : Edge_location ℚ := ⟨3, (1 / 2, 1 / 2)⟩

/-- Stages that all fail. -/
def failing_stages : Path_stages ℚ where
  strip_on_dual_graph := fun _ _ _ => none
  unfold_strip := fun _ _ _ _ => none
  funnel := fun _ => none
  straighten_path := fun _ _ _ _ _ _ _ => none

/-- Four control points of face `0` of `one_triangle`. -/
def control_polygon : Bezier_segment ℚ :=
  ⟨⟨0, ⟨1, 0, 0⟩⟩, ⟨0, ⟨0, 1, 0⟩⟩, ⟨0, ⟨0, 0, 1⟩⟩, ⟨0, ⟨1 / 2, 1 / 2, 0⟩⟩⟩

/-- The face locations `recursive_de_Casteljau` returns for `control_polygon`
on `one_triangle` and one subdivision. -/
def control_polygon_split : List (Face_location ℚ) :=
  [⟨0, ⟨1, 0, 0⟩⟩, ⟨0, ⟨1 / 2, 1 / 2, 0⟩⟩, ⟨0, ⟨1 / 4, 1 / 2, 1 / 4⟩⟩,
   ⟨0, ⟨3 / 16, 7 / 16, 3 / 8⟩⟩, ⟨0, ⟨3 / 16, 7 / 16, 3 / 8⟩⟩, ⟨0, ⟨1 / 8, 3 / 8, 1 / 2⟩⟩,
   ⟨0, ⟨1 / 4, 1 / 4, 1 / 2⟩⟩, ⟨0, ⟨1 / 2, 1 / 2, 0⟩⟩]

/-- The portals of a strip of one edge, the source at the origin, the edge from
`(1, -1)` to `(1, 1)`, and the target on the first endpoint of that edge. -/
def vertex_target_portals : List (Vector_2 ℚ × Vector_2 ℚ) :=
  [(⟨1, -1⟩, ⟨1, 1⟩), (⟨1, -1⟩, ⟨1, -1⟩)]

/-- The portals of the same strip with the target beyond the edge, at
`(2, 0)`. -/
def straight_portals : List (Vector_2 ℚ × Vector_2 ℚ) :=
  [(⟨1, -1⟩, ⟨1, 1⟩), (⟨2, 0⟩, ⟨2, 0⟩)]

/-- A closed mesh of two faces on the vertices `0, 1, 2` at `(0,0,0)`,
`(3,0,0)`, `(3,4,0)`: face `0` has the halfedges `0, 1, 2` (vertices
`0, 1, 2`), face `1` the halfedges `3, 4, 5` (vertices `1, 0, 2`); `0` and `3`,
`1` and `5`, `2` and `4` are opposite.  The sides have the lengths 3, 4, 5. -/
def pillow : TriangleMesh ℚ where
  next := fun h => 3 * (h / 3) + (h + 1) % 3
  prev := fun h => 3 * (h / 3) + (h + 2) % 3
  opposite := fun h =>
    if h = 0 then 3 else if h = 3 then 0 else if h = 1 then 5 else if h = 5 then 1
    else if h = 2 then 4 else 2
  source := fun h =>
    if h = 0 then 0 else if h = 1 then 1 else if h = 2 then 2 else if h = 3 then 1
    else if h = 4 then 0 else 2
  target := fun h =>
    if h = 0 then 1 else if h = 1 then 2 else if h = 2 then 0 else if h = 3 then 0
    else if h = 4 then 2 else 1
  face := fun h => h / 3
  halfedge := fun f => 3 * f
  edge := fun h => h
  edge_halfedge := fun e => e
  edge_source := fun e =>
    if e = 0 then 0 else if e = 1 then 1 else if e = 2 then 2 else if e = 3 then 1
    else if e = 4 then 0 else 2
  edge_target := fun e =>
    if e = 0 then 1 else if e = 1 then 2 else if e = 2 then 0 else if e = 3 then 0
    else if e = 4 then 2 else 1
  vpm := fun v => if v = 0 then ⟨0, 0, 0⟩ else if v = 1 then ⟨3, 0, 0⟩ else ⟨3, 4, 0⟩

/-- Three triangles in a plane: face `0` has the halfedges `0, 1, 2` (vertices
`0, 1, 2`), face `1` the halfedges `3, 4, 5` (vertices `1, 0, 3`), face `2` the
halfedges `6, 7, 8` (vertices `3, 0, 4`); `0` and `3`, `4` and `6` are
opposite, the other halfedges have their opposite on the border, from `9` on.
The vertices are at `(3,0,0)`, `(3,4,0)`, `(0,0,0)`, `(4,7,0)`, `(8,16,0)`: seen
from vertex `2`, the vertices `3` and `4` lie behind the vertex `1`. -/
def bend_mesh : TriangleMesh ℚ where
  next := fun h => if h < 9 then 3 * (h / 3) + (h + 1) % 3 else h
  prev := fun h => if h < 9 then 3 * (h / 3) + (h + 2) % 3 else h
  opposite := fun h =>
    if h = 0 then 3 else if h = 3 then 0 else if h = 4 then 6 else if h = 6 then 4
    else if h = 1 then 9 else if h = 9 then 1 else if h = 2 then 10 else if h = 10 then 2
    else if h = 5 then 11 else if h = 11 then 5 else if h = 7 then 12 else if h = 12 then 7
    else if h = 8 then 13 else if h = 13 then 8 else h
  source := fun h =>
    if h = 0 then 0 else if h = 1 then 1 else if h = 2 then 2 else if h = 3 then 1
    else if h = 4 then 0 else if h = 5 then 3 else if h = 6 then 3 else if h = 7 then 0
    else if h = 8 then 4 else if h = 9 then 2 else if h = 10 then 0 else if h = 11 then 1
    else if h = 12 then 4 else 3
  target := fun h =>
    if h = 0 then 1 else if h = 1 then 2 else if h = 2 then 0 else if h = 3 then 0
    else if h = 4 then 3 else if h = 5 then 1 else if h = 6 then 0 else if h = 7 then 4
    else if h = 8 then 3 else if h = 9 then 1 else if h = 10 then 2 else if h = 11 then 3
    else if h = 12 then 0 else 4
  face := fun h => if h < 9 then h / 3 else 2 ^ 64 - 1
  halfedge := fun f => 3 * f
  edge := fun h => h
  edge_halfedge := fun e => e
  edge_source := fun e =>
    if e = 0 then 0 else if e = 1 then 1 else if e = 2 then 2 else if e = 3 then 1
    else if e = 4 then 0 else if e = 5 then 3 else if e = 6 then 3 else if e = 7 then 0
    else if e = 8 then 4 else if e = 9 then 2 else if e = 10 then 0 else if e = 11 then 1
    else if e = 12 then 4 else 3
  edge_target := fun e =>
    if e = 0 then 1 else if e = 1 then 2 else if e = 2 then 0 else if e = 3 then 0
    else if e = 4 then 3 else if e = 5 then 1 else if e = 6 then 0 else if e = 7 then 4
    else if e = 8 then 3 else if e = 9 then 1 else if e = 10 then 2 else if e = 11 then 3
    else if e = 12 then 0 else 4
  vpm := fun v =>
    if v = 0 then ⟨3, 0, 0⟩ else if v = 1 then ⟨3, 4, 0⟩ else if v = 2 then ⟨0, 0, 0⟩
    else if v = 3 then ⟨4, 7, 0⟩ else ⟨8, 16, 0⟩

/-- The vertex `2` of `bend_mesh`, as a location of face `0`. -/
def bend_source : Face_location ℚ := ⟨0, ⟨0, 0, 1⟩⟩

/-- The point `(3 + 5/13, 4 + 12/13, 0)` of face `1` of `bend_mesh`, at distance
1 from the vertex `1`. -/
def bend_near_target : Face_location ℚ := ⟨1, ⟨29 / 52, 3 / 52, 5 / 13⟩⟩

/-- The vertex `4` of `bend_mesh`, as a location of face `2`. -/
def bend_far_target : Face_location ℚ := ⟨2, ⟨0, 0, 1⟩⟩

/-- The vertex `0` of `bend_mesh`, as a location of face `2`. -/
def bend_vertex_target : Face_location ℚ := ⟨2, ⟨0, 1, 0⟩⟩

/-- A graph on four nodes: the path `0, 1, 2` with edges of lengths 1 and 2 in
both directions, and node `3` without edges. -/
def path_graph : List (List (dual_edge ℚ)) :=
  [[⟨1, 1⟩], [⟨0, 1⟩, ⟨2, 2⟩], [⟨1, 2⟩], []]

/-- An octahedron: face `f` has the halfedges `3 f, 3 f + 1, 3 f + 2`; the faces
are the vertex triples `(0,1,4)`, `(1,2,4)`, `(2,3,4)`, `(3,0,4)` round the
vertex `4` and `(1,0,5)`, `(2,1,5)`, `(3,2,5)`, `(0,3,5)` round the vertex `5`,
so that every vertex has degree 4.  The vertices are at `(1,0,0)`, `(0,1,0)`,
`(-1,0,0)`, `(0,-1,0)`, `(0,0,1)`, `(0,0,-1)`. -/
def octahedron : TriangleMesh ℚ where
  next := fun h => 3 * (h / 3) + (h + 1) % 3
  prev := fun h => 3 * (h / 3) + (h + 2) % 3
  opposite := fun h =>
    ([12, 5, 10, 15, 8, 1, 18, 11, 4, 21, 2, 7, 0, 23, 16, 3, 14, 19, 6, 17, 22, 9, 20, 13] :
      List Nat).getD h 24
  source := fun h =>
    ([0, 1, 4, 1, 2, 4, 2, 3, 4, 3, 0, 4, 1, 0, 5, 2, 1, 5, 3, 2, 5, 0, 3, 5] : List Nat).getD h 6
  target := fun h =>
    ([1, 4, 0, 2, 4, 1, 3, 4, 2, 0, 4, 3, 0, 5, 1, 1, 5, 2, 2, 5, 3, 3, 5, 0] : List Nat).getD h 6
  face := fun h => h / 3
  halfedge := fun f => 3 * f
  edge := fun h => h
  edge_halfedge := fun e => e
  edge_source := fun e =>
    ([0, 1, 4, 1, 2, 4, 2, 3, 4, 3, 0, 4, 1, 0, 5, 2, 1, 5, 3, 2, 5, 0, 3, 5] : List Nat).getD e 6
  edge_target := fun e =>
    ([1, 4, 0, 2, 4, 1, 3, 4, 2, 0, 4, 3, 0, 5, 1, 1, 5, 2, 2, 5, 3, 3, 5, 0] : List Nat).getD e 6
  vpm := fun v =>
    if v = 0 then ⟨1, 0, 0⟩ else if v = 1 then ⟨0, 1, 0⟩ else if v = 2 then ⟨-1, 0, 0⟩
    else if v = 3 then ⟨0, -1, 0⟩ else if v = 4 then ⟨0, 0, 1⟩ else ⟨0, 0, -1⟩

end Bsurf

/-! # Theorems -/

namespace Bsurf

section Evaluation

variable {F : Type} [LinearOrderedField F]

/-- C1: when `src` and `tgt` lie on the same face, `locally_shortest_path`
returns with the output range exactly as the caller passed it, whatever the
graph search, unfolding, funnel and straightening stages would do: none of
them contributes to the result, not even by failing. -/
theorem locally_shortest_path_same_face (stages : Path_stages F) (src tgt : Face_location F)
    (tmesh : TriangleMesh F) (edge_locations : List (Edge_location F))
    (hface : src.first = tgt.first) :
    locally_shortest_path stages src tgt tmesh edge_locations = some edge_locations := by
  simp [locally_shortest_path, hface]

theorem locally_shortest_path_same_face_witness :
    locally_shortest_path failing_stages control_polygon.p0 control_polygon.p1 one_triangle []
      = some [] :=
  locally_shortest_path_same_face failing_stages control_polygon.p0 control_polygon.p1
    one_triangle [] rfl

/-- C2: `eval_point_on_geodesic` returns exactly `src` for `t = 0` and exactly
`tgt` for `t = 1`, for every edge-location list and parameter vector. -/
theorem eval_point_on_geodesic_endpoints (edge_locations : List (Edge_location F))
    (mesh : TriangleMesh F) (src tgt : Face_location F) (parameters : List F) :
    eval_point_on_geodesic edge_locations mesh src tgt parameters 0 = some src ∧
    eval_point_on_geodesic edge_locations mesh src tgt parameters 1 = some tgt := by
  simp [eval_point_on_geodesic]

/-- The barycentric combination is linear in the weights. -/
theorem construct_point_face_lerp (mesh : TriangleMesh F) (f : Nat) (t : F) (a b : Array3 F) :
    construct_point_face mesh ⟨f, lerp_bary t a b⟩ =
      lerp_point t (construct_point_face mesh ⟨f, a⟩) (construct_point_face mesh ⟨f, b⟩) := by
  simp only [construct_point_face, barycentric_point_3, lerp_bary, lerp_point, Point_3.mk.injEq]
  refine ⟨?_, ?_, ?_⟩ <;> ring

/-- C7: for `src` and `tgt` on the same face and `t` other than 0 and 1,
`eval_point_on_geodesic` returns the face of `src` with the coordinate-wise
interpolation of the two barycentric tuples, whatever the edge locations and
parameters; the coordinates sum to 1 when those of both inputs do, and the 3D
point is the linear interpolation of the 3D points of `src` and `tgt`. -/
theorem eval_point_on_geodesic_same_face (edge_locations : List (Edge_location F))
    (mesh : TriangleMesh F) (src tgt : Face_location F) (parameters : List F) (t : F)
    (hface : src.first = tgt.first) (h0 : t ≠ 0) (h1 : t ≠ 1) :
    eval_point_on_geodesic edge_locations mesh src tgt parameters t
      = some ⟨src.first, lerp_bary t src.second tgt.second⟩ ∧
    (src.second.sum = 1 → tgt.second.sum = 1 →
      (lerp_bary t src.second tgt.second).sum = 1) ∧
    construct_point_face mesh ⟨src.first, lerp_bary t src.second tgt.second⟩
      = lerp_point t (construct_point_face mesh src) (construct_point_face mesh tgt) := by
  refine ⟨by simp [eval_point_on_geodesic, h0, h1, hface], ?_, ?_⟩
  · intro hs ht
    simp only [Array3.sum, lerp_bary] at *
    linear_combination (1 - t) * hs + t * ht
  · rw [construct_point_face_lerp]
    have : tgt = ⟨src.first, tgt.second⟩ := by rw [hface]
    conv_rhs => rw [this]

theorem eval_point_on_geodesic_same_face_witness :
    eval_point_on_geodesic [] one_triangle control_polygon.p0 control_polygon.p1 [] (1 / 2)
      = some ⟨0, lerp_bary (1 / 2) control_polygon.p0.second control_polygon.p1.second⟩ ∧
    (control_polygon.p0.second.sum = 1 → control_polygon.p1.second.sum = 1 →
      (lerp_bary (1 / 2) control_polygon.p0.second control_polygon.p1.second).sum = 1) ∧
    construct_point_face one_triangle
        ⟨0, lerp_bary (1 / 2) control_polygon.p0.second control_polygon.p1.second⟩
      = lerp_point (1 / 2) (construct_point_face one_triangle control_polygon.p0)
          (construct_point_face one_triangle control_polygon.p1) :=
  eval_point_on_geodesic_same_face [] one_triangle control_polygon.p0 control_polygon.p1 []
    (1 / 2) rfl (by norm_num) (by norm_num)

end Evaluation

section Parameters

variable {F : Type} [LinearOrderedField F]

/-- The squared distance is non-negative. -/
theorem squared_distance_nonneg (p q : Point_3 F) : 0 ≤ squared_distance p q := by
  unfold squared_distance
  nlinarith [mul_self_nonneg (p.x - q.x), mul_self_nonneg (p.y - q.y),
    mul_self_nonneg (p.z - q.z)]

/-- The squared distance vanishes exactly between equal points. -/
theorem squared_distance_eq_zero (p q : Point_3 F) : squared_distance p q = 0 ↔ p = q := by
  constructor
  · intro h
    unfold squared_distance at h
    have hx : (p.x - q.x) * (p.x - q.x) = 0 := by
      nlinarith [mul_self_nonneg (p.x - q.x), mul_self_nonneg (p.y - q.y),
        mul_self_nonneg (p.z - q.z)]
    have hy : (p.y - q.y) * (p.y - q.y) = 0 := by
      nlinarith [mul_self_nonneg (p.x - q.x), mul_self_nonneg (p.y - q.y),
        mul_self_nonneg (p.z - q.z)]
    have hz : (p.z - q.z) * (p.z - q.z) = 0 := by
      nlinarith [mul_self_nonneg (p.x - q.x), mul_self_nonneg (p.y - q.y),
        mul_self_nonneg (p.z - q.z)]
    cases p
    cases q
    simp only [Point_3.mk.injEq]
    simp only [mul_self_eq_zero, sub_eq_zero] at hx hy hz
    exact ⟨hx, hy, hz⟩
  · rintro rfl
    simp [squared_distance]

/-- One accumulated length per point after the first. -/
theorem arc_lengths_length (sqrt : F → F) (ps : List (Point_3 F)) (p : Point_3 F) (L : F) :
    (arc_lengths sqrt p L ps).length = ps.length := by
  induction ps generalizing p L with
  | nil => rfl
  | cons q qs ih => simp [arc_lengths, ih]

/-- Consecutive accumulated lengths differ by the length of the segment
between the two points. -/
theorem arc_lengths_step (sqrt : F → F) (ps : List (Point_3 F)) (p : Point_3 F) (L : F)
    (i : Nat) (a b : F) (x y : Point_3 F)
    (ha : (L :: arc_lengths sqrt p L ps)[i]? = some a)
    (hb : (L :: arc_lengths sqrt p L ps)[i + 1]? = some b)
    (hx : (p :: ps)[i]? = some x) (hy : (p :: ps)[i + 1]? = some y) :
    b = a + sqrt (squared_distance y x) := by
  induction ps generalizing p L i with
  | nil => simp at hy
  | cons q qs ih =>
    cases i with
    | zero =>
      simp [arc_lengths] at ha hb hx hy
      subst ha hb hx hy
      rfl
    | succ j =>
      rw [arc_lengths, List.getElem?_cons_succ] at ha hb
      rw [List.getElem?_cons_succ] at hx hy
      exact ih q _ j ha hb hx hy

/-- The last accumulated length is the length of the polyline. -/
theorem arc_lengths_getLast (sqrt : F → F) (ps : List (Point_3 F)) (p : Point_3 F) (L : F) :
    (L :: arc_lengths sqrt p L ps).getLast? = some (L + polyline_length sqrt (p :: ps)) := by
  induction ps generalizing p L with
  | nil => simp [arc_lengths, polyline_length]
  | cons q qs ih =>
    rw [arc_lengths, List.getLast?_cons_cons, ih q, polyline_length]
    simp [add_assoc]

/-- The rational square root is positive on positive numbers. -/
theorem rat_sqrt_pos (x : ℚ) (hx : 0 < x) : 0 < Rat.sqrt x := by
  refine lt_of_le_of_ne (Rat.sqrt_nonneg x) (Ne.symm ?_)
  have hden : Nat.sqrt x.den ≠ 0 := by
    rw [Ne, Nat.sqrt_eq_zero]
    exact x.den_nz
  rw [Rat.sqrt, Ne, Rat.mkRat_eq_zero hden]
  have hnum : 0 < x.num := Rat.num_pos.2 hx
  obtain ⟨n, hn⟩ := Int.eq_ofNat_of_zero_le hnum.le
  rw [hn, Int.sqrt_natCast]
  intro h0
  have : Nat.sqrt n = 0 := by exact_mod_cast h0
  rw [Nat.sqrt_eq_zero] at this
  rw [this] at hn
  rw [hn] at hnum
  exact absurd hnum (by decide)

/-- The parameters of a polyline of positive length: the list starts at 0,
ends at 1, does not decrease, and increases strictly exactly between two
points of different positions. -/
theorem path_parameters_order (sqrt : F → F) (hs0 : ∀ x, 0 ≤ sqrt x)
    (hs1 : ∀ x, 0 < x → 0 < sqrt x) (hs2 : sqrt 0 = 0)
    (edge_locations : List (Edge_location F)) (mesh : TriangleMesh F)
    (src tgt : Face_location F)
    (hL : 0 < polyline_length sqrt (get_positions edge_locations mesh src tgt)) :
    ∃ result, path_parameters sqrt edge_locations mesh src tgt = some result ∧
      result.length = edge_locations.length + 2 ∧
      result[0]? = some 0 ∧
      result[edge_locations.length + 1]? = some 1 ∧
      (∀ i a b, result[i]? = some a → result[i + 1]? = some b → a ≤ b) ∧
      (∀ i a b p q, result[i]? = some a → result[i + 1]? = some b →
        (get_positions edge_locations mesh src tgt)[i]? = some p →
        (get_positions edge_locations mesh src tgt)[i + 1]? = some q → (a < b ↔ p ≠ q)) := by
  set ps := edge_locations.map (construct_point mesh) ++ [construct_point_face mesh tgt]
    with hps
  set p0 := construct_point_face mesh src with hp0
  have hpos : get_positions edge_locations mesh src tgt = p0 :: ps := rfl
  rw [hpos] at hL ⊢
  set L := polyline_length sqrt (p0 :: ps) with hLdef
  have hcum : cumulative_lengths sqrt (p0 :: ps) = 0 :: arc_lengths sqrt p0 0 ps := rfl
  have hlast : (cumulative_lengths sqrt (p0 :: ps)).getLast? = some L := by
    rw [hcum, arc_lengths_getLast, zero_add]
  have hpslen : ps.length = edge_locations.length + 1 := by simp [hps]
  have hlen : (cumulative_lengths sqrt (p0 :: ps)).length = edge_locations.length + 2 := by
    rw [hcum, List.length_cons, arc_lengths_length, hpslen]
  have hLne : L ≠ 0 := ne_of_gt hL
  refine ⟨(cumulative_lengths sqrt (p0 :: ps)).map (fun t => t / L), ?_, ?_, ?_, ?_, ?_, ?_⟩
  · simp only [path_parameters, hpos, hlast, Option.getD_some, if_neg hLne]
  · rw [List.length_map, hlen]
  · simp [hcum]
  · have h1 : (cumulative_lengths sqrt (p0 :: ps))[edge_locations.length + 1]? = some L := by
      rw [← hlast, List.getLast?_eq_getElem?, hlen]
      rfl
    rw [List.getElem?_map, h1]
    simp [div_self hLne]
  · intro i a b ha hb
    rw [List.getElem?_map, Option.map_eq_some'] at ha hb
    obtain ⟨a1, ha1, rfl⟩ := ha
    obtain ⟨b1, hb1, rfl⟩ := hb
    have hi : i + 1 < (p0 :: ps).length := by
      have := (List.getElem?_eq_some_iff.1 hb1).1
      rw [hlen] at this
      simp [hpslen]
      omega
    have hx : (p0 :: ps)[i]? = some ((p0 :: ps)[i]) := List.getElem?_eq_getElem (by omega)
    have hy : (p0 :: ps)[i + 1]? = some ((p0 :: ps)[i + 1]) := List.getElem?_eq_getElem hi
    rw [hcum] at ha1 hb1
    have := arc_lengths_step sqrt ps p0 0 i a1 b1 _ _ ha1 hb1 hx hy
    rw [this]
    apply div_le_div_of_nonneg_right _ hL.le
    linarith [hs0 (squared_distance (p0 :: ps)[i + 1] (p0 :: ps)[i])]
  · intro i a b p q ha hb hp hq
    rw [List.getElem?_map, Option.map_eq_some'] at ha hb
    obtain ⟨a1, ha1, rfl⟩ := ha
    obtain ⟨b1, hb1, rfl⟩ := hb
    rw [hcum] at ha1 hb1
    have hstep := arc_lengths_step sqrt ps p0 0 i a1 b1 p q ha1 hb1 hp hq
    rw [hstep, div_lt_div_iff_of_pos_right hL]
    constructor
    · intro hlt hpq
      subst hpq
      have h0 : squared_distance p p = 0 := (squared_distance_eq_zero p p).2 rfl
      rw [h0, hs2] at hlt
      linarith
    · intro hne
      have hd : 0 < squared_distance q p := by
        refine lt_of_le_of_ne (squared_distance_nonneg q p) (Ne.symm ?_)
        intro h0
        exact hne ((squared_distance_eq_zero q p).1 h0).symm
      linarith [hs1 _ hd]

/-- C3: for a polyline `src, crossings..., tgt` of positive total length over
`n` edge locations, `path_parameters` returns `n + 2` values that start at 0,
end at 1, are non-decreasing, and increase strictly from one index to the next
exactly when the two 3D points differ.  The square root is any function that is
non-negative, positive on positive numbers and zero at zero. -/
theorem path_parameters_monotone (sqrt : F → F) (hs0 : ∀ x, 0 ≤ sqrt x)
    (hs1 : ∀ x, 0 < x → 0 < sqrt x) (hs2 : sqrt 0 = 0)
    (edge_locations : List (Edge_location F)) (mesh : TriangleMesh F)
    (src tgt : Face_location F)
    (hL : 0 < polyline_length sqrt (get_positions edge_locations mesh src tgt)) :
    ∃ result, path_parameters sqrt edge_locations mesh src tgt = some result ∧
      result.length = edge_locations.length + 2 ∧
      result[0]? = some 0 ∧
      result[edge_locations.length + 1]? = some 1 ∧
      (∀ i a b, result[i]? = some a → result[i + 1]? = some b → a ≤ b) ∧
      (∀ i a b p q, result[i]? = some a → result[i + 1]? = some b →
        (get_positions edge_locations mesh src tgt)[i]? = some p →
        (get_positions edge_locations mesh src tgt)[i + 1]? = some q → (a < b ↔ p ≠ q)) :=
  path_parameters_order sqrt hs0 hs1 hs2 edge_locations mesh src tgt hL

/-- What `path_parameters` returns has one value per point of the polyline,
starts at 0 and ends at 1. -/
theorem path_parameters_ends (sqrt : F → F) (edge_locations : List (Edge_location F))
    (mesh : TriangleMesh F) (src tgt : Face_location F) (parameters : List F)
    (h : path_parameters sqrt edge_locations mesh src tgt = some parameters) :
    parameters.length = edge_locations.length + 2 ∧ parameters[0]? = some 0 ∧
    parameters[edge_locations.length + 1]? = some 1 := by
  set ps := edge_locations.map (construct_point mesh) ++ [construct_point_face mesh tgt]
    with hps
  set p0 := construct_point_face mesh src with hp0
  have hpos : get_positions edge_locations mesh src tgt = p0 :: ps := rfl
  have hcum : cumulative_lengths sqrt (p0 :: ps) = 0 :: arc_lengths sqrt p0 0 ps := rfl
  have hlast : (cumulative_lengths sqrt (p0 :: ps)).getLast? =
      some (polyline_length sqrt (p0 :: ps)) := by
    rw [hcum, arc_lengths_getLast, zero_add]
  have hpslen : ps.length = edge_locations.length + 1 := by simp [hps]
  have hlen : (cumulative_lengths sqrt (p0 :: ps)).length = edge_locations.length + 2 := by
    rw [hcum, List.length_cons, arc_lengths_length, hpslen]
  simp only [path_parameters, hpos, hlast, Option.getD_some] at h
  split_ifs at h with hL
  simp only [Option.some.injEq] at h
  subst h
  refine ⟨by rw [List.length_map, hlen], by simp [hcum], ?_⟩
  have h1 : (cumulative_lengths sqrt (p0 :: ps))[edge_locations.length + 1]? =
      some (polyline_length sqrt (p0 :: ps)) := by
    rw [← hlast, List.getLast?_eq_getElem?, hlen]
    rfl
  rw [List.getElem?_map, h1]
  simp [div_self hL]

/-- The search loop of `eval_point_on_geodesic` on a vector of `m + 2`
parameters ending with 1, for `t <= 1`: entered at `i <= m` with enough fuel it
stops at the first `k >= i` with `parameters[k + 1] >= t`, and `k <= m`. -/
theorem locate_interval_spec (parameters : List F) (t : F) (m : Nat)
    (hlen : parameters.length = m + 2) (hlast : parameters[m + 1]? = some 1) (ht1 : t ≤ 1)
    (fuel i : Nat) (hi : i ≤ m) (hfuel : m - i < fuel) :
    ∃ k, locate_interval parameters t fuel i = some k ∧ i ≤ k ∧ k ≤ m ∧
      (∃ hi, parameters[k + 1]? = some hi ∧ t ≤ hi) ∧
      (∀ j lo, i < j → j ≤ k → parameters[j]? = some lo → lo < t) := by
  induction fuel generalizing i with
  | zero => omega
  | succ f ih =>
    have hbound : i < size_t_sub parameters.length 1 := by
      rw [hlen, size_t_sub, if_pos (by omega)]
      omega
    have hget : parameters[i + 1]? = some (parameters[i + 1]) :=
      List.getElem?_eq_getElem (by omega)
    rw [locate_interval, if_pos hbound, hget]
    by_cases hp : parameters[i + 1] ≥ t
    · refine ⟨i, by simp [hp], le_refl i, hi, ⟨_, hget, hp⟩, ?_⟩
      intro j lo h1 h2
      omega
    · have him : i ≠ m := by
        rintro rfl
        rw [hlast] at hget
        simp only [Option.some.injEq] at hget
        rw [← hget] at hp
        exact hp ht1
      obtain ⟨k, hk, hik, hkm, hhi, hlow⟩ := ih (i + 1) (by omega) (by omega)
      refine ⟨k, by simp [hp, hk], by omega, hkm, hhi, ?_⟩
      intro j lo h1 h2 hj
      by_cases hj1 : j = i + 1
      · subst hj1
        rw [hget] at hj
        simp only [Option.some.injEq] at hj
        rw [← hj]
        exact not_le.1 hp
      · exact hlow j lo (by omega) h2 hj

/-- Interpolating two valid barycentric tuples with a weight in `[0, 1]` gives
a valid barycentric tuple. -/
theorem lerp_bary_valid (a : F) (h0 : 0 ≤ a) (h1 : a ≤ 1) (low high : Array3 F)
    (hl : valid_bary low) (hh : valid_bary high) : valid_bary (lerp_bary a low high) := by
  obtain ⟨l0, l1, l2, ls⟩ := hl
  obtain ⟨g0, g1, g2, gs⟩ := hh
  have h1a : 0 ≤ 1 - a := by linarith
  simp only [Array3.sum] at ls gs
  refine ⟨?_, ?_, ?_, ?_⟩
  · exact add_nonneg (mul_nonneg h1a l0) (mul_nonneg h0 g0)
  · exact add_nonneg (mul_nonneg h1a l1) (mul_nonneg h0 g1)
  · exact add_nonneg (mul_nonneg h1a l2) (mul_nonneg h0 g2)
  · simp only [Array3.sum, lerp_bary]
    linear_combination (1 - a) * ls + a * gs

/-- Two non-negative edge weights of sum 1 are turned into a valid barycentric
tuple of the face, whichever of the three cases applies. -/
theorem edge_barycentric_coordinate_valid (mesh : TriangleMesh F) (h_face h_edge : Nat)
    (b : F × F) (hb1 : 0 ≤ b.1) (hb2 : 0 ≤ b.2) (hsum : b.1 + b.2 = 1) :
    valid_bary (edge_barycentric_coordinate mesh h_face h_edge b) := by
  unfold edge_barycentric_coordinate
  split_ifs <;> refine ⟨?_, ?_, ?_, ?_⟩ <;> simp only [Array3.sum] <;>
    first | exact hb1 | exact hb2 | exact le_refl 0 | linarith

/-- C8: for `src` and `tgt` on different faces, valid face locations `src`,
`tgt`, a valid strip of edge locations with weights in `[0, 1]` of sum 1,
the parameters returned by `path_parameters` and `0 < t < 1`,
`eval_point_on_geodesic` returns a valid face location; `i` being the
bracketing interval (`parameters[i] < t <= parameters[i + 1]`), its face is the
face crossed there: the face of `src` for the first interval, the face of
`tgt` for the last, the face in front of crossing `i` and behind crossing
`i - 1`. -/
theorem eval_point_on_geodesic_valid (sqrt : F → F) (edge_locations : List (Edge_location F))
    (mesh : TriangleMesh F) (src tgt : Face_location F) (parameters : List F) (t : F)
    (_hface : src.first ≠ tgt.first)
    (hsrc : valid_face_location src) (htgt : valid_face_location tgt)
    (hel : ∀ e ∈ edge_locations, valid_edge_location e)
    (hstrip : valid_strip mesh src tgt
      (edge_locations.map (fun e => mesh.edge_halfedge e.first)))
    (hpar : path_parameters sqrt edge_locations mesh src tgt = some parameters)
    (ht0 : 0 < t) (ht1 : t < 1) :
    ∃ loc i, eval_point_on_geodesic edge_locations mesh src tgt parameters t = some loc ∧
      valid_face_location loc ∧ i ≤ edge_locations.length ∧
      (∃ lo hi, parameters[i]? = some lo ∧ parameters[i + 1]? = some hi ∧ lo < t ∧ t ≤ hi) ∧
      (i = 0 → loc.first = src.first) ∧
      (i = edge_locations.length → loc.first = tgt.first) ∧
      (∀ e, edge_locations[i]? = some e →
        loc.first = mesh.face (mesh.opposite (mesh.edge_halfedge e.first))) ∧
      (∀ e, 0 < i → edge_locations[i - 1]? = some e →
        loc.first = mesh.face (mesh.edge_halfedge e.first)) := by
  obtain ⟨hlen, hfirst, hlast⟩ := path_parameters_ends sqrt edge_locations mesh src tgt
    parameters hpar
  set n := edge_locations.length with hn
  obtain ⟨hne, hhead, hstep, hend⟩ := hstrip
  have hnpos : 0 < n := by
    rcases Nat.eq_zero_or_pos n with h0 | h0
    · exfalso
      apply hne
      rw [hn, List.length_eq_zero] at h0
      simp [h0]
    · exact h0
  -- the bracketing interval
  obtain ⟨k, hk, -, hkn, ⟨hi, hhi, hthi⟩, hbelow⟩ :=
    locate_interval_spec parameters t n hlen hlast ht1.le (parameters.length + 1) 0
      (Nat.zero_le _) (by omega)
  have hlo : parameters[k]? = some (parameters[k]) := List.getElem?_eq_getElem (by omega)
  have hlot : parameters[k] < t := by
    rcases Nat.eq_zero_or_pos k with h0 | h0
    · subst h0
      rw [hfirst] at hlo
      simp only [Option.some.injEq] at hlo
      rw [← hlo]
      exact ht0
    · exact hbelow k _ h0 (le_refl k) hlo
  set lo := parameters[k] with hlodef
  have hne' : ¬ hi = lo := by
    intro h
    rw [h] at hthi
    exact absurd hlot (not_lt.2 hthi)
  have hden : 0 < hi - lo := by linarith
  have ha0 : 0 ≤ (t - lo) / (hi - lo) := div_nonneg (by linarith) hden.le
  have ha1 : (t - lo) / (hi - lo) ≤ 1 := by
    rw [div_le_one hden]
    linarith
  -- the face of the interval
  have hcur : ∃ cur, (if k = 0 then some src.first
      else (edge_locations[k - 1]?).map (fun e => mesh.face (mesh.edge_halfedge e.first)))
        = some cur ∧ (k = 0 → cur = src.first) ∧
        (∀ e, 0 < k → edge_locations[k - 1]? = some e →
          cur = mesh.face (mesh.edge_halfedge e.first)) := by
    by_cases h0 : k = 0
    · exact ⟨src.first, by simp [h0], fun _ => rfl, fun e hk0 => absurd h0 (by omega)⟩
    · have hget : edge_locations[k - 1]? = some (edge_locations[k - 1]) :=
        List.getElem?_eq_getElem (by omega)
      refine ⟨mesh.face (mesh.edge_halfedge (edge_locations[k - 1]).first), ?_,
        fun h => absurd h h0, ?_⟩
      · rw [if_neg h0, hget]
        rfl
      · intro e _ he
        rw [hget] at he
        simp only [Option.some.injEq] at he
        rw [he]
  obtain ⟨cur, hcur, hcur0, hcurpos⟩ := hcur
  -- the lower end
  have hlow : ∃ low, (if k = 0 then some src.second
      else (edge_locations[k - 1]?).map (fun e =>
        edge_barycentric_coordinate mesh (mesh.halfedge cur) (mesh.edge_halfedge e.first)
          e.second)) = some low ∧ valid_bary low := by
    by_cases h0 : k = 0
    · exact ⟨src.second, by simp [h0], hsrc⟩
    · have hget : edge_locations[k - 1]? = some (edge_locations[k - 1]) :=
        List.getElem?_eq_getElem (by omega)
      obtain ⟨e1, e2, e3, e4, e5⟩ := hel _ (List.getElem_mem (l := edge_locations)
        (n := k - 1) (by omega))
      refine ⟨_, by rw [if_neg h0, hget]; rfl,
        edge_barycentric_coordinate_valid mesh _ _ _ e1 e3 e5⟩
  obtain ⟨low, hlow, hlowv⟩ := hlow
  -- the upper end
  have hsub : size_t_sub parameters.length 2 = n := by
    rw [hlen, size_t_sub, if_pos (by omega)]
    omega
  have hpathget : ∀ (j : Nat) (e : Edge_location F), edge_locations[j]? = some e →
      (edge_locations.map (fun e => mesh.edge_halfedge e.first))[j]?
        = some (mesh.edge_halfedge e.first) := by
    intro j e he
    rw [List.getElem?_map, he]
    rfl
  have hassert : ∀ e : Edge_location F, edge_locations[k]? = some e →
      mesh.face (mesh.opposite (mesh.edge_halfedge e.first)) = cur := by
    intro e he
    rcases Nat.eq_zero_or_pos k with h0 | h0
    · subst h0
      rw [hcur0 rfl]
      exact hhead _ (hpathget 0 e he)
    · have hget : edge_locations[k - 1]? = some (edge_locations[k - 1]) :=
        List.getElem?_eq_getElem (by omega)
      rw [hcurpos _ h0 hget]
      have he' : edge_locations[k - 1 + 1]? = some e := by
        rw [Nat.sub_add_cancel h0]
        exact he
      exact (hstep (k - 1) _ _ (hpathget _ _ hget) (hpathget _ _ he')).symm
  have hhigh : ∃ high, (if k = size_t_sub parameters.length 2 then some tgt.second
      else match edge_locations[k]? with
        | none => none
        | some e =>
          if mesh.face (mesh.opposite (mesh.edge_halfedge e.first)) ≠ cur then none
          else some (edge_barycentric_coordinate mesh (mesh.halfedge cur)
            (mesh.opposite (mesh.edge_halfedge e.first)) (e.second.2, e.second.1)))
        = some high ∧ valid_bary high := by
    rw [hsub]
    by_cases hkn' : k = n
    · exact ⟨tgt.second, by simp [hkn'], htgt⟩
    · have hget : edge_locations[k]? = some (edge_locations[k]) :=
        List.getElem?_eq_getElem (by omega)
      obtain ⟨e1, e2, e3, e4, e5⟩ := hel _ (List.getElem_mem (l := edge_locations)
        (n := k) (by omega))
      have hk' : k < edge_locations.length := by omega
      refine ⟨edge_barycentric_coordinate mesh (mesh.halfedge cur)
        (mesh.opposite (mesh.edge_halfedge (edge_locations[k]).first))
        ((edge_locations[k]).second.2, (edge_locations[k]).second.1), ?_, ?_⟩
      · rw [if_neg hkn', hget]
        simp only [hassert _ hget, ne_eq, not_true_eq_false, if_false]
      exact edge_barycentric_coordinate_valid mesh _ _ _ e3 e1 (by simpa [add_comm] using e5)
  obtain ⟨high, hhigh, hhighv⟩ := hhigh
  refine ⟨⟨cur, lerp_bary ((t - lo) / (hi - lo)) low high⟩, k, ?_,
    lerp_bary_valid _ ha0 ha1 low high hlowv hhighv, hkn, ⟨lo, hi, hlo, hhi, hlot, hthi⟩,
    hcur0, ?_, fun e he => (hassert e he).symm, hcurpos⟩
  · simp only [eval_point_on_geodesic, if_neg (ne_of_gt ht0), if_neg (ne_of_lt ht1),
      if_neg _hface, Option.bind_eq_bind, hk, Option.some_bind, hlo, hhi, if_neg hne', hcur,
      hlow, hhigh]
  · intro hkn'
    have hget : edge_locations[k - 1]? = some (edge_locations[k - 1]) :=
      List.getElem?_eq_getElem (by omega)
    rw [hcurpos _ (by omega) hget]
    apply hend
    have hidx : (edge_locations.map (fun e => mesh.edge_halfedge e.first)).length - 1
        = k - 1 := by
      rw [List.length_map]
      omega
    rw [hidx]
    exact hpathget _ _ hget

theorem path_parameters_monotone_witness :
    ∃ result, path_parameters Rat.sqrt [middle_crossing] (two_triangles ℚ) left_corner
        right_corner = some result ∧ result.length = 3 ∧ result[0]? = some 0 ∧
      result[2]? = some 1 := by
  obtain ⟨r, h1, h2, h3, h4, -⟩ := path_parameters_monotone Rat.sqrt Rat.sqrt_nonneg
    rat_sqrt_pos (by decide!) [middle_crossing] (two_triangles ℚ) left_corner right_corner
    (by decide!)
  exact ⟨r, h1, h2, h3, h4⟩

theorem eval_point_on_geodesic_valid_witness :
    ∃ loc, eval_point_on_geodesic [middle_crossing] (two_triangles ℚ) left_corner right_corner
        [0, 1 / 2, 1] (1 / 4) = some loc ∧ valid_face_location loc ∧ loc.first = 0 := by
  obtain ⟨loc, i, h1, h2, h3, ⟨lo, hi, h4, h5, h6, h7⟩, h8, -⟩ :=
    eval_point_on_geodesic_valid Rat.sqrt [middle_crossing] (two_triangles ℚ) left_corner
      right_corner [0, 1 / 2, 1] (1 / 4) (by decide)
      (by norm_num [valid_face_location, valid_bary, Array3.sum, left_corner])
      (by norm_num [valid_face_location, valid_bary, Array3.sum, right_corner])
      (by simp [valid_edge_location, middle_crossing]; norm_num)
      (by
        refine ⟨by simp, ?_, ?_, ?_⟩
        · intro h hh
          simp [middle_crossing, two_triangles] at hh
          subst hh
          decide
        · intro i h h' _ hh
          simp at hh
        · intro h hh
          simp [middle_crossing, two_triangles] at hh
          subst hh
          decide)
      (by decide!) (by norm_num) (by norm_num)
  refine ⟨loc, h1, h2, h8 ?_⟩
  rcases i with _ | _ | i
  · rfl
  · simp at h4
    rw [← h4] at h6
    norm_num at h6
  · simp at h3

end Parameters

section Unfolding

variable {F : Type} [LinearOrderedField F]

/-- Sum of two plane vectors, by coordinates. -/
theorem vector_add_def (a b : Vector_2 F) : a + b = ⟨a.x + b.x, a.y + b.y⟩ := rfl

/-- Difference of two plane vectors, by coordinates. -/
theorem vector_sub_def (a b : Vector_2 F) : a - b = ⟨a.x - b.x, a.y - b.y⟩ := rfl

/-- When both assertions of `intersect_circles` hold and the square root is
exact on the discriminant, the call returns a point lying on both circles, each
squared radius being paired with the centre passed just before it. -/
theorem intersect_circles_on_circles (sqrt : F → F) (c2 : Vector_2 F) (R2 : F)
    (c1 : Vector_2 F) (R1 : F) (hR : 0 < (c2 - c1).squared_length)
    (hs : 0 ≤ circles_discriminant c2 R2 c1 R1)
    (hsq : sqrt (circles_discriminant c2 R2 c1 R1) * sqrt (circles_discriminant c2 R2 c1 R1)
      = circles_discriminant c2 R2 c1 R1) :
    ∃ P, intersect_circles sqrt c2 R2 c1 R1 = some P ∧
      squared_distance_2 P c1 = R1 ∧ squared_distance_2 P c2 = R2 := by
  have hs' : ¬ ¬ (2 * (R1 + R2) * (1 / (c2 - c1).squared_length)
      - (R1 - R2) * (1 / (c2 - c1).squared_length) * ((R1 - R2) * (1 / (c2 - c1).squared_length))
      - 1 ≥ 0) := not_not.2 hs
  refine ⟨_, by simp only [intersect_circles, not_not.2 hR, if_neg hs', if_false]; rfl, ?_, ?_⟩
  · rcases c1 with ⟨x1, y1⟩
    rcases c2 with ⟨x2, y2⟩
    have hri : ((x2 - x1) * (x2 - x1) + (y2 - y1) * (y2 - y1)) *
        (1 / ((x2 - x1) * (x2 - x1) + (y2 - y1) * (y2 - y1))) = 1 :=
      mul_one_div_cancel (ne_of_gt (by simpa [Vector_2.squared_length, vector_sub_def] using hR))
    have hw := hsq
    simp only [circles_discriminant, Vector_2.squared_length, squared_distance_2, Vector_2.div,
      Vector_2.scale, vector_add_def, vector_sub_def] at hw hri ⊢
    linear_combination
      (((x2 - x1) * (x2 - x1) + (y2 - y1) * (y2 - y1)) / 4) * hw + R1 * hri
  · rcases c1 with ⟨x1, y1⟩
    rcases c2 with ⟨x2, y2⟩
    have hri : ((x2 - x1) * (x2 - x1) + (y2 - y1) * (y2 - y1)) *
        (1 / ((x2 - x1) * (x2 - x1) + (y2 - y1) * (y2 - y1))) = 1 :=
      mul_one_div_cancel (ne_of_gt (by simpa [Vector_2.squared_length, vector_sub_def] using hR))
    have hw := hsq
    simp only [circles_discriminant, Vector_2.squared_length, squared_distance_2, Vector_2.div,
      Vector_2.scale, vector_add_def, vector_sub_def] at hw hri ⊢
    linear_combination
      (((x2 - x1) * (x2 - x1) + (y2 - y1) * (y2 - y1)) / 4) * hw + R2 * hri

/-- The squared distance does not depend on the order of the two points. -/
theorem squared_distance_comm (p q : Point_3 F) : squared_distance p q = squared_distance q p := by
  unfold squared_distance
  ring

/-- The squared norm of a cross product is non-negative. -/
theorem cross_squared_nonneg (p0 p1 p2 : Point_3 F) : 0 ≤ cross_squared p0 p1 p2 := by
  unfold cross_squared
  positivity

/-- The edge of a non-degenerate triangle has positive length. -/
theorem squared_distance_pos_of_cross (p0 p1 p2 : Point_3 F) (h : cross_squared p0 p1 p2 ≠ 0) :
    0 < squared_distance p0 p1 := by
  refine lt_of_le_of_ne (squared_distance_nonneg p0 p1) (Ne.symm ?_)
  intro h0
  rw [squared_distance_eq_zero] at h0
  subst h0
  exact h (by simp [cross_squared])

/-- Lagrange identity: the squared norm of a cross product. -/
theorem lagrange_identity (a1 a2 a3 b1 b2 b3 : F) :
    (a2 * b3 - a3 * b2) ^ 2 + (a3 * b1 - a1 * b3) ^ 2 + (a1 * b2 - a2 * b1) ^ 2 =
      (a1 * a1 + a2 * a2 + a3 * a3) * (b1 * b1 + b2 * b2 + b3 * b3)
        - (a1 * b1 + a2 * b2 + a3 * b3) ^ 2 := by
  ring

/-- The squared length of a difference, by the scalar product. -/
theorem squared_length_sub (a1 a2 a3 b1 b2 b3 : F) :
    (a1 - b1) * (a1 - b1) + (a2 - b2) * (a2 - b2) + (a3 - b3) * (a3 - b3) =
      (a1 * a1 + a2 * a2 + a3 * a3) + (b1 * b1 + b2 * b2 + b3 * b3)
        - 2 * (a1 * b1 + a2 * b2 + a3 * b3) := by
  ring

/-- The discriminant in terms of two squared side lengths `r`, `r2` and of the
scalar product `d` of the two sides. -/
theorem discriminant_algebra (r r2 d : F) (hr : r ≠ 0) :
    2 * ((r + r2 - 2 * d) + r2) * (1 / r)
      - ((r + r2 - 2 * d) - r2) * (1 / r) * (((r + r2 - 2 * d) - r2) * (1 / r)) - 1
      = 4 * (r * r2 - d ^ 2) / r ^ 2 := by
  field_simp
  ring

/-- For the squared side lengths of a triangle `A B V` in space, the
discriminant of the two-circle construction over the edge `A B` is a
non-negative multiple of the squared area. -/
theorem triangle_discriminant (A B V : Point_3 F) (hpos : 0 < squared_distance A B) :
    2 * (squared_distance B V + squared_distance A V) * (1 / squared_distance A B)
      - (squared_distance B V - squared_distance A V) * (1 / squared_distance A B)
        * ((squared_distance B V - squared_distance A V) * (1 / squared_distance A B)) - 1
      = 4 * cross_squared A B V / squared_distance A B ^ 2 := by
  have hne : squared_distance A B ≠ 0 := ne_of_gt hpos
  have hAB : squared_distance A B = (B.x - A.x) * (B.x - A.x) + (B.y - A.y) * (B.y - A.y)
      + (B.z - A.z) * (B.z - A.z) := by
    unfold squared_distance
    ring
  have hAV : squared_distance A V = (V.x - A.x) * (V.x - A.x) + (V.y - A.y) * (V.y - A.y)
      + (V.z - A.z) * (V.z - A.z) := by
    unfold squared_distance
    ring
  have hBV : squared_distance B V = squared_distance A B + squared_distance A V
      - 2 * ((B.x - A.x) * (V.x - A.x) + (B.y - A.y) * (V.y - A.y)
        + (B.z - A.z) * (V.z - A.z)) := by
    rw [hAB, hAV, ← squared_length_sub]
    unfold squared_distance
    ring
  have hcross : cross_squared A B V = squared_distance A B * squared_distance A V
      - ((B.x - A.x) * (V.x - A.x) + (B.y - A.y) * (V.y - A.y)
        + (B.z - A.z) * (V.z - A.z)) ^ 2 := by
    rw [hAB, hAV, ← lagrange_identity]
    rfl
  rw [hcross, hBV]
  exact discriminant_algebra _ _ _ hne

/-- The discriminant of `intersect_circles` is non-negative whenever the two
centres are at the distance of an edge `A B` and the squared radii are the
squared distances of a third point `V` to `A` and `B`, in either order. -/
theorem circles_discriminant_nonneg (A B V : Point_3 F) (c2 c1 : Vector_2 F) (R2 R1 : F)
    (hR : (c2 - c1).squared_length = squared_distance A B) (hpos : 0 < squared_distance A B)
    (hradii : (R1 = squared_distance B V ∧ R2 = squared_distance A V) ∨
      (R1 = squared_distance A V ∧ R2 = squared_distance B V)) :
    0 ≤ circles_discriminant c2 R2 c1 R1 := by
  have key := triangle_discriminant A B V hpos
  have hnn : 0 ≤ 4 * cross_squared A B V / squared_distance A B ^ 2 :=
    div_nonneg (mul_nonneg (by norm_num) (cross_squared_nonneg A B V)) (sq_nonneg _)
  unfold circles_discriminant
  rw [hR]
  rcases hradii with ⟨h1, h2⟩ | ⟨h1, h2⟩
  · rw [h1, h2, key]
    exact hnn
  · rw [h1, h2]
    have : 2 * (squared_distance A V + squared_distance B V) * (1 / squared_distance A B)
        - (squared_distance A V - squared_distance B V) * (1 / squared_distance A B)
          * ((squared_distance A V - squared_distance B V) * (1 / squared_distance A B)) - 1
        = 4 * cross_squared A B V / squared_distance A B ^ 2 := by
      rw [← key]
      ring
    rw [this]
    exact hnn

/-- C9: for a halfedge `h` whose two incident triangles are not degenerate, on
a mesh where `opposite(h)` runs from `target(h)` to `source(h)`, and with an
exact square root, `init_flat_triangle(h)` followed by `unfold_face(h, .)`
returns two flat triangles that share the images of `source(h)` and
`target(h)` and in which each of the five edges of the two triangles has its
squared 3D length. -/
theorem unfold_face_isometry (sqrt : F → F) (hsq : ∀ x, 0 ≤ x → sqrt x * sqrt x = x)
    (mesh : TriangleMesh F) (h : Nat)
    (hsrc : mesh.source (mesh.opposite h) = mesh.target h)
    (htgt : mesh.target (mesh.opposite h) = mesh.source h)
    (hnd : non_degenerate mesh h) (_hnd_opp : non_degenerate mesh (mesh.opposite h)) :
    ∃ flat nei, init_flat_triangle sqrt h mesh = some flat ∧
      unfold_face sqrt h mesh flat = some nei ∧
      nei.a0 = flat.a0 ∧ nei.a1 = flat.a1 ∧
      squared_distance_2 flat.a0 flat.a1 =
        squared_distance (mesh.vpm (mesh.source h)) (mesh.vpm (mesh.target h)) ∧
      squared_distance_2 flat.a2 flat.a0 =
        squared_distance (mesh.vpm (mesh.target (mesh.next h))) (mesh.vpm (mesh.source h)) ∧
      squared_distance_2 flat.a2 flat.a1 =
        squared_distance (mesh.vpm (mesh.target (mesh.next h))) (mesh.vpm (mesh.target h)) ∧
      squared_distance_2 nei.a2 nei.a0 =
        squared_distance (mesh.vpm (mesh.target (mesh.next (mesh.opposite h))))
          (mesh.vpm (mesh.source h)) ∧
      squared_distance_2 nei.a2 nei.a1 =
        squared_distance (mesh.vpm (mesh.target (mesh.next (mesh.opposite h))))
          (mesh.vpm (mesh.target h)) := by
  set A := mesh.vpm (mesh.source h) with hA
  set B := mesh.vpm (mesh.target h) with hB
  set V := mesh.vpm (mesh.target (mesh.next h)) with hV
  set W := mesh.vpm (mesh.target (mesh.next (mesh.opposite h))) with hW
  have hpos : 0 < squared_distance A B := squared_distance_pos_of_cross A B V hnd
  have hw : sqrt (squared_distance A B) * sqrt (squared_distance A B) = squared_distance A B :=
    hsq _ hpos.le
  set w := sqrt (squared_distance A B) with hwdef
  -- the flattened triangle of `h`
  have hR1 : ((⟨0, 0⟩ : Vector_2 F) - ⟨0, w⟩).squared_length = squared_distance A B := by
    simp only [Vector_2.squared_length, vector_sub_def]
    linear_combination hw
  have hd1 : 0 ≤ circles_discriminant (⟨0, 0⟩ : Vector_2 F) (squared_distance A V) ⟨0, w⟩
      (squared_distance B V) :=
    circles_discriminant_nonneg A B V _ _ _ _ hR1 hpos (Or.inl ⟨rfl, rfl⟩)
  obtain ⟨P, hP, hP1, hP2⟩ := intersect_circles_on_circles sqrt (⟨0, 0⟩ : Vector_2 F)
    (squared_distance A V) ⟨0, w⟩ (squared_distance B V) (by rw [hR1]; exact hpos) hd1
    (hsq _ hd1)
  -- the neighbour unfolded across `h`
  have hR2 : ((⟨0, w⟩ : Vector_2 F) - ⟨0, 0⟩).squared_length = squared_distance A B := by
    simp only [Vector_2.squared_length, vector_sub_def]
    linear_combination hw
  have hd2 : 0 ≤ circles_discriminant (⟨0, w⟩ : Vector_2 F) (squared_distance W B) ⟨0, 0⟩
      (squared_distance W A) :=
    circles_discriminant_nonneg A B W _ _ _ _ hR2 hpos
      (Or.inr ⟨squared_distance_comm W A, squared_distance_comm W B⟩)
  obtain ⟨Q, hQ, hQ1, hQ2⟩ := intersect_circles_on_circles sqrt (⟨0, w⟩ : Vector_2 F)
    (squared_distance W B) ⟨0, 0⟩ (squared_distance W A) (by rw [hR2]; exact hpos) hd2
    (hsq _ hd2)
  refine ⟨⟨⟨0, 0⟩, ⟨0, w⟩, P⟩, ⟨⟨0, 0⟩, ⟨0, w⟩, Q⟩, ?_, ?_, rfl, rfl, ?_, ?_, ?_, ?_, ?_⟩
  · simp only [init_flat_triangle, ← hA, ← hB, ← hV, ← hwdef, hP, Option.map_some']
  · simp only [unfold_face, hsrc, htgt, ← hA, ← hB, ← hW, hQ, Option.map_some']
  · simp only [squared_distance_2, Vector_2.squared_length, vector_sub_def]
    linear_combination hw
  · rw [hP2, squared_distance_comm]
  · rw [hP1, squared_distance_comm]
  · exact hQ1
  · exact hQ2

theorem unfold_face_isometry_witness :
    ∃ flat nei, init_flat_triangle Real.sqrt 0 (two_triangles ℝ) = some flat ∧
      unfold_face Real.sqrt 0 (two_triangles ℝ) flat = some nei ∧
      nei.a0 = flat.a0 ∧ nei.a1 = flat.a1 := by
  obtain ⟨flat, nei, h1, h2, h3, h4, -⟩ := unfold_face_isometry Real.sqrt
    (fun _ hx => Real.mul_self_sqrt hx) (two_triangles ℝ) 0 rfl rfl
    (by norm_num [non_degenerate, cross_squared, two_triangles])
    (by norm_num [non_degenerate, cross_squared, two_triangles])
  exact ⟨flat, nei, h1, h2, h3, h4⟩

/-- Two different points of the plane are at a positive distance. -/
theorem squared_length_sub_pos (c2 c1 : Vector_2 F) (h : c1 ≠ c2) :
    0 < (c2 - c1).squared_length := by
  rcases c1 with ⟨x1, y1⟩
  rcases c2 with ⟨x2, y2⟩
  simp only [Vector_2.squared_length, vector_sub_def]
  have hne : x2 - x1 ≠ 0 ∨ y2 - y1 ≠ 0 := by
    by_contra hcon
    push_neg at hcon
    apply h
    rw [Vector_2.mk.injEq]
    exact ⟨(sub_eq_zero.1 hcon.1).symm, (sub_eq_zero.1 hcon.2).symm⟩
  rcases hne with hx | hy
  · have := mul_self_pos.2 hx
    nlinarith [mul_self_nonneg (y2 - y1)]
  · have := mul_self_pos.2 hy
    nlinarith [mul_self_nonneg (x2 - x1)]

/-- The two-circle construction of the third corner of a flattened triangle
succeeds when the first two corners differ: the point returned is at the
squared distances `rx` and `ry` of the corners `(0, 0)` and `(0, w)`. -/
theorem flat_corner_returns (sqrt : F → F) (hsq : ∀ x, 0 ≤ x → sqrt x * sqrt x = x)
    (A B V : Point_3 F) (hAB : A ≠ B) :
    ∃ P, intersect_circles sqrt (⟨0, 0⟩ : Vector_2 F) (squared_distance A V)
        ⟨0, sqrt (squared_distance A B)⟩ (squared_distance B V) = some P ∧
      squared_distance_2 P ⟨0, sqrt (squared_distance A B)⟩ = squared_distance B V ∧
      squared_distance_2 P ⟨0, 0⟩ = squared_distance A V := by
  have hpos : 0 < squared_distance A B := by
    refine lt_of_le_of_ne (squared_distance_nonneg A B) (Ne.symm ?_)
    intro h0
    exact hAB ((squared_distance_eq_zero A B).1 h0)
  have hw := hsq _ hpos.le
  have hR1 : ((⟨0, 0⟩ : Vector_2 F) - ⟨0, sqrt (squared_distance A B)⟩).squared_length
      = squared_distance A B := by
    simp only [Vector_2.squared_length, vector_sub_def]
    linear_combination hw
  have hd1 := circles_discriminant_nonneg A B V (⟨0, 0⟩ : Vector_2 F)
    ⟨0, sqrt (squared_distance A B)⟩ (squared_distance A V) (squared_distance B V) hR1 hpos
    (Or.inl ⟨rfl, rfl⟩)
  exact intersect_circles_on_circles sqrt _ _ _ _ (by rw [hR1]; exact hpos) hd1 (hsq _ hd1)

/-- C18, on a triangle with vertices `(0,0,0)`, `(0,2,0)`, `(0,1,0)` on a line:
the discriminant is 0, the assertion `s >= 0` holds, and `init_flat_triangle`
returns a layout, the third corner on the segment of the first two. -/
theorem init_flat_triangle_collinear :
    cross_squared (collinear_triangle.vpm 0) (collinear_triangle.vpm 1)
      (collinear_triangle.vpm 2) = 0 ∧
    circles_discriminant (⟨0, 0⟩ : Vector_2 ℚ) 1 ⟨0, 2⟩ 1 = 0 ∧
    init_flat_triangle Rat.sqrt 0 collinear_triangle = some ⟨⟨0, 0⟩, ⟨0, 2⟩, ⟨0, 1⟩⟩ := by
  decide!

/-- C18, amended: with an exact square root, `init_flat_triangle(h)` fails
exactly when `source(h)` and `target(h)` have the same position (assertion
`R > 0`); for every other triangle, also one with three collinear vertices,
the assertion `s >= 0` holds and a layout is returned. -/
theorem init_flat_triangle_returns (sqrt : F → F) (hsq : ∀ x, 0 ≤ x → sqrt x * sqrt x = x)
    (mesh : TriangleMesh F) (h : Nat) :
    (init_flat_triangle sqrt h mesh).isSome ↔
      mesh.vpm (mesh.source h) ≠ mesh.vpm (mesh.target h) := by
  constructor
  · intro hsome heq
    have h0 : squared_distance (mesh.vpm (mesh.source h)) (mesh.vpm (mesh.target h)) = 0 :=
      (squared_distance_eq_zero _ _).2 heq
    have hw := hsq 0 (le_refl 0)
    have hw0 : sqrt 0 = 0 := mul_self_eq_zero.1 hw
    simp only [init_flat_triangle, h0, hw0, intersect_circles, vector_sub_def,
      Vector_2.squared_length] at hsome
    simp at hsome
  · intro hne
    obtain ⟨P, hP, -⟩ := flat_corner_returns sqrt hsq (mesh.vpm (mesh.source h))
      (mesh.vpm (mesh.target h)) (mesh.vpm (mesh.target (mesh.next h))) hne
    simp only [init_flat_triangle, hP]
    rfl

theorem init_flat_triangle_returns_witness :
    (init_flat_triangle Real.sqrt 0 (two_triangles ℝ)).isSome ↔
      (two_triangles ℝ).vpm ((two_triangles ℝ).source 0)
        ≠ (two_triangles ℝ).vpm ((two_triangles ℝ).target 0) :=
  init_flat_triangle_returns Real.sqrt (fun _ hx => Real.mul_self_sqrt hx) (two_triangles ℝ) 0

/-- C19: for two different centres and squared radii of non-negative
discriminant, with an exact square root, `intersect_circles(c2, R2, c1, R1)`
returns a point that lies on both circles, each squared radius being paired
with the centre passed just before it. -/
theorem intersect_circles_both_circles (sqrt : F → F)
    (hsq : ∀ x, 0 ≤ x → sqrt x * sqrt x = x) (c2 : Vector_2 F) (R2 : F) (c1 : Vector_2 F)
    (R1 : F) (hc : c1 ≠ c2) (hs : 0 ≤ circles_discriminant c2 R2 c1 R1) :
    ∃ P, intersect_circles sqrt c2 R2 c1 R1 = some P ∧
      squared_distance_2 P c1 = R1 ∧ squared_distance_2 P c2 = R2 :=
  intersect_circles_on_circles sqrt c2 R2 c1 R1 (squared_length_sub_pos c2 c1 hc) hs (hsq _ hs)

theorem intersect_circles_both_circles_witness :
    ∃ P, intersect_circles Real.sqrt (⟨0, 2⟩ : Vector_2 ℝ) 2 ⟨0, 0⟩ 2 = some P ∧
      squared_distance_2 P ⟨0, 0⟩ = 2 ∧ squared_distance_2 P ⟨0, 2⟩ = 2 :=
  intersect_circles_both_circles Real.sqrt (fun _ hx => Real.mul_self_sqrt hx) ⟨0, 2⟩ 2 ⟨0, 0⟩ 2
    (by simp) (by norm_num [circles_discriminant, Vector_2.squared_length, vector_sub_def])

/-- The squared distance of the plane does not depend on the order. -/
theorem squared_distance_2_comm (p q : Vector_2 F) :
    squared_distance_2 p q = squared_distance_2 q p := by
  simp only [squared_distance_2, Vector_2.squared_length, vector_sub_def]
  ring

/-- Two points of the plane at a non-zero squared distance differ. -/
theorem ne_of_squared_distance_2 (p q : Vector_2 F) (h : squared_distance_2 p q ≠ 0) : p ≠ q := by
  rintro rfl
  apply h
  simp [squared_distance_2, Vector_2.squared_length, vector_sub_def]

/-- In a non-degenerate triangle the third vertex differs from the first
two. -/
theorem third_vertex_ne (p0 p1 p2 : Point_3 F) (h : cross_squared p0 p1 p2 ≠ 0) :
    p2 ≠ p0 ∧ p2 ≠ p1 := by
  constructor
  · rintro rfl
    exact h (by simp [cross_squared])
  · rintro rfl
    apply h
    unfold cross_squared
    ring

/-- The re-basing succeeds on a location of the face of a valid halfedge. -/
theorem rebase_bary_isSome (mesh : TriangleMesh F) (h : Nat) (loc : Face_location F)
    (hv : valid_halfedge mesh h) (hface : mesh.face h = loc.first) :
    ∃ bary, rebase_bary mesh h loc = some bary := by
  have h6 := hv.2.2.2.2.2
  rw [hface] at h6
  apply Option.isSome_iff_exists.1
  unfold rebase_bary
  dsimp only
  split_ifs with a b c
  · rfl
  · rfl
  · exfalso
    rcases h6 with h6 | h6 | h6
    · exact a h6
    · exact b h6
    · exact c h6
  · rfl

/-- One step of the unfolding of a strip: across a valid step of the strip,
from a portal at the squared distance of the end points of `h_curr`, the next
portal is returned and continues it. -/
theorem unfold_face_portal_step (sqrt : F → F) (hsq : ∀ x, 0 ≤ x → sqrt x * sqrt x = x)
    (mesh : TriangleMesh F) (h_curr h_next : Nat) (flat_tid : Vector_2 F × Vector_2 F)
    (hvc : valid_halfedge mesh h_curr) (hvn : valid_halfedge mesh h_next)
    (hface : mesh.face h_curr = mesh.face (mesh.opposite h_next))
    (hstep : mesh.next h_curr = mesh.opposite h_next ∨ mesh.prev h_curr = mesh.opposite h_next)
    (hnd : non_degenerate mesh h_curr)
    (hflat : squared_distance_2 flat_tid.2 flat_tid.1 = squared_distance
      (mesh.vpm (mesh.target h_curr)) (mesh.vpm (mesh.source h_curr))) :
    ∃ portal, unfold_face_portal sqrt h_curr h_next mesh flat_tid = some portal ∧
      portal_step mesh h_curr flat_tid h_next portal := by
  obtain ⟨c1, c2, c3, c4, c5, -⟩ := hvc
  obtain ⟨n1, n2, -⟩ := hvn
  have hpos : 0 < squared_distance (mesh.vpm (mesh.target h_curr))
      (mesh.vpm (mesh.source h_curr)) := by
    rw [squared_distance_comm]
    exact squared_distance_pos_of_cross _ _ _ hnd
  have hd := circles_discriminant_nonneg (mesh.vpm (mesh.target h_curr))
    (mesh.vpm (mesh.source h_curr)) (mesh.vpm (mesh.target (mesh.next h_curr)))
    flat_tid.2 flat_tid.1
    (squared_distance (mesh.vpm (mesh.target (mesh.next h_curr))) (mesh.vpm (mesh.source h_curr)))
    (squared_distance (mesh.vpm (mesh.target (mesh.next h_curr))) (mesh.vpm (mesh.target h_curr)))
    hflat hpos (Or.inr ⟨squared_distance_comm _ _, squared_distance_comm _ _⟩)
  obtain ⟨P, hP, hP1, hP2⟩ := intersect_circles_on_circles sqrt flat_tid.2 _ flat_tid.1 _
    (by rw [← squared_distance_2, hflat]; exact hpos) hd (hsq _ hd)
  by_cases hnext : mesh.next h_curr = mesh.opposite h_next
  · refine ⟨(flat_tid.1, P), ?_, ?_, ?_, ?_⟩
    · unfold unfold_face_portal
      dsimp only
      rw [if_neg (not_not.2 hface), hP]
      simp only [hnext, if_true]
    · show squared_distance_2 P flat_tid.1 = _
      rw [hP1, ← n1, ← n2, ← hnext, c3, squared_distance_comm]
    · intro _
      exact ⟨rfl, hP1, hP2⟩
    · intro hcon
      exact absurd hnext hcon
  · have hprev : mesh.prev h_curr = mesh.opposite h_next := by
      rcases hstep with h1 | h1
      · exact absurd h1 hnext
      · exact h1
    refine ⟨(P, flat_tid.2), ?_, ?_, ?_, ?_⟩
    · unfold unfold_face_portal
      dsimp only
      rw [if_neg (not_not.2 hface), hP]
      simp only [hnext, hprev, if_true, if_false]
    · show squared_distance_2 flat_tid.2 P = _
      rw [squared_distance_2_comm, hP2, ← n1, ← n2, ← hprev, c4, c5]
    · intro hcon
      exact absurd hcon hnext
    · intro _
      exact ⟨rfl, hP1, hP2⟩

/-- The loop of `unfold_strip` over a valid strip of non-degenerate faces
returns a chain of portals, and ends on the last halfedge with a portal at the
squared distance of its end points. -/
theorem unfold_faces_chain (sqrt : F → F) (hsq : ∀ x, 0 ≤ x → sqrt x * sqrt x = x)
    (mesh : TriangleMesh F) (path : List Nat) (h_curr : Nat)
    (flat_tid : Vector_2 F × Vector_2 F)
    (hvalid : ∀ h ∈ h_curr :: path, valid_halfedge mesh h ∧ non_degenerate mesh h)
    (hfaces : strip_faces mesh (h_curr :: path)) (hsteps : strip_steps mesh (h_curr :: path))
    (hflat : squared_distance_2 flat_tid.2 flat_tid.1 = squared_distance
      (mesh.vpm (mesh.target h_curr)) (mesh.vpm (mesh.source h_curr))) :
    ∃ result back last, unfold_faces sqrt mesh h_curr flat_tid path = some (result, back, last) ∧
      portal_chain mesh h_curr flat_tid path result ∧
      (h_curr :: path).getLast? = some back ∧
      squared_distance_2 last.2 last.1 = squared_distance
        (mesh.vpm (mesh.target back)) (mesh.vpm (mesh.source back)) := by
  induction path generalizing h_curr flat_tid with
  | nil => exact ⟨[], h_curr, flat_tid, rfl, trivial, rfl, hflat⟩
  | cons h_next path ih =>
    have hc := hvalid h_curr (List.mem_cons_self _ _)
    have hn := hvalid h_next (List.mem_cons_of_mem _ (List.mem_cons_self _ _))
    obtain ⟨portal, hportal, hstep⟩ := unfold_face_portal_step sqrt hsq mesh h_curr h_next
      flat_tid hc.1 hn.1 hfaces.1 hsteps.1 hc.2 hflat
    obtain ⟨result, back, last, hres, hchain, hback, hlast⟩ := ih h_next portal
      (fun h hh => hvalid h (List.mem_cons_of_mem _ hh)) hfaces.2 hsteps.2 hstep.1
    refine ⟨portal :: result, back, last, ?_, ⟨hstep, hchain⟩, ?_, hlast⟩
    · simp only [unfold_faces, hportal, hres, Option.bind_eq_bind, Option.some_bind]
    · rw [List.getLast?_cons_cons]
      exact hback

/-- The first portal: with the source at the origin, the image of the first
crossed edge, at the squared distance of its end points. -/
theorem init_source_triangle_edge (sqrt : F → F) (hsq : ∀ x, 0 ≤ x → sqrt x * sqrt x = x)
    (mesh : TriangleMesh F) (h0 : Nat) (src : Face_location F)
    (hv : valid_halfedge mesh h0) (hvo : valid_halfedge mesh (mesh.opposite h0))
    (hface : mesh.face (mesh.opposite h0) = src.first)
    (hne : mesh.vpm (mesh.target h0) ≠ mesh.vpm (mesh.source h0)) :
    ∃ first, init_source_triangle sqrt h0 mesh src = some first ∧
      squared_distance_2 first.2 first.1 = squared_distance
        (mesh.vpm (mesh.target h0)) (mesh.vpm (mesh.source h0)) := by
  obtain ⟨v1, v2, -⟩ := hv
  obtain ⟨bary, hbary⟩ := rebase_bary_isSome mesh (mesh.opposite h0) src hvo hface
  obtain ⟨P, hP, -⟩ := flat_corner_returns sqrt hsq (mesh.vpm (mesh.target h0))
    (mesh.vpm (mesh.source h0))
    (mesh.vpm (mesh.target (mesh.next (mesh.opposite h0)))) hne
  have hpos : 0 ≤ squared_distance (mesh.vpm (mesh.target h0)) (mesh.vpm (mesh.source h0)) :=
    squared_distance_nonneg _ _
  have hw := hsq _ hpos
  refine ⟨((⟨0, 0⟩ : Vector_2 F) - flat_point ⟨⟨0, 0⟩, ⟨0, sqrt (squared_distance
      (mesh.vpm (mesh.target h0)) (mesh.vpm (mesh.source h0)))⟩, P⟩ bary,
    (⟨0, sqrt (squared_distance (mesh.vpm (mesh.target h0)) (mesh.vpm (mesh.source h0)))⟩ :
      Vector_2 F) - flat_point ⟨⟨0, 0⟩, ⟨0, sqrt (squared_distance
      (mesh.vpm (mesh.target h0)) (mesh.vpm (mesh.source h0)))⟩, P⟩ bary), ?_, ?_⟩
  · simp only [init_source_triangle, v1, v2, hP, hbary, Option.bind_eq_bind, Option.some_bind]
  · simp only [squared_distance_2, Vector_2.squared_length, vector_sub_def]
    linear_combination hw

/-- The last portal: both its endpoints are the image of the target. -/
theorem init_target_triangle_point (sqrt : F → F) (hsq : ∀ x, 0 ≤ x → sqrt x * sqrt x = x)
    (mesh : TriangleMesh F) (h : Nat) (flat_tid : Vector_2 F × Vector_2 F)
    (tgt : Face_location F) (hv : valid_halfedge mesh h) (hnd : non_degenerate mesh h)
    (hface : mesh.face h = tgt.first)
    (hflat : squared_distance_2 flat_tid.2 flat_tid.1 = squared_distance
      (mesh.vpm (mesh.target h)) (mesh.vpm (mesh.source h))) :
    ∃ target, init_target_triangle sqrt h flat_tid mesh tgt = some target ∧
      target.1 = target.2 := by
  obtain ⟨bary, hbary⟩ := rebase_bary_isSome mesh h tgt hv hface
  have hpos : 0 < squared_distance (mesh.vpm (mesh.target h)) (mesh.vpm (mesh.source h)) := by
    rw [squared_distance_comm]
    exact squared_distance_pos_of_cross _ _ _ hnd
  have hd := circles_discriminant_nonneg (mesh.vpm (mesh.target h))
    (mesh.vpm (mesh.source h)) (mesh.vpm (mesh.target (mesh.next h)))
    flat_tid.2 flat_tid.1
    (squared_distance (mesh.vpm (mesh.source h)) (mesh.vpm (mesh.target (mesh.next h))))
    (squared_distance (mesh.vpm (mesh.target h)) (mesh.vpm (mesh.target (mesh.next h))))
    hflat hpos (Or.inr ⟨rfl, rfl⟩)
  obtain ⟨P, hP, -⟩ := intersect_circles_on_circles sqrt flat_tid.2 _ flat_tid.1 _
    (by rw [← squared_distance_2, hflat]; exact hpos) hd (hsq _ hd)
  refine ⟨(flat_point ⟨flat_tid.2, flat_tid.1, P⟩ bary,
    flat_point ⟨flat_tid.2, flat_tid.1, P⟩ bary), ?_, rfl⟩
  simp only [init_target_triangle, hP, hbary, Option.bind_eq_bind, Option.some_bind]

/-- A chain of portals has one portal per halfedge. -/
theorem portal_chain_length (mesh : TriangleMesh F) (path : List Nat) (h_curr : Nat)
    (flat_tid : Vector_2 F × Vector_2 F) (result : List (Vector_2 F × Vector_2 F))
    (h : portal_chain mesh h_curr flat_tid path result) : result.length = path.length := by
  induction path generalizing h_curr flat_tid result with
  | nil =>
    cases result with
    | nil => rfl
    | cons q r => exact absurd h (by simp [portal_chain])
  | cons h_next path ih =>
    cases result with
    | nil => exact absurd h (by simp [portal_chain])
    | cons q r =>
      simp only [List.length_cons]
      rw [ih h_next q r h.2]

/-- In a chain of portals, the portal of index `i` continues the portal
before it. -/
theorem portal_chain_step (mesh : TriangleMesh F) (path : List Nat) (h_curr : Nat)
    (flat_tid : Vector_2 F × Vector_2 F) (result : List (Vector_2 F × Vector_2 F))
    (hchain : portal_chain mesh h_curr flat_tid path result) (i : Nat) (h h' : Nat)
    (p q : Vector_2 F × Vector_2 F) (hh : (h_curr :: path)[i]? = some h)
    (hh' : (h_curr :: path)[i + 1]? = some h') (hp : (flat_tid :: result)[i]? = some p)
    (hq : (flat_tid :: result)[i + 1]? = some q) : portal_step mesh h p h' q := by
  induction path generalizing h_curr flat_tid result i with
  | nil => simp at hh'
  | cons h_next path ih =>
    cases result with
    | nil => exact absurd hchain (by simp [portal_chain])
    | cons r result =>
      cases i with
      | zero =>
        simp only [List.getElem?_cons_zero, List.getElem?_cons_succ, Option.some.injEq,
          zero_add] at hh hh' hp hq
        subst hh hh' hp hq
        exact hchain.1
      | succ j =>
        rw [List.getElem?_cons_succ] at hh hh' hp hq
        exact ih h_next r result hchain.2 j hh hh' hp hq

/-- The steps of a valid strip, from its indexed form. -/
theorem strip_faces_of_index (mesh : TriangleMesh F) (path : List Nat)
    (h : ∀ i a b, path[i]? = some a → path[i + 1]? = some b →
      mesh.face a = mesh.face (mesh.opposite b)) : strip_faces mesh path := by
  induction path with
  | nil => trivial
  | cons a path ih =>
    cases path with
    | nil => trivial
    | cons b path =>
      refine ⟨h 0 a b (by simp) (by simp), ih ?_⟩
      intro i x y hx hy
      exact h (i + 1) x y (by rw [List.getElem?_cons_succ]; exact hx)
        (by rw [List.getElem?_cons_succ]; exact hy)

/-- The unfolding of a valid strip over non-degenerate faces, with an exact
square root: it returns the first portal, a chain of portals that continues
it, and a last portal with equal endpoints. -/
theorem unfold_strip_chain (sqrt : F → F) (hsq : ∀ x, 0 ≤ x → sqrt x * sqrt x = x)
    (mesh : TriangleMesh F) (h0 : Nat) (rest : List Nat) (src tgt : Face_location F)
    (hvalid : ∀ h ∈ h0 :: rest, valid_halfedge mesh h ∧ non_degenerate mesh h)
    (hvo : valid_halfedge mesh (mesh.opposite h0))
    (hstrip : valid_strip mesh src tgt (h0 :: rest))
    (hsteps : strip_steps mesh (h0 :: rest)) :
    ∃ first result target,
      unfold_strip sqrt (h0 :: rest) src tgt mesh = some (first :: result ++ [target]) ∧
      result.length = rest.length ∧
      squared_distance_2 first.2 first.1 = squared_distance
        (mesh.vpm (mesh.target h0)) (mesh.vpm (mesh.source h0)) ∧
      portal_chain mesh h0 first rest result ∧ target.1 = target.2 := by
  obtain ⟨-, hhead, hstepf, hend⟩ := hstrip
  have h0v := hvalid h0 (List.mem_cons_self _ _)
  have hne : mesh.vpm (mesh.target h0) ≠ mesh.vpm (mesh.source h0) := by
    have hpos := squared_distance_pos_of_cross _ _ _ h0v.2
    intro heq
    rw [heq, (squared_distance_eq_zero _ _).2 rfl] at hpos
    exact lt_irrefl _ hpos
  obtain ⟨first, hfirst, hdist⟩ := init_source_triangle_edge sqrt hsq mesh h0 src h0v.1 hvo
    (hhead h0 (by simp)) hne
  obtain ⟨result, back, last, hres, hchain, hback, hlast⟩ := unfold_faces_chain sqrt hsq mesh
    rest h0 first hvalid (strip_faces_of_index mesh _ hstepf) hsteps hdist
  have hbackmem : back ∈ h0 :: rest := List.mem_of_getLast?_eq_some hback
  have hbv := hvalid back hbackmem
  have hbface : mesh.face back = tgt.first := by
    apply hend
    rw [← hback, List.getLast?_eq_getElem?]
  obtain ⟨target, htarget, hdeg⟩ := init_target_triangle_point sqrt hsq mesh back last tgt
    hbv.1 hbv.2 hbface hlast
  refine ⟨first, result, target, ?_, portal_chain_length mesh rest h0 first result hchain,
    hdist, hchain, hdeg⟩
  simp only [unfold_strip, hfirst, hres, htarget, Option.bind_eq_bind, Option.some_bind]

/-- The strip `3, 7` of the tetrahedron, from face `0` through face `1` to face
`2`, is a valid strip over non-degenerate faces. -/
theorem tetrahedron_strip :
    (∀ h ∈ [3, 7], valid_halfedge (tetrahedron ℝ) h ∧ non_degenerate (tetrahedron ℝ) h) ∧
    (∀ h, [3, 7][0]? = some h → valid_halfedge (tetrahedron ℝ) ((tetrahedron ℝ).opposite h)) ∧
    valid_strip (tetrahedron ℝ) (face_centre ℝ 0) (face_centre ℝ 2) [3, 7] ∧
    strip_steps (tetrahedron ℝ) [3, 7] := by
  refine ⟨?_, ?_, ⟨by simp, ?_, ?_, ?_⟩, ?_⟩
  · intro h hh
    simp only [List.mem_cons, List.mem_singleton, List.not_mem_nil, or_false] at hh
    rcases hh with rfl | rfl
    · exact ⟨by simp [valid_halfedge, tetrahedron],
        by norm_num [non_degenerate, cross_squared, tetrahedron]⟩
    · exact ⟨by simp [valid_halfedge, tetrahedron],
        by norm_num [non_degenerate, cross_squared, tetrahedron]⟩
  · intro h hh
    simp only [List.getElem?_cons_zero, Option.some.injEq] at hh
    subst hh
    simp [valid_halfedge, tetrahedron]
  · intro h hh
    simp only [List.getElem?_cons_zero, Option.some.injEq] at hh
    subst hh
    simp [tetrahedron, face_centre]
  · intro i a b ha hb
    cases i with
    | zero =>
      simp only [List.getElem?_cons_zero, List.getElem?_cons_succ, Option.some.injEq,
        zero_add] at ha hb
      subst ha hb
      simp [tetrahedron]
    | succ j => simp at hb
  · intro h hh
    simp only [List.length_cons, List.length_nil, zero_add, Nat.add_one_sub_one,
      List.getElem?_cons_succ, List.getElem?_cons_zero, Option.some.injEq] at hh
    subst hh
    simp [tetrahedron, face_centre]
  · exact ⟨Or.inr (by simp [tetrahedron]), trivial⟩

/-- C15: for a valid strip over non-degenerate faces, with an exact square
root, two consecutive portals returned by `unfold_strip` share exactly one
endpoint: the first one when `next(path[i]) == opposite(path[i+1])`, the
second one when `prev(path[i]) == opposite(path[i+1])`, and the other endpoint
of the later portal differs from both endpoints of the earlier one. -/
theorem unfold_strip_shared_endpoint (sqrt : F → F)
    (hsq : ∀ x, 0 ≤ x → sqrt x * sqrt x = x)
    (mesh : TriangleMesh F) (path : List Nat) (src tgt : Face_location F)
    (hvalid : ∀ h ∈ path, valid_halfedge mesh h ∧ non_degenerate mesh h)
    (hvo : ∀ h, path[0]? = some h → valid_halfedge mesh (mesh.opposite h))
    (hstrip : valid_strip mesh src tgt path) (hsteps : strip_steps mesh path) :
    ∃ portals, unfold_strip sqrt path src tgt mesh = some portals ∧
      ∀ (i h h' : Nat) (p q : Vector_2 F × Vector_2 F), path[i]? = some h →
        path[i + 1]? = some h' → portals[i]? = some p → portals[i + 1]? = some q →
        (mesh.next h = mesh.opposite h' → q.1 = p.1 ∧ q.2 ≠ p.1 ∧ q.2 ≠ p.2) ∧
        (mesh.prev h = mesh.opposite h' → q.2 = p.2 ∧ q.1 ≠ p.1 ∧ q.1 ≠ p.2) := by
  cases path with
  | nil => exact absurd rfl hstrip.1
  | cons h0 rest =>
    obtain ⟨first, result, target, hun, hlen, -, hchain, -⟩ := unfold_strip_chain sqrt hsq
      mesh h0 rest src tgt hvalid (hvo h0 (by simp)) hstrip hsteps
    refine ⟨_, hun, ?_⟩
    intro i h h' p q hh hh' hp hq
    have hi : i + 1 < (h0 :: rest).length := (List.getElem?_eq_some_iff.1 hh').1
    have hlt : i + 1 < (first :: result).length := by
      simp only [List.length_cons] at hi ⊢
      omega
    have hp1 : (first :: result)[i]? = some p := by
      rw [List.getElem?_append_left (by omega)] at hp
      exact hp
    have hq1 : (first :: result)[i + 1]? = some q := by
      rw [List.getElem?_append_left hlt] at hq
      exact hq
    obtain ⟨-, hnext, hother⟩ := portal_chain_step mesh rest h0 first result hchain i h h' p q
      hh hh' hp1 hq1
    have hv := hvalid h (List.getElem?_mem hh)
    obtain ⟨hVA, hVB⟩ := third_vertex_ne _ _ _ hv.2
    have hdA : squared_distance (mesh.vpm (mesh.target (mesh.next h)))
        (mesh.vpm (mesh.target h)) ≠ 0 := by
      rw [Ne, squared_distance_eq_zero]
      exact hVB
    have hdB : squared_distance (mesh.vpm (mesh.target (mesh.next h)))
        (mesh.vpm (mesh.source h)) ≠ 0 := by
      rw [Ne, squared_distance_eq_zero]
      exact hVA
    refine ⟨?_, ?_⟩
    · intro hn
      obtain ⟨e1, e2, e3⟩ := hnext hn
      exact ⟨e1, ne_of_squared_distance_2 _ _ (by rw [e2]; exact hdA),
        ne_of_squared_distance_2 _ _ (by rw [e3]; exact hdB)⟩
    · intro hpv
      have hnn : mesh.next h ≠ mesh.opposite h' := by
        intro hn
        have hsame : mesh.next h = mesh.prev h := hn.trans hpv.symm
        have e1 := hv.1.2.2.1
        have e2 := hv.1.2.2.2.2.1
        rw [← hsame, e1] at e2
        apply hVB
        rw [e2]
      obtain ⟨e1, e2, e3⟩ := hother hnn
      exact ⟨e1, ne_of_squared_distance_2 _ _ (by rw [e2]; exact hdA),
        ne_of_squared_distance_2 _ _ (by rw [e3]; exact hdB)⟩

theorem unfold_strip_shared_endpoint_witness :
    ∃ portals, unfold_strip Real.sqrt [3, 7] (face_centre ℝ 0) (face_centre ℝ 2)
        (tetrahedron ℝ) = some portals ∧
      ∀ (i h h' : Nat) (p q : Vector_2 ℝ × Vector_2 ℝ), [3, 7][i]? = some h →
        [3, 7][i + 1]? = some h' → portals[i]? = some p → portals[i + 1]? = some q →
        ((tetrahedron ℝ).next h = (tetrahedron ℝ).opposite h' →
          q.1 = p.1 ∧ q.2 ≠ p.1 ∧ q.2 ≠ p.2) ∧
        ((tetrahedron ℝ).prev h = (tetrahedron ℝ).opposite h' →
          q.2 = p.2 ∧ q.1 ≠ p.1 ∧ q.1 ≠ p.2) :=
  unfold_strip_shared_endpoint Real.sqrt (fun _ hx => Real.mul_self_sqrt hx) (tetrahedron ℝ)
    [3, 7] (face_centre ℝ 0) (face_centre ℝ 2) tetrahedron_strip.1 tetrahedron_strip.2.1
    tetrahedron_strip.2.2.1 tetrahedron_strip.2.2.2

/-- C14, on the strip of one edge of `two_triangles`, from the vertex `2` to
the vertex `3`: the strip is valid, the last portal has equal endpoints, and
the first portal has the two different endpoints `(1, -1)` and `(1, 1)`, the
images of the end points of the crossed edge. -/
theorem unfold_strip_first_portal :
    valid_strip (two_triangles ℚ) left_corner right_corner [3] ∧
    unfold_strip Rat.sqrt [3] left_corner right_corner (two_triangles ℚ)
      = some [(⟨1, -1⟩, ⟨1, 1⟩), (⟨2, 0⟩, ⟨2, 0⟩)] ∧
    (⟨1, -1⟩ : Vector_2 ℚ) ≠ ⟨1, 1⟩ := by
  refine ⟨⟨by simp, ?_, ?_, ?_⟩, by decide!, by decide!⟩
  · intro h hh
    simp only [List.getElem?_cons_zero, Option.some.injEq] at hh
    subst hh
    decide
  · intro i a b _ hb
    simp at hb
  · intro h hh
    simp only [List.length_cons, List.length_nil, zero_add, Nat.sub_self,
      List.getElem?_cons_zero, Option.some.injEq] at hh
    subst hh
    decide

/-- C14, amended: for a valid strip of `s >= 1` halfedges over non-degenerate
faces, with an exact square root, the last portal returned by `unfold_strip`
has equal endpoints (the image of the target), and the first portal is the
image of the first crossed edge in the frame where the source is the origin:
its endpoints are at the squared distance of the end points of `path[0]`, and
they differ. -/
theorem unfold_strip_end_portals (sqrt : F → F) (hsq : ∀ x, 0 ≤ x → sqrt x * sqrt x = x)
    (mesh : TriangleMesh F) (path : List Nat) (src tgt : Face_location F)
    (hvalid : ∀ h ∈ path, valid_halfedge mesh h ∧ non_degenerate mesh h)
    (hvo : ∀ h, path[0]? = some h → valid_halfedge mesh (mesh.opposite h))
    (hstrip : valid_strip mesh src tgt path) (hsteps : strip_steps mesh path) :
    ∃ portals first last h0, unfold_strip sqrt path src tgt mesh = some portals ∧
      path[0]? = some h0 ∧ portals[0]? = some first ∧ portals[path.length]? = some last ∧
      last.1 = last.2 ∧ first.1 ≠ first.2 ∧
      squared_distance_2 first.1 first.2 = squared_distance
        (mesh.vpm (mesh.target h0)) (mesh.vpm (mesh.source h0)) := by
  cases path with
  | nil => exact absurd rfl hstrip.1
  | cons h0 rest =>
    obtain ⟨first, result, target, hun, hlen, hdist, -, hdeg⟩ := unfold_strip_chain sqrt hsq
      mesh h0 rest src tgt hvalid (hvo h0 (by simp)) hstrip hsteps
    have hpos := squared_distance_pos_of_cross _ _ _ (hvalid h0 (List.mem_cons_self _ _)).2
    rw [squared_distance_comm, ← hdist, squared_distance_2_comm] at hpos
    refine ⟨_, first, target, h0, hun, by simp, by simp, ?_, hdeg,
      ne_of_squared_distance_2 _ _ (ne_of_gt hpos), ?_⟩
    · rw [List.getElem?_append_right (by simp [hlen])]
      simp [hlen]
    · rw [squared_distance_2_comm]
      exact hdist

theorem unfold_strip_end_portals_witness :
    ∃ portals first last h0, unfold_strip Real.sqrt [3, 7] (face_centre ℝ 0) (face_centre ℝ 2)
        (tetrahedron ℝ) = some portals ∧
      [3, 7][0]? = some h0 ∧ portals[0]? = some first ∧ portals[[3, 7].length]? = some last ∧
      last.1 = last.2 ∧ first.1 ≠ first.2 ∧
      squared_distance_2 first.1 first.2 = squared_distance
        ((tetrahedron ℝ).vpm ((tetrahedron ℝ).target h0))
        ((tetrahedron ℝ).vpm ((tetrahedron ℝ).source h0)) :=
  unfold_strip_end_portals Real.sqrt (fun _ hx => Real.mul_self_sqrt hx) (tetrahedron ℝ)
    [3, 7] (face_centre ℝ 0) (face_centre ℝ 2) tetrahedron_strip.1 tetrahedron_strip.2.1
    tetrahedron_strip.2.2.1 tetrahedron_strip.2.2.2

end Unfolding

/-- Reading a vector four places further skips one segment. -/
theorem getElem?_add_four {α : Type} (a b c d : α) (l : List α) (k : Nat) :
    (a :: b :: c :: d :: l)[k + 4]? = l[k]? := by
  simp [List.getElem?_cons_succ]

/-- The flattened vector holds four locations per segment. -/
theorem flatten_segments_length {F : Type} (segments : List (Bezier_segment F)) :
    (flatten_segments segments).length = 4 * segments.length := by
  induction segments with
  | nil => rfl
  | cons s rest ih =>
    simp [flatten_segments, ih]
    ring

/-- Shape of one subdivision: the first half starts where the polygon starts,
the second half starts where the first ends and ends where the polygon ends. -/
theorem subdivide_bezier_polygon_with_shape {F : Type} (lerp : Face_location F → Face_location F → F →
    Option (Face_location F)) (s : Bezier_segment F) (t : F)
    (pr : Bezier_segment F × Bezier_segment F)
    (h : subdivide_bezier_polygon_with lerp s t = some pr) :
    pr.1.p0 = s.p0 ∧ pr.1.p3 = pr.2.p0 ∧ pr.2.p3 = s.p3 := by
  simp only [subdivide_bezier_polygon_with, Option.bind_eq_bind, Option.bind_eq_some,
    Option.some.injEq] at h
  obtain ⟨q0, -, q1, -, q2, -, r0, -, r1, -, s1, -, hpr⟩ := h
  subst hpr
  exact ⟨rfl, rfl, rfl⟩

section Bezier

variable {F : Type} [LinearOrderedField F]

/-- At `t = 0` a returning `geodesic_lerp` returns its first argument. -/
theorem geodesic_lerp_zero (stages : Path_stages F) (sqrt : F → F) (mesh : TriangleMesh F)
    (src tgt : Face_location F) (h : (geodesic_lerp stages sqrt mesh src tgt 0).isSome) :
    geodesic_lerp stages sqrt mesh src tgt 0 = some src := by
  unfold geodesic_lerp at h ⊢
  cases hl : locally_shortest_path stages src tgt mesh [] with
  | none => simp [hl] at h
  | some el =>
    cases hp : path_parameters sqrt el mesh src tgt with
    | none => simp [hl, hp] at h
    | some ps => simp [hp, eval_point_on_geodesic]

/-- C6: at `t = 0`, when the geodesic interpolations between consecutive
control points return (the six calls of `subdivide_bezier_polygon` are then
calls on the pairs `(P0,P1)`, `(P1,P2)`, `(P2,P3)`), the subdivision returns the
degenerate first half `{P0,P0,P0,P0}` and the original polygon as second
half. -/
theorem subdivide_bezier_polygon_zero (stages : Path_stages F) (sqrt : F → F)
    (mesh : TriangleMesh F) (polygon : Bezier_segment F)
    (h01 : (geodesic_lerp stages sqrt mesh polygon.p0 polygon.p1 0).isSome)
    (h12 : (geodesic_lerp stages sqrt mesh polygon.p1 polygon.p2 0).isSome)
    (h23 : (geodesic_lerp stages sqrt mesh polygon.p2 polygon.p3 0).isSome) :
    subdivide_bezier_polygon stages sqrt mesh polygon 0 =
      some (⟨polygon.p0, polygon.p0, polygon.p0, polygon.p0⟩,
            ⟨polygon.p0, polygon.p1, polygon.p2, polygon.p3⟩) := by
  have e01 := geodesic_lerp_zero stages sqrt mesh _ _ h01
  have e12 := geodesic_lerp_zero stages sqrt mesh _ _ h12
  have e23 := geodesic_lerp_zero stages sqrt mesh _ _ h23
  simp [subdivide_bezier_polygon, subdivide_bezier_polygon_with, e01, e12, e23]

theorem subdivide_bezier_polygon_zero_witness :
    subdivide_bezier_polygon failing_stages Rat.sqrt one_triangle control_polygon 0 =
      some (⟨control_polygon.p0, control_polygon.p0, control_polygon.p0, control_polygon.p0⟩,
            ⟨control_polygon.p0, control_polygon.p1, control_polygon.p2, control_polygon.p3⟩) :=
  subdivide_bezier_polygon_zero failing_stages Rat.sqrt one_triangle control_polygon
    (by decide!) (by decide!) (by decide!)

/-- One round of subdivision doubles the number of segments. -/
theorem subdivide_segments_length (lerp : Face_location F → Face_location F → F →
    Option (Face_location F)) (segments result : List (Bezier_segment F))
    (h : subdivide_segments lerp segments = some result) :
    result.length = 2 * segments.length := by
  induction segments generalizing result with
  | nil =>
    simp [subdivide_segments] at h
    subst h
    rfl
  | cons s rest ih =>
    simp only [subdivide_segments, Option.bind_eq_bind, Option.bind_eq_some] at h
    obtain ⟨pr, -, r, hr, hres⟩ := h
    simp only [Option.some.injEq] at hres
    subst hres
    simp [ih r hr]
    ring

/-- After `n` rounds there are `2 ^ n` times as many segments. -/
theorem subdivide_rounds_length (lerp : Face_location F → Face_location F → F →
    Option (Face_location F)) (n : Nat) (segments result : List (Bezier_segment F))
    (h : subdivide_rounds lerp n segments = some result) :
    result.length = 2 ^ n * segments.length := by
  induction n generalizing segments with
  | zero =>
    simp [subdivide_rounds] at h
    subst h
    simp
  | succ n ih =>
    simp only [subdivide_rounds, Option.bind_eq_bind, Option.bind_eq_some] at h
    obtain ⟨r, hr, hres⟩ := h
    rw [ih r hres, subdivide_segments_length lerp segments r hr]
    ring

/-- A subdivision over an interpolation that always returns, returns. -/
theorem subdivide_rounds_returns (lerp : Face_location F → Face_location F → F →
    Option (Face_location F)) (hl : ∀ a b t, (lerp a b t).isSome) (n : Nat)
    (segments : List (Bezier_segment F)) : (subdivide_rounds lerp n segments).isSome := by
  have hpoly : ∀ s t, (subdivide_bezier_polygon_with lerp s t).isSome := by
    intro s t
    simp only [subdivide_bezier_polygon_with, Option.bind_eq_bind]
    obtain ⟨q0, h0⟩ := Option.isSome_iff_exists.1 (hl s.p0 s.p1 t)
    obtain ⟨q1, h1⟩ := Option.isSome_iff_exists.1 (hl s.p1 s.p2 t)
    obtain ⟨q2, h2⟩ := Option.isSome_iff_exists.1 (hl s.p2 s.p3 t)
    obtain ⟨r0, h3⟩ := Option.isSome_iff_exists.1 (hl q0 q1 t)
    obtain ⟨r1, h4⟩ := Option.isSome_iff_exists.1 (hl q1 q2 t)
    obtain ⟨s1, h5⟩ := Option.isSome_iff_exists.1 (hl r0 r1 t)
    simp [h0, h1, h2, h3, h4, h5]
  have hseg : ∀ segs : List (Bezier_segment F), (subdivide_segments lerp segs).isSome := by
    intro segs
    induction segs with
    | nil => simp [subdivide_segments]
    | cons s rest ih =>
      obtain ⟨pr, hp⟩ := Option.isSome_iff_exists.1 (hpoly s (1 / 2))
      obtain ⟨r, hr⟩ := Option.isSome_iff_exists.1 ih
      simp only [subdivide_segments, hp, hr]
      rfl
  induction n generalizing segments with
  | zero => simp [subdivide_rounds]
  | succ n ih =>
    obtain ⟨r, hr⟩ := Option.isSome_iff_exists.1 (hseg segments)
    simp [subdivide_rounds, hr, ih r]

/-- C4: for every `depth >= 0`, whenever `recursive_de_Casteljau` returns (its
only way not to return is an underlying `geodesic_lerp` call that does not), it
returns exactly `4 * 2 ^ depth` face locations; for `depth = 0` these are the
four control points unchanged. -/
theorem recursive_de_Casteljau_count (stages : Path_stages F) (sqrt : F → F)
    (mesh : TriangleMesh F) (control_points : Bezier_segment F) (depth : Nat)
    (out : List (Face_location F))
    (h : recursive_de_Casteljau stages sqrt mesh control_points (depth : Int) = some out) :
    out.length = 4 * 2 ^ depth ∧
    (depth = 0 → out = [control_points.p0, control_points.p1, control_points.p2,
      control_points.p3]) := by
  simp only [recursive_de_Casteljau, recursive_de_Casteljau_with, Int.toNat_ofNat,
    Option.map_eq_some'] at h
  obtain ⟨segs, hs, hout⟩ := h
  subst hout
  refine ⟨?_, ?_⟩
  · rw [flatten_segments_length, subdivide_rounds_length _ depth _ segs hs]
    simp
  · intro hd
    subst hd
    simp [subdivide_rounds] at hs
    subst hs
    rfl

theorem recursive_de_Casteljau_count_witness :
    control_polygon_split.length = 4 * 2 ^ 1 ∧
    (1 = 0 → control_polygon_split = [control_polygon.p0, control_polygon.p1,
      control_polygon.p2, control_polygon.p3]) :=
  recursive_de_Casteljau_count failing_stages Rat.sqrt one_triangle control_polygon 1
    control_polygon_split (by decide!)

/-- One round of subdivision keeps a chain a chain between the same ends. -/
theorem is_chain_subdivide_segments (lerp : Face_location F → Face_location F → F →
    Option (Face_location F)) (A B : Face_location F) (segments result : List (Bezier_segment F))
    (hc : is_chain A B segments) (h : subdivide_segments lerp segments = some result) :
    is_chain A B result := by
  induction segments generalizing A result with
  | nil =>
    simp [subdivide_segments] at h
    subst h
    exact hc
  | cons s rest ih =>
    simp only [subdivide_segments, Option.bind_eq_bind, Option.bind_eq_some] at h
    obtain ⟨pr, hp, r, hr, hres⟩ := h
    simp only [Option.some.injEq] at hres
    subst hres
    obtain ⟨e0, e1, e2⟩ := subdivide_bezier_polygon_with_shape lerp s _ pr hp
    obtain ⟨hA, hrest⟩ := hc
    refine ⟨e0.trans hA, e1.symm, ?_⟩
    rw [e2]
    exact ih s.p3 r hrest hr

/-- Every round of subdivision keeps a chain a chain between the same ends. -/
theorem is_chain_subdivide_rounds (lerp : Face_location F → Face_location F → F →
    Option (Face_location F)) (A B : Face_location F) (n : Nat)
    (segments result : List (Bezier_segment F))
    (hc : is_chain A B segments) (h : subdivide_rounds lerp n segments = some result) :
    is_chain A B result := by
  induction n generalizing segments with
  | zero =>
    simp [subdivide_rounds] at h
    subst h
    exact hc
  | succ n ih =>
    simp only [subdivide_rounds, Option.bind_eq_bind, Option.bind_eq_some] at h
    obtain ⟨r, hr, hres⟩ := h
    exact ih r (is_chain_subdivide_segments lerp A B segments r hc hr) hres

/-- A non-empty chain read as a flat vector: it starts at `A`, the last
location of every 4-tuple is the first of the next, and it ends at `B`. -/
theorem is_chain_flatten (A B : Face_location F) (segments : List (Bezier_segment F))
    (hc : is_chain A B segments) (hne : segments ≠ []) :
    (flatten_segments segments)[0]? = some A ∧
    (∀ i, i + 1 < segments.length → ∃ x, (flatten_segments segments)[4 * i + 3]? = some x ∧
      (flatten_segments segments)[4 * (i + 1)]? = some x) ∧
    (flatten_segments segments)[4 * segments.length - 1]? = some B := by
  induction segments generalizing A with
  | nil => exact absurd rfl hne
  | cons s rest ih =>
    obtain ⟨hA, hrest⟩ := hc
    by_cases hr : rest = []
    · subst hr
      simp only [is_chain] at hrest
      refine ⟨by simp [flatten_segments, hA], ?_, by simp [flatten_segments, hrest]⟩
      intro i hi
      simp at hi
    · obtain ⟨i0, i1, i2⟩ := ih s.p3 hrest hr
      refine ⟨by simp [flatten_segments, hA], ?_, ?_⟩
      · intro i hi
        cases i with
        | zero =>
          refine ⟨s.p3, by simp [flatten_segments], ?_⟩
          have : 4 * (0 + 1) = 0 + 4 := by norm_num
          rw [this, flatten_segments, getElem?_add_four]
          exact i0
        | succ j =>
          have hj : j + 1 < rest.length := by simpa using hi
          obtain ⟨x, hx1, hx2⟩ := i1 j hj
          refine ⟨x, ?_, ?_⟩
          · have : 4 * (j + 1) + 3 = (4 * j + 3) + 4 := by ring
            rw [this, flatten_segments, getElem?_add_four]
            exact hx1
          · have : 4 * (j + 1 + 1) = 4 * (j + 1) + 4 := by ring
            rw [this, flatten_segments, getElem?_add_four]
            exact hx2
      · have hpos : 0 < rest.length := List.length_pos.2 hr
        have : 4 * (s :: rest).length - 1 = (4 * rest.length - 1) + 4 := by
          simp only [List.length_cons]
          omega
        rw [this, flatten_segments, getElem?_add_four]
        exact i2

/-- C5: whenever `recursive_de_Casteljau` returns, its output read as
`2 ^ depth` consecutive 4-tuples is a continuous chain: the first location is
`control_points[0]`, the last location of 4-tuple `i` is the first location of
4-tuple `i + 1` for every `i < 2 ^ depth - 1`, and the last location is
`control_points[3]`. -/
theorem recursive_de_Casteljau_chain (stages : Path_stages F) (sqrt : F → F)
    (mesh : TriangleMesh F) (control_points : Bezier_segment F) (depth : Nat)
    (out : List (Face_location F))
    (h : recursive_de_Casteljau stages sqrt mesh control_points (depth : Int) = some out) :
    out[0]? = some control_points.p0 ∧
    (∀ i, i < 2 ^ depth - 1 → ∃ x, out[4 * i + 3]? = some x ∧ out[4 * (i + 1)]? = some x) ∧
    out[4 * 2 ^ depth - 1]? = some control_points.p3 := by
  simp only [recursive_de_Casteljau, recursive_de_Casteljau_with, Int.toNat_ofNat,
    Option.map_eq_some'] at h
  obtain ⟨segs, hs, hout⟩ := h
  subst hout
  have hlen : segs.length = 2 ^ depth := by
    rw [subdivide_rounds_length _ depth _ segs hs]
    simp
  have hne : segs ≠ [] := by
    intro h0
    rw [h0] at hlen
    exact absurd hlen.symm (by positivity)
  have hc : is_chain control_points.p0 control_points.p3 segs :=
    is_chain_subdivide_rounds _ _ _ depth [control_points] segs ⟨rfl, rfl⟩ hs
  obtain ⟨c0, c1, c2⟩ := is_chain_flatten _ _ segs hc hne
  refine ⟨c0, ?_, ?_⟩
  · intro i hi
    exact c1 i (by omega)
  · rw [← hlen]
    exact c2

theorem recursive_de_Casteljau_chain_witness :
    control_polygon_split[0]? = some control_polygon.p0 ∧
    (∀ i, i < 2 ^ 1 - 1 → ∃ x, control_polygon_split[4 * i + 3]? = some x ∧
      control_polygon_split[4 * (i + 1)]? = some x) ∧
    control_polygon_split[4 * 2 ^ 1 - 1]? = some control_polygon.p3 :=
  recursive_de_Casteljau_chain failing_stages Rat.sqrt one_triangle control_polygon 1
    control_polygon_split (by decide!)

end Bezier

section Funnel

/-- C10, at a strip of one edge whose target lies on an endpoint of that edge:
the portal list has `n = 2` portals and its last portal has both endpoints
equal, but the funnel path ends on a point of face index `0`, no crossing
parameter is pushed (`n - 1 = 1` is expected), and the loop that sets the faces
then reads `points[2]` out of bounds. -/
theorem funnel_vertex_target :
    vertex_target_portals.length = 2 ∧
    vertex_target_portals[1]? = some (⟨1, -1⟩, ⟨1, -1⟩) ∧
    funnel_points vertex_target_portals = some [⟨0, ⟨0, 0⟩⟩, ⟨0, ⟨1, -1⟩⟩] ∧
    funnel_lerps vertex_target_portals [⟨0, ⟨0, 0⟩⟩, ⟨0, ⟨1, -1⟩⟩] = some [] ∧
    funnel_set_faces vertex_target_portals 2 0 1 [⟨0, ⟨0, 0⟩⟩, ⟨0, ⟨1, -1⟩⟩] = none ∧
    funnel Rat.sqrt vertex_target_portals = none := by
  decide!

/-- The failing portals of `funnel_vertex_target` are those of the strip of one
edge of `two_triangles`, from the vertex `2` to the vertex `0` taken as a
location of face `1`. -/
theorem vertex_target_portals_unfolded :
    unfold_strip Rat.sqrt [3] left_corner ⟨1, ⟨0, 1, 0⟩⟩ (two_triangles ℚ)
      = some vertex_target_portals := by
  decide!

/-- With the target beyond the edge the same strip gives one crossing
parameter, at the middle of the edge, and no apex. -/
theorem funnel_straight :
    funnel Rat.sqrt straight_portals = some ([1 / 2], 2 ^ 64 - 1) := by
  decide!

end Funnel



section Router

variable {F : Type} [LinearOrderedField F]

/-- C11, on a tetrahedron whose face `0` meets the faces `1, 2, 3` across
`h0`, `h1 = next(h0)`, `h2 = next(h1)`: the three entries of `graph[0]` all name
face `1`, the neighbour across `h0`, and every other face is linked three times
to the neighbour across its first halfedge. -/
theorem make_dual_geodesic_solver_tetrahedron :
    (tetrahedron ℚ).face ((tetrahedron ℚ).opposite ((tetrahedron ℚ).halfedge 0)) = 1 ∧
    (tetrahedron ℚ).face ((tetrahedron ℚ).opposite
      ((tetrahedron ℚ).next ((tetrahedron ℚ).halfedge 0))) = 2 ∧
    (tetrahedron ℚ).face ((tetrahedron ℚ).opposite
      ((tetrahedron ℚ).next ((tetrahedron ℚ).next ((tetrahedron ℚ).halfedge 0)))) = 3 ∧
    (make_dual_geodesic_solver Rat.sqrt 1000000 (fun f => f) [0, 1, 2, 3] (tetrahedron ℚ)).map
      (fun graph => graph.map (fun row => (row.a0.node, row.a1.node, row.a2.node)))
      = some [(1, 1, 1), (0, 0, 0), (0, 0, 0), (0, 0, 0)] := by
  decide!

/-- The walk along the predecessors never ends well: it stops only on a node
`-1`, and the iteration before that one has read `id_to_face_map[-1]`. -/
theorem extract_strip_none (mesh : TriangleMesh F) (id_to_face_map : List Nat)
    (parents : List Int) (fuel : Nat) (node : Int) (strip : List Nat) (hnode : node ≠ -1) :
    extract_strip mesh id_to_face_map parents fuel node strip = none := by
  induction fuel generalizing node strip with
  | zero => rfl
  | succ fuel ih =>
    rw [extract_strip, if_pos hnode]
    cases h1 : get_at id_to_face_map node with
    | none => rfl
    | some f1 =>
      cases h2 : get_at parents node with
      | none => rfl
      | some parent =>
        simp only [Option.bind_eq_bind, Option.some_bind]
        by_cases hp : parent = -1
        · subst hp
          simp [get_at]
        · cases h3 : get_at id_to_face_map parent with
          | none => rfl
          | some f2 =>
            cases h4 : common_halfedge mesh f1 f2 with
            | none => simp [h4]
            | some h => simp [h4, ih parent (strip ++ [h]) hp]

/-- For two different faces `strip_on_dual_graph` returns no strip, whatever
the graph, the mesh and the fuel. -/
theorem strip_on_dual_graph_none (fuel : Nat) (DBL_MAX : F)
    (graph : List (Array3 (dual_edge F))) (mesh : TriangleMesh F) (faces : List Nat)
    (src tgt : Int) (hne : src ≠ tgt) :
    strip_on_dual_graph fuel DBL_MAX graph mesh faces src tgt = none := by
  rw [strip_on_dual_graph, if_neg hne]
  cases hs : dual_graph_search fuel DBL_MAX graph src tgt with
  | none => rfl
  | some r =>
    obtain ⟨st, ex⟩ := r
    cases hp : get_at st.user tgt with
    | none => simp [hp]
    | some parent =>
      by_cases hp1 : parent = -1
      · simp [hp, hp1]
      · have htgt : tgt ≠ -1 := by
          rintro rfl
          simp [get_at] at hp
        simp [hp, hp1, extract_strip_none mesh faces st.user _ tgt [] htgt]

/-- C12, on the face adjacency of a tetrahedron, from face `0` to face `1`: the
search leaves the predecessor chain `1, 0` (`k = 1`), the halfedge of face `1`
whose opposite lies in face `0` is `3`, and yet no strip is returned: after
pushing it the walk goes on with `node = 0`, whose predecessor is `-1`, and
reads `id_to_face_map[-1]`. -/
theorem strip_on_dual_graph_tetrahedron :
    (dual_graph_search 10 1000000 tetrahedron_graph 0 1).map (fun r => r.1.user)
      = some [-1, 0, 0, 0] ∧
    common_halfedge (tetrahedron ℚ) 1 0 = some 3 ∧
    get_at [0, 1, 2, 3] (-1 : Int) = none ∧
    strip_on_dual_graph 10 1000000 tetrahedron_graph (tetrahedron ℚ) [0, 1, 2, 3] 0 1
      = none := by
  decide!

/-- C17: for two different faces, when the search ends with no predecessor
recorded for the target, `strip_on_dual_graph` fails (assertion of line 1836)
and returns no strip; a strip is returned only if the search has ended and has
recorded a predecessor of the target. -/
theorem strip_on_dual_graph_unreached (fuel : Nat) (DBL_MAX : F)
    (graph : List (Array3 (dual_edge F))) (mesh : TriangleMesh F) (faces : List Nat)
    (src tgt : Int) (hne : src ≠ tgt) :
    (∀ st ex, dual_graph_search fuel DBL_MAX graph src tgt = some (st, ex) →
      get_at st.user tgt = some (-1) →
      strip_on_dual_graph fuel DBL_MAX graph mesh faces src tgt = none) ∧
    (∀ strip, strip_on_dual_graph fuel DBL_MAX graph mesh faces src tgt = some strip →
      ∃ st ex parent, dual_graph_search fuel DBL_MAX graph src tgt = some (st, ex) ∧
        get_at st.user tgt = some parent ∧ parent ≠ -1) := by
  refine ⟨?_, ?_⟩
  · intro st ex hs hp
    simp [strip_on_dual_graph, hne, hs, hp]
  · intro strip h
    rw [strip_on_dual_graph, if_neg hne] at h
    cases hs : dual_graph_search fuel DBL_MAX graph src tgt with
    | none => simp [hs] at h
    | some r =>
      obtain ⟨st, ex⟩ := r
      cases hp : get_at st.user tgt with
      | none => simp [hs, hp] at h
      | some parent =>
        refine ⟨st, ex, parent, rfl, hp, ?_⟩
        intro hp1
        simp [hs, hp, hp1] at h

theorem strip_on_dual_graph_unreached_witness :
    (dual_graph_search 10 1000000 split_graph 0 1).map (fun r => get_at r.1.user 1)
      = some (some (-1)) ∧
    strip_on_dual_graph 10 1000000 split_graph (two_triangles ℚ) [0, 1] 0 1 = none := by
  have hsearch : (dual_graph_search 10 1000000 split_graph 0 1).map
      (fun r => get_at r.1.user 1) = some (some (-1)) := by decide!
  refine ⟨hsearch, ?_⟩
  cases h : dual_graph_search 10 1000000 split_graph 0 1 with
  | none =>
    rw [h] at hsearch
    simp at hsearch
  | some r =>
    rw [h] at hsearch
    exact (strip_on_dual_graph_unreached 10 1000000 split_graph (two_triangles ℚ) [0, 1] 0 1
      (by decide)).1 r.1 r.2 h (by simpa using hsearch)

/-- Reading a vector after a write. -/
theorem get_at_set_at {α : Type} (l l' : List α) (i j : Int) (a : α)
    (h : set_at l i a = some l') : get_at l' j = if j = i then some a else get_at l j := by
  unfold set_at at h
  split_ifs at h with h1 h2
  simp only [Option.some.injEq] at h
  subst h
  unfold get_at
  by_cases hj : j < 0
  · have : j ≠ i := by omega
    simp [hj, this]
  · by_cases hji : j = i
    · subst hji
      simp [hj, List.getElem?_set, h2]
    · have : i.toNat ≠ j.toNat := by omega
      simp [hj, hji, List.getElem?_set, this]

/-- One relaxation keeps the labels of the queued nodes and of the expanded
node lengths of walks from the source. -/
theorem relax_neighbor_walks {σ : Type} (graph : List (Array3 (dual_edge F))) (src : Int)
    (update : σ → Int → Int → F → σ) (node : Int) (row : Array3 (dual_edge F)) (i : Nat)
    (st st' : visit_state F σ) (hrow : get_at graph node = some row) (hi : i < 3)
    (hq : ∀ n ∈ st.queue, walk_label graph src st.field n)
    (hnode : walk_label graph src st.field node)
    (h : relax_neighbor update node (row.get i) st = some st') :
    (∀ n ∈ st'.queue, walk_label graph src st'.field n) ∧
      walk_label graph src st'.field node := by
  obtain ⟨d, hd, hw⟩ := hnode
  simp only [relax_neighbor, hd, Option.bind_eq_bind, Option.some_bind] at h
  cases hold : get_at st.field (row.get i).node with
  | none => simp [hold] at h
  | some old =>
    simp only [hold, Option.some_bind] at h
    by_cases hge : d + (row.get i).length ≥ old
    · simp only [if_pos hge, Option.some.injEq] at h
      subst h
      exact ⟨hq, d, hd, hw⟩
    · simp only [if_neg hge] at h
      have hnew : is_walk graph src (row.get i).node (d + (row.get i).length) :=
        is_walk.step node d row i hw hrow hi
      cases hinq : get_at st.in_queue (row.get i).node with
      | none => simp [hinq] at h
      | some queued =>
        simp only [hinq, Option.some_bind] at h
        have key : ∀ (st1 : visit_state F σ) (field : List F), st1.field = st.field →
            (∀ n ∈ st1.queue, n ∈ st.queue ∨ n = (row.get i).node) →
            set_at st1.field (row.get i).node (d + (row.get i).length) = some field →
            (∀ n ∈ st1.queue, walk_label graph src field n) ∧
              walk_label graph src field node := by
          intro st1 field hf hsub hset
          rw [hf] at hset
          have hget := fun j => get_at_set_at st.field field (row.get i).node j _ hset
          refine ⟨?_, ?_⟩
          · intro n hn
            by_cases hnn : n = (row.get i).node
            · exact ⟨_, by rw [hget, if_pos hnn], hnn ▸ hnew⟩
            · rcases hsub n hn with h1 | h1
              · obtain ⟨x, hx, hwx⟩ := hq n h1
                exact ⟨x, by rw [hget, if_neg hnn, hx], hwx⟩
              · exact absurd h1 hnn
          · by_cases hnn : node = (row.get i).node
            · exact ⟨_, by rw [hget, if_pos hnn], hnn ▸ hnew⟩
            · exact ⟨d, by rw [hget, if_neg hnn, hd], hw⟩
        cases queued with
        | true =>
          simp only [if_true, Option.some_bind] at h
          cases hset : set_at st.field (row.get i).node (d + (row.get i).length) with
          | none => simp [hset] at h
          | some field =>
            simp only [hset, Option.some_bind, Option.some.injEq] at h
            subst h
            exact key { st with cumulative_weight := st.cumulative_weight
              + (d + (row.get i).length - old) } field rfl (fun n hn => Or.inl hn) hset
        | false =>
          simp only [Bool.false_eq_true, if_false] at h
          cases hfront : (match st.queue with
              | [] => some true
              | front :: _ => (get_at st.field front).map
                  (fun l => decide (d + (row.get i).length < l))) with
          | none => simp [hfront] at h
          | some at_front =>
            simp only [hfront, Option.some_bind] at h
            cases hsetq : set_at st.in_queue (row.get i).node true with
            | none => simp [hsetq] at h
            | some in_queue =>
              simp only [hsetq, Option.some_bind] at h
              cases hset : set_at st.field (row.get i).node (d + (row.get i).length) with
              | none => simp [hset] at h
              | some field =>
                simp only [hset, Option.some_bind, Option.some.injEq] at h
                subst h
                refine key { st with
                  queue := if at_front = true then (row.get i).node :: st.queue
                    else st.queue ++ [(row.get i).node]
                  in_queue := in_queue
                  cumulative_weight := st.cumulative_weight + (d + (row.get i).length) }
                  field rfl ?_ hset
                intro n hn
                simp only at hn
                split_ifs at hn
                · rcases List.mem_cons.1 hn with h1 | h1
                  · exact Or.inr h1
                  · exact Or.inl h1
                · rcases List.mem_append.1 hn with h1 | h1
                  · exact Or.inl h1
                  · exact Or.inr (List.mem_singleton.1 h1)

/-- The "large label last" loop rotates the queue and returns its front. -/
theorem large_label_last_rotation (field : List F) (average_weight : F) (tries : Nat)
    (queue queue' : List Int) (node node' : Int) (hfront : queue.head? = some node)
    (h : large_label_last field average_weight tries queue node = some (queue', node')) :
    queue'.head? = some node' ∧ ∀ x, x ∈ queue' ↔ x ∈ queue := by
  induction tries generalizing queue node with
  | zero =>
    simp only [large_label_last, Option.some.injEq, Prod.mk.injEq] at h
    obtain ⟨rfl, rfl⟩ := h
    exact ⟨hfront, fun x => Iff.rfl⟩
  | succ tries ih =>
    unfold large_label_last at h
    cases hl : get_at field node with
    | none => simp [hl] at h
    | some label =>
      simp only [hl, Option.bind_eq_bind, Option.some_bind] at h
      by_cases hle : label ≤ average_weight
      · simp only [if_pos hle, Option.some.injEq, Prod.mk.injEq] at h
        obtain ⟨rfl, rfl⟩ := h
        exact ⟨hfront, fun x => Iff.rfl⟩
      · simp only [if_neg hle] at h
        cases queue with
        | nil => simp at hfront
        | cons a rest =>
          simp only [List.head?_cons, Option.some.injEq] at hfront
          subst hfront
          simp only at h
          cases hh : (rest ++ [a]).head? with
          | none => simp [hh] at h
          | some front =>
            simp only [hh, Option.some_bind] at h
            obtain ⟨h1, h2⟩ := ih (rest ++ [a]) front hh h
            refine ⟨h1, fun x => ?_⟩
            rw [h2 x]
            simp [or_comm]

/-- While every queued node carries the length of a walk from the source, a
search that exits on a node leaves that node with the length of a walk. -/
theorem visit_loop_exit_walk {σ : Type} (graph : List (Array3 (dual_edge F))) (src : Int)
    (update : σ → Int → Int → F → σ) (stop exit : Int → Bool) (fuel : Nat)
    (st st' : visit_state F σ) (n : Int)
    (hq : ∀ m ∈ st.queue, walk_label graph src st.field m)
    (h : visit_loop graph update stop exit fuel st = some (st', some n)) :
    exit n = true ∧ walk_label graph src st'.field n := by
  induction fuel generalizing st with
  | zero => simp [visit_loop] at h
  | succ fuel ih =>
    rw [visit_loop] at h
    generalize st.cumulative_weight / (st.queue.length : F) = average_weight at h
    generalize st.queue.length + 1 = tries at h
    cases hqueue : st.queue with
    | nil => simp [hqueue] at h
    | cons front rest =>
      simp only [hqueue, Option.bind_eq_bind] at h
      cases hlll : large_label_last st.field average_weight tries (front :: rest) front with
      | none => simp [hlll] at h
      | some r =>
        obtain ⟨queue, node⟩ := r
        simp only [hlll, Option.some_bind] at h
        obtain ⟨hhead, hmem⟩ := large_label_last_rotation st.field average_weight tries
          (front :: rest) queue front node rfl hlll
        have hq' : ∀ m ∈ queue, walk_label graph src st.field m := by
          intro m hm
          exact hq m (by rw [hqueue]; exact (hmem m).1 hm)
        have hnode : walk_label graph src st.field node := by
          apply hq'
          cases queue with
          | nil => simp at hhead
          | cons a q =>
            simp only [List.head?_cons, Option.some.injEq] at hhead
            simp [hhead]
        have htail : ∀ m ∈ queue.tail, walk_label graph src st.field m :=
          fun m hm => hq' m (List.mem_of_mem_tail hm)
        cases hlabel : get_at st.field node with
        | none => simp [hlabel] at h
        | some label =>
          simp only [hlabel, Option.some_bind] at h
          cases hinq : set_at st.in_queue node false with
          | none => simp [hinq] at h
          | some in_queue =>
            simp only [hinq, Option.some_bind] at h
            by_cases hexit : exit node = true
            · simp only [hexit, if_true, Option.some.injEq, Prod.mk.injEq] at h
              obtain ⟨rfl, rfl⟩ := h
              exact ⟨hexit, hnode⟩
            · simp only [hexit, Bool.false_eq_true, if_false] at h
              by_cases hstop : stop node = true
              · simp only [hstop, if_true] at h
                exact ih _ htail h
              · simp only [hstop, Bool.false_eq_true, if_false] at h
                cases hrow : get_at graph node with
                | none => simp [hrow] at h
                | some row =>
                  simp only [hrow, Option.some_bind] at h
                  have e0 : row.a0 = row.get 0 := by simp [Array3.get]
                  have e1 : row.a1 = row.get 1 := by simp [Array3.get]
                  have e2 : row.a2 = row.get 2 := by simp [Array3.get]
                  rw [e0, e1, e2] at h
                  cases hr0 : relax_neighbor update node (row.get 0)
                      { st with queue := queue.tail, in_queue := in_queue,
                                cumulative_weight := st.cumulative_weight - label } with
                  | none => simp [hr0] at h
                  | some s0 =>
                    simp only [hr0, Option.some_bind] at h
                    obtain ⟨q0, n0⟩ := relax_neighbor_walks graph src update node row 0
                      { st with queue := queue.tail, in_queue := in_queue,
                                cumulative_weight := st.cumulative_weight - label } s0
                      hrow (by norm_num) htail hnode hr0
                    cases hr1 : relax_neighbor update node (row.get 1) s0 with
                    | none => simp [hr1] at h
                    | some s1 =>
                      simp only [hr1, Option.some_bind] at h
                      obtain ⟨q1, n1⟩ := relax_neighbor_walks graph src update node row 1 s0 s1
                        hrow (by norm_num) q0 n0 hr1
                      cases hr2 : relax_neighbor update node (row.get 2) s1 with
                      | none => simp [hr2] at h
                      | some s2 =>
                        simp only [hr2, Option.some_bind] at h
                        obtain ⟨q2, -⟩ := relax_neighbor_walks graph src update node row 2 s1 s2
                          hrow (by norm_num) q1 n1 hr2
                        exact ih _ q2 h

/-- C13, on a graph with a detour: the target `1` is popped, and the search
exits, with `field[1] = 10`, the length of the direct edge, while the walk
`0, 3, 2, 1` has length 3; so 10 is not the shortest-path distance. -/
theorem dual_graph_search_detour :
    (dual_graph_search 10 1000000 detour_graph 0 1).map (fun r => (get_at r.1.field 1, r.2))
      = some (some 10, some 1) ∧
    is_walk detour_graph 0 1 3 ∧ ¬ is_shortest_distance detour_graph 0 1 10 := by
  have hwalk : is_walk detour_graph 0 1 3 := by
    have h1 := is_walk.step 0 0 ⟨⟨3, 1⟩, ⟨1, 10⟩, ⟨2, 20⟩⟩ 0 (@is_walk.start ℚ _ detour_graph 0)
      (by decide!) (by norm_num)
    have h2 := is_walk.step _ _ ⟨⟨0, 1⟩, ⟨2, 1⟩, ⟨4, 100⟩⟩ 1 h1 (by decide!) (by norm_num)
    have h3 := is_walk.step _ _ ⟨⟨0, 20⟩, ⟨3, 1⟩, ⟨1, 1⟩⟩ 2 h2 (by decide!) (by norm_num)
    norm_num [Array3.get] at h3
    exact h3
  refine ⟨by decide!, hwalk, ?_⟩
  intro h
  have := h.2 3 hwalk
  norm_num at this

/-- C13, amended: when the search of `strip_on_dual_graph` exits, it exits on
the target, and `field[tgt]` is the length of a walk from `src` to `tgt` in the
dual graph; it is therefore at least the shortest-path distance. -/
theorem dual_graph_search_exit (fuel : Nat) (DBL_MAX : F) (graph : List (Array3 (dual_edge F)))
    (src tgt : Int) (st : visit_state F (List Int)) (n : Int)
    (h : dual_graph_search fuel DBL_MAX graph src tgt = some (st, some n)) :
    n = tgt ∧ ∃ d, get_at st.field tgt = some d ∧ is_walk graph src tgt d ∧
      ∀ d', is_shortest_distance graph src tgt d' → d' ≤ d := by
  simp only [dual_graph_search, Option.bind_eq_bind] at h
  cases hfield : set_at (List.replicate graph.length DBL_MAX) src 0 with
  | none => simp [hfield] at h
  | some field =>
    simp only [hfield, Option.some_bind, visit_dual_geodesic_graph, push_sources,
      Option.bind_eq_bind] at h
    cases hinq : set_at (List.replicate graph.length false) src true with
    | none => simp [hinq] at h
    | some in_queue =>
      simp only [hinq, Option.some_bind] at h
      have hsrc : get_at field src = some 0 := by
        rw [get_at_set_at _ _ _ src _ hfield, if_pos rfl]
      simp only [hsrc, Option.some_bind] at h
      have hq : ∀ m ∈ ([] ++ [src] : List Int), walk_label graph src field m := by
        intro m hm
        simp only [List.nil_append, List.mem_singleton] at hm
        subst hm
        exact ⟨0, hsrc, is_walk.start⟩
      obtain ⟨hexit, d, hd, hw⟩ := visit_loop_exit_walk graph src _ _ _ fuel _ st n hq h
      have hn : n = tgt := by simpa using hexit
      subst hn
      exact ⟨rfl, d, hd, hw, fun d' hd' => hd'.2 d hw⟩

theorem dual_graph_search_exit_witness :
    (1 : Int) = 1 ∧ ∃ d : ℚ, get_at [0, 10, 2, 1, 101] (1 : Int) = some d ∧
      is_walk detour_graph 0 1 d ∧ ∀ d', is_shortest_distance detour_graph 0 1 d' → d' ≤ d :=
  dual_graph_search_exit 10 1000000 detour_graph 0 1
    ⟨[0, 10, 2, 1, 101], [false, false, true, false, true], 103, [2, 4], [-1, 0, 3, 0, 3]⟩ 1
    (by decide!)

end Router

section Entry

variable {F : Type} [LinearOrderedField F]

/-- C16, at a location of coordinates `(2, -1, 5)`: it is not a valid face
location, and `locally_shortest_path` returns normally on it. -/
theorem locally_shortest_path_invalid_location :
    ¬ valid_face_location invalid_location ∧
    locally_shortest_path failing_stages invalid_location control_polygon.p0 one_triangle []
      = some [] := by
  refine ⟨?_, by decide!⟩
  intro h
  have := h.2.1
  simp [invalid_location] at this
  norm_num at this

/-- C16, amended: `locally_shortest_path` makes no check of the barycentric
coordinates.  Whatever they are, on a common face it returns normally with
the output range as passed; on two different faces it runs the graph search on
the two faces and the later stages on the locations as given, and returns the
edge locations of the final strip whenever the stages return and the final
assertion holds. -/
theorem locally_shortest_path_no_validation (stages : Path_stages F)
    (src tgt : Face_location F) (tmesh : TriangleMesh F)
    (edge_locations : List (Edge_location F)) :
    (src.first = tgt.first →
      locally_shortest_path stages src tgt tmesh edge_locations = some edge_locations) ∧
    (src.first ≠ tgt.first →
      ∀ path portals lerps max_index lerps' path',
        stages.strip_on_dual_graph tmesh src.first tgt.first = some path →
        stages.unfold_strip path src tgt tmesh = some portals →
        stages.funnel portals = some (lerps, max_index) →
        stages.straighten_path portals lerps path src tgt tmesh max_index
          = some (lerps', path') →
        lerps'.length = path'.length →
        locally_shortest_path stages src tgt tmesh edge_locations
          = some (edge_locations ++ emplace_edge_locations tmesh path' lerps')) := by
  refine ⟨fun h => by simp [locally_shortest_path, h], ?_⟩
  intro hne path portals lerps max_index lerps' path' h1 h2 h3 h4 h5
  simp [locally_shortest_path, hne, h1, h2, h3, h4, h5]

end Entry

section Segments

variable {F : Type} [LinearOrderedField F]

/-- The product of a vector by a scalar, by components. -/
theorem vector_scale_def (v : Vector_2 F) (c : F) : v.scale c = ⟨v.x * c, v.y * c⟩ := rfl

/-- C24: the four tie-break rules of `intersect_segments` are applied in the
order of the source and return the constants 0 or 1 without any division, and
in each of these cases the portal point `start2 + s * (end2 - start2)` at the
returned `s` is an endpoint of the path segment from `start1` to `end1`. -/
theorem intersect_segments_tie_breaks (start1 end1 start2 end2 : Vector_2 F) :
    (end1 = start2 →
      intersect_segments start1 end1 start2 end2 = some 0 ∧
      start2 + (end2 - start2).scale 0 = end1) ∧
    (end1 ≠ start2 → end2 = start1 →
      intersect_segments start1 end1 start2 end2 = some 1 ∧
      start2 + (end2 - start2).scale 1 = start1) ∧
    (end1 ≠ start2 → end2 ≠ start1 → start2 = start1 → end2 = end1 →
      intersect_segments start1 end1 start2 end2 = some 1 ∧
      start2 + (end2 - start2).scale 1 = end1) ∧
    (end1 ≠ start2 → end2 ≠ start1 → start2 = start1 → end2 ≠ end1 →
      intersect_segments start1 end1 start2 end2 = some 0 ∧
      start2 + (end2 - start2).scale 0 = start1) ∧
    (end1 ≠ start2 → end2 ≠ start1 → start2 ≠ start1 → end2 = end1 →
      intersect_segments start1 end1 start2 end2 = some 1 ∧
      start2 + (end2 - start2).scale 1 = end1) := by
  have h0 : start2 + (end2 - start2).scale 0 = start2 := by
    cases start2; cases end2
    simp [vector_add_def, vector_sub_def, vector_scale_def]
  have h1 : start2 + (end2 - start2).scale 1 = end2 := by
    cases start2; cases end2
    simp [vector_add_def, vector_sub_def, vector_scale_def]
  refine ⟨?_, ?_, ?_, ?_, ?_⟩
  · intro h
    exact ⟨by simp [intersect_segments, h], by rw [h0, h]⟩
  · intro ha hb
    exact ⟨by simp [intersect_segments, ha, hb], by rw [h1, hb]⟩
  · intro ha hb hc hd
    refine ⟨?_, by rw [h1, hd]⟩
    unfold intersect_segments
    rw [if_neg ha, if_neg hb, if_pos hc, if_pos hd]
  · intro ha hb hc hd
    refine ⟨?_, by rw [h0, hc]⟩
    unfold intersect_segments
    rw [if_neg ha, if_neg hb, if_pos hc, if_neg hd]
  · intro ha hb hc hd
    exact ⟨by simp [intersect_segments, ha, hb, hc, hd], by rw [h1, hd]⟩

/-- C25: when no two endpoints coincide and the determinant is not zero, the
value `s` returned by `intersect_segments` is the parameter of the crossing on
the portal: some point `start1 + t * (end1 - start1)` of the line of the path
segment is the portal point `start2 + s * (end2 - start2)`. -/
theorem intersect_segments_crossing (start1 end1 start2 end2 : Vector_2 F)
    (h1 : end1 ≠ start2) (h2 : end2 ≠ start1) (h3 : start2 ≠ start1) (h4 : end2 ≠ end1)
    (hdet : determinant (end1 - start1) (start2 - end2) ≠ 0) :
    ∃ s, intersect_segments start1 end1 start2 end2 = some s ∧
      ∃ t, start1 + (end1 - start1).scale t = start2 + (end2 - start2).scale s := by
  cases start1 with | mk ax ay => ?_
  cases end1 with | mk bx by_ => ?_
  cases start2 with | mk cx cy => ?_
  cases end2 with | mk dx dy => ?_
  simp only [determinant, vector_sub_def] at hdet
  refine ⟨((bx - ax) * (cy - ay) - (by_ - ay) * (cx - ax)) /
    ((bx - ax) * (cy - dy) - (by_ - ay) * (cx - dx)),
    by simp [intersect_segments, h1, h2, h3, h4, vector_sub_def, hdet], ?_⟩
  refine ⟨((cx - ax) * (cy - dy) - (cy - ay) * (cx - dx)) /
    ((bx - ax) * (cy - dy) - (by_ - ay) * (cx - dx)), ?_⟩
  simp only [vector_add_def, vector_sub_def, vector_scale_def, Vector_2.mk.injEq]
  constructor
  · field_simp
    ring
  · field_simp
    ring

theorem intersect_segments_crossing_witness :
    ∃ s, intersect_segments (⟨0, 0⟩ : Vector_2 ℚ) ⟨2, 0⟩ ⟨1, -1⟩ ⟨1, 1⟩ = some s ∧
      ∃ t, (⟨0, 0⟩ : Vector_2 ℚ) + ((⟨2, 0⟩ : Vector_2 ℚ) - ⟨0, 0⟩).scale t
        = ⟨1, -1⟩ + ((⟨1, 1⟩ : Vector_2 ℚ) - ⟨1, -1⟩).scale s :=
  intersect_segments_crossing ⟨0, 0⟩ ⟨2, 0⟩ ⟨1, -1⟩ ⟨1, 1⟩ (by decide!) (by decide!) (by decide!)
    (by decide!) (by decide!)

end Segments

section Rebasing

variable {F : Type} [LinearOrderedField F]

/-- The re-based coordinates have the sum of the given ones and give the same
point of the face, read on the vertices `source(h)`, `target(h)`,
`target(next(h))`. -/
theorem rebase_bary_point (mesh : TriangleMesh F) (h : Nat) (loc : Face_location F)
    (bary : Array3 F) (hb : rebase_bary mesh h loc = some bary)
    (htri : triangle_at mesh h) (htri' : triangle_at mesh (mesh.halfedge loc.first)) :
    bary.sum = loc.second.sum ∧
    (bary = loc.second ∨ bary = ⟨loc.second.a2, loc.second.a0, loc.second.a1⟩ ∨
      bary = ⟨loc.second.a1, loc.second.a2, loc.second.a0⟩) ∧
    barycentric_point_3 (mesh.vpm (mesh.source h)) bary.a0 (mesh.vpm (mesh.target h)) bary.a1
      (mesh.vpm (mesh.target (mesh.next h))) bary.a2 = construct_point_face mesh loc := by
  unfold rebase_bary at hb
  dsimp only at hb
  split_ifs at hb with a b c
  · -- halfedge(face) = next(h)
    have hb' := (Option.some.inj hb).symm
    subst hb'
    refine ⟨by simp only [Array3.sum]; ring, Or.inr (Or.inl rfl), ?_⟩
    simp only [construct_point_face, barycentric_point_3, b, htri.1, htri.2, Point_3.mk.injEq]
    exact ⟨by ring, by ring, by ring⟩
  · -- next(halfedge(face)) = h
    have hb' := (Option.some.inj hb).symm
    subst hb'
    refine ⟨by simp only [Array3.sum]; ring, Or.inr (Or.inr rfl), ?_⟩
    simp only [construct_point_face, barycentric_point_3, ← c, htri'.1, htri'.2,
      Point_3.mk.injEq]
    exact ⟨by ring, by ring, by ring⟩
  · have hb' := (Option.some.inj hb).symm
    subst hb'
    have a' : mesh.halfedge loc.first = h := not_not.1 a
    refine ⟨rfl, Or.inl rfl, ?_⟩
    simp only [construct_point_face, a']

/-- C22: in each of the three positions of `halfedge(face)` relative to `h`,
the re-basing of `init_source_triangle` and `init_target_triangle` returns a
cyclic rotation of the given coordinates, of the same sum, and the combination
of the re-based coordinates with the positions of `source(h)`, `target(h)`,
`target(next(h))` is the combination of the given ones with the positions of
the vertices of the face read from `halfedge(face)`. -/
theorem rebase_bary_rotation (mesh : TriangleMesh F) (h : Nat) (loc : Face_location F)
    (hpos : mesh.halfedge loc.first = h ∨ mesh.halfedge loc.first = mesh.next h ∨
      mesh.next (mesh.halfedge loc.first) = h)
    (htri : triangle_at mesh h) (htri' : triangle_at mesh (mesh.halfedge loc.first)) :
    ∃ bary, rebase_bary mesh h loc = some bary ∧
      bary.sum = loc.second.sum ∧
      (mesh.halfedge loc.first = h → bary = loc.second) ∧
      (mesh.halfedge loc.first ≠ h → mesh.halfedge loc.first = mesh.next h →
        bary = ⟨loc.second.a2, loc.second.a0, loc.second.a1⟩) ∧
      (mesh.halfedge loc.first ≠ h → mesh.halfedge loc.first ≠ mesh.next h →
        bary = ⟨loc.second.a1, loc.second.a2, loc.second.a0⟩) ∧
      barycentric_point_3 (mesh.vpm (mesh.source h)) bary.a0 (mesh.vpm (mesh.target h)) bary.a1
        (mesh.vpm (mesh.target (mesh.next h))) bary.a2 = construct_point_face mesh loc := by
  have hsome : ∃ bary, rebase_bary mesh h loc = some bary := by
    apply Option.isSome_iff_exists.1
    unfold rebase_bary
    dsimp only
    split_ifs with a b c
    · rfl
    · rfl
    · exfalso
      rcases hpos with h6 | h6 | h6
      · exact a h6
      · exact b h6
      · exact c h6
    · rfl
  obtain ⟨bary, hb⟩ := hsome
  obtain ⟨h1, -, h3⟩ := rebase_bary_point mesh h loc bary hb htri htri'
  refine ⟨bary, hb, h1, ?_, ?_, ?_, h3⟩
  · intro e
    have := hb
    simp only [rebase_bary, e, ne_eq, not_true_eq_false, if_false] at this
    exact (Option.some.inj this).symm
  · intro e1 e2
    have := hb
    unfold rebase_bary at this
    dsimp only at this
    rw [if_pos e1, if_pos e2] at this
    exact (Option.some.inj this).symm
  · intro e1 e2
    have := hb
    unfold rebase_bary at this
    dsimp only at this
    rw [if_pos e1, if_neg e2] at this
    split_ifs at this
    exact (Option.some.inj this).symm

theorem rebase_bary_rotation_witness :
    ∃ bary, rebase_bary (tetrahedron ℚ) 1 ⟨0, ⟨1 / 2, 1 / 3, 1 / 6⟩⟩ = some bary ∧
      bary.sum = (⟨1 / 2, 1 / 3, 1 / 6⟩ : Array3 ℚ).sum ∧
      ((tetrahedron ℚ).halfedge 0 = 1 → bary = ⟨1 / 2, 1 / 3, 1 / 6⟩) ∧
      ((tetrahedron ℚ).halfedge 0 ≠ 1 → (tetrahedron ℚ).halfedge 0 = (tetrahedron ℚ).next 1 →
        bary = ⟨1 / 6, 1 / 2, 1 / 3⟩) ∧
      ((tetrahedron ℚ).halfedge 0 ≠ 1 → (tetrahedron ℚ).halfedge 0 ≠ (tetrahedron ℚ).next 1 →
        bary = ⟨1 / 3, 1 / 6, 1 / 2⟩) ∧
      barycentric_point_3 ((tetrahedron ℚ).vpm ((tetrahedron ℚ).source 1)) bary.a0
        ((tetrahedron ℚ).vpm ((tetrahedron ℚ).target 1)) bary.a1
        ((tetrahedron ℚ).vpm ((tetrahedron ℚ).target ((tetrahedron ℚ).next 1))) bary.a2
        = construct_point_face (tetrahedron ℚ) ⟨0, ⟨1 / 2, 1 / 3, 1 / 6⟩⟩ :=
  rebase_bary_rotation (tetrahedron ℚ) 1 ⟨0, ⟨1 / 2, 1 / 3, 1 / 6⟩⟩
    (Or.inr (Or.inr (by decide))) ⟨by decide, by decide⟩ ⟨by decide, by decide⟩

/-- The squared distance of a corner of a flat triangle to the point of
barycentric coordinates `b` of sum 1, from the squared lengths of the sides. -/
theorem flat_point_distance (t0 t1 t2 : Vector_2 F) (b : Array3 F) (hsum : b.sum = 1) :
    (t0 - flat_point ⟨t0, t1, t2⟩ b).squared_length
      = b.a1 * b.a1 * squared_distance_2 t1 t0 + b.a2 * b.a2 * squared_distance_2 t2 t0
        + b.a1 * b.a2 * (squared_distance_2 t1 t0 + squared_distance_2 t2 t0
          - squared_distance_2 t2 t1) ∧
    (t1 - flat_point ⟨t0, t1, t2⟩ b).squared_length
      = b.a0 * b.a0 * squared_distance_2 t1 t0 + b.a2 * b.a2 * squared_distance_2 t2 t1
        + b.a0 * b.a2 * (squared_distance_2 t1 t0 + squared_distance_2 t2 t1
          - squared_distance_2 t2 t0) := by
  rcases t0 with ⟨x0, y0⟩
  rcases t1 with ⟨x1, y1⟩
  rcases t2 with ⟨x2, y2⟩
  rcases b with ⟨b0, b1, b2⟩
  have h0 : b0 = 1 - b1 - b2 := by
    simp only [Array3.sum] at hsum
    linear_combination hsum
  have h1 : b1 = 1 - b0 - b2 := by
    simp only [Array3.sum] at hsum
    linear_combination hsum
  constructor
  · simp only [flat_point, squared_distance_2, Vector_2.squared_length, Vector_2.scale,
      vector_add_def, vector_sub_def]
    rw [h0]
    ring
  · simp only [flat_point, squared_distance_2, Vector_2.squared_length, Vector_2.scale,
      vector_add_def, vector_sub_def]
    rw [h1]
    ring

/-- The squared distance of a vertex of a triangle of space to the point of
barycentric coordinates of sum 1, from the squared lengths of the sides. -/
theorem barycentric_point_distance (A B V : Point_3 F) (b0 b1 b2 : F) (hsum : b0 + b1 + b2 = 1) :
    squared_distance (barycentric_point_3 A b0 B b1 V b2) A
      = b1 * b1 * squared_distance A B + b2 * b2 * squared_distance A V
        + b1 * b2 * (squared_distance A B + squared_distance A V - squared_distance B V) ∧
    squared_distance (barycentric_point_3 A b0 B b1 V b2) B
      = b0 * b0 * squared_distance A B + b2 * b2 * squared_distance B V
        + b0 * b2 * (squared_distance A B + squared_distance B V - squared_distance A V) := by
  rcases A with ⟨ax, ay, az⟩
  rcases B with ⟨bx, by_, bz⟩
  rcases V with ⟨vx, vy, vz⟩
  have h0 : b0 = 1 - b1 - b2 := by linear_combination hsum
  have h1 : b1 = 1 - b0 - b2 := by linear_combination hsum
  constructor
  · simp only [squared_distance, barycentric_point_3]
    rw [h0]
    ring
  · simp only [squared_distance, barycentric_point_3]
    rw [h1]
    ring

/-- C21: for a source location whose coordinates sum to 1 and a first strip
halfedge `path[0]` of positive length whose opposite lies on the face of the
source, `init_source_triangle` returns the images of `target(path[0])` and
`source(path[0])` in a frame where the source is the origin: the squared norms
of the two points are the squared distances of the source point to these two
vertices, in each of the three positions of `halfedge(src.face)`. -/
theorem init_source_triangle_origin (sqrt : F → F) (hsq : ∀ x, 0 ≤ x → sqrt x * sqrt x = x)
    (mesh : TriangleMesh F) (h0 : Nat) (src : Face_location F)
    (hsum : src.second.sum = 1)
    (hface : mesh.face (mesh.opposite h0) = src.first)
    (hv : valid_halfedge mesh h0) (hvo : valid_halfedge mesh (mesh.opposite h0))
    (htri : triangle_at mesh (mesh.opposite h0))
    (htri' : triangle_at mesh (mesh.halfedge src.first))
    (hne : mesh.vpm (mesh.target h0) ≠ mesh.vpm (mesh.source h0)) :
    ∃ portal, init_source_triangle sqrt h0 mesh src = some portal ∧
      portal.1.squared_length
        = squared_distance (construct_point_face mesh src) (mesh.vpm (mesh.target h0)) ∧
      portal.2.squared_length
        = squared_distance (construct_point_face mesh src) (mesh.vpm (mesh.source h0)) := by
  obtain ⟨v1, v2, -⟩ := hv
  obtain ⟨bary, hbary⟩ := rebase_bary_isSome mesh (mesh.opposite h0) src hvo hface
  obtain ⟨hs, -, hpoint⟩ := rebase_bary_point mesh (mesh.opposite h0) src bary hbary htri htri'
  obtain ⟨P, hP, hP1, hP0⟩ := flat_corner_returns sqrt hsq (mesh.vpm (mesh.target h0))
    (mesh.vpm (mesh.source h0))
    (mesh.vpm (mesh.target (mesh.next (mesh.opposite h0)))) hne
  have hw := hsq _ (squared_distance_nonneg (mesh.vpm (mesh.target h0))
    (mesh.vpm (mesh.source h0)))
  have hside : squared_distance_2 (⟨0, sqrt (squared_distance (mesh.vpm (mesh.target h0))
      (mesh.vpm (mesh.source h0)))⟩ : Vector_2 F) ⟨0, 0⟩
      = squared_distance (mesh.vpm (mesh.target h0)) (mesh.vpm (mesh.source h0)) := by
    simp only [squared_distance_2, Vector_2.squared_length, vector_sub_def]
    linear_combination hw
  have hsum' : bary.a0 + bary.a1 + bary.a2 = 1 := by
    have := hs.trans hsum
    simpa [Array3.sum] using this
  obtain ⟨f0, f1⟩ := flat_point_distance (⟨0, 0⟩ : Vector_2 F)
    ⟨0, sqrt (squared_distance (mesh.vpm (mesh.target h0)) (mesh.vpm (mesh.source h0)))⟩ P bary
    (hs.trans hsum)
  obtain ⟨g0, g1⟩ := barycentric_point_distance (mesh.vpm (mesh.target h0))
    (mesh.vpm (mesh.source h0)) (mesh.vpm (mesh.target (mesh.next (mesh.opposite h0))))
    bary.a0 bary.a1 bary.a2 hsum'
  rw [v1, v2] at hpoint
  rw [hpoint] at g0 g1
  refine ⟨((⟨0, 0⟩ : Vector_2 F) - flat_point ⟨⟨0, 0⟩, ⟨0, sqrt (squared_distance
      (mesh.vpm (mesh.target h0)) (mesh.vpm (mesh.source h0)))⟩, P⟩ bary,
    (⟨0, sqrt (squared_distance (mesh.vpm (mesh.target h0)) (mesh.vpm (mesh.source h0)))⟩ :
      Vector_2 F) - flat_point ⟨⟨0, 0⟩, ⟨0, sqrt (squared_distance
      (mesh.vpm (mesh.target h0)) (mesh.vpm (mesh.source h0)))⟩, P⟩ bary), ?_, ?_, ?_⟩
  · simp only [init_source_triangle, v1, v2, hP, hbary, Option.bind_eq_bind, Option.some_bind]
  · rw [f0, g0, hside, hP0, hP1]
  · rw [f1, g1, hside, hP0, hP1]

theorem init_source_triangle_origin_witness :
    ∃ portal, init_source_triangle Real.sqrt 3 (tetrahedron ℝ) (face_centre ℝ 0) = some portal ∧
      portal.1.squared_length = squared_distance
        (construct_point_face (tetrahedron ℝ) (face_centre ℝ 0))
        ((tetrahedron ℝ).vpm ((tetrahedron ℝ).target 3)) ∧
      portal.2.squared_length = squared_distance
        (construct_point_face (tetrahedron ℝ) (face_centre ℝ 0))
        ((tetrahedron ℝ).vpm ((tetrahedron ℝ).source 3)) :=
  init_source_triangle_origin Real.sqrt (fun _ hx => Real.mul_self_sqrt hx) (tetrahedron ℝ) 3
    (face_centre ℝ 0) (by norm_num [face_centre, Array3.sum]) (by simp [tetrahedron, face_centre])
    (by simp [valid_halfedge, tetrahedron]) (by simp [valid_halfedge, tetrahedron])
    (by simp [triangle_at, tetrahedron]) (by simp [triangle_at, tetrahedron, face_centre])
    (by simp [tetrahedron])

end Rebasing

section Weights

/-- The flat layouts of the two faces of `pillow` across the halfedge `0`. -/
theorem pillow_layout :
    init_flat_triangle Rat.sqrt 0 pillow = some ⟨⟨0, 0⟩, ⟨0, 3⟩, ⟨-4, 3⟩⟩ ∧
    unfold_face Rat.sqrt 0 pillow ⟨⟨0, 0⟩, ⟨0, 3⟩, ⟨-4, 3⟩⟩ = some ⟨⟨0, 0⟩, ⟨0, 3⟩, ⟨4, 3⟩⟩ ∧
    init_flat_triangle Rat.sqrt 3 pillow = some ⟨⟨0, 0⟩, ⟨0, 3⟩, ⟨-4, 0⟩⟩ ∧
    unfold_face Rat.sqrt 3 pillow ⟨⟨0, 0⟩, ⟨0, 3⟩, ⟨-4, 0⟩⟩ = some ⟨⟨0, 0⟩, ⟨0, 3⟩, ⟨4, 0⟩⟩ := by
  decide!

/-- The square root of the rational `(66/25)^2`. -/
theorem rat_sqrt_weight : Rat.sqrt (4356 / 625) = 66 / 25 := by
  rw [show (4356 / 625 : ℚ) = (66 / 25) * (66 / 25) by norm_num, Rat.sqrt_eq]
  norm_num [abs_of_pos]

/-- The weight computed across the halfedges `0` and `3` of `pillow`. -/
theorem pillow_weights :
    compute_dual_weights Rat.sqrt pillow 0 = some (66 / 25) ∧
    compute_dual_weights Rat.sqrt pillow 3 = some (66 / 25) := by
  constructor
  · simp only [compute_dual_weights, pillow_layout.1, pillow_layout.2.1, Option.bind_eq_bind,
      Option.some_bind]
    rw [show ((((⟨0, 0⟩ : Vector_2 ℚ) + ⟨0, 3⟩ + ⟨4, 3⟩).scale (33 / 100)
      - ((⟨0, 0⟩ : Vector_2 ℚ) + ⟨0, 3⟩ + ⟨-4, 3⟩).scale (33 / 100)).squared_length)
      = 4356 / 625 by decide!, rat_sqrt_weight]
  · simp only [compute_dual_weights, pillow_layout.2.2.1, pillow_layout.2.2.2,
      Option.bind_eq_bind, Option.some_bind]
    rw [show ((((⟨0, 0⟩ : Vector_2 ℚ) + ⟨0, 3⟩ + ⟨4, 0⟩).scale (33 / 100)
      - ((⟨0, 0⟩ : Vector_2 ℚ) + ⟨0, 3⟩ + ⟨-4, 0⟩).scale (33 / 100)).squared_length)
      = 4356 / 625 by decide!, rat_sqrt_weight]

/-- C23, on a closed mesh of two faces with sides 3, 4, 5, where every square
root taken is exact: the centroids of face `0` and of its neighbour are at the
distances `8/3`, `2`, `8/5` across the halfedges `0, 1, 2`, and the three
weights of `graph[0]` are all `66/25`. -/
theorem make_dual_geodesic_solver_weights :
    centroid_distance Rat.sqrt pillow 0 = some (8 / 3) ∧
    centroid_distance Rat.sqrt pillow 1 = some 2 ∧
    centroid_distance Rat.sqrt pillow 2 = some (8 / 5) ∧
    compute_dual_weights Rat.sqrt pillow 0 = some (66 / 25) ∧
    (make_dual_geodesic_solver Rat.sqrt 1000000 (fun f => f) [0, 1] pillow).map
      (fun graph => graph.map (fun row => (row.a0.length, row.a1.length, row.a2.length)))
      = some [(66 / 25, 66 / 25, 66 / 25), (66 / 25, 66 / 25, 66 / 25)] := by
  refine ⟨by decide!, by decide!, by decide!, pillow_weights.1, ?_⟩
  have e0 : pillow.halfedge 0 = 0 := rfl
  have e1 : pillow.halfedge 1 = 3 := rfl
  simp only [make_dual_geodesic_solver, fill_faces, fill_entries, e0, e1, pillow_weights.1,
    pillow_weights.2, Option.bind_eq_bind, Option.some_bind]
  decide!

end Weights

section Curvature

variable {F : Type} [LinearOrderedField F]

/-- One iteration of the loop of `max_curvature_point`, in terms of the
turning value of the point `i`. -/
theorem max_curvature_loop_step (sqrt : F → F) (path : List (funnel_point F)) (fuel i : Nat)
    (max_index : Int) (max_angle : F) (hi : i < size_t_sub path.length 1)
    (p : funnel_point F) (a : F) (hp : path[i]? = some p)
    (ha : turning_value sqrt path i = some a) :
    max_curvature_loop sqrt path (fuel + 1) i max_index max_angle
      = if a > max_angle then max_curvature_loop sqrt path fuel (i + 1) (p.face : Int) a
        else max_curvature_loop sqrt path fuel (i + 1) max_index max_angle := by
  rw [max_curvature_loop, if_pos hi]
  unfold turning_value at ha
  rw [hp] at ha ⊢
  simp only [Option.bind_eq_bind, Option.some_bind] at ha ⊢
  cases h1 : path[i - 1]? with
  | none => rw [h1] at ha; simp at ha
  | some prev =>
    rw [h1] at ha
    simp only [Option.some_bind] at ha ⊢
    cases h2 : path[i + 1]? with
    | none => rw [h2] at ha; simp at ha
    | some next =>
      rw [h2] at ha
      simp only [Option.some_bind] at ha ⊢
      cases h3 : unit_vector sqrt (p.pos - prev.pos) with
      | none => rw [h3] at ha; simp at ha
      | some v0 =>
        rw [h3] at ha
        simp only [Option.some_bind] at ha ⊢
        cases h4 : unit_vector sqrt (next.pos - p.pos) with
        | none => rw [h4] at ha; simp at ha
        | some v1 =>
          rw [h4] at ha
          simp only [Option.some_bind, Option.some.injEq] at ha ⊢
          rw [ha]

/-- With an exact square root, the unit vector of a vector that is not zero
exists and has squared length 1. -/
theorem unit_vector_unit (sqrt : F → F) (hsq : ∀ x, 0 ≤ x → sqrt x * sqrt x = x)
    (p q : Vector_2 F) (hpq : q ≠ p) :
    ∃ u, unit_vector sqrt (p - q) = some u ∧ u.x * u.x + u.y * u.y = 1 := by
  have hpos : 0 < (p - q).squared_length := squared_length_sub_pos p q hpq
  have hs := hsq _ hpos.le
  have hne : sqrt (p - q).squared_length ≠ 0 := by
    intro h0
    rw [h0, mul_zero] at hs
    exact (ne_of_gt hpos) hs.symm
  refine ⟨(p - q).div (sqrt (p - q).squared_length), by simp [unit_vector, hne], ?_⟩
  simp only [Vector_2.div]
  have hx : (p - q).x / sqrt (p - q).squared_length * ((p - q).x / sqrt (p - q).squared_length)
      + (p - q).y / sqrt (p - q).squared_length * ((p - q).y / sqrt (p - q).squared_length)
      = ((p - q).x * (p - q).x + (p - q).y * (p - q).y)
        / (sqrt (p - q).squared_length * sqrt (p - q).squared_length) := by
    field_simp
  rw [hx, hs]
  exact div_self (ne_of_gt hpos)

/-- The scalar product of two vectors of squared length 1 is at most 1. -/
theorem scalar_product_le_one (u w : Vector_2 F) (hu : u.x * u.x + u.y * u.y = 1)
    (hw : w.x * w.x + w.y * w.y = 1) : 0 ≤ 1 - scalar_product u w := by
  unfold scalar_product
  nlinarith [mul_self_nonneg (u.x - w.x), mul_self_nonneg (u.y - w.y)]

/-- With an exact square root, every interior point of a funnel path whose
consecutive positions differ has a turning value, which is not negative. -/
theorem turning_value_nonneg (sqrt : F → F) (hsq : ∀ x, 0 ≤ x → sqrt x * sqrt x = x)
    (path : List (funnel_point F))
    (hdistinct : ∀ (i : Nat) (p q : funnel_point F), path[i]? = some p → path[i + 1]? = some q →
      p.pos ≠ q.pos)
    (i : Nat) (h1 : 1 ≤ i) (h2 : i + 1 < path.length) :
    ∃ p a, path[i]? = some p ∧ turning_value sqrt path i = some a ∧ 0 ≤ a := by
  obtain ⟨p, hp⟩ : ∃ p, path[i]? = some p := ⟨_, List.getElem?_eq_getElem (by omega)⟩
  obtain ⟨prev, hprev⟩ : ∃ p, path[i - 1]? = some p := ⟨_, List.getElem?_eq_getElem (by omega)⟩
  obtain ⟨next, hnext⟩ : ∃ p, path[i + 1]? = some p := ⟨_, List.getElem?_eq_getElem h2⟩
  have hp' : path[i - 1 + 1]? = some p := by
    rw [Nat.sub_add_cancel h1]
    exact hp
  obtain ⟨v0, hv0, hu0⟩ := unit_vector_unit sqrt hsq p.pos prev.pos (hdistinct _ _ _ hprev hp')
  obtain ⟨v1, hv1, hu1⟩ := unit_vector_unit sqrt hsq next.pos p.pos
    (hdistinct _ _ _ hp hnext)
  refine ⟨p, 1 - scalar_product v0 v1, hp, ?_, scalar_product_le_one v0 v1 hu0 hu1⟩
  simp only [turning_value, hp, hprev, hnext, hv0, hv1, Option.bind_eq_bind, Option.some_bind]

/-- The loop of `max_curvature_point` ends, and keeps its invariant up to the
last interior point. -/
theorem max_curvature_loop_invariant (sqrt : F → F) (path : List (funnel_point F))
    (hk : 2 ≤ path.length)
    (hall : ∀ i, 1 ≤ i → i + 1 < path.length →
      ∃ p a, path[i]? = some p ∧ turning_value sqrt path i = some a ∧ 0 ≤ a) :
    ∀ (n i : Nat) (max_index : Int) (max_angle : F) (fuel : Nat),
      i + n + 1 = path.length → 1 ≤ i → n < fuel →
      max_curvature_invariant sqrt path i max_index max_angle →
      ∃ r angle, max_curvature_loop sqrt path fuel i max_index max_angle = some r ∧
        max_curvature_invariant sqrt path (path.length - 1) r angle := by
  have hsize : size_t_sub path.length 1 = path.length - 1 := by
    unfold size_t_sub
    rw [if_pos (by omega)]
  intro n
  induction n with
  | zero =>
    intro i mi ma fuel hn hi hfuel hinv
    obtain ⟨f, rfl⟩ : ∃ f, fuel = f + 1 := ⟨fuel - 1, by omega⟩
    refine ⟨mi, ma, ?_, ?_⟩
    · rw [max_curvature_loop, if_neg (by rw [hsize]; omega)]
    · have : path.length - 1 = i := by omega
      rw [this]
      exact hinv
  | succ n ih =>
    intro i mi ma fuel hn hi hfuel hinv
    obtain ⟨f, rfl⟩ : ∃ f, fuel = f + 1 := ⟨fuel - 1, by omega⟩
    obtain ⟨p, a, hp, ha, -⟩ := hall i hi (by omega)
    rw [max_curvature_loop_step sqrt path f i mi ma (by rw [hsize]; omega) p a hp ha]
    obtain ⟨hbound, hrec⟩ := hinv
    have hma : 0 ≤ ma := by
      rcases hrec with ⟨-, h0⟩ | ⟨m, q, -, -, -, -, -, hpos, -⟩
      · exact le_of_eq h0.symm
      · exact hpos.le
    by_cases hgt : a > ma
    · rw [if_pos hgt]
      apply ih (i + 1) (p.face : Int) a f (by omega) (by omega) (by omega)
      refine ⟨?_, Or.inr ⟨i, p, hi, by omega, hp, rfl, ha, lt_of_le_of_lt hma hgt, ?_⟩⟩
      · intro j b hj1 hj2 hb
        rcases Nat.lt_succ_iff_lt_or_eq.1 hj2 with hlt | heq
        · exact le_trans (hbound j b hj1 hlt hb) hgt.le
        · rw [heq, ha] at hb
          exact le_of_eq (Option.some.inj hb).symm
      · intro j b hj1 hj2 hb
        exact lt_of_le_of_lt (hbound j b hj1 hj2 hb) hgt
    · rw [if_neg hgt]
      apply ih (i + 1) mi ma f (by omega) (by omega) (by omega)
      refine ⟨?_, ?_⟩
      · intro j b hj1 hj2 hb
        rcases Nat.lt_succ_iff_lt_or_eq.1 hj2 with hlt | heq
        · exact hbound j b hj1 hlt hb
        · rw [heq, ha] at hb
          rw [← Option.some.inj hb]
          exact not_lt.1 hgt
      · rcases hrec with h0 | ⟨m, q, hm1, hm2, hq, hmi, hta, hpos, hfirst⟩
        · exact Or.inl h0
        · exact Or.inr ⟨m, q, hm1, by omega, hq, hmi, hta, hpos, hfirst⟩

/-- C26: for a funnel path of at least two points whose consecutive positions
differ, with an exact square root, `max_curvature_point` returns a value; every
interior point has a turning value, which is not negative; the value returned
is the sentinel `-1`, read as `size_t(-1)` by the caller, exactly when no
interior point has a turning value other than 0; otherwise it is the face
index of the first interior point whose turning value is the largest one, and
that value is positive. -/
theorem max_curvature_point_first_maximum (sqrt : F → F)
    (hsq : ∀ x, 0 ≤ x → sqrt x * sqrt x = x) (path : List (funnel_point F))
    (hk : 2 ≤ path.length)
    (hdistinct : ∀ (i : Nat) (p q : funnel_point F), path[i]? = some p → path[i + 1]? = some q →
      p.pos ≠ q.pos) :
    ∃ r, max_curvature_point sqrt path = some r ∧
      (∀ i, 1 ≤ i → i + 1 < path.length → ∃ a, turning_value sqrt path i = some a ∧ 0 ≤ a) ∧
      (r = -1 ↔ ∀ (i : Nat) (a : F), 1 ≤ i → i + 1 < path.length →
        turning_value sqrt path i = some a → a = 0) ∧
      (r ≠ -1 → ∃ (i : Nat) (p : funnel_point F) (a : F), 1 ≤ i ∧ i + 1 < path.length ∧
        path[i]? = some p ∧ r = (p.face : Int) ∧ turning_value sqrt path i = some a ∧ 0 < a ∧
        (∀ (j : Nat) (b : F), 1 ≤ j → j + 1 < path.length →
          turning_value sqrt path j = some b → b ≤ a) ∧
        (∀ (j : Nat) (b : F), 1 ≤ j → j < i → turning_value sqrt path j = some b → b < a)) ∧
      to_size_t (-1) = 2 ^ 64 - 1 := by
  have hall := turning_value_nonneg sqrt hsq path hdistinct
  obtain ⟨r, angle, hr, hbound, hrec⟩ := max_curvature_loop_invariant sqrt path hk hall
    (path.length - 2) 1 (-1) 0 (path.length + 1) (by omega) le_rfl (by omega)
    ⟨fun j b h1 h2 _ => absurd h2 (by omega), Or.inl ⟨rfl, rfl⟩⟩
  refine ⟨r, by unfold max_curvature_point; exact hr, ?_, ?_, ?_, by decide⟩
  · intro i h1 h2
    obtain ⟨p, a, -, ha, hnn⟩ := hall i h1 h2
    exact ⟨a, ha, hnn⟩
  · constructor
    · intro hr1 i a h1 h2 ha
      rcases hrec with ⟨-, h0⟩ | ⟨m, q, -, -, -, hmi, -, -, -⟩
      · obtain ⟨p, a', -, ha', hnn⟩ := hall i h1 h2
        rw [ha] at ha'
        rw [← Option.some.inj ha'] at hnn
        have := hbound i a h1 (by omega) ha
        rw [h0] at this
        exact le_antisymm this hnn
      · rw [hr1] at hmi
        omega
    · intro hzero
      rcases hrec with ⟨h0, -⟩ | ⟨m, q, hm1, hm2, -, -, hta, hpos, -⟩
      · exact h0
      · have := hzero m angle hm1 (by omega) hta
        rw [this] at hpos
        exact absurd hpos (lt_irrefl _)
  · intro hne
    rcases hrec with ⟨h0, -⟩ | ⟨m, q, hm1, hm2, hq, hmi, hta, hpos, hfirst⟩
    · exact absurd h0 hne
    · exact ⟨m, q, angle, hm1, by omega, hq, hmi, hta, hpos,
        fun j b h1 h2 hb => hbound j b h1 (by omega) hb, hfirst⟩

theorem max_curvature_point_first_maximum_witness :
    ∃ r, max_curvature_point Real.sqrt
        ([⟨0, ⟨0, 0⟩⟩, ⟨1, ⟨1, 0⟩⟩, ⟨2, ⟨1, 1⟩⟩] : List (funnel_point ℝ)) = some r ∧
      (∀ i, 1 ≤ i →
        i + 1 < ([⟨0, ⟨0, 0⟩⟩, ⟨1, ⟨1, 0⟩⟩, ⟨2, ⟨1, 1⟩⟩] : List (funnel_point ℝ)).length →
        ∃ a, turning_value Real.sqrt
          ([⟨0, ⟨0, 0⟩⟩, ⟨1, ⟨1, 0⟩⟩, ⟨2, ⟨1, 1⟩⟩] : List (funnel_point ℝ)) i = some a ∧ 0 ≤ a) ∧
      (r = -1 ↔ ∀ (i : Nat) (a : ℝ), 1 ≤ i →
        i + 1 < ([⟨0, ⟨0, 0⟩⟩, ⟨1, ⟨1, 0⟩⟩, ⟨2, ⟨1, 1⟩⟩] : List (funnel_point ℝ)).length →
        turning_value Real.sqrt
          ([⟨0, ⟨0, 0⟩⟩, ⟨1, ⟨1, 0⟩⟩, ⟨2, ⟨1, 1⟩⟩] : List (funnel_point ℝ)) i = some a → a = 0) ∧
      (r ≠ -1 → ∃ (i : Nat) (p : funnel_point ℝ) (a : ℝ), 1 ≤ i ∧
        i + 1 < ([⟨0, ⟨0, 0⟩⟩, ⟨1, ⟨1, 0⟩⟩, ⟨2, ⟨1, 1⟩⟩] : List (funnel_point ℝ)).length ∧
        ([⟨0, ⟨0, 0⟩⟩, ⟨1, ⟨1, 0⟩⟩, ⟨2, ⟨1, 1⟩⟩] : List (funnel_point ℝ))[i]? = some p ∧
        r = (p.face : Int) ∧
        turning_value Real.sqrt
          ([⟨0, ⟨0, 0⟩⟩, ⟨1, ⟨1, 0⟩⟩, ⟨2, ⟨1, 1⟩⟩] : List (funnel_point ℝ)) i = some a ∧ 0 < a ∧
        (∀ (j : Nat) (b : ℝ), 1 ≤ j →
          j + 1 < ([⟨0, ⟨0, 0⟩⟩, ⟨1, ⟨1, 0⟩⟩, ⟨2, ⟨1, 1⟩⟩] : List (funnel_point ℝ)).length →
          turning_value Real.sqrt
            ([⟨0, ⟨0, 0⟩⟩, ⟨1, ⟨1, 0⟩⟩, ⟨2, ⟨1, 1⟩⟩] : List (funnel_point ℝ)) j = some b → b ≤ a) ∧
        (∀ (j : Nat) (b : ℝ), 1 ≤ j → j < i →
          turning_value Real.sqrt
            ([⟨0, ⟨0, 0⟩⟩, ⟨1, ⟨1, 0⟩⟩, ⟨2, ⟨1, 1⟩⟩] : List (funnel_point ℝ)) j = some b → b < a)) ∧
      to_size_t (-1) = 2 ^ 64 - 1 :=
  max_curvature_point_first_maximum Real.sqrt (fun _ hx => Real.mul_self_sqrt hx)
    [⟨0, ⟨0, 0⟩⟩, ⟨1, ⟨1, 0⟩⟩, ⟨2, ⟨1, 1⟩⟩] (by simp) (by
      intro i p q hp hq
      match i, hp, hq with
      | 0, hp, hq =>
        simp only [List.getElem?_cons_zero, List.getElem?_cons_succ, Option.some.injEq,
          zero_add] at hp hq
        subst hp hq
        simp
      | 1, hp, hq =>
        simp only [List.getElem?_cons_zero, List.getElem?_cons_succ, Option.some.injEq,
          zero_add] at hp hq
        subst hp hq
        simp
      | i + 2, hp, hq => simp at hq)

end Curvature

section Straightening

variable {F : Type} [LinearOrderedField F]

/-- C28: in an iteration of `straighten_path` whose reads `path[index]`,
`path[index + 1]` and `lerps[index]` are in bounds, the pivot is
`target(path[index])` when `lerps[index]` is 0 and `source(path[index])` when
it is 1; when the pivot is the one of the iteration before, or when, in the
first iteration, `lerps[index]` is neither 0 nor 1, the body is left by `break`
and the loop returns at once with `path`, `lerps` and `portals` as they
were. -/
theorem straighten_iteration_break (sqrt : F → F) (fuel : Nat) (mesh : TriangleMesh F)
    (src tgt : Face_location F) (st : straighten_state F) (h_curr h_next : Nat) (lerp : F)
    (hc : st.path[st.index]? = some h_curr) (hn : st.path[st.index + 1]? = some h_next)
    (hl : st.lerps[st.index]? = some lerp) :
    (lerp = 0 → pivot mesh h_curr lerp = some (mesh.target h_curr)) ∧
    (lerp = 1 → pivot mesh h_curr lerp = some (mesh.source h_curr)) ∧
    (lerp ≠ 0 → lerp ≠ 1 → pivot mesh h_curr lerp = none) ∧
    (pivot mesh h_curr lerp = st.vertex →
      straighten_iteration sqrt fuel mesh src tgt st = some (true, st) ∧
      ∀ (rounds i : Nat), i < st.portals.length * 2 → st.index ≠ 2 ^ 64 - 1 →
        straighten_loop sqrt fuel mesh src tgt (rounds + 1) i st = some st) ∧
    (lerp ≠ 0 → lerp ≠ 1 → st.vertex = none →
      straighten_iteration sqrt fuel mesh src tgt st = some (true, st)) ∧
    (∀ (st' : straighten_state F),
      straighten_iteration sqrt fuel mesh src tgt st = some (false, st') →
      st'.vertex = pivot mesh h_curr lerp ∧ pivot mesh h_curr lerp ≠ st.vertex) := by
  have hbreak : pivot mesh h_curr lerp = st.vertex →
      straighten_iteration sqrt fuel mesh src tgt st = some (true, st) := by
    intro hp
    simp only [straighten_iteration, hc, hn, hl, Option.bind_eq_bind, Option.some_bind, hp,
      if_true]
  have h01 : (1 : F) ≠ 0 := one_ne_zero
  refine ⟨?_, ?_, ?_, ?_, ?_, ?_⟩
  · intro h0
    simp [pivot, h0]
  · intro h1
    simp [pivot, h1]
  · intro h0 h1
    simp [pivot, h0, h1]
  · intro hp
    refine ⟨hbreak hp, ?_⟩
    intro rounds i hi hidx
    rw [straighten_loop, if_pos ⟨hi, hidx⟩, hbreak hp]
  · intro h0 h1 hv
    apply hbreak
    rw [hv]
    simp [pivot, h0, h1]
  · intro st' hst
    by_cases hp : pivot mesh h_curr lerp = st.vertex
    · rw [hbreak hp] at hst
      simp at hst
    · refine ⟨?_, hp⟩
      simp only [straighten_iteration, hc, hn, hl, Option.bind_eq_bind, Option.some_bind, hp,
        if_false] at hst
      cases hr : reroute fuel mesh tgt st.path st.index h_curr h_next (decide (lerp = 0))
          (pivot mesh h_curr lerp) with
      | none => rw [hr] at hst; simp at hst
      | some new_path =>
        rw [hr] at hst
        simp only [Option.some_bind] at hst
        cases hu : unfold_strip sqrt new_path src tgt mesh with
        | none => rw [hu] at hst; simp at hst
        | some portals =>
          rw [hu] at hst
          simp only [Option.some_bind] at hst
          cases hf : funnel sqrt portals with
          | none => rw [hf] at hst; simp at hst
          | some r =>
            rw [hf] at hst
            simp only [Option.some_bind, Option.some.injEq, Prod.mk.injEq, true_and] at hst
            rw [← hst]

theorem straighten_iteration_break_witness :
    (((1 / 2 : ℚ)) = 0 → pivot (tetrahedron ℚ) 3 (1 / 2 : ℚ) = some ((tetrahedron ℚ).target 3)) ∧
    (((1 / 2 : ℚ)) = 1 → pivot (tetrahedron ℚ) 3 (1 / 2 : ℚ) = some ((tetrahedron ℚ).source 3)) ∧
    (((1 / 2 : ℚ)) ≠ 0 → (1 / 2 : ℚ) ≠ 1 → pivot (tetrahedron ℚ) 3 (1 / 2 : ℚ) = none) ∧
    (pivot (tetrahedron ℚ) 3 (1 / 2 : ℚ) = none →
      straighten_iteration Rat.sqrt 12 (tetrahedron ℚ) (face_centre ℚ 0) (face_centre ℚ 2)
        ⟨[], [1 / 2, 1 / 2], [3, 7], 0, none⟩ = some (true, ⟨[], [1 / 2, 1 / 2], [3, 7], 0, none⟩) ∧
      ∀ (rounds i : Nat), i < ([] : List (Vector_2 ℚ × Vector_2 ℚ)).length * 2 →
        0 ≠ 2 ^ 64 - 1 →
        straighten_loop Rat.sqrt 12 (tetrahedron ℚ) (face_centre ℚ 0) (face_centre ℚ 2)
          (rounds + 1) i ⟨[], [1 / 2, 1 / 2], [3, 7], 0, none⟩
          = some ⟨[], [1 / 2, 1 / 2], [3, 7], 0, none⟩) ∧
    (((1 / 2 : ℚ)) ≠ 0 → (1 / 2 : ℚ) ≠ 1 → (none : Option Nat) = none →
      straighten_iteration Rat.sqrt 12 (tetrahedron ℚ) (face_centre ℚ 0) (face_centre ℚ 2)
        ⟨[], [1 / 2, 1 / 2], [3, 7], 0, none⟩
        = some (true, ⟨[], [1 / 2, 1 / 2], [3, 7], 0, none⟩)) ∧
    (∀ (st' : straighten_state ℚ),
      straighten_iteration Rat.sqrt 12 (tetrahedron ℚ) (face_centre ℚ 0) (face_centre ℚ 2)
        ⟨[], [1 / 2, 1 / 2], [3, 7], 0, none⟩ = some (false, st') →
      st'.vertex = pivot (tetrahedron ℚ) 3 (1 / 2 : ℚ) ∧
        pivot (tetrahedron ℚ) 3 (1 / 2 : ℚ) ≠ none) :=
  straighten_iteration_break Rat.sqrt 12 (tetrahedron ℚ) (face_centre ℚ 0) (face_centre ℚ 2)
    ⟨[], [1 / 2, 1 / 2], [3, 7], 0, none⟩ 3 7 (1 / 2) rfl rfl rfl

/-- The loop that skips the halfedges incident to the pivot ends between the
index it starts from and `path.size()`, on an index below `path.size()` unless
it is left by `break`. -/
theorem skip_incident_bounds (endpoint : Nat → Nat) (path : List Nat) (new_vertex : Option Nat) :
    ∀ (fuel curr_index r : Nat),
      skip_incident endpoint path new_vertex fuel curr_index = some r →
      curr_index ≤ r ∧ r ≤ path.length ∧ curr_index < path.length := by
  intro fuel
  induction fuel with
  | zero =>
    intro c r h
    simp [skip_incident] at h
  | succ fuel ih =>
    intro c r h
    rw [skip_incident] at h
    cases hc : path[c]? with
    | none => rw [hc] at h; simp at h
    | some g =>
      have hlt : c < path.length := (List.getElem?_eq_some.1 hc).1
      rw [hc] at h
      simp only [Option.bind_eq_bind, Option.some_bind] at h
      split_ifs at h with h1 h2
      · have := Option.some.inj h
        omega
      · obtain ⟨a, b, -⟩ := ih (c + 1) r h
        omega
      · have := Option.some.inj h
        omega

/-- The halfedges collected around the pivot: the first one, then the images
of it under `advance`, up to the first of these images that lies on the target
face, which is the last one collected. -/
theorem collect_ring_chain (mesh : TriangleMesh F) (advance : Nat → Nat) (target_face : Nat) :
    ∀ (fuel h : Nat) (l : List Nat), collect_ring mesh advance target_face fuel h = some l →
      ∃ m, 1 ≤ m ∧ m ≤ fuel ∧ l.length = m + 1 ∧
        (∀ j, j ≤ m → l[j]? = some (advance^[j] h)) ∧
        (∀ j, 1 ≤ j → j < m → mesh.face (advance^[j] h) ≠ target_face) ∧
        mesh.face (advance^[m] h) = target_face := by
  intro fuel
  induction fuel with
  | zero =>
    intro h l hl
    simp [collect_ring] at hl
  | succ fuel ih =>
    intro h l hl
    rw [collect_ring] at hl
    split_ifs at hl with hface
    · cases hrec : collect_ring mesh advance target_face fuel (advance h) with
      | none => rw [hrec] at hl; simp at hl
      | some l' =>
        rw [hrec] at hl
        simp only [Option.map_some', Option.some.injEq] at hl
        obtain ⟨m, hm1, hm2, hlen, hget, hne, hlast⟩ := ih (advance h) l' hrec
        refine ⟨m + 1, by omega, by omega, by rw [← hl, List.length_cons, hlen], ?_, ?_, ?_⟩
        · intro j hj
          cases j with
          | zero => rw [← hl]; simp
          | succ j =>
            rw [← hl, List.getElem?_cons_succ, hget j (by omega), Function.iterate_succ_apply]
        · intro j hj1 hj2
          cases j with
          | zero => omega
          | succ j =>
            rw [Function.iterate_succ_apply]
            cases j with
            | zero => exact fun e => hface e.symm
            | succ j => exact hne (j + 1) (by omega) (by omega)
        · rw [Function.iterate_succ_apply]
          exact hlast
    · have hl' := (Option.some.inj hl).symm
      subst hl'
      refine ⟨1, le_rfl, by omega, rfl, ?_, ?_, ?_⟩
      · intro j hj
        cases j with
        | zero => simp
        | succ j =>
          have : j = 0 := by omega
          subst this
          simp
      · intro j hj1 hj2
        omega
      · exact (not_not.1 hface).symm

/-- The pieces of a re-routing that returns: the two assertions hold, the old
strip is cut at `index` and at `curr_index`, and the halfedges collected around
the pivot are put in between. -/
theorem reroute_shape (fuel : Nat) (mesh : TriangleMesh F) (tgt : Face_location F)
    (path : List Nat) (index h_curr h_next : Nat) (is_target : Bool) (new_vertex : Option Nat)
    (new_path : List Nat)
    (h : reroute fuel mesh tgt path index h_curr h_next is_target new_vertex = some new_path) :
    (is_target = true → mesh.opposite (mesh.next h_curr) = h_next) ∧
    (is_target = false → mesh.opposite (mesh.prev h_curr) = h_next) ∧
    ∃ (curr_index target_face : Nat) (new_hedges : List Nat),
      skip_incident (if is_target then mesh.target else mesh.source) path new_vertex
        (path.length + 1) (index + 1) = some curr_index ∧
      ((curr_index = path.length ∧ target_face = tgt.first) ∨
        (curr_index ≠ path.length ∧ ∃ g, path[curr_index]? = some g ∧
          target_face = mesh.face (mesh.opposite g))) ∧
      ring_hedges fuel mesh h_curr is_target target_face = some new_hedges ∧
      new_path = path.take index ++ new_hedges ++ path.drop curr_index := by
  have a1 : is_target = true → mesh.opposite (mesh.next h_curr) = h_next := by
    intro e
    by_contra hne
    simp [reroute, e, hne] at h
  have a2 : is_target = false → mesh.opposite (mesh.prev h_curr) = h_next := by
    intro e
    by_contra hne
    simp [reroute, e, hne] at h
  refine ⟨a1, a2, ?_⟩
  unfold reroute at h
  rw [if_neg (fun hc => hc.2 (a1 hc.1)), if_neg (fun hc => hc.2 (a2 hc.1))] at h
  simp only [Option.bind_eq_some] at h
  obtain ⟨curr_index, hs, target_face, htf, new_hedges, hr, hn⟩ := h
  refine ⟨curr_index, target_face, new_hedges, hs, ?_, hr, (Option.some.inj hn).symm⟩
  unfold ring_target_face at htf
  by_cases hci : curr_index = path.length
  · rw [if_neg (not_not.2 hci)] at htf
    exact Or.inl ⟨hci, (Option.some.inj htf).symm⟩
  · rw [if_pos hci] at htf
    obtain ⟨g, hg, hgf⟩ := Option.map_eq_some'.1 htf
    exact Or.inr ⟨hci, g, hg, hgf.symm⟩

/-- The do-while loops of lines 623-629 and 646-652 test the face of `h_loop`
after the first advance only.  On the tetrahedron, around the vertex `1` of
degree 3 (strip `3, 7`, pivot `source(path[index])`), the first halfedge `6`
of the ring lies on the target face `2` already, and the loop goes on once
round the vertex: `6, 5, 0, 6` is spliced in. -/
theorem collect_ring_first_untested :
    reroute 12 (tetrahedron ℚ) (face_centre ℚ 2) [3, 7] 0 3 7 (decide ((1 : ℚ) = 0))
      (pivot (tetrahedron ℚ) 3 (1 : ℚ)) = some [6, 5, 0, 6] ∧
    (tetrahedron ℚ).opposite ((tetrahedron ℚ).next ((tetrahedron ℚ).opposite 3)) = 6 ∧
    (tetrahedron ℚ).face 6 = (face_centre ℚ 2).first := by
  decide

/-- C29, on the octahedron, around the vertex `4` of degree 4: around the
pivot `target(path[index])` (strip `1, 10` from face `1` to face `3`) the
halfedges `8, 11` are collected, `11` being `opposite(prev(8))` and not
`opposite(next(8)) = 18`; around the pivot `source(path[index])` (strip `5, 8`
from face `0` to face `2`) the halfedges `10, 7` are collected, `7` being
`opposite(next(10))` and not `opposite(prev(10)) = 21`.  In both re-routes the
first halfedge collected is not on the face that continues the old strip. -/
theorem reroute_direction :
    reroute 24 octahedron (face_centre ℚ 3) [1, 10] 0 1 10 (decide ((0 : ℚ) = 0))
      (pivot octahedron 1 (0 : ℚ)) = some [8, 11] ∧
    pivot octahedron 1 (0 : ℚ) = some (octahedron.target 1) ∧
    octahedron.opposite (octahedron.prev 8) = 11 ∧
    octahedron.opposite (octahedron.next 8) = 18 ∧
    octahedron.face 8 ≠ (face_centre ℚ 3).first ∧
    reroute 24 octahedron (face_centre ℚ 2) [5, 8] 0 5 8 (decide ((1 : ℚ) = 0))
      (pivot octahedron 5 (1 : ℚ)) = some [10, 7] ∧
    pivot octahedron 5 (1 : ℚ) = some (octahedron.source 5) ∧
    octahedron.opposite (octahedron.next 10) = 7 ∧
    octahedron.opposite (octahedron.prev 10) = 21 ∧
    octahedron.face 10 ≠ (face_centre ℚ 2).first := by
  decide

/-- C29, amended: in a re-routing that returns, with `curr_index` the index
where the old strip is taken up again and `target_face` the face that continues
it (the face of `opposite(path[curr_index])`, or of the target when the old
strip is replaced up to its end), and when the first halfedge of the ring is
not on `target_face`: the halfedges spliced in are `h_0, ..., h_m`; for the
pivot `target(path[index])`, `h_0` is `opposite(prev(opposite(path[index])))`
and each `h_(j+1)` is `opposite(prev(h_j))`; for the pivot
`source(path[index])`, `h_0` is `opposite(next(opposite(path[index])))` and
each `h_(j+1)` is `opposite(next(h_j))`; and `h_m` is the first of them that
lies on `target_face`. -/
theorem reroute_ring (fuel : Nat) (mesh : TriangleMesh F) (tgt : Face_location F)
    (path : List Nat) (index h_curr h_next : Nat) (is_target : Bool) (new_vertex : Option Nat)
    (new_path : List Nat) (curr_index target_face : Nat)
    (hci : skip_incident (if is_target then mesh.target else mesh.source) path new_vertex
      (path.length + 1) (index + 1) = some curr_index)
    (htf : ring_target_face mesh tgt path curr_index = some target_face)
    (hfirst : mesh.face (if is_target then mesh.opposite (mesh.prev (mesh.opposite h_curr))
      else mesh.opposite (mesh.next (mesh.opposite h_curr))) ≠ target_face)
    (h : reroute fuel mesh tgt path index h_curr h_next is_target new_vertex = some new_path) :
    ∃ (m : Nat) (new_hedges : List Nat),
      new_path = path.take index ++ new_hedges ++ path.drop curr_index ∧
      ((curr_index = path.length ∧ target_face = tgt.first) ∨
        (curr_index ≠ path.length ∧ ∃ g, path[curr_index]? = some g ∧
          target_face = mesh.face (mesh.opposite g))) ∧
      new_hedges.length = m + 1 ∧
      (is_target = true → ∀ j, j ≤ m → new_hedges[j]? =
        some ((fun h => mesh.opposite (mesh.prev h))^[j]
          (mesh.opposite (mesh.prev (mesh.opposite h_curr))))) ∧
      (is_target = false → ∀ j, j ≤ m → new_hedges[j]? =
        some ((fun h => mesh.opposite (mesh.next h))^[j]
          (mesh.opposite (mesh.next (mesh.opposite h_curr))))) ∧
      (∀ j g, j < m → new_hedges[j]? = some g → mesh.face g ≠ target_face) ∧
      (∀ g, new_hedges[m]? = some g → mesh.face g = target_face) := by
  obtain ⟨-, -, curr_index', target_face', new_hedges, hci', htf', hr, hn⟩ :=
    reroute_shape fuel mesh tgt path index h_curr h_next is_target new_vertex new_path h
  rw [hci] at hci'
  have e1 : curr_index' = curr_index := (Option.some.inj hci').symm
  subst e1
  have e2 : target_face' = target_face := by
    unfold ring_target_face at htf
    rcases htf' with ⟨hc, ht⟩ | ⟨hc, g, hg, ht⟩
    · rw [if_neg (not_not.2 hc)] at htf
      rw [ht]
      exact Option.some.inj htf
    · rw [if_pos hc, hg] at htf
      rw [ht]
      exact Option.some.inj htf
  subst e2
  unfold ring_hedges at hr
  cases is_target with
  | true =>
    rw [if_pos rfl] at hr hfirst
    obtain ⟨m, -, -, hlen, hget, hne, hlast⟩ := collect_ring_chain mesh _ target_face' _ _ _ hr
    refine ⟨m, new_hedges, hn, htf', hlen, fun _ => hget, fun e => absurd e (by decide), ?_, ?_⟩
    · intro j g hj hg
      rw [hget j hj.le] at hg
      rw [← Option.some.inj hg]
      cases j with
      | zero => exact hfirst
      | succ j => exact hne (j + 1) (by omega) hj
    · intro g hg
      rw [hget m le_rfl] at hg
      rw [← Option.some.inj hg]
      exact hlast
  | false =>
    rw [if_neg (by decide)] at hr hfirst
    obtain ⟨m, -, -, hlen, hget, hne, hlast⟩ := collect_ring_chain mesh _ target_face' _ _ _ hr
    refine ⟨m, new_hedges, hn, htf', hlen, fun e => absurd e (by decide), fun _ => hget, ?_, ?_⟩
    · intro j g hj hg
      rw [hget j hj.le] at hg
      rw [← Option.some.inj hg]
      cases j with
      | zero => exact hfirst
      | succ j => exact hne (j + 1) (by omega) hj
    · intro g hg
      rw [hget m le_rfl] at hg
      rw [← Option.some.inj hg]
      exact hlast

theorem reroute_ring_witness :
    ∃ (m : Nat) (new_hedges : List Nat),
      [8, 11] = ([1, 10] : List Nat).take 0 ++ new_hedges ++ ([1, 10] : List Nat).drop 2 ∧
      (((2 : Nat) = ([1, 10] : List Nat).length ∧ (3 : Nat) = (face_centre ℚ 3).first) ∨
        ((2 : Nat) ≠ ([1, 10] : List Nat).length ∧ ∃ g, ([1, 10] : List Nat)[2]? = some g ∧
          (3 : Nat) = octahedron.face (octahedron.opposite g))) ∧
      new_hedges.length = m + 1 ∧
      (true = true → ∀ j, j ≤ m → new_hedges[j]? =
        some ((fun h => octahedron.opposite (octahedron.prev h))^[j]
          (octahedron.opposite (octahedron.prev (octahedron.opposite 1))))) ∧
      (true = false → ∀ j, j ≤ m → new_hedges[j]? =
        some ((fun h => octahedron.opposite (octahedron.next h))^[j]
          (octahedron.opposite (octahedron.next (octahedron.opposite 1))))) ∧
      (∀ j g, j < m → new_hedges[j]? = some g → octahedron.face g ≠ 3) ∧
      (∀ g, new_hedges[m]? = some g → octahedron.face g = 3) :=
  reroute_ring 24 octahedron (face_centre ℚ 3) [1, 10] 0 1 10 true (some 4) [8, 11] 2 3
    (by decide) (by decide) (by decide) (by decide)

end Straightening

section Splicing

variable {F : Type} [LinearOrderedField F]

/-- The strip conditions by index are those of a strip from the face of the
source to the face of the target. -/
theorem strip_from_iff (mesh : TriangleMesh F) (path : List Nat) :
    ∀ (f t : Nat), path ≠ [] → (strip_from mesh f t path ↔
      ((∀ h, path[0]? = some h → mesh.face (mesh.opposite h) = f) ∧
      (∀ i h h', path[i]? = some h → path[i + 1]? = some h' →
        mesh.face h = mesh.face (mesh.opposite h')) ∧
      (∀ h, path[path.length - 1]? = some h → mesh.face h = t))) := by
  induction path with
  | nil =>
    intro f t hne
    exact absurd rfl hne
  | cons a rest ih =>
    intro f t _
    cases rest with
    | nil =>
      simp only [strip_from, List.getElem?_cons_zero, Option.some.injEq, List.length_singleton,
        Nat.sub_self]
      constructor
      · rintro ⟨h1, h2⟩
        refine ⟨fun h e => e ▸ h1, ?_, fun h e => e ▸ h2⟩
        intro i h h' _ hb
        simp at hb
      · rintro ⟨h1, -, h3⟩
        exact ⟨h1 a rfl, h3 a rfl⟩
    | cons b rest' =>
      have ih' := ih (mesh.face a) t (by simp)
      rw [strip_from, ih']
      simp only [List.getElem?_cons_zero, Option.some.injEq, List.length_cons,
        Nat.add_sub_cancel]
      constructor
      · rintro ⟨h1, h2, h3, h4⟩
        refine ⟨fun h e => e ▸ h1, ?_, ?_⟩
        · intro i h h' ha hb
          cases i with
          | zero =>
            simp only [List.getElem?_cons_zero, Option.some.injEq, zero_add,
              List.getElem?_cons_succ] at ha hb
            subst ha hb
            exact (h2 _ rfl).symm
          | succ j =>
            rw [List.getElem?_cons_succ] at ha hb
            exact h3 j h h' ha hb
        · intro h hh
          rw [List.getElem?_cons_succ] at hh
          exact h4 h hh
      · rintro ⟨h1, h2, h3⟩
        refine ⟨h1 a rfl, fun h e => ?_, ?_, ?_⟩
        · subst e
          exact (h2 0 a _ rfl (by simp)).symm
        · intro i h h' ha hb
          exact h2 (i + 1) h h' (by rw [List.getElem?_cons_succ]; exact ha)
            (by rw [List.getElem?_cons_succ]; exact hb)
        · intro h hh
          exact h3 h (by rw [List.getElem?_cons_succ]; exact hh)

end Splicing

section Bend

/-- The strips `3` and `3, 6` of `bend_mesh` are valid, from face `0` to face
`1` and to face `2`. -/
theorem bend_strips :
    valid_strip bend_mesh bend_source bend_near_target [3] ∧
    valid_strip bend_mesh bend_source bend_far_target [3, 6] ∧
    valid_strip bend_mesh bend_source bend_vertex_target [3, 6] := by
  refine ⟨⟨by simp, (strip_from_iff _ _ _ _ (by simp)).1 ?_⟩,
    ⟨by simp, (strip_from_iff _ _ _ _ (by simp)).1 ?_⟩,
    ⟨by simp, (strip_from_iff _ _ _ _ (by simp)).1 ?_⟩⟩
  · simp [strip_from, bend_mesh, bend_source, bend_near_target]
  · simp [strip_from, bend_mesh, bend_source, bend_far_target]
  · simp [strip_from, bend_mesh, bend_source, bend_vertex_target]

/-- C33, on the strip of one edge of `bend_mesh`, from the vertex `2` to a point
of face `1` behind the vertex `1`: the strip is valid, the path bends round the
vertex `1`, an end point of the last (and only) crossed edge, `funnel` returns
the apex index `0`, the body of the straightening loop runs, and
`index + 1 = path.size()`: the read `path[index + 1]` is out of bounds. -/
theorem straighten_path_reads_past_end :
    valid_strip bend_mesh bend_source bend_near_target [3] ∧
    unfold_strip Rat.sqrt [3] bend_source bend_near_target bend_mesh
      = some [(⟨3, 0⟩, ⟨3, 4⟩), (⟨44 / 13, 64 / 13⟩, ⟨44 / 13, 64 / 13⟩)] ∧
    funnel Rat.sqrt [(⟨3, 0⟩, ⟨3, 4⟩), (⟨44 / 13, 64 / 13⟩, ⟨44 / 13, 64 / 13⟩)]
      = some ([1], 0) ∧
    (0 < [((⟨3, 0⟩ : Vector_2 ℚ), (⟨3, 4⟩ : Vector_2 ℚ)),
      (⟨44 / 13, 64 / 13⟩, ⟨44 / 13, 64 / 13⟩)].length * 2 ∧ 0 ≠ 2 ^ 64 - 1) ∧
    ¬ (0 + 1 < ([3] : List Nat).length) ∧
    ([3] : List Nat)[0 + 1]? = none ∧
    straighten_iteration Rat.sqrt 14 bend_mesh bend_source bend_near_target
      ⟨[(⟨3, 0⟩, ⟨3, 4⟩), (⟨44 / 13, 64 / 13⟩, ⟨44 / 13, 64 / 13⟩)], [1], [3], 0, none⟩ = none ∧
    straighten_path Rat.sqrt 14 4 [(⟨3, 0⟩, ⟨3, 4⟩), (⟨44 / 13, 64 / 13⟩, ⟨44 / 13, 64 / 13⟩)]
      [1] [3] bend_source bend_near_target bend_mesh 0 = none := by
  refine ⟨bend_strips.1, ?_⟩
  decide!

/-- C34, on the strip `3, 6` of `bend_mesh`, from the vertex `2` to the vertex
`0` taken as a location of face `2`: the last portal is degenerate and the
target is an end point of the two portals before; the funnel path has the two
points `(0,0)` and `(3,0)`; the loop that sets the faces finds the second point
on portal `0`, moves `index` to `2 = points.size()`, and reads `points[2]` at
portal `1`. -/
theorem funnel_set_faces_out_of_bounds :
    valid_strip bend_mesh bend_source bend_vertex_target [3, 6] ∧
    unfold_strip Rat.sqrt [3, 6] bend_source bend_vertex_target bend_mesh
      = some [(⟨3, 0⟩, ⟨3, 4⟩), (⟨3, 0⟩, ⟨4, 7⟩), (⟨3, 0⟩, ⟨3, 0⟩)] ∧
    funnel_points [(⟨3, 0⟩, ⟨3, 4⟩), (⟨3, 0⟩, ⟨4, 7⟩), ((⟨3, 0⟩ : Vector_2 ℚ), ⟨3, 0⟩)]
      = some [⟨0, ⟨0, 0⟩⟩, ⟨1, ⟨3, 0⟩⟩] ∧
    funnel_set_faces [(⟨3, 0⟩, ⟨3, 4⟩), (⟨3, 0⟩, ⟨4, 7⟩), ((⟨3, 0⟩ : Vector_2 ℚ), ⟨3, 0⟩)]
      1 0 1 [⟨0, ⟨0, 0⟩⟩, ⟨1, ⟨3, 0⟩⟩] = some [⟨0, ⟨0, 0⟩⟩, ⟨0, ⟨3, 0⟩⟩] ∧
    ([⟨0, ⟨0, 0⟩⟩, ⟨0, ⟨3, 0⟩⟩] : List (funnel_point ℚ))[2]? = none ∧
    funnel_set_faces [(⟨3, 0⟩, ⟨3, 4⟩), (⟨3, 0⟩, ⟨4, 7⟩), ((⟨3, 0⟩ : Vector_2 ℚ), ⟨3, 0⟩)]
      3 0 1 [⟨0, ⟨0, 0⟩⟩, ⟨1, ⟨3, 0⟩⟩] = none ∧
    funnel Rat.sqrt [(⟨3, 0⟩, ⟨3, 4⟩), (⟨3, 0⟩, ⟨4, 7⟩), (⟨3, 0⟩, ⟨3, 0⟩)] = none := by
  refine ⟨bend_strips.2.2, ?_⟩
  decide!

/-- C38, on the strip `3, 6` of `bend_mesh`, from the vertex `2` to the vertex
`4`: the strip is valid, the path bends round the vertex `1 = source(path[0])`,
`funnel` returns the apex index `0` and `lerps[0] = 1`, but the next crossed
edge is the edge of `next(path[0])`, which is not incident to the pivot:
`path[1]` is `opposite(next(path[0]))` and not `opposite(prev(path[0]))`, and
the second assertion fails. -/
theorem straighten_path_assertion_fails :
    valid_strip bend_mesh bend_source bend_far_target [3, 6] ∧
    unfold_strip Rat.sqrt [3, 6] bend_source bend_far_target bend_mesh
      = some [(⟨3, 0⟩, ⟨3, 4⟩), (⟨3, 0⟩, ⟨4, 7⟩), (⟨8, 16⟩, ⟨8, 16⟩)] ∧
    funnel Rat.sqrt [(⟨3, 0⟩, ⟨3, 4⟩), (⟨3, 0⟩, ⟨4, 7⟩), (⟨8, 16⟩, ⟨8, 16⟩)]
      = some ([1, 20 / 23], 0) ∧
    pivot bend_mesh 3 (1 : ℚ) = some (bend_mesh.source 3) ∧
    ([3, 6] : List Nat)[0 + 1]? = some 6 ∧
    bend_mesh.opposite (bend_mesh.next 3) = 6 ∧
    bend_mesh.opposite (bend_mesh.prev 3) = 11 ∧
    bend_mesh.source 6 ≠ bend_mesh.source 3 ∧ bend_mesh.target 6 ≠ bend_mesh.source 3 ∧
    reroute 14 bend_mesh bend_far_target [3, 6] 0 3 6 (decide ((1 : ℚ) = 0))
      (pivot bend_mesh 3 (1 : ℚ)) = none ∧
    straighten_iteration Rat.sqrt 14 bend_mesh bend_source bend_far_target
      ⟨[(⟨3, 0⟩, ⟨3, 4⟩), (⟨3, 0⟩, ⟨4, 7⟩), (⟨8, 16⟩, ⟨8, 16⟩)], [1, 20 / 23], [3, 6], 0, none⟩
      = none := by
  refine ⟨bend_strips.2.1, ?_⟩
  decide!

end Bend

section Orientation

variable {F : Type} [LinearOrderedField F]

/-- The discriminant of the two-circle construction over an edge `A B`, for the
squared distances of a point `V` to `A` and `B` in either order: four times
the squared norm of the cross product over the squared length of the edge
squared. -/
theorem circles_discriminant_eq (A B V : Point_3 F) (c2 c1 : Vector_2 F) (R2 R1 : F)
    (hR : (c2 - c1).squared_length = squared_distance A B) (hpos : 0 < squared_distance A B)
    (hradii : (R1 = squared_distance B V ∧ R2 = squared_distance A V) ∨
      (R1 = squared_distance A V ∧ R2 = squared_distance B V)) :
    circles_discriminant c2 R2 c1 R1 = 4 * cross_squared A B V / squared_distance A B ^ 2 := by
  have key := triangle_discriminant A B V hpos
  unfold circles_discriminant
  rw [hR]
  rcases hradii with ⟨h1, h2⟩ | ⟨h1, h2⟩
  · rw [h1, h2, key]
  · rw [h1, h2, ← key]
    ring

/-- The discriminant of a triangle is zero exactly when its cross product is,
and positive otherwise. -/
theorem discriminant_zero_iff (A B V : Point_3 F) (hpos : 0 < squared_distance A B) :
    (4 * cross_squared A B V / squared_distance A B ^ 2 = 0 ↔ cross_squared A B V = 0) ∧
    (cross_squared A B V ≠ 0 → 0 < 4 * cross_squared A B V / squared_distance A B ^ 2) := by
  have hd : 0 < squared_distance A B ^ 2 := pow_pos hpos 2
  constructor
  · rw [div_eq_zero_iff]
    constructor
    · rintro (h | h)
      · linarith
      · exact absurd h (ne_of_gt hd)
    · intro h
      left
      rw [h, mul_zero]
  · intro hne
    have hc : 0 < cross_squared A B V :=
      lt_of_le_of_ne (cross_squared_nonneg A B V) (Ne.symm hne)
    exact div_pos (by linarith) hd

/-- C37: for a halfedge `h` whose end points have different positions, with an
exact square root, both assertions of `intersect_circles` hold in the call made
by `init_flat_triangle(h)`: `R` is positive, the discriminant `s` is
`4 |(p1 - p0) x (p2 - p0)|^2 / |p0 p1|^4`, that is `16 area^2 / |p0 p1|^4`, which
is not negative; `s` is zero exactly when the three vertices are collinear; and
the call returns. -/
theorem init_flat_triangle_assertions (sqrt : F → F) (hsq : ∀ x, 0 ≤ x → sqrt x * sqrt x = x)
    (mesh : TriangleMesh F) (h : Nat)
    (hne : mesh.vpm (mesh.source h) ≠ mesh.vpm (mesh.target h)) :
    0 < ((⟨0, 0⟩ : Vector_2 F) - ⟨0, sqrt (squared_distance (mesh.vpm (mesh.source h))
      (mesh.vpm (mesh.target h)))⟩).squared_length ∧
    circles_discriminant (⟨0, 0⟩ : Vector_2 F)
      (squared_distance (mesh.vpm (mesh.source h)) (mesh.vpm (mesh.target (mesh.next h))))
      ⟨0, sqrt (squared_distance (mesh.vpm (mesh.source h)) (mesh.vpm (mesh.target h)))⟩
      (squared_distance (mesh.vpm (mesh.target h)) (mesh.vpm (mesh.target (mesh.next h))))
      = 4 * cross_squared (mesh.vpm (mesh.source h)) (mesh.vpm (mesh.target h))
          (mesh.vpm (mesh.target (mesh.next h)))
        / squared_distance (mesh.vpm (mesh.source h)) (mesh.vpm (mesh.target h)) ^ 2 ∧
    0 ≤ circles_discriminant (⟨0, 0⟩ : Vector_2 F)
      (squared_distance (mesh.vpm (mesh.source h)) (mesh.vpm (mesh.target (mesh.next h))))
      ⟨0, sqrt (squared_distance (mesh.vpm (mesh.source h)) (mesh.vpm (mesh.target h)))⟩
      (squared_distance (mesh.vpm (mesh.target h)) (mesh.vpm (mesh.target (mesh.next h)))) ∧
    (circles_discriminant (⟨0, 0⟩ : Vector_2 F)
      (squared_distance (mesh.vpm (mesh.source h)) (mesh.vpm (mesh.target (mesh.next h))))
      ⟨0, sqrt (squared_distance (mesh.vpm (mesh.source h)) (mesh.vpm (mesh.target h)))⟩
      (squared_distance (mesh.vpm (mesh.target h)) (mesh.vpm (mesh.target (mesh.next h)))) = 0
      ↔ ¬ non_degenerate mesh h) ∧
    (init_flat_triangle sqrt h mesh).isSome = true := by
  set A := mesh.vpm (mesh.source h) with hA
  set B := mesh.vpm (mesh.target h) with hB
  set V := mesh.vpm (mesh.target (mesh.next h)) with hV
  have hpos : 0 < squared_distance A B := by
    refine lt_of_le_of_ne (squared_distance_nonneg A B) (Ne.symm ?_)
    intro h0
    exact hne ((squared_distance_eq_zero A B).1 h0)
  have hw := hsq _ hpos.le
  have hR1 : ((⟨0, 0⟩ : Vector_2 F) - ⟨0, sqrt (squared_distance A B)⟩).squared_length
      = squared_distance A B := by
    simp only [Vector_2.squared_length, vector_sub_def]
    linear_combination hw
  have heq := circles_discriminant_eq A B V (⟨0, 0⟩ : Vector_2 F)
    ⟨0, sqrt (squared_distance A B)⟩ (squared_distance A V) (squared_distance B V) hR1 hpos
    (Or.inl ⟨rfl, rfl⟩)
  have hnn := circles_discriminant_nonneg A B V (⟨0, 0⟩ : Vector_2 F)
    ⟨0, sqrt (squared_distance A B)⟩ (squared_distance A V) (squared_distance B V) hR1 hpos
    (Or.inl ⟨rfl, rfl⟩)
  obtain ⟨P, hP, -⟩ := flat_corner_returns sqrt hsq A B V hne
  refine ⟨by rw [hR1]; exact hpos, heq, hnn, ?_, ?_⟩
  · rw [heq, (discriminant_zero_iff A B V hpos).1]
    unfold non_degenerate
    rw [← hA, ← hB, ← hV, not_not]
  · simp only [init_flat_triangle, ← hA, ← hB, ← hV, hP]
    rfl

theorem init_flat_triangle_assertions_witness :
    0 < ((⟨0, 0⟩ : Vector_2 ℝ) - ⟨0, Real.sqrt (squared_distance
      ((two_triangles ℝ).vpm ((two_triangles ℝ).source 0))
      ((two_triangles ℝ).vpm ((two_triangles ℝ).target 0)))⟩).squared_length ∧
    circles_discriminant (⟨0, 0⟩ : Vector_2 ℝ)
      (squared_distance ((two_triangles ℝ).vpm ((two_triangles ℝ).source 0))
        ((two_triangles ℝ).vpm ((two_triangles ℝ).target ((two_triangles ℝ).next 0))))
      ⟨0, Real.sqrt (squared_distance ((two_triangles ℝ).vpm ((two_triangles ℝ).source 0))
        ((two_triangles ℝ).vpm ((two_triangles ℝ).target 0)))⟩
      (squared_distance ((two_triangles ℝ).vpm ((two_triangles ℝ).target 0))
        ((two_triangles ℝ).vpm ((two_triangles ℝ).target ((two_triangles ℝ).next 0))))
      = 4 * cross_squared ((two_triangles ℝ).vpm ((two_triangles ℝ).source 0))
          ((two_triangles ℝ).vpm ((two_triangles ℝ).target 0))
          ((two_triangles ℝ).vpm ((two_triangles ℝ).target ((two_triangles ℝ).next 0)))
        / squared_distance ((two_triangles ℝ).vpm ((two_triangles ℝ).source 0))
          ((two_triangles ℝ).vpm ((two_triangles ℝ).target 0)) ^ 2 ∧
    0 ≤ circles_discriminant (⟨0, 0⟩ : Vector_2 ℝ)
      (squared_distance ((two_triangles ℝ).vpm ((two_triangles ℝ).source 0))
        ((two_triangles ℝ).vpm ((two_triangles ℝ).target ((two_triangles ℝ).next 0))))
      ⟨0, Real.sqrt (squared_distance ((two_triangles ℝ).vpm ((two_triangles ℝ).source 0))
        ((two_triangles ℝ).vpm ((two_triangles ℝ).target 0)))⟩
      (squared_distance ((two_triangles ℝ).vpm ((two_triangles ℝ).target 0))
        ((two_triangles ℝ).vpm ((two_triangles ℝ).target ((two_triangles ℝ).next 0)))) ∧
    (circles_discriminant (⟨0, 0⟩ : Vector_2 ℝ)
      (squared_distance ((two_triangles ℝ).vpm ((two_triangles ℝ).source 0))
        ((two_triangles ℝ).vpm ((two_triangles ℝ).target ((two_triangles ℝ).next 0))))
      ⟨0, Real.sqrt (squared_distance ((two_triangles ℝ).vpm ((two_triangles ℝ).source 0))
        ((two_triangles ℝ).vpm ((two_triangles ℝ).target 0)))⟩
      (squared_distance ((two_triangles ℝ).vpm ((two_triangles ℝ).target 0))
        ((two_triangles ℝ).vpm ((two_triangles ℝ).target ((two_triangles ℝ).next 0)))) = 0
      ↔ ¬ non_degenerate (two_triangles ℝ) 0) ∧
    (init_flat_triangle Real.sqrt 0 (two_triangles ℝ)).isSome = true :=
  init_flat_triangle_assertions Real.sqrt (fun _ hx => Real.mul_self_sqrt hx) (two_triangles ℝ) 0
    (by simp [two_triangles])

/-- The abscissa of the point returned by `intersect_circles` for two centres
on the Y axis: half the difference of their ordinates times the square root of
the discriminant. -/
theorem intersect_circles_x (sqrt : F → F) (c2 : Vector_2 F) (R2 : F) (c1 : Vector_2 F) (R1 : F)
    (P : Vector_2 F) (hP : intersect_circles sqrt c2 R2 c1 R1 = some P)
    (h1 : c1.x = 0) (h2 : c2.x = 0) :
    P.x = (c2.y - c1.y) * sqrt (circles_discriminant c2 R2 c1 R1) / 2 := by
  unfold intersect_circles at hP
  dsimp only at hP
  split_ifs at hP with a b
  have hP' := (Option.some.inj hP).symm
  subst hP'
  simp only [Vector_2.div, Vector_2.scale, vector_add_def, vector_sub_def, h1, h2,
    circles_discriminant]
  ring

/-- The square root of a positive number is positive, for an exact square root
that is not negative. -/
theorem sqrt_pos_of_pos (sqrt : F → F) (hsq : ∀ x, 0 ≤ x → sqrt x * sqrt x = x)
    (hs0 : ∀ x, 0 ≤ sqrt x) (x : F) (hx : 0 < x) : 0 < sqrt x := by
  refine lt_of_le_of_ne (hs0 x) (Ne.symm ?_)
  intro h0
  have := hsq x hx.le
  rw [h0, mul_zero] at this
  exact (ne_of_gt hx) this.symm

/-- C32: for a halfedge `h` whose two incident triangles are not degenerate,
on a mesh where `opposite(h)` runs from `target(h)` to `source(h)`, with an
exact square root that is not negative, `init_flat_triangle(h)` puts the source
at the origin, the target on the positive Y axis and the third vertex of the
face at a negative abscissa, and `unfold_face(h, .)` keeps the two end points
and puts the third vertex of the neighbour at a positive abscissa: the two
triangles lie on opposite sides of the shared edge. -/
theorem unfold_face_opposite_sides (sqrt : F → F) (hsq : ∀ x, 0 ≤ x → sqrt x * sqrt x = x)
    (hs0 : ∀ x, 0 ≤ sqrt x) (mesh : TriangleMesh F) (h : Nat)
    (hsrc : mesh.source (mesh.opposite h) = mesh.target h)
    (htgt : mesh.target (mesh.opposite h) = mesh.source h)
    (hnd : non_degenerate mesh h) (hnd_opp : non_degenerate mesh (mesh.opposite h)) :
    ∃ flat nei, init_flat_triangle sqrt h mesh = some flat ∧
      unfold_face sqrt h mesh flat = some nei ∧
      flat.a0 = ⟨0, 0⟩ ∧ flat.a1.x = 0 ∧ 0 < flat.a1.y ∧ flat.a2.x < 0 ∧
      nei.a0 = flat.a0 ∧ nei.a1 = flat.a1 ∧ 0 < nei.a2.x := by
  set A := mesh.vpm (mesh.source h) with hA
  set B := mesh.vpm (mesh.target h) with hB
  set V := mesh.vpm (mesh.target (mesh.next h)) with hV
  set W := mesh.vpm (mesh.target (mesh.next (mesh.opposite h))) with hW
  have hpos : 0 < squared_distance A B := squared_distance_pos_of_cross A B V hnd
  have hposBA : 0 < squared_distance B A := by
    rw [squared_distance_comm]
    exact hpos
  have hw : sqrt (squared_distance A B) * sqrt (squared_distance A B) = squared_distance A B :=
    hsq _ hpos.le
  have hwpos : 0 < sqrt (squared_distance A B) := sqrt_pos_of_pos sqrt hsq hs0 _ hpos
  set w := sqrt (squared_distance A B) with hwdef
  have hR1 : ((⟨0, 0⟩ : Vector_2 F) - ⟨0, w⟩).squared_length = squared_distance A B := by
    simp only [Vector_2.squared_length, vector_sub_def]
    linear_combination hw
  have he1 := circles_discriminant_eq A B V (⟨0, 0⟩ : Vector_2 F) ⟨0, w⟩
    (squared_distance A V) (squared_distance B V) hR1 hpos (Or.inl ⟨rfl, rfl⟩)
  have hs1 : 0 < circles_discriminant (⟨0, 0⟩ : Vector_2 F) (squared_distance A V) ⟨0, w⟩
      (squared_distance B V) := by
    rw [he1]
    exact (discriminant_zero_iff A B V hpos).2 hnd
  obtain ⟨P, hP, -⟩ := intersect_circles_on_circles sqrt (⟨0, 0⟩ : Vector_2 F)
    (squared_distance A V) ⟨0, w⟩ (squared_distance B V) (by rw [hR1]; exact hpos) hs1.le
    (hsq _ hs1.le)
  have hR2 : ((⟨0, w⟩ : Vector_2 F) - ⟨0, 0⟩).squared_length = squared_distance B A := by
    simp only [Vector_2.squared_length, vector_sub_def]
    rw [squared_distance_comm]
    linear_combination hw
  have hnd' : cross_squared B A W ≠ 0 := by
    have := hnd_opp
    unfold non_degenerate at this
    rw [hsrc, htgt] at this
    exact this
  have he2 := circles_discriminant_eq B A W (⟨0, w⟩ : Vector_2 F) ⟨0, 0⟩
    (squared_distance W B) (squared_distance W A) hR2 hposBA
    (Or.inl ⟨squared_distance_comm W A, squared_distance_comm W B⟩)
  have hs2 : 0 < circles_discriminant (⟨0, w⟩ : Vector_2 F) (squared_distance W B) ⟨0, 0⟩
      (squared_distance W A) := by
    rw [he2]
    exact (discriminant_zero_iff B A W hposBA).2 hnd'
  obtain ⟨Q, hQ, -⟩ := intersect_circles_on_circles sqrt (⟨0, w⟩ : Vector_2 F)
    (squared_distance W B) ⟨0, 0⟩ (squared_distance W A)
    (by rw [hR2]; exact hposBA) hs2.le (hsq _ hs2.le)
  have hPx := intersect_circles_x sqrt _ _ _ _ P hP rfl rfl
  have hQx := intersect_circles_x sqrt _ _ _ _ Q hQ rfl rfl
  have hr1 := sqrt_pos_of_pos sqrt hsq hs0 _ hs1
  have hr2 := sqrt_pos_of_pos sqrt hsq hs0 _ hs2
  refine ⟨⟨⟨0, 0⟩, ⟨0, w⟩, P⟩, ⟨⟨0, 0⟩, ⟨0, w⟩, Q⟩, ?_, ?_, rfl, rfl, hwpos, ?_, rfl, rfl, ?_⟩
  · simp only [init_flat_triangle, ← hA, ← hB, ← hV, ← hwdef, hP, Option.map_some']
  · simp only [unfold_face, hsrc, htgt, ← hA, ← hB, ← hW, hQ, Option.map_some']
  · show P.x < 0
    rw [hPx]
    have : ((⟨0, 0⟩ : Vector_2 F).y - (⟨0, w⟩ : Vector_2 F).y) = -w := by simp
    rw [this]
    have := mul_pos hwpos hr1
    linarith
  · show 0 < Q.x
    rw [hQx]
    have : ((⟨0, w⟩ : Vector_2 F).y - (⟨0, 0⟩ : Vector_2 F).y) = w := by simp
    rw [this]
    have := mul_pos hwpos hr2
    linarith

theorem unfold_face_opposite_sides_witness :
    ∃ flat nei, init_flat_triangle Real.sqrt 0 (two_triangles ℝ) = some flat ∧
      unfold_face Real.sqrt 0 (two_triangles ℝ) flat = some nei ∧
      flat.a0 = ⟨0, 0⟩ ∧ flat.a1.x = 0 ∧ 0 < flat.a1.y ∧ flat.a2.x < 0 ∧
      nei.a0 = flat.a0 ∧ nei.a1 = flat.a1 ∧ 0 < nei.a2.x :=
  unfold_face_opposite_sides Real.sqrt (fun _ hx => Real.mul_self_sqrt hx) Real.sqrt_nonneg
    (two_triangles ℝ) 0 (by simp [two_triangles]) (by simp [two_triangles])
    (by norm_num [non_degenerate, cross_squared, two_triangles])
    (by norm_num [non_degenerate, cross_squared, two_triangles])

end Orientation

section Interval

variable {F : Type} [LinearOrderedField F]

/-- C39: for a parameter vector that starts with 0 and ends with 1 and for
`0 < t < 1`, the search loop of `eval_point_on_geodesic`, which runs when `src`
and `tgt` lie on different faces, returns an index `i` with
`i + 1 < parameters.size()` and `parameters[i] < t <= parameters[i + 1]`; the
assertion `t_high != t_low` holds, the divisor of `alpha` is not zero, and
`alpha` lies in `(0, 1]`. -/
theorem locate_interval_bracket (parameters : List F) (t : F)
    (hfirst : parameters[0]? = some 0)
    (hlast : parameters[parameters.length - 1]? = some 1) (ht0 : 0 < t) (ht1 : t < 1) :
    ∃ (i : Nat) (t_low t_high : F),
      locate_interval parameters t (parameters.length + 1) 0 = some i ∧
      i + 1 < parameters.length ∧
      parameters[i]? = some t_low ∧ parameters[i + 1]? = some t_high ∧
      t_low < t ∧ t ≤ t_high ∧ t_high ≠ t_low ∧ t_high - t_low ≠ 0 ∧
      0 < (t - t_low) / (t_high - t_low) ∧ (t - t_low) / (t_high - t_low) ≤ 1 := by
  have hlen0 : 0 < parameters.length := (List.getElem?_eq_some.1 hfirst).1
  have hlen : ∃ m, parameters.length = m + 2 := by
    refine ⟨parameters.length - 2, ?_⟩
    rcases Nat.lt_or_ge 1 parameters.length with h | h
    · omega
    · exfalso
      have h1 : parameters.length - 1 = 0 := by omega
      rw [h1, hfirst] at hlast
      exact zero_ne_one (Option.some.inj hlast)
  obtain ⟨m, hm⟩ := hlen
  have hlast' : parameters[m + 1]? = some 1 := by
    rw [← hlast]
    congr 1
    omega
  obtain ⟨k, hk, -, hkm, ⟨hi, hhi, hthi⟩, hbelow⟩ :=
    locate_interval_spec parameters t m hm hlast' ht1.le (parameters.length + 1) 0
      (Nat.zero_le _) (by omega)
  have hlo : parameters[k]? = some (parameters[k]) := List.getElem?_eq_getElem (by omega)
  have hlot : parameters[k] < t := by
    rcases Nat.eq_zero_or_pos k with h0 | h0
    · subst h0
      rw [hfirst] at hlo
      rw [← Option.some.inj hlo]
      exact ht0
    · exact hbelow k _ h0 (le_refl k) hlo
  have hden : 0 < hi - parameters[k] := by linarith
  refine ⟨k, parameters[k], hi, hk, by omega, hlo, hhi, hlot, hthi, ?_, ne_of_gt hden,
    div_pos (by linarith) hden, ?_⟩
  · intro h
    rw [h] at hthi
    exact absurd hlot (not_lt.2 hthi)
  · rw [div_le_one hden]
    linarith

theorem locate_interval_bracket_witness :
    ∃ (i : Nat) (t_low t_high : ℚ),
      locate_interval ([0, 1 / 2, 1] : List ℚ) (3 / 4)
        (([0, 1 / 2, 1] : List ℚ).length + 1) 0 = some i ∧
      i + 1 < ([0, 1 / 2, 1] : List ℚ).length ∧
      ([0, 1 / 2, 1] : List ℚ)[i]? = some t_low ∧
      ([0, 1 / 2, 1] : List ℚ)[i + 1]? = some t_high ∧
      t_low < 3 / 4 ∧ 3 / 4 ≤ t_high ∧ t_high ≠ t_low ∧ t_high - t_low ≠ 0 ∧
      0 < (3 / 4 - t_low) / (t_high - t_low) ∧ (3 / 4 - t_low) / (t_high - t_low) ≤ 1 :=
  locate_interval_bracket ([0, 1 / 2, 1] : List ℚ) (3 / 4) (by simp) (by simp) (by norm_num)
    (by norm_num)

end Interval

section Crossings

variable {F : Type} [LinearOrderedField F]

/-- In a list that does not decrease from one index to the next, a later value
is not smaller than an earlier one. -/
theorem getElem?_mono (l : List F)
    (hmono : ∀ (i : Nat) (a b : F), l[i]? = some a → l[i + 1]? = some b → a ≤ b) :
    ∀ (d i : Nat) (a b : F), l[i]? = some a → l[i + d]? = some b → a ≤ b := by
  intro d
  induction d with
  | zero =>
    intro i a b ha hb
    rw [Nat.add_zero, ha] at hb
    exact le_of_eq (Option.some.inj hb)
  | succ d ih =>
    intro i a b ha hb
    have hlt : i + d < l.length := by
      have := (List.getElem?_eq_some.1 hb).1
      omega
    obtain ⟨c, hc⟩ : ∃ c, l[i + d]? = some c := ⟨_, List.getElem?_eq_getElem hlt⟩
    exact le_trans (ih i a c ha hc) (hmono (i + d) c b hc hb)

/-- Two indices with the same parameter have the same point, when the
parameters do not decrease and increase strictly between different points. -/
theorem equal_parameter_point (l : List F) (pos : List (Point_3 F))
    (hlen : pos.length = l.length)
    (hmono : ∀ (i : Nat) (a b : F), l[i]? = some a → l[i + 1]? = some b → a ≤ b)
    (hstrict : ∀ (i : Nat) (a b : F) (p q : Point_3 F), l[i]? = some a → l[i + 1]? = some b →
      pos[i]? = some p → pos[i + 1]? = some q → (a < b ↔ p ≠ q)) (t : F) :
    ∀ (d i : Nat) (p q : Point_3 F), l[i]? = some t → l[i + d]? = some t →
      pos[i]? = some p → pos[i + d]? = some q → p = q := by
  intro d
  induction d with
  | zero =>
    intro i p q _ _ hp hq
    rw [Nat.add_zero, hp] at hq
    exact Option.some.inj hq
  | succ d ih =>
    intro i p q ha hb hp hq
    have hlt : i + d < l.length := by
      have := (List.getElem?_eq_some.1 hb).1
      omega
    obtain ⟨c, hc⟩ : ∃ c, l[i + d]? = some c := ⟨_, List.getElem?_eq_getElem hlt⟩
    obtain ⟨r, hr⟩ : ∃ r, pos[i + d]? = some r :=
      ⟨_, List.getElem?_eq_getElem (by rw [hlen]; exact hlt)⟩
    have h1 : t ≤ c := getElem?_mono l hmono d i t c ha hc
    have h2 : c ≤ t := hmono (i + d) c t hc hb
    have hct : c = t := le_antisymm h2 h1
    rw [hct] at hc
    have hpr : p = r := ih i p r ha hc hp hr
    have hnot : ¬ (t < t) := lt_irrefl t
    have hrq : r = q := by
      by_contra hne
      exact hnot ((hstrict (i + d) t t r q hc hb hr hq).2 hne)
    rw [hpr, hrq]

/-- The coordinates that `eval_point_on_geodesic` gives to the crossing of an
edge, seen from the face behind it, are those of the point of the edge
location. -/
theorem crossing_point (mesh : TriangleMesh F) (e : Edge_location F)
    (hs : mesh.edge_source e.first = mesh.source (mesh.edge_halfedge e.first))
    (ht : mesh.edge_target e.first = mesh.target (mesh.edge_halfedge e.first))
    (hv : valid_halfedge mesh (mesh.edge_halfedge e.first))
    (hvo : valid_halfedge mesh (mesh.opposite (mesh.edge_halfedge e.first)))
    (htri : triangle_at mesh (mesh.opposite (mesh.edge_halfedge e.first)))
    (htri' : triangle_at mesh
      (mesh.halfedge (mesh.face (mesh.opposite (mesh.edge_halfedge e.first))))) :
    construct_point_face mesh ⟨mesh.face (mesh.opposite (mesh.edge_halfedge e.first)),
      edge_barycentric_coordinate mesh
        (mesh.halfedge (mesh.face (mesh.opposite (mesh.edge_halfedge e.first))))
        (mesh.opposite (mesh.edge_halfedge e.first)) (e.second.2, e.second.1)⟩
      = construct_point mesh e := by
  obtain ⟨v1, v2, -⟩ := hv
  have h6 := hvo.2.2.2.2.2
  unfold edge_barycentric_coordinate construct_point_face construct_point
  simp only [barycentric_point_3, barycentric_point_2, hs, ht]
  by_cases a : mesh.halfedge (mesh.face (mesh.opposite (mesh.edge_halfedge e.first)))
      = mesh.opposite (mesh.edge_halfedge e.first)
  · rw [if_neg (not_not.2 a)]
    simp only [a, v1, v2, Point_3.mk.injEq]
    exact ⟨by ring, by ring, by ring⟩
  · rw [if_pos a]
    by_cases b : mesh.halfedge (mesh.face (mesh.opposite (mesh.edge_halfedge e.first)))
        = mesh.next (mesh.opposite (mesh.edge_halfedge e.first))
    · rw [if_pos b]
      simp only [b, htri.1, htri.2, v1, v2, Point_3.mk.injEq]
      exact ⟨by ring, by ring, by ring⟩
    · rw [if_neg b]
      have c : mesh.next (mesh.halfedge (mesh.face (mesh.opposite
          (mesh.edge_halfedge e.first)))) = mesh.opposite (mesh.edge_halfedge e.first) := by
        rcases h6 with h6 | h6 | h6
        · exact absurd h6 a
        · exact absurd h6 b
        · exact h6
      have t1 := htri'.1
      rw [c, v1] at t1
      simp only [← t1, c, v2, Point_3.mk.injEq]
      exact ⟨by ring, by ring, by ring⟩

/-- C40: for a valid strip of edge locations between two different faces, on a
mesh where the end points of an edge are those of its halfedge and the
halfedges around each crossed edge are consistent, and for the parameters that
`path_parameters` returns for a polyline of positive length (the square root
being non-negative, positive on positive numbers and zero at zero): for every
`k >= 1` with `0 < parameters[k] < 1`, `eval_point_on_geodesic` at
`t = parameters[k]` returns a face location whose 3D point is
`construct_point(edge_locations[k - 1])`, the `k`-th crossing. -/
theorem eval_point_on_geodesic_crossing (sqrt : F → F) (hs0 : ∀ x, 0 ≤ sqrt x)
    (hs1 : ∀ x, 0 < x → 0 < sqrt x) (hs2 : sqrt 0 = 0)
    (edge_locations : List (Edge_location F)) (mesh : TriangleMesh F)
    (src tgt : Face_location F) (hface : src.first ≠ tgt.first)
    (hstrip : valid_strip mesh src tgt
      (edge_locations.map (fun e => mesh.edge_halfedge e.first)))
    (hmesh : ∀ e ∈ edge_locations,
      mesh.edge_source e.first = mesh.source (mesh.edge_halfedge e.first) ∧
      mesh.edge_target e.first = mesh.target (mesh.edge_halfedge e.first) ∧
      valid_halfedge mesh (mesh.edge_halfedge e.first) ∧
      valid_halfedge mesh (mesh.opposite (mesh.edge_halfedge e.first)) ∧
      triangle_at mesh (mesh.opposite (mesh.edge_halfedge e.first)) ∧
      triangle_at mesh
        (mesh.halfedge (mesh.face (mesh.opposite (mesh.edge_halfedge e.first)))))
    (hL : 0 < polyline_length sqrt (get_positions edge_locations mesh src tgt)) :
    ∃ parameters, path_parameters sqrt edge_locations mesh src tgt = some parameters ∧
      ∀ (k : Nat) (t : F) (e : Edge_location F), 1 ≤ k → parameters[k]? = some t →
        0 < t → t < 1 → edge_locations[k - 1]? = some e →
        ∃ loc, eval_point_on_geodesic edge_locations mesh src tgt parameters t = some loc ∧
          construct_point_face mesh loc = construct_point mesh e := by
  obtain ⟨parameters, hpar, hlen, hfirst, hlast, hmono, hstrict⟩ :=
    path_parameters_order sqrt hs0 hs1 hs2 edge_locations mesh src tgt hL
  refine ⟨parameters, hpar, ?_⟩
  intro k t e hk1 hkt ht0 ht1 he
  set n := edge_locations.length with hn
  obtain ⟨hne, hhead, hstep, hend⟩ := hstrip
  have hkn : k - 1 < n := (List.getElem?_eq_some.1 he).1
  have hposlen : (get_positions edge_locations mesh src tgt).length = parameters.length := by
    rw [hlen]
    simp [get_positions]
  -- the interval found by the search loop
  obtain ⟨i, hi, -, hin, ⟨hi', hhi, hthi⟩, hbelow⟩ :=
    locate_interval_spec parameters t n hlen hlast ht1.le (parameters.length + 1) 0
      (Nat.zero_le _) (by omega)
  have hik : i < k := by
    by_contra hcon
    exact absurd (hbelow k t (by omega) (by omega) hkt) (lt_irrefl t)
  obtain ⟨d, hd⟩ : ∃ d, k = i + 1 + d := ⟨k - (i + 1), by omega⟩
  have hhit : hi' = t := by
    apply le_antisymm _ hthi
    rw [hd] at hkt
    exact getElem?_mono parameters hmono d (i + 1) hi' t hhi hkt
  rw [hhit] at hhi
  have hlo : parameters[i]? = some (parameters[i]) := List.getElem?_eq_getElem (by omega)
  have hlot : parameters[i] < t := by
    rcases Nat.eq_zero_or_pos i with h0 | h0
    · subst h0
      rw [hfirst] at hlo
      rw [← Option.some.inj hlo]
      exact ht0
    · exact hbelow i _ h0 (le_refl i) hlo
  set lo := parameters[i] with hlodef
  have hne' : ¬ t = lo := ne_of_gt hlot
  have halpha : (t - lo) / (t - lo) = 1 := div_self (by linarith)
  have hilt : i < n := by omega
  have hgeti : edge_locations[i]? = some (edge_locations[i]) :=
    List.getElem?_eq_getElem hilt
  set ei := edge_locations[i] with heidef
  obtain ⟨m1, m2, m3, m4, m5, m6⟩ := hmesh ei (List.getElem?_mem hgeti)
  -- the point of crossing `i + 1` is the point of crossing `k`
  have hpi : (get_positions edge_locations mesh src tgt)[i + 1]?
      = some (construct_point mesh ei) := by
    simp only [get_positions, List.getElem?_cons_succ]
    rw [List.getElem?_append_left (by simp; exact hilt), List.getElem?_map, hgeti]
    rfl
  have hpk : (get_positions edge_locations mesh src tgt)[i + 1 + d]?
      = some (construct_point mesh e) := by
    rw [← hd]
    obtain ⟨k', rfl⟩ : ∃ k', k = k' + 1 := ⟨k - 1, by omega⟩
    simp only [get_positions, List.getElem?_cons_succ]
    rw [Nat.add_sub_cancel] at he hkn
    rw [List.getElem?_append_left (by simp; exact hkn), List.getElem?_map, he]
    rfl
  have hsame : construct_point mesh ei = construct_point mesh e := by
    rw [hd] at hkt
    exact equal_parameter_point parameters _ hposlen hmono hstrict t d (i + 1) _ _ hhi hkt
      hpi hpk
  -- the face of the interval
  have hpathget : ∀ (j : Nat) (e : Edge_location F), edge_locations[j]? = some e →
      (edge_locations.map (fun e => mesh.edge_halfedge e.first))[j]?
        = some (mesh.edge_halfedge e.first) := by
    intro j e he
    rw [List.getElem?_map, he]
    rfl
  have hcur : (if i = 0 then some src.first
      else (edge_locations[i - 1]?).map (fun e => mesh.face (mesh.edge_halfedge e.first)))
        = some (mesh.face (mesh.opposite (mesh.edge_halfedge ei.first))) := by
    by_cases h0 : i = 0
    · rw [if_pos h0]
      have hg0 : edge_locations[0]? = some ei := by
        rw [← hgeti]
        congr 1
        exact h0.symm
      rw [hhead _ (hpathget 0 ei hg0)]
    · have hget : edge_locations[i - 1]? = some (edge_locations[i - 1]) :=
        List.getElem?_eq_getElem (by omega)
      have he' : edge_locations[i - 1 + 1]? = some ei := by
        rw [Nat.sub_add_cancel (Nat.pos_of_ne_zero h0)]
        exact hgeti
      rw [if_neg h0, hget, Option.map_some',
        hstep (i - 1) _ _ (hpathget _ _ hget) (hpathget _ _ he')]
  have hlow : ∃ low, (if i = 0 then some src.second
      else (edge_locations[i - 1]?).map (fun e =>
        edge_barycentric_coordinate mesh
          (mesh.halfedge (mesh.face (mesh.opposite (mesh.edge_halfedge ei.first))))
          (mesh.edge_halfedge e.first) e.second)) = some low := by
    by_cases h0 : i = 0
    · exact ⟨src.second, by rw [if_pos h0]⟩
    · have hget : edge_locations[i - 1]? = some (edge_locations[i - 1]) :=
        List.getElem?_eq_getElem (by omega)
      exact ⟨_, by rw [if_neg h0, hget]; rfl⟩
  obtain ⟨low, hlow⟩ := hlow
  have hsub : size_t_sub parameters.length 2 = n := by
    rw [hlen, size_t_sub, if_pos (by omega)]
    omega
  have hone : lerp_bary 1 low (edge_barycentric_coordinate mesh
      (mesh.halfedge (mesh.face (mesh.opposite (mesh.edge_halfedge ei.first))))
      (mesh.opposite (mesh.edge_halfedge ei.first)) (ei.second.2, ei.second.1))
      = edge_barycentric_coordinate mesh
      (mesh.halfedge (mesh.face (mesh.opposite (mesh.edge_halfedge ei.first))))
      (mesh.opposite (mesh.edge_halfedge ei.first)) (ei.second.2, ei.second.1) := by
    simp [lerp_bary]
  refine ⟨⟨mesh.face (mesh.opposite (mesh.edge_halfedge ei.first)),
    edge_barycentric_coordinate mesh
      (mesh.halfedge (mesh.face (mesh.opposite (mesh.edge_halfedge ei.first))))
      (mesh.opposite (mesh.edge_halfedge ei.first)) (ei.second.2, ei.second.1)⟩, ?_, ?_⟩
  · simp only [eval_point_on_geodesic, if_neg (ne_of_gt ht0), if_neg (ne_of_lt ht1),
      if_neg hface, Option.bind_eq_bind, hi, Option.some_bind, hlo, hhi, if_neg hne', hcur,
      hlow, hsub, if_neg (ne_of_lt hilt), hgeti, ne_eq, not_true_eq_false, if_false, halpha,
      hone]
  · rw [crossing_point mesh ei m1 m2 m3 m4 m5 m6, hsame]

theorem eval_point_on_geodesic_crossing_witness :
    ∃ parameters, path_parameters Rat.sqrt [middle_crossing] (two_triangles ℚ) left_corner
        right_corner = some parameters ∧
      ∀ (k : Nat) (t : ℚ) (e : Edge_location ℚ), 1 ≤ k → parameters[k]? = some t →
        0 < t → t < 1 → [middle_crossing][k - 1]? = some e →
        ∃ loc, eval_point_on_geodesic [middle_crossing] (two_triangles ℚ) left_corner
            right_corner parameters t = some loc ∧
          construct_point_face (two_triangles ℚ) loc = construct_point (two_triangles ℚ) e :=
  eval_point_on_geodesic_crossing Rat.sqrt Rat.sqrt_nonneg rat_sqrt_pos (by decide!)
    [middle_crossing] (two_triangles ℚ) left_corner right_corner (by decide)
    (by
      refine ⟨by simp, ?_, ?_, ?_⟩
      · intro h hh
        simp [middle_crossing, two_triangles] at hh
        subst hh
        decide
      · intro i h h' _ hh
        simp at hh
      · intro h hh
        simp [middle_crossing, two_triangles] at hh
        subst hh
        decide)
    (by
      intro e he
      simp only [List.mem_singleton] at he
      subst he
      simp [middle_crossing, two_triangles, valid_halfedge, triangle_at])
    (by decide!)

end Crossings

section Scan

variable {F : Type} [LinearOrderedField F]

/-- One iteration of the scan loop of `funnel` either goes on to the next
portal, with the same apex and path points and each bound kept or moved to the
portal `i`, or restarts from a bound that differs from the apex: that bound
is pushed as a path point and becomes the apex and both bounds, and the scan
goes on after its portal. -/
theorem funnel_iteration_cases (i : Nat) (left right : Vector_2 F) (st : funnel_state F) :
    ((funnel_iteration i left right st).1 = i + 1 ∧
      (funnel_iteration i left right st).2.apex = st.apex ∧
      (funnel_iteration i left right st).2.apex_index = st.apex_index ∧
      (funnel_iteration i left right st).2.points = st.points ∧
      (((funnel_iteration i left right st).2.left_index = st.left_index ∧
        (funnel_iteration i left right st).2.left_bound = st.left_bound) ∨
        (funnel_iteration i left right st).2.left_index = i) ∧
      (((funnel_iteration i left right st).2.right_index = st.right_index ∧
        (funnel_iteration i left right st).2.right_bound = st.right_bound) ∨
        (funnel_iteration i left right st).2.right_index = i)) ∨
    (∃ (x : Nat) (b : Vector_2 F), b ≠ st.apex ∧
      ((x = st.left_index ∧ b = st.left_bound) ∨ (x = st.right_index ∧ b = st.right_bound) ∨
        x = i) ∧
      (funnel_iteration i left right st).1 = x + 1 ∧
      (funnel_iteration i left right st).2.apex = b ∧
      (funnel_iteration i left right st).2.apex_index = x ∧
      (funnel_iteration i left right st).2.left_index = x ∧
      (funnel_iteration i left right st).2.right_index = x ∧
      (funnel_iteration i left right st).2.left_bound = b ∧
      (funnel_iteration i left right st).2.right_bound = b ∧
      (funnel_iteration i left right st).2.points = st.points ++ [⟨x, b⟩]) := by
  unfold funnel_iteration funnel_update_left
  split_ifs <;>
    first
    | (left; simp; done)
    | (right; exact ⟨st.left_index, st.left_bound, by assumption, Or.inl ⟨rfl, rfl⟩,
        rfl, rfl, rfl, rfl, rfl, rfl, rfl, rfl⟩)
    | (right; exact ⟨st.right_index, st.right_bound, by assumption, Or.inr (Or.inl ⟨rfl, rfl⟩),
        rfl, rfl, rfl, rfl, rfl, rfl, rfl, rfl⟩)
    | (right; exact ⟨i, right, by assumption, Or.inr (Or.inr rfl),
        rfl, rfl, rfl, rfl, rfl, rfl, rfl, rfl⟩)

/-- A point pushed at the end keeps the portal indices increasing when its
index is above the one of the last point. -/
theorem faces_increase_append (points : List (funnel_point F)) (q : funnel_point F)
    (h : faces_increase points) (hlast : ∀ p, points.getLast? = some p → p.face < q.face) :
    faces_increase (points ++ [q]) := by
  induction points with
  | nil => trivial
  | cons a rest ih =>
    cases rest with
    | nil =>
      exact ⟨hlast a rfl, trivial⟩
    | cons b rest' =>
      refine ⟨h.1, ?_⟩
      apply ih h.2
      intro p hp
      apply hlast p
      rw [List.getLast?_cons_cons]
      exact hp

/-- One iteration of the scan loop keeps the invariant and lowers the bound
`(n + 1 - i) + (n + 1) (n - apex_index) + c (n + 1)` on the iterations left. -/
theorem funnel_iteration_invariant (n i c : Nat) (left right : Vector_2 F) (st : funnel_state F)
    (hinv : scan_invariant n i c st) (hi : i < n) :
    ∃ c', scan_invariant n (funnel_iteration i left right st).1 c'
        (funnel_iteration i left right st).2 ∧
      (n + 1 - (funnel_iteration i left right st).1)
        + (n + 1) * (n - (funnel_iteration i left right st).2.apex_index) + c' * (n + 1) + 1
        ≤ (n + 1 - i) + (n + 1) * (n - st.apex_index) + c * (n + 1) := by
  obtain ⟨h1, h2, h3, h4, h5, h6, h7, rest, hp, hinc, hc1, hlast, hcount⟩ := hinv
  rcases funnel_iteration_cases i left right st with
    ⟨e1, e2, e3, e4, e5, e6⟩ | ⟨x, b, hb, hx, e1, e2, e3, e4, e5, e6, e7, e8⟩
  · refine ⟨c, ⟨by omega, ?_, ?_, ?_, ?_, h6, ?_, rest, by rw [e4, hp], hinc, hc1, ?_, ?_⟩, ?_⟩
    · rcases e5 with ⟨e, -⟩ | e <;> omega
    · rcases e6 with ⟨e, -⟩ | e <;> omega
    · rcases e5 with ⟨e, -⟩ | e <;> omega
    · rcases e6 with ⟨e, -⟩ | e <;> omega
    · intro hc0
      obtain ⟨g1, g2, g3⟩ := h7 hc0
      refine ⟨?_, ?_, by omega⟩
      · intro hne
        rcases e5 with ⟨e, e'⟩ | e
        · rw [e, e3]
          apply g1
          rw [← e', ← e2]
          exact hne
        · omega
      · intro hne
        rcases e6 with ⟨e, e'⟩ | e
        · rw [e, e3]
          apply g2
          rw [← e', ← e2]
          exact hne
        · omega
    · rw [e3]
      exact hlast
    · rw [e3]
      exact hcount
    · rw [e1, e3]
      omega
  · have hxi : x ≤ i := by
      rcases hx with ⟨e, -⟩ | ⟨e, -⟩ | e <;> omega
    have hax : st.apex_index ≤ x := by
      rcases hx with ⟨e, -⟩ | ⟨e, -⟩ | e <;> omega
    have hstrict : c = 0 → st.apex_index < x := by
      intro hc0
      obtain ⟨g1, g2, g3⟩ := h7 hc0
      rcases hx with ⟨e, e'⟩ | ⟨e, e'⟩ | e
      · rw [e]
        exact g1 (by rw [← e']; exact hb)
      · rw [e]
        exact g2 (by rw [← e']; exact hb)
      · omega
    have hmul : (n + 1) * (n - x) ≤ (n + 1) * (n - st.apex_index) :=
      Nat.mul_le_mul_left _ (by omega)
    have hmul0 : c = 0 → (n + 1) * (n - x) + (n + 1) ≤ (n + 1) * (n - st.apex_index) := by
      intro hc0
      have hlt := hstrict hc0
      calc (n + 1) * (n - x) + (n + 1) = (n + 1) * (n - x + 1) := by ring
        _ ≤ (n + 1) * (n - st.apex_index) := Nat.mul_le_mul_left _ (by omega)
    refine ⟨0, ⟨by omega, by omega, by omega, by omega, by omega, by omega, ?_,
      rest ++ [⟨x, b⟩], by rw [e8, hp]; rfl, ?_, fun h => absurd h (by decide), ?_, ?_⟩, ?_⟩
    · intro _
      refine ⟨fun hne => absurd (e6.trans e2.symm) hne, fun hne => absurd (e7.trans e2.symm) hne,
        by omega⟩
    · apply faces_increase_append rest _ hinc
      intro p hp'
      rcases Nat.eq_zero_or_pos c with hc0 | hcpos
      · rw [hlast p hp']
        exact hstrict hc0
      · have : rest = [] := hc1 (by omega)
        rw [this] at hp'
        simp at hp'
    · intro p hp'
      rw [List.getLast?_append, List.getLast?_singleton,
        show (some (⟨x, b⟩ : funnel_point F)).or rest.getLast? = some ⟨x, b⟩ from rfl] at hp'
      rw [← Option.some.inj hp', e3]
    · rw [e3, List.length_append, List.length_singleton]
      rcases Nat.eq_zero_or_pos c with hc0 | hcpos
      · have := hstrict hc0
        omega
      · have hr : rest = [] := hc1 (by omega)
        rw [hr] at hcount ⊢
        simp only [List.length_nil] at hcount ⊢
        omega
    · rw [e1, e3]
      rcases Nat.eq_zero_or_pos c with hc0 | hcpos
      · have := hmul0 hc0
        rw [hc0]
        omega
      · have hc : c = 1 := by omega
        rw [hc]
        omega

/-- The scan loop returns within the bound on the iterations left, in a state
that satisfies the invariant. -/
theorem funnel_scan_returns (portals : List (Vector_2 F × Vector_2 F)) :
    ∀ (fuel i c : Nat) (st : funnel_state F), scan_invariant portals.length i c st →
      (portals.length + 1 - i) + (portals.length + 1) * (portals.length - st.apex_index)
        + c * (portals.length + 1) ≤ fuel →
      ∃ (st' : funnel_state F) (i' c' : Nat), funnel_scan portals fuel i st = some st' ∧
        scan_invariant portals.length i' c' st' := by
  intro fuel
  induction fuel with
  | zero =>
    intro i c st hinv hfuel
    have := hinv.1
    omega
  | succ fuel ih =>
    intro i c st hinv hfuel
    rw [funnel_scan]
    cases hp : portals[i]? with
    | none => exact ⟨st, i, c, rfl, hinv⟩
    | some portal =>
      have hi : i < portals.length := (List.getElem?_eq_some.1 hp).1
      obtain ⟨c', hinv', hdec⟩ :=
        funnel_iteration_invariant portals.length i c portal.1 portal.2 st hinv hi
      exact ih _ c' _ hinv' (by omega)

/-- C35: for every portal list and every pair of first bounds, the scan loop
of `funnel`, run for `(n + 2)^2` iterations at most, returns; its path points
are the origin followed by the points pushed at the restarts; the portal
indices of these points increase strictly, the first one being any index from
0 on, and there are `n + 1` of them at most. -/
theorem funnel_scan_terminates (portals : List (Vector_2 F × Vector_2 F))
    (left_bound right_bound : Vector_2 F) :
    ∃ st, funnel_scan portals ((portals.length + 2) * (portals.length + 2)) 0
        { apex_index := 0, left_index := 0, right_index := 0, apex := ⟨0, 0⟩,
          left_bound := left_bound, right_bound := right_bound, points := [⟨0, ⟨0, 0⟩⟩] }
        = some st ∧
      ∃ rest, st.points = ⟨0, ⟨0, 0⟩⟩ :: rest ∧ faces_increase rest ∧
        rest.length ≤ portals.length + 1 := by
  obtain ⟨st, i, c, hst, hinv⟩ := funnel_scan_returns portals
    ((portals.length + 2) * (portals.length + 2)) 0 1
    { apex_index := 0, left_index := 0, right_index := 0, apex := ⟨0, 0⟩,
      left_bound := left_bound, right_bound := right_bound, points := [⟨0, ⟨0, 0⟩⟩] }
    ⟨Nat.zero_le _, le_rfl, le_rfl, le_rfl, le_rfl, le_rfl, fun h => absurd h (by decide),
      [], rfl, trivial, fun _ => rfl, fun p hp => by simp at hp, by simp⟩
    (by
      simp only [Nat.sub_zero, one_mul]
      nlinarith)
  obtain ⟨-, -, -, -, -, -, -, rest, hp, hinc, -, -, hcount⟩ := hinv
  exact ⟨st, hst, rest, hp, hinc, by omega⟩

end Scan

section Straight

variable {F : Type} [LinearOrderedField F]

/-- The area seen from the origin is the determinant of the two points. -/
theorem area_origin (a b : Vector_2 F) : area ⟨0, 0⟩ a b = determinant a b := by
  simp [area, determinant, vector_sub_def]

/-- Two vectors of the half-plane facing `c`, the first on the right of `c` and
the second on its left, are in this order round the origin. -/
theorem determinant_pos_of_sides (a b c : Vector_2 F) (ha : 0 < determinant a c)
    (hac : 0 < scalar_product a c) (hb : determinant b c < 0) (hbc : 0 < scalar_product b c) :
    0 < determinant a b := by
  have hid : determinant a b * scalar_product c c
      = determinant a c * scalar_product b c - determinant b c * scalar_product a c := by
    simp only [determinant, scalar_product]
    ring
  have hcc : 0 ≤ scalar_product c c := by
    simp only [scalar_product]
    nlinarith [mul_self_nonneg c.x, mul_self_nonneg c.y]
  have hpos : 0 < determinant a b * scalar_product c c := by
    rw [hid]
    have h1 := mul_pos ha hbc
    have h2 := mul_pos (neg_pos.2 hb) hac
    linarith
  by_contra hcon
  have := mul_nonpos_of_nonpos_of_nonneg (not_lt.1 hcon) hcc
  linarith

/-- The determinant changes sign when its arguments are exchanged. -/
theorem determinant_swap (a b : Vector_2 F) : determinant b a = - determinant a b := by
  simp only [determinant]
  ring

/-- While the funnel stays open around `T`, the iteration for a portal crossed
by the segment from the origin to `T` goes on to the next portal and keeps the
funnel open. -/
theorem funnel_iteration_straight (T : Vector_2 F) (i : Nat) (portal : Vector_2 F × Vector_2 F)
    (st : funnel_state F) (hst : straight_invariant T st) (hp : crosses T portal) :
    (funnel_iteration i portal.1 portal.2 st).1 = i + 1 ∧
    straight_invariant T (funnel_iteration i portal.1 portal.2 st).2 := by
  obtain ⟨s1, s2, s3, s4, s5, s6, s7⟩ := hst
  obtain ⟨p1, p2, p3, p4⟩ := hp
  have k1 : 0 < determinant st.left_bound portal.2 :=
    determinant_pos_of_sides _ _ T s4 s5 p2 p4
  have k2 : determinant st.right_bound portal.1 < 0 := by
    rw [determinant_swap]
    exact neg_neg_of_pos (determinant_pos_of_sides _ _ T p1 p3 s6 s7)
  have k3 : determinant portal.2 portal.1 < 0 := by
    rw [determinant_swap]
    exact neg_neg_of_pos (determinant_pos_of_sides _ _ T p1 p3 p2 p4)
  have ha : ∀ a b, area st.apex a b = determinant a b := by
    intro a b
    rw [s1]
    exact area_origin a b
  unfold funnel_iteration funnel_update_left straight_invariant
  simp only [ha]
  split_ifs <;>
    first
    | exact ⟨rfl, s1, s2, s3, s4, s5, s6, s7⟩
    | exact ⟨rfl, s1, s2, s3, p1, p3, s6, s7⟩
    | exact ⟨rfl, s1, s2, s3, s4, s5, p2, p4⟩
    | exact ⟨rfl, s1, s2, s3, p1, p3, p2, p4⟩
    | (exfalso; simp_all)

/-- While the funnel is open around `T`, the iteration for the last portal,
whose two end points are `T`, moves the right bound to `T`, restarts from it
and pushes it: the scan goes on after the last portal. -/
theorem funnel_iteration_last (T : Vector_2 F) (i : Nat) (st : funnel_state F)
    (hst : straight_invariant T st) :
    (funnel_iteration i T T st).1 = i + 1 ∧
    (funnel_iteration i T T st).2.points = [⟨0, ⟨0, 0⟩⟩, ⟨i, T⟩] := by
  obtain ⟨s1, s2, s3, s4, s5, s6, s7⟩ := hst
  have ha : ∀ a b, area st.apex a b = determinant a b := by
    intro a b
    rw [s1]
    exact area_origin a b
  have hTT : determinant T T = 0 := by
    simp only [determinant]
    ring
  have hT : T ≠ st.apex := by
    intro h
    rw [h, s1] at s4
    simp [determinant] at s4
  have hlb : st.apex ≠ st.left_bound := by
    intro h
    rw [← h, s1] at s4
    simp [determinant] at s4
  have hrb : st.apex ≠ st.right_bound := by
    intro h
    rw [← h, s1] at s6
    simp [determinant] at s6
  unfold funnel_iteration funnel_update_left
  simp only [ha]
  rw [if_pos s6.le, if_pos (Or.inr s4)]
  rw [if_pos s4.le, if_neg (by
    rintro (h | h)
    · exact hlb h
    · rw [hTT] at h
      exact lt_irrefl _ h), if_pos hT]
  exact ⟨rfl, by simp [funnel_state.restart_right, s3]⟩

/-- The scan loop over the portals of a straight corridor ends with the path
of two points, the origin and `T`, the second with the index of the last
portal. -/
theorem funnel_scan_straight (body : List (Vector_2 F × Vector_2 F)) (T : Vector_2 F)
    (hcross : ∀ portal ∈ body, crosses T portal) :
    ∀ (fuel i : Nat) (st : funnel_state F), straight_invariant T st → i ≤ body.length →
      body.length + 2 ≤ i + fuel →
      ∃ st', funnel_scan (body ++ [(T, T)]) fuel i st = some st' ∧
        st'.points = [⟨0, ⟨0, 0⟩⟩, ⟨body.length, T⟩] := by
  intro fuel
  induction fuel with
  | zero =>
    intro i st _ h1 h2
    omega
  | succ fuel ih =>
    intro i st hst h1 h2
    rw [funnel_scan]
    rcases Nat.lt_or_ge i body.length with hlt | hge
    · obtain ⟨portal, hp⟩ : ∃ portal, body[i]? = some portal :=
        ⟨_, List.getElem?_eq_getElem hlt⟩
      rw [List.getElem?_append_left hlt, hp]
      obtain ⟨e1, e2⟩ := funnel_iteration_straight T i portal st hst
        (hcross portal (List.getElem?_mem hp))
      simp only [e1]
      exact ih (i + 1) _ e2 hlt (by omega)
    · have hi : i = body.length := le_antisymm h1 hge
      subst hi
      rw [List.getElem?_append_right le_rfl, Nat.sub_self]
      simp only [List.getElem?_cons_zero]
      obtain ⟨e1, e2⟩ := funnel_iteration_last T body.length st hst
      simp only [e1]
      obtain ⟨f, rfl⟩ : ∃ f, fuel = f + 1 := ⟨fuel - 1, by omega⟩
      rw [funnel_scan, List.getElem?_eq_none (by simp)]
      exact ⟨_, rfl, e2⟩

/-- The crossing of the segment from the origin to `T` with a portal it
crosses: none of the tie-break rules of `intersect_segments` applies, the
determinant is not zero, and the value returned is the crossing parameter,
strictly between 0 and 1. -/
theorem intersect_segments_straight (T : Vector_2 F) (portal : Vector_2 F × Vector_2 F)
    (hp : crosses T portal) :
    intersect_segments ⟨0, 0⟩ T portal.1 portal.2 = some (crossing_parameter T portal) ∧
    0 < crossing_parameter T portal ∧ crossing_parameter T portal < 1 := by
  obtain ⟨p1, p2, p3, p4⟩ := hp
  have hden : 0 < determinant portal.1 T - determinant portal.2 T := by linarith
  have n1 : T ≠ portal.1 := by
    intro h
    rw [← h] at p1
    simp [determinant] at p1
    rw [mul_comm] at p1
    exact lt_irrefl _ p1
  have n2 : portal.2 ≠ ⟨0, 0⟩ := by
    intro h
    rw [h] at p4
    simp [scalar_product] at p4
  have n3 : portal.1 ≠ ⟨0, 0⟩ := by
    intro h
    rw [h] at p3
    simp [scalar_product] at p3
  have n4 : portal.2 ≠ T := by
    intro h
    rw [h] at p2
    simp [determinant] at p2
    rw [mul_comm] at p2
    exact lt_irrefl _ p2
  have hdet : (T.x - 0) * (portal.1.y - portal.2.y) - (T.y - 0) * (portal.1.x - portal.2.x)
      = - (determinant portal.1 T - determinant portal.2 T) := by
    simp only [determinant]
    ring
  refine ⟨?_, div_pos p1 hden, (div_lt_one hden).2 (by linarith)⟩
  unfold intersect_segments
  rw [if_neg n1, if_neg n2, if_neg n3, if_neg n4]
  simp only [vector_sub_def]
  rw [hdet, if_neg (neg_ne_zero.2 (ne_of_gt hden))]
  congr 1
  unfold crossing_parameter
  rw [div_eq_div_iff (neg_ne_zero.2 (ne_of_gt hden)) (ne_of_gt hden)]
  simp only [determinant]
  ring

/-- The crossing parameters computed for the segment from the origin to `T`
over the portals `k, ...` of a straight corridor. -/
theorem crossing_lerps_straight (body : List (Vector_2 F × Vector_2 F)) (T : Vector_2 F)
    (hcross : ∀ portal ∈ body, crosses T portal) :
    ∀ (count k : Nat), k + count = body.length →
      crossing_lerps (body ++ [(T, T)]) ⟨0, 0⟩ T count k
        = some ((body.drop k).map (crossing_parameter T)) := by
  intro count
  induction count with
  | zero =>
    intro k hk
    rw [crossing_lerps, List.drop_of_length_le (by omega)]
    rfl
  | succ count ih =>
    intro k hk
    have hlt : k < body.length := by omega
    obtain ⟨portal, hp⟩ : ∃ portal, body[k]? = some portal :=
      ⟨_, List.getElem?_eq_getElem hlt⟩
    obtain ⟨e1, e2, e3⟩ := intersect_segments_straight T portal
      (hcross portal (List.getElem?_mem hp))
    have hclamp : clamp01 (crossing_parameter T portal) = crossing_parameter T portal := by
      unfold clamp01
      rw [if_neg (not_lt.2 e2.le), if_neg (not_lt.2 e3.le)]
    have hdrop : body.drop k = portal :: body.drop (k + 1) := by
      rw [List.drop_eq_getElem_cons hlt]
      congr 1
      exact Option.some.inj ((List.getElem?_eq_getElem hlt).symm.trans hp)
    rw [crossing_lerps, List.getElem?_append_left hlt, hp]
    simp only [Option.bind_eq_bind, Option.some_bind, e1, ih (k + 1) (by omega), hclamp, hdrop,
      List.map_cons]

/-- The loop that sets the faces leaves the path of two points as it is: the
second point is found on the last portal only. -/
theorem funnel_set_faces_straight (body : List (Vector_2 F × Vector_2 F)) (T : Vector_2 F)
    (hcross : ∀ portal ∈ body, crosses T portal) :
    ∀ (fuel i : Nat), i ≤ body.length → i + fuel = body.length + 1 →
      funnel_set_faces (body ++ [(T, T)]) fuel i 1 [⟨0, ⟨0, 0⟩⟩, ⟨body.length, T⟩]
        = some [⟨0, ⟨0, 0⟩⟩, ⟨body.length, T⟩] := by
  intro fuel
  induction fuel with
  | zero =>
    intro i h1 h2
    omega
  | succ fuel ih =>
    intro i h1 h2
    rw [funnel_set_faces]
    rcases Nat.lt_or_ge i body.length with hlt | hge
    · obtain ⟨portal, hp⟩ : ∃ portal, body[i]? = some portal :=
        ⟨_, List.getElem?_eq_getElem hlt⟩
      obtain ⟨p1, p2, -, -⟩ := hcross portal (List.getElem?_mem hp)
      have n1 : portal.1 ≠ T := by
        intro h
        rw [h] at p1
        simp [determinant] at p1
        rw [mul_comm] at p1
        exact lt_irrefl _ p1
      have n4 : portal.2 ≠ T := by
        intro h
        rw [h] at p2
        simp [determinant] at p2
        rw [mul_comm] at p2
        exact lt_irrefl _ p2
      rw [List.getElem?_append_left hlt, hp]
      simp only [Option.bind_eq_bind, Option.some_bind, List.getElem?_cons_succ,
        List.getElem?_cons_zero]
      rw [if_neg (by
        rintro (h | h)
        · exact n1 h
        · exact n4 h)]
      exact ih (i + 1) hlt (by omega)
    · have hi : i = body.length := le_antisymm h1 hge
      subst hi
      have hf : fuel = 0 := by omega
      subst hf
      rw [List.getElem?_append_right le_rfl, Nat.sub_self]
      simp only [Option.bind_eq_bind, Option.some_bind, List.getElem?_cons_succ,
        List.getElem?_cons_zero, true_or, if_true]
      rfl

/-- C27: for portals `body` followed by the degenerate portal `(T, T)`, `body`
not empty, such that the segment from the origin to `T` crosses every portal
of `body` strictly between its end points, `T` on the left of the first end
point and on the right of the second one as the unfolding lays them out, and
all end points in the open half-plane facing `T`: `funnel` returns the path of
two points, `max_index` is the sentinel `size_t(-1)`, there is one value of
`lerps` per portal of `body`, and `lerps[k]` is the crossing parameter of the
segment with portal `k`, strictly between 0 and 1, at which the point of the
portal lies on the line from the origin to `T`. -/
theorem funnel_straight_corridor (sqrt : F → F) (body : List (Vector_2 F × Vector_2 F))
    (T : Vector_2 F) (hne : body ≠ []) (hcross : ∀ portal ∈ body, crosses T portal) :
    funnel_points (body ++ [(T, T)]) = some [⟨0, ⟨0, 0⟩⟩, ⟨body.length, T⟩] ∧
    ∃ lerps, funnel sqrt (body ++ [(T, T)]) = some (lerps, 2 ^ 64 - 1) ∧
      lerps.length = body.length ∧
      ∀ (k : Nat) (portal : Vector_2 F × Vector_2 F) (s : F), body[k]? = some portal →
        lerps[k]? = some s →
        s = crossing_parameter T portal ∧ 0 < s ∧ s < 1 ∧
        determinant (portal.1 + (portal.2 - portal.1).scale s) T = 0 := by
  obtain ⟨first, hfirst⟩ : ∃ first, body[0]? = some first :=
    ⟨_, List.getElem?_eq_getElem (List.length_pos.2 hne)⟩
  have hpos : 0 < body.length := List.length_pos.2 hne
  obtain ⟨c1, c2, c3, c4⟩ := hcross first (List.getElem?_mem hfirst)
  obtain ⟨st, hst, hpts⟩ := funnel_scan_straight body T hcross
    (((body ++ [(T, T)]).length + 2) * ((body ++ [(T, T)]).length + 2)) 0
    { apex_index := 0, left_index := 0, right_index := 0, apex := ⟨0, 0⟩,
      left_bound := first.1, right_bound := first.2, points := [⟨0, ⟨0, 0⟩⟩] }
    ⟨rfl, rfl, rfl, c1, c3, c2, c4⟩ (Nat.zero_le _) (by
      rw [List.length_append, List.length_singleton]
      nlinarith)
  have hpoints : funnel_points (body ++ [(T, T)]) = some [⟨0, ⟨0, 0⟩⟩, ⟨body.length, T⟩] := by
    have h0 : (body ++ [(T, T)])[0]? = some first := by
      rw [List.getElem?_append_left hpos]
      exact hfirst
    have hl : (body ++ [(T, T)])[(body ++ [(T, T)]).length - 1]? = some (T, T) := by
      rw [List.length_append, List.length_singleton, Nat.add_sub_cancel,
        List.getElem?_append_right le_rfl, Nat.sub_self]
      rfl
    unfold funnel_points
    simp only [Option.bind_eq_bind, h0, hl, Option.some_bind, hst, hpts]
    simp
  have hlerps : funnel_lerps (body ++ [(T, T)]) [⟨0, ⟨0, 0⟩⟩, ⟨body.length, T⟩]
      = some (body.map (crossing_parameter T)) := by
    have := crossing_lerps_straight body T hcross body.length 0 (by omega)
    simp only [funnel_lerps, Nat.sub_zero, this, Option.bind_eq_bind, Option.some_bind,
      List.drop_zero, List.append_nil]
  have hfaces := funnel_set_faces_straight body T hcross (body ++ [(T, T)]).length 0
    (Nat.zero_le _) (by simp)
  have hmax : max_curvature_point sqrt [⟨0, ⟨0, 0⟩⟩, ⟨body.length, T⟩] = some (-1) := by
    simp [max_curvature_point, max_curvature_loop, size_t_sub]
  refine ⟨hpoints, body.map (crossing_parameter T), ?_, List.length_map _ _, ?_⟩
  · unfold funnel
    simp only [Option.bind_eq_bind, hpoints, Option.some_bind, hlerps, hfaces, hmax]
    rfl
  · intro k portal s hk hs
    rw [List.getElem?_map, hk] at hs
    have hs' : crossing_parameter T portal = s := Option.some.inj hs
    obtain ⟨-, e2, e3⟩ := intersect_segments_straight T portal
      (hcross portal (List.getElem?_mem hk))
    obtain ⟨p1, p2, -, -⟩ := hcross portal (List.getElem?_mem hk)
    have hden : determinant portal.1 T - determinant portal.2 T ≠ 0 := by
      apply ne_of_gt
      linarith
    refine ⟨hs'.symm, hs' ▸ e2, hs' ▸ e3, ?_⟩
    rw [← hs']
    have hlin : determinant (portal.1 + (portal.2 - portal.1).scale (crossing_parameter T portal))
        T = determinant portal.1 T
          - crossing_parameter T portal * (determinant portal.1 T - determinant portal.2 T) := by
      simp only [determinant, vector_add_def, vector_sub_def, vector_scale_def]
      ring
    rw [hlin]
    unfold crossing_parameter
    rw [div_mul_cancel₀ _ hden, sub_self]

theorem funnel_straight_corridor_witness :
    funnel_points ([((⟨1, -1⟩ : Vector_2 ℚ), (⟨1, 1⟩ : Vector_2 ℚ))] ++ [(⟨2, 0⟩, ⟨2, 0⟩)])
      = some [⟨0, ⟨0, 0⟩⟩,
        ⟨[((⟨1, -1⟩ : Vector_2 ℚ), (⟨1, 1⟩ : Vector_2 ℚ))].length, ⟨2, 0⟩⟩] ∧
    ∃ lerps, funnel Rat.sqrt
        ([((⟨1, -1⟩ : Vector_2 ℚ), (⟨1, 1⟩ : Vector_2 ℚ))] ++ [(⟨2, 0⟩, ⟨2, 0⟩)])
        = some (lerps, 2 ^ 64 - 1) ∧
      lerps.length = [((⟨1, -1⟩ : Vector_2 ℚ), (⟨1, 1⟩ : Vector_2 ℚ))].length ∧
      ∀ (k : Nat) (portal : Vector_2 ℚ × Vector_2 ℚ) (s : ℚ),
        [((⟨1, -1⟩ : Vector_2 ℚ), (⟨1, 1⟩ : Vector_2 ℚ))][k]? = some portal →
        lerps[k]? = some s →
        s = crossing_parameter ⟨2, 0⟩ portal ∧ 0 < s ∧ s < 1 ∧
        determinant (portal.1 + (portal.2 - portal.1).scale s) ⟨2, 0⟩ = 0 :=
  funnel_straight_corridor Rat.sqrt [((⟨1, -1⟩ : Vector_2 ℚ), (⟨1, 1⟩ : Vector_2 ℚ))] ⟨2, 0⟩
    (by simp) (by
      intro portal hp
      simp only [List.mem_singleton] at hp
      subst hp
      unfold crosses
      decide!)

end Straight

section Search

variable {F : Type} [LinearOrderedField F]

/-- A read at a node of the graph succeeds. -/
theorem get_at_valid {α : Type} (l : List α) (n : Nat) (v : Int) (hl : l.length = n)
    (hv : valid_node n v) : ∃ a, get_at l v = some a := by
  obtain ⟨h0, h1⟩ := hv
  have h2 : v.toNat < l.length := by omega
  exact ⟨l[v.toNat], by simp [get_at, not_lt.2 h0, List.getElem?_eq_getElem h2]⟩

/-- A read succeeds at the nodes of the graph only. -/
theorem valid_of_get_at {α : Type} (l : List α) (v : Int) (a : α)
    (h : get_at l v = some a) : valid_node l.length v := by
  unfold get_at at h
  split_ifs at h with h0
  have := (List.getElem?_eq_some_iff.1 h).1
  exact ⟨by omega, by omega⟩

/-- A write at a node of the graph succeeds. -/
theorem set_at_valid {α : Type} (l : List α) (n : Nat) (v : Int) (a : α) (hl : l.length = n)
    (hv : valid_node n v) : ∃ l', set_at l v a = some l' := by
  obtain ⟨h0, h1⟩ := hv
  have h2 : v.toNat < l.length := by omega
  exact ⟨l.set v.toNat a, by simp [set_at, not_lt.2 h0, h2]⟩

/-- A write keeps the length. -/
theorem set_at_length {α : Type} (l l' : List α) (v : Int) (a : α)
    (h : set_at l v a = some l') : l'.length = l.length := by
  unfold set_at at h
  split_ifs at h
  simp only [Option.some.injEq] at h
  subst h
  simp

/-- The labels after a write. -/
theorem label_set_at (l l' : List F) (i j : Int) (a : F) (h : set_at l i a = some l') :
    label l' j = if j = i then a else label l j := by
  unfold label
  rw [get_at_set_at l l' i j a h]
  split_ifs <;> rfl

/-- The edges out of a node of a valid graph. -/
theorem valid_graph_edges (graph : List (List (dual_edge F))) (hg : valid_graph graph)
    (u : Int) (e : dual_edge F) (he : e ∈ edges_of graph u) :
    valid_node graph.length e.node ∧ 0 ≤ e.length := by
  unfold edges_of at he
  cases h : get_at graph u with
  | none => simp [h] at he
  | some row =>
    rw [h] at he
    simp only [Option.getD_some] at he
    unfold get_at at h
    split_ifs at h
    obtain ⟨hlt, hrow⟩ := List.getElem?_eq_some_iff.1 h
    exact hg row (hrow ▸ List.getElem_mem hlt) e he

/-- The sum of the labels of a list of nodes that does not hold the node whose
label changed. -/
theorem sum_labels_of_not_mem (f g : Int → F) (v : Int) (l : List Int)
    (hfg : ∀ j, j ≠ v → g j = f j) (hv : v ∉ l) : (l.map g).sum = (l.map f).sum := by
  induction l with
  | nil => rfl
  | cons a l ih =>
    simp only [List.mem_cons, not_or] at hv
    simp only [List.map_cons, List.sum_cons]
    rw [ih hv.2, hfg a (fun h => hv.1 h.symm)]

/-- The sum of the labels of a list of nodes that holds once the node whose
label changed. -/
theorem sum_labels_of_mem (f g : Int → F) (v : Int) (l : List Int)
    (hfg : ∀ j, j ≠ v → g j = f j) (hv : v ∈ l) (hnd : l.Nodup) :
    (l.map g).sum = (l.map f).sum + (g v - f v) := by
  induction l with
  | nil => simp at hv
  | cons a l ih =>
    simp only [List.map_cons, List.sum_cons]
    rw [List.nodup_cons] at hnd
    by_cases hav : a = v
    · subst hav
      rw [sum_labels_of_not_mem f g a l hfg hnd.1]
      ring
    · have hvl : v ∈ l := by
        rcases List.mem_cons.1 hv with h | h
        · exact absurd h.symm hav
        · exact h
      rw [ih hvl hnd.2, hfg a hav]
      ring

/-- A value of a non-empty list is at most the average of the list. -/
theorem exists_le_average (l : List F) (hl : l ≠ []) :
    ∃ x ∈ l, x ≤ l.sum / (l.length : F) := by
  by_contra hcon
  push_neg at hcon
  have key : ∀ (m : List F) (c : F), m ≠ [] → (∀ x ∈ m, c < x) → c * (m.length : F) < m.sum := by
    intro m c
    induction m with
    | nil => intro h; exact absurd rfl h
    | cons a m ih =>
      intro _ hm
      have ha := hm a (List.mem_cons_self _ _)
      by_cases hmn : m = []
      · subst hmn
        simpa using ha
      · have := ih hmn (fun x hx => hm x (List.mem_cons_of_mem _ hx))
        simp only [List.length_cons, Nat.cast_add, Nat.cast_one, List.sum_cons]
        linarith
  have hpos : (0 : F) < (l.length : F) := by
    have : 0 < l.length := List.length_pos.2 hl
    exact_mod_cast this
  have := key l _ hl hcon
  rw [div_mul_cancel₀ _ (ne_of_gt hpos)] at this
  exact lt_irrefl _ this

/-- The "large label last" loop on a queue of nodes of the graph that holds,
within the number of attempts, a node of label at most `average_weight`: it
returns a rotation of the queue whose front has such a label. -/
theorem large_label_last_finds (field : List F) (average_weight : F) (tries : Nat)
    (queue : List Int) (node : Int) (hfront : queue.head? = some node)
    (hvalid : ∀ q ∈ queue, valid_node field.length q) (k : Nat) (hk : k < tries) (q : Int)
    (hq : queue[k]? = some q) (hle : label field q ≤ average_weight) :
    ∃ queue' node', large_label_last field average_weight tries queue node = some (queue', node') ∧
      queue'.head? = some node' ∧ queue'.Perm queue ∧ label field node' ≤ average_weight := by
  induction tries generalizing queue node k with
  | zero => omega
  | succ tries ih =>
    unfold large_label_last
    cases queue with
    | nil => simp at hfront
    | cons a rest =>
      simp only [List.head?_cons, Option.some.injEq] at hfront
      subst hfront
      obtain ⟨x, hx⟩ := get_at_valid field _ a rfl (hvalid a (List.mem_cons_self _ _))
      have hlab : label field a = x := by simp [label, hx]
      simp only [hx, Option.bind_eq_bind, Option.some_bind]
      by_cases hxa : x ≤ average_weight
      · rw [if_pos hxa]
        exact ⟨_, _, rfl, rfl, List.Perm.refl _, hlab ▸ hxa⟩
      · rw [if_neg hxa]
        cases k with
        | zero =>
          simp only [List.getElem?_cons_zero, Option.some.injEq] at hq
          subst hq
          exact absurd (hlab ▸ hle) hxa
        | succ k =>
          simp only [List.getElem?_cons_succ] at hq
          have hkr : k < rest.length := (List.getElem?_eq_some_iff.1 hq).1
          cases hh : (rest ++ [a]).head? with
          | none =>
            cases rest with
            | nil => simp at hkr
            | cons b rest => simp at hh
          | some front =>
            simp only [Option.some_bind]
            obtain ⟨queue', node', h1, h2, h3, h4⟩ := ih (rest ++ [a]) front hh
              (fun y hy => hvalid y (by
                rcases List.mem_append.1 hy with h | h
                · exact List.mem_cons_of_mem _ h
                · rw [List.mem_singleton.1 h]; exact List.mem_cons_self _ _))
              k (by omega) (by rw [List.getElem?_append_left hkr]; exact hq)
            refine ⟨queue', node', h1, h2, h3.trans ?_, h4⟩
            exact (List.perm_append_comm.trans (List.Perm.refl _))

/-- The bookkeeping stays consistent when the label of a node of the queue is
lowered and `cumulative_weight` corrected by the difference. -/
theorem consistent_lower_queued {σ : Type} (n : Nat) (st : visit_state F σ) (v : Int) (a : F)
    (field : List F) (user : σ) (hc : consistent n st) (hv : v ∈ st.queue)
    (hset : set_at st.field v a = some field) :
    consistent n { st with
      cumulative_weight := st.cumulative_weight + (a - label st.field v)
      field := field, user := user } := by
  obtain ⟨h1, h2, h3, h4, h5, h6⟩ := hc
  refine ⟨by rw [set_at_length _ _ _ _ hset, h1], h2, h3, h4, h5, ?_⟩
  have hl := fun j => label_set_at st.field field v j a hset
  show st.cumulative_weight + (a - label st.field v) = (st.queue.map (label field)).sum
  rw [sum_labels_of_mem (label st.field) (label field) v st.queue
    (fun j hj => by rw [hl j, if_neg hj]) hv h4, hl v, if_pos rfl, h6]

/-- The bookkeeping stays consistent when a node out of the queue gets a new
label and enters the queue, at either end. -/
theorem consistent_push {σ : Type} (n : Nat) (st : visit_state F σ) (v : Int) (a : F)
    (field : List F) (in_queue : List Bool) (queue : List Int) (user : σ)
    (hc : consistent n st) (hvn : valid_node n v) (hv : v ∉ st.queue)
    (hq : queue = v :: st.queue ∨ queue = st.queue ++ [v])
    (hin : set_at st.in_queue v true = some in_queue)
    (hset : set_at st.field v a = some field) :
    consistent n { st with
      queue := queue, in_queue := in_queue
      cumulative_weight := st.cumulative_weight + a
      field := field, user := user } := by
  obtain ⟨h1, h2, h3, h4, h5, h6⟩ := hc
  have hl := fun j => label_set_at st.field field v j a hset
  have hmem : ∀ x, x ∈ queue ↔ x = v ∨ x ∈ st.queue := by
    intro x
    rcases hq with h | h <;> subst h <;> simp [or_comm]
  have hperm : queue.Perm (v :: st.queue) := by
    rcases hq with h | h <;> subst h
    · exact List.Perm.refl _
    · exact List.perm_append_comm
  refine ⟨by rw [set_at_length _ _ _ _ hset, h1], by rw [set_at_length _ _ _ _ hin, h2], ?_, ?_,
    ?_, ?_⟩
  · intro q hq'
    rcases (hmem q).1 hq' with h | h
    · exact h ▸ hvn
    · exact h3 q h
  · exact hperm.nodup_iff.2 (List.nodup_cons.2 ⟨hv, h4⟩)
  · intro x hx
    show get_at in_queue x = some true ↔ x ∈ queue
    rw [get_at_set_at _ _ _ _ _ hin, hmem]
    by_cases hxv : x = v
    · simp [hxv]
    · simp [hxv, h5 x hx]
  · show st.cumulative_weight + a = (queue.map (label field)).sum
    rw [(hperm.map _).sum_eq, List.map_cons, List.sum_cons,
      sum_labels_of_not_mem (label st.field) (label field) v st.queue
        (fun j hj => by rw [hl j, if_neg hj]) hv, hl v, if_pos rfl, h6]
    ring

/-- One relaxation from a node of the graph along an edge to a node of the
graph returns, keeps the bookkeeping consistent, and either changes nothing,
the label of the neighbour being at most the new distance, or lowers the label
of the neighbour to the new distance and has the neighbour in the queue. -/
theorem relax_neighbor_cases {σ : Type} (update : σ → Int → Int → F → σ) (node : Int)
    (e : dual_edge F) (st : visit_state F σ) (n : Nat) (hc : consistent n st)
    (hnode : valid_node n node) (hnb : valid_node n e.node) :
    ∃ st', relax_neighbor update node e st = some st' ∧ consistent n st' ∧
      ((label st.field e.node ≤ label st.field node + e.length ∧ st' = st) ∨
       (label st.field node + e.length < label st.field e.node ∧
        (∀ j, label st'.field j =
          if j = e.node then label st.field node + e.length else label st.field j) ∧
        (∀ x, x ∈ st'.queue ↔ x ∈ st.queue ∨ x = e.node) ∧
        st'.queue.length ≤ st.queue.length + 1)) := by
  have hc' := hc
  obtain ⟨h1, h2, h3, h4, h5, h6⟩ := hc'
  obtain ⟨d, hd⟩ := get_at_valid st.field n node h1 hnode
  obtain ⟨old, hold⟩ := get_at_valid st.field n e.node h1 hnb
  obtain ⟨queued, hqd⟩ := get_at_valid st.in_queue n e.node h2 hnb
  obtain ⟨field, hset⟩ := set_at_valid st.field n e.node (d + e.length) h1 hnb
  obtain ⟨in_queue, hin⟩ := set_at_valid st.in_queue n e.node true h2 hnb
  have hld : label st.field node = d := by simp [label, hd]
  have hlo : label st.field e.node = old := by simp [label, hold]
  have hl := fun j => label_set_at st.field field e.node j (d + e.length) hset
  simp only [relax_neighbor, hd, hold, Option.bind_eq_bind, Option.some_bind, hld, hlo]
  by_cases hge : d + e.length ≥ old
  · rw [if_pos hge]
    exact ⟨st, rfl, hc, Or.inl ⟨hge, rfl⟩⟩
  · rw [if_neg hge, hqd]
    simp only [Option.some_bind]
    cases queued with
    | true =>
      simp only [if_true, Option.some_bind, hset]
      have hv : e.node ∈ st.queue := (h5 _ hnb).1 hqd
      refine ⟨_, rfl, ?_, Or.inr ⟨lt_of_not_ge hge, hl, ?_, ?_⟩⟩
      · have := consistent_lower_queued n st e.node (d + e.length) field
          (update st.user node e.node (d + e.length)) hc hv hset
        rw [hlo] at this
        exact this
      · intro x
        constructor
        · exact fun h => Or.inl h
        · rintro (h | h)
          · exact h
          · exact h ▸ hv
      · exact Nat.le_succ _
    | false =>
      have hv : e.node ∉ st.queue := fun h => by
        have := (h5 _ hnb).2 h
        rw [hqd] at this
        simp at this
      have hif : ∀ (c : Prop) [Decidable c],
          (if c then e.node :: st.queue else st.queue ++ [e.node]) = e.node :: st.queue ∨
          (if c then e.node :: st.queue else st.queue ++ [e.node]) = st.queue ++ [e.node] := by
        intro c _
        split_ifs
        · exact Or.inl rfl
        · exact Or.inr rfl
      have fin : ∀ (c : Prop) [Decidable c], ∃ st',
          some ({ st with
            queue := if c then e.node :: st.queue else st.queue ++ [e.node]
            in_queue := in_queue
            cumulative_weight := st.cumulative_weight + (d + e.length)
            field := field
            user := update st.user node e.node (d + e.length) } : visit_state F σ) = some st' ∧
          consistent n st' ∧
          ((old ≤ d + e.length ∧ st' = st) ∨
           (d + e.length < old ∧
            (∀ j, label st'.field j = if j = e.node then d + e.length else label st.field j) ∧
            (∀ x, x ∈ st'.queue ↔ x ∈ st.queue ∨ x = e.node) ∧
            st'.queue.length ≤ st.queue.length + 1)) := by
        intro c _
        refine ⟨_, rfl, consistent_push n st e.node (d + e.length) field in_queue _
          (update st.user node e.node (d + e.length)) hc hnb hv (hif c) hin hset,
          Or.inr ⟨lt_of_not_ge hge, hl, ?_, ?_⟩⟩
        · intro x
          show x ∈ (if c then e.node :: st.queue else st.queue ++ [e.node]) ↔ _
          rcases hif c with h | h <;> rw [h] <;> simp [or_comm]
        · show (if c then e.node :: st.queue else st.queue ++ [e.node]).length ≤ _
          rcases hif c with h | h <;> rw [h] <;> simp
      simp only [Bool.false_eq_true, if_false]
      split
      · simp only [Option.some_bind, hin, hset]
        exact fin (true = true)
      · rename_i front rest hq
        obtain ⟨x, hx⟩ := get_at_valid st.field n front h1
          (h3 front (by rw [hq]; exact List.mem_cons_self _ _))
        simp only [hx, Option.map_some', Option.some_bind, hin, hset]
        exact fin (decide (d + e.length < x) = true)

/-- A witness stays one when labels are lowered. -/
theorem witness_path_mono (graph : List (List (dual_edge F))) (field0 : List F)
    (sources : List Int) (lab lab' : Int → F) (hle : ∀ v, lab' v ≤ lab v) (q : List Int) (x : F)
    (h : witness_path graph field0 sources lab q x) :
    witness_path graph field0 sources lab' q x := by
  induction h with
  | start s hs h0 => exact witness_path.start s hs (le_trans (hle s) h0)
  | step u p x e _ he h1 ih => exact witness_path.step u p x e ih he (le_trans (hle _) h1)

/-- The nodes of a witness are nodes of the graph, and the label of each is at
most the value of the witness. -/
theorem witness_path_bound (graph : List (List (dual_edge F))) (hg : valid_graph graph)
    (field0 : List F) (sources : List Int) (hs : ∀ s ∈ sources, valid_node graph.length s)
    (lab : Int → F) (q : List Int) (x : F) (h : witness_path graph field0 sources lab q x) :
    ∀ v ∈ q, valid_node graph.length v ∧ lab v ≤ x := by
  induction h with
  | start s hs' h0 =>
    intro v hv
    rw [List.mem_singleton.1 hv]
    exact ⟨hs s hs', h0⟩
  | step u p x e _ he h1 ih =>
    intro v hv
    obtain ⟨hvalid, hlen⟩ := valid_graph_edges graph hg u e he
    rcases List.mem_cons.1 hv with h | h
    · rw [h]
      exact ⟨hvalid, h1⟩
    · exact ⟨(ih v h).1, le_trans (ih v h).2 (le_add_of_nonneg_right hlen)⟩

/-- The value of a witness is the value of a walk from a source to its last
node. -/
theorem witness_path_source_walk (graph : List (List (dual_edge F))) (field0 : List F)
    (sources : List Int) (lab : Int → F) (q : List Int) (x : F)
    (h : witness_path graph field0 sources lab q x) :
    ∀ v, q.head? = some v → source_walk graph field0 sources v x := by
  induction h with
  | start s hs' h0 =>
    intro v hv
    simp only [List.head?_cons, Option.some.injEq] at hv
    exact hv ▸ source_walk.start s hs'
  | step u p x e _ he h1 ih =>
    intro v hv
    simp only [List.head?_cons, Option.some.injEq] at hv
    exact hv ▸ source_walk.step u x e (ih u rfl) he

/-- The candidate values grow with the number of edges. -/
theorem candidates_mono (graph : List (List (dual_edge F))) (field0 : List F)
    (sources : List Int) (v : Int) (k m : Nat) (hkm : k ≤ m) :
    candidates graph field0 sources k v ⊆ candidates graph field0 sources m v := by
  induction m with
  | zero =>
    have : k = 0 := by omega
    subst this
    exact Finset.Subset.refl _
  | succ m ih =>
    by_cases hk : k = m + 1
    · subst hk
      exact Finset.Subset.refl _
    · refine Finset.Subset.trans (ih (by omega)) ?_
      rw [candidates]
      exact Finset.subset_union_left

/-- The value of a witness is a candidate value of its last node, for the
number of its edges. -/
theorem witness_path_candidate (graph : List (List (dual_edge F))) (hg : valid_graph graph)
    (field0 : List F) (sources : List Int) (hs : ∀ s ∈ sources, valid_node graph.length s)
    (lab : Int → F) (q : List Int) (x : F) (h : witness_path graph field0 sources lab q x) :
    ∀ v p, q = v :: p → x ∈ candidates graph field0 sources p.length v := by
  induction h with
  | start s hs' h0 =>
    intro v p hq
    simp only [List.cons.injEq] at hq
    obtain ⟨rfl, rfl⟩ := hq
    simp [candidates, hs']
  | step u p x e hw he h1 ih =>
    intro v p' hq
    simp only [List.cons.injEq] at hq
    obtain ⟨rfl, rfl⟩ := hq
    have hu := (witness_path_bound graph hg field0 sources hs lab _ _ hw u
      (List.mem_cons_self _ _)).1
    have hcast : ((u.toNat : Nat) : Int) = u := Int.toNat_of_nonneg hu.1
    rw [List.length_cons, candidates]
    refine Finset.mem_union_right _ (Finset.mem_biUnion.2 ⟨u.toNat, ?_, ?_⟩)
    · rw [Finset.mem_range]
      have := hu.2
      omega
    · rw [hcast]
      refine Finset.mem_biUnion.2 ⟨e, ?_, ?_⟩
      · rw [List.mem_toFinset, List.mem_filter]
        exact ⟨he, by simp⟩
      · exact Finset.mem_image.2 ⟨x, ih u p rfl, rfl⟩

/-- Every node of a witness has a candidate value, for fewer edges than the
witness has nodes, that is at least its label and at most the value of the
witness. -/
theorem witness_path_mem (graph : List (List (dual_edge F))) (hg : valid_graph graph)
    (field0 : List F) (sources : List Int) (hs : ∀ s ∈ sources, valid_node graph.length s)
    (lab : Int → F) (q : List Int) (x : F) (h : witness_path graph field0 sources lab q x) :
    ∀ v ∈ q, ∃ k, k < q.length ∧ ∃ y ∈ candidates graph field0 sources k v, lab v ≤ y ∧ y ≤ x := by
  induction h with
  | start s hs' h0 =>
    intro v hv
    rw [List.mem_singleton.1 hv]
    exact ⟨0, by simp, label field0 s, by simp [candidates, hs'], h0, le_refl _⟩
  | step u p x e hw he h1 ih =>
    intro v hv
    rcases List.mem_cons.1 hv with h | h
    · rw [h]
      exact ⟨(u :: p).length, by simp, x + e.length,
        witness_path_candidate graph hg field0 sources hs lab _ _
          (witness_path.step u p x e hw he h1) e.node (u :: p) rfl, h1, le_refl _⟩
    · obtain ⟨k, hk, y, hy, hly, hyx⟩ := ih v h
      exact ⟨k, by simp only [List.length_cons] at hk ⊢; omega, y, hy, hly,
        le_trans hyx (le_add_of_nonneg_right (valid_graph_edges graph hg u e he).2)⟩

/-- A list of nodes of the graph without repetition has at most as many
entries as the graph has nodes. -/
theorem nodup_valid_length (n : Nat) (q : List Int) (hv : ∀ v ∈ q, valid_node n v)
    (hnd : q.Nodup) : q.length ≤ n := by
  have h1 : (q.map Int.toNat).Nodup := by
    refine List.Nodup.map_on ?_ hnd
    intro a ha b hb hab
    have := (hv a ha).1
    have := (hv b hb).1
    omega
  have h2 : (q.map Int.toNat).toFinset ⊆ Finset.range n := by
    intro x hx
    rw [List.mem_toFinset, List.mem_map] at hx
    obtain ⟨a, ha, rfl⟩ := hx
    rw [Finset.mem_range]
    have := hv a ha
    unfold valid_node at this
    omega
  have h3 := Finset.card_le_card h2
  rw [List.toFinset_card_of_nodup h1, Finset.card_range, List.length_map] at h3
  exact h3

/-- The value of a witness without repeated node is a candidate value for
fewer edges than the graph has nodes. -/
theorem witness_path_candidate_nodup (graph : List (List (dual_edge F)))
    (hg : valid_graph graph) (field0 : List F) (sources : List Int)
    (hs : ∀ s ∈ sources, valid_node graph.length s) (lab : Int → F) (v : Int) (p : List Int)
    (x : F) (h : witness_path graph field0 sources lab (v :: p) x) (hnd : (v :: p).Nodup) :
    x ∈ candidates graph field0 sources (graph.length - 1) v := by
  have h1 := nodup_valid_length graph.length (v :: p)
    (fun w hw => (witness_path_bound graph hg field0 sources hs lab _ _ h w hw).1) hnd
  refine candidates_mono graph field0 sources v p.length _ ?_
    (witness_path_candidate graph hg field0 sources hs lab _ _ h v p rfl)
  simp only [List.length_cons] at h1
  omega

/-- Lower labels do not raise the rank. -/
theorem label_rank_le (graph : List (List (dual_edge F))) (field0 : List F)
    (sources : List Int) (lab lab' : Int → F) (hle : ∀ v, lab' v ≤ lab v) :
    label_rank graph field0 sources lab' ≤ label_rank graph field0 sources lab := by
  unfold label_rank
  refine Finset.sum_le_sum (fun v _ => Finset.card_le_card ?_)
  intro x hx
  rw [Finset.mem_filter] at hx ⊢
  exact ⟨hx.1, lt_of_lt_of_le hx.2 (hle _)⟩

/-- A label lowered to a candidate value lowers the rank. -/
theorem label_rank_lt (graph : List (List (dual_edge F))) (field0 : List F)
    (sources : List Int) (lab lab' : Int → F) (hle : ∀ v, lab' v ≤ lab v) (v : Int)
    (hv : valid_node graph.length v)
    (hc : lab' v ∈ candidates graph field0 sources (graph.length - 1) v) (hlt : lab' v < lab v) :
    label_rank graph field0 sources lab' < label_rank graph field0 sources lab := by
  unfold label_rank
  have hcast : ((v.toNat : Nat) : Int) = v := Int.toNat_of_nonneg hv.1
  refine Finset.sum_lt_sum (fun w _ => Finset.card_le_card ?_) ⟨v.toNat, ?_, ?_⟩
  · intro x hx
    rw [Finset.mem_filter] at hx ⊢
    exact ⟨hx.1, lt_of_lt_of_le hx.2 (hle _)⟩
  · rw [Finset.mem_range]
    have := hv.2
    omega
  · rw [hcast]
    refine Finset.card_lt_card (Finset.ssubset_iff_of_subset ?_ |>.2 ⟨lab' v, ?_, ?_⟩)
    · intro x hx
      rw [Finset.mem_filter] at hx ⊢
      exact ⟨hx.1, lt_of_lt_of_le hx.2 (hle _)⟩
    · rw [Finset.mem_filter]
      exact ⟨hc, hlt⟩
    · rw [Finset.mem_filter]
      exact fun h => lt_irrefl _ h.2

/-- A touched node stays touched when labels are lowered. -/
theorem touched_mono (field0 : List F) (sources : List Int) (lab lab' : Int → F) (v : Int)
    (hle : lab' v ≤ lab v) (h : touched field0 sources lab v) :
    touched field0 sources lab' v := by
  rcases h with h | h
  · exact Or.inl h
  · exact Or.inr (lt_of_le_of_lt hle h)

/-- One relaxation along an edge out of the node `u` whose edges are being
relaxed keeps the invariant of the search, leaves `u` out of the queue with its
label, leaves the edge relaxed, and does not raise the measure
`2 * label_rank + queue.length`. -/
theorem relax_neighbor_invariant {σ : Type} (graph : List (List (dual_edge F)))
    (hg : valid_graph graph) (field0 : List F) (sources : List Int)
    (hs : ∀ s ∈ sources, valid_node graph.length s) (update : σ → Int → Int → F → σ) (u : Int)
    (e : dual_edge F) (st : visit_state F σ) (hc : consistent graph.length st)
    (hu : valid_node graph.length u) (he : e ∈ edges_of graph u)
    (hinv : search_invariant graph field0 sources (label st.field) st.queue (some u))
    (htu : touched field0 sources (label st.field) u) (huq : u ∉ st.queue) :
    ∃ st', relax_neighbor update u e st = some st' ∧ consistent graph.length st' ∧
      search_invariant graph field0 sources (label st'.field) st'.queue (some u) ∧
      u ∉ st'.queue ∧ label st'.field u = label st.field u ∧
      (∀ j, label st'.field j ≤ label st.field j) ∧
      label st'.field e.node ≤ label st'.field u + e.length ∧
      2 * label_rank graph field0 sources (label st'.field) + st'.queue.length ≤
        2 * label_rank graph field0 sources (label st.field) + st.queue.length := by
  obtain ⟨hev, hlen⟩ := valid_graph_edges graph hg u e he
  obtain ⟨st', hst, hc', hcase⟩ := relax_neighbor_cases update u e st graph.length hc hu hev
  refine ⟨st', hst, hc', ?_⟩
  rcases hcase with ⟨hle, rfl⟩ | ⟨hlt, hl, hmem, hqlen⟩
  · exact ⟨hinv, huq, rfl, fun j => le_refl _, hle, le_refl _⟩
  · obtain ⟨i1, i2, i3, i4⟩ := hinv
    have huv : u ≠ e.node := by
      intro h
      rw [← h] at hlt
      linarith
    have hlu : label st'.field u = label st.field u := by rw [hl, if_neg huv]
    have hlv : label st'.field e.node = label st.field u + e.length := by rw [hl, if_pos rfl]
    have hle : ∀ j, label st'.field j ≤ label st.field j := by
      intro j
      rw [hl]
      split_ifs with h
      · rw [h]
        exact le_of_lt hlt
      · exact le_refl _
    obtain ⟨p, hw, hnd⟩ := i3 u htu
    have hw' : witness_path graph field0 sources (label st'.field) (e.node :: u :: p)
        (label st'.field e.node) := by
      rw [hlv]
      refine witness_path.step u p _ e
        (witness_path_mono graph field0 sources _ _ hle _ _ hw) he ?_
      rw [hlv]
    have hnd' : (e.node :: u :: p).Nodup := by
      refine List.nodup_cons.2 ⟨fun hin => ?_, hnd⟩
      have := (witness_path_bound graph hg field0 sources hs _ _ _ hw e.node hin).2
      linarith
    have htouch : ∀ x, x ≠ e.node → touched field0 sources (label st'.field) x →
        touched field0 sources (label st.field) x := by
      intro x hx h
      unfold touched at h ⊢
      rw [hl, if_neg hx] at h
      exact h
    refine ⟨⟨fun v => le_trans (hle v) (i1 v), ?_, ?_, ?_⟩, ?_, hlu, hle, ?_, ?_⟩
    · intro q hq
      rcases (hmem q).1 hq with h | h
      · exact touched_mono field0 sources _ _ q (hle q) (i2 q h)
      · rw [h]
        exact Or.inr (by rw [hlv]; exact lt_of_lt_of_le hlt (i1 _))
    · intro x hx
      by_cases hxv : x = e.node
      · rw [hxv]
        exact ⟨u :: p, hw', hnd'⟩
      · obtain ⟨p', hp', hnd''⟩ := i3 x (htouch x hxv hx)
        refine ⟨p', ?_, hnd''⟩
        have : label st'.field x = label st.field x := by rw [hl, if_neg hxv]
        rw [this]
        exact witness_path_mono graph field0 sources _ _ hle _ _ hp'
    · intro x hx hxq hxu
      have hxv : x ≠ e.node := fun h => hxq ((hmem x).2 (Or.inr h))
      have hrel := i4 x (htouch x hxv hx) (fun h => hxq ((hmem x).2 (Or.inl h))) hxu
      intro e' he'
      have : label st'.field x = label st.field x := by rw [hl, if_neg hxv]
      rw [this]
      exact le_trans (hle _) (hrel e' he')
    · intro h
      rcases (hmem u).1 h with h | h
      · exact huq h
      · exact huv h
    · rw [hlv, hlu]
    · have := label_rank_lt graph field0 sources (label st.field) (label st'.field) hle e.node hev
        (witness_path_candidate_nodup graph hg field0 sources hs _ _ _ _ hw' hnd')
        (by rw [hlv]; exact hlt)
      omega

/-- The relaxation of edges out of the node `u` returns, keeps the invariant
of the search, leaves `u` out of the queue with its label, leaves these edges
relaxed, and does not raise the measure. -/
theorem relax_edges_invariant {σ : Type} (graph : List (List (dual_edge F)))
    (hg : valid_graph graph) (field0 : List F) (sources : List Int)
    (hs : ∀ s ∈ sources, valid_node graph.length s) (update : σ → Int → Int → F → σ) (u : Int)
    (hu : valid_node graph.length u) (edges : List (dual_edge F))
    (hedges : ∀ e ∈ edges, e ∈ edges_of graph u) (st : visit_state F σ)
    (hc : consistent graph.length st)
    (hinv : search_invariant graph field0 sources (label st.field) st.queue (some u))
    (htu : touched field0 sources (label st.field) u) (huq : u ∉ st.queue) :
    ∃ st', relax_edges update u edges st = some st' ∧ consistent graph.length st' ∧
      search_invariant graph field0 sources (label st'.field) st'.queue (some u) ∧
      u ∉ st'.queue ∧ label st'.field u = label st.field u ∧
      (∀ j, label st'.field j ≤ label st.field j) ∧
      (∀ e ∈ edges, label st'.field e.node ≤ label st'.field u + e.length) ∧
      2 * label_rank graph field0 sources (label st'.field) + st'.queue.length ≤
        2 * label_rank graph field0 sources (label st.field) + st.queue.length := by
  induction edges generalizing st with
  | nil =>
    exact ⟨st, rfl, hc, hinv, huq, rfl, fun j => le_refl _, fun e he => by simp at he, le_refl _⟩
  | cons e edges ih =>
    obtain ⟨st1, h1, c1, inv1, q1, l1, le1, r1, m1⟩ := relax_neighbor_invariant graph hg field0
      sources hs update u e st hc hu (hedges e (List.mem_cons_self _ _)) hinv htu huq
    have htu1 : touched field0 sources (label st1.field) u :=
      touched_mono field0 sources _ _ u (le1 u) htu
    obtain ⟨st2, h2, c2, inv2, q2, l2, le2, r2, m2⟩ := ih
      (fun e' he' => hedges e' (List.mem_cons_of_mem _ he')) st1 c1 inv1 htu1 q1
    refine ⟨st2, by simp only [relax_edges, h1, Option.some_bind, h2], c2, inv2, q2,
      l2.trans l1, fun j => le_trans (le2 j) (le1 j), ?_, le_trans m2 m1⟩
    intro e' he'
    rcases List.mem_cons.1 he' with h | h
    · rw [h, l2]
      exact le_trans (le2 _) r1
    · exact r2 e' h

/-- On a consistent state with a non-empty queue, the "large label last" loop
returns a rotation of the queue whose front has a label at most the average
`cumulative_weight / queue.size()`. -/
theorem rotation_finds {σ : Type} (n : Nat) (st : visit_state F σ) (hc : consistent n st)
    (front : Int) (rest : List Int) (hq : st.queue = front :: rest) :
    ∃ queue node, large_label_last st.field (st.cumulative_weight / (st.queue.length : F))
        (st.queue.length + 1) st.queue front = some (queue, node) ∧
      queue.head? = some node ∧ queue.Perm st.queue ∧
      label st.field node ≤ st.cumulative_weight / (st.queue.length : F) := by
  obtain ⟨h1, h2, h3, h4, h5, h6⟩ := hc
  have hne : st.queue.map (label st.field) ≠ [] := by rw [hq]; simp
  obtain ⟨x, hx, hxle⟩ := exists_le_average _ hne
  rw [List.length_map, ← h6] at hxle
  obtain ⟨q, hqm, rfl⟩ := List.mem_map.1 hx
  obtain ⟨k, hk, hkq⟩ := List.getElem_of_mem hqm
  exact large_label_last_finds st.field _ (st.queue.length + 1) st.queue front
    (by rw [hq]; rfl) (fun y hy => h1 ▸ h3 y hy) k (by omega) q
    (by rw [List.getElem?_eq_getElem hk, hkq]) hxle

/-- The read of a row of the graph at a node of the graph gives its edges. -/
theorem get_at_edges_of (graph : List (List (dual_edge F))) (u : Int)
    (hu : valid_node graph.length u) : get_at graph u = some (edges_of graph u) := by
  obtain ⟨row, hrow⟩ := get_at_valid graph _ u rfl hu
  simp [edges_of, hrow]

/-- One iteration of the main loop, with `stop` and `exit` always false, on a
consistent state that satisfies the invariant of the search: it returns a
consistent state that satisfies the invariant, and the measure
`2 * label_rank + queue.length` goes down. -/
theorem visit_geodesic_iteration_invariant {σ : Type} (graph : List (List (dual_edge F)))
    (hg : valid_graph graph) (field0 : List F) (sources : List Int)
    (hs : ∀ s ∈ sources, valid_node graph.length s) (update : σ → Int → Int → F → σ)
    (st : visit_state F σ) (hc : consistent graph.length st)
    (hinv : search_invariant graph field0 sources (label st.field) st.queue none)
    (front : Int) (rest : List Int) (hq : st.queue = front :: rest) :
    ∃ st', visit_geodesic_iteration graph update (fun _ => false) (fun _ => false) st front =
        some (st', none) ∧ consistent graph.length st' ∧
      search_invariant graph field0 sources (label st'.field) st'.queue none ∧
      2 * label_rank graph field0 sources (label st'.field) + st'.queue.length <
        2 * label_rank graph field0 sources (label st.field) + st.queue.length := by
  obtain ⟨queue, node, hrot, hhead, hperm, _⟩ := rotation_finds graph.length st hc front rest hq
  have hc' := hc
  obtain ⟨h1, h2, h3, h4, h5, h6⟩ := hc'
  obtain ⟨i1, i2, i3, i4⟩ := hinv
  obtain ⟨tl, rfl⟩ : ∃ tl, queue = node :: tl := by
    cases queue with
    | nil => simp at hhead
    | cons a tl =>
      simp only [List.head?_cons, Option.some.injEq] at hhead
      exact ⟨tl, by rw [hhead]⟩
  have hnq : node ∈ st.queue := hperm.subset (List.mem_cons_self _ _)
  have hnv : valid_node graph.length node := h3 node hnq
  have hnd : (node :: tl).Nodup := hperm.nodup_iff.2 h4
  have hntl : node ∉ tl := (List.nodup_cons.1 hnd).1
  have hmem : ∀ x, x ∈ st.queue ↔ x = node ∨ x ∈ tl := fun x => by
    rw [← hperm.mem_iff, List.mem_cons]
  obtain ⟨lbl, hlbl⟩ := get_at_valid st.field _ node h1 hnv
  obtain ⟨in_queue, hin⟩ := set_at_valid st.in_queue _ node false h2 hnv
  have hlab : label st.field node = lbl := by simp [label, hlbl]
  have hc1 : consistent graph.length ({ st with
      queue := tl, in_queue := in_queue
      cumulative_weight := st.cumulative_weight - lbl } : visit_state F σ) := by
    refine ⟨h1, by rw [set_at_length _ _ _ _ hin, h2],
      fun q hq' => h3 q ((hmem q).2 (Or.inr hq')), (List.nodup_cons.1 hnd).2, ?_, ?_⟩
    · intro x hx
      show get_at in_queue x = some true ↔ x ∈ tl
      rw [get_at_set_at _ _ _ _ _ hin]
      by_cases hxn : x = node
      · simp [hxn, hntl]
      · rw [if_neg hxn, h5 x hx, hmem]
        simp [hxn]
    · show st.cumulative_weight - lbl = (tl.map (label st.field)).sum
      rw [h6, ← (hperm.map (label st.field)).sum_eq, List.map_cons, List.sum_cons, hlab]
      ring
  have hinv1 : search_invariant graph field0 sources (label st.field) tl (some node) :=
    ⟨i1, fun q hq' => i2 q ((hmem q).2 (Or.inr hq')), i3, fun x hx hxq hxn => i4 x hx
      (fun h => by
        rcases (hmem x).1 h with h | h
        · exact hxn (by rw [h])
        · exact hxq h) (by simp)⟩
  obtain ⟨st2, hrel, c2, inv2, q2, l2, le2, r2, m2⟩ := relax_edges_invariant graph hg field0
    sources hs update node hnv (edges_of graph node) (fun e he => he) _ hc1 hinv1 (i2 node hnq)
    hntl
  refine ⟨st2, ?_, c2, ?_, ?_⟩
  · simp only [visit_geodesic_iteration, hrot, Option.bind_eq_bind, Option.some_bind, hlbl, hin,
      List.tail_cons, Bool.false_eq_true, if_false, get_at_edges_of graph node hnv, hrel]
  · obtain ⟨j1, j2, j3, j4⟩ := inv2
    refine ⟨j1, j2, j3, fun x hx hxq _ => ?_⟩
    by_cases hxn : x = node
    · rw [hxn]
      exact r2
    · exact j4 x hx hxq (by simp [hxn])
  · have hlen : st.queue.length = tl.length + 1 := by rw [← hperm.length_eq, List.length_cons]
    have m2' : 2 * label_rank graph field0 sources (label st2.field) + st2.queue.length ≤
        2 * label_rank graph field0 sources (label st.field) + tl.length := m2
    omega

/-- With fuel above the measure `2 * label_rank + queue.length`, the main loop
with `stop` and `exit` always false returns from a consistent state that
satisfies the invariant of the search, on an empty queue, in a state that
satisfies the invariant. -/
theorem visit_geodesic_loop_returns {σ : Type} (graph : List (List (dual_edge F)))
    (hg : valid_graph graph) (field0 : List F) (sources : List Int)
    (hs : ∀ s ∈ sources, valid_node graph.length s) (update : σ → Int → Int → F → σ)
    (fuel : Nat) (st : visit_state F σ) (hc : consistent graph.length st)
    (hinv : search_invariant graph field0 sources (label st.field) st.queue none)
    (hfuel : 2 * label_rank graph field0 sources (label st.field) + st.queue.length < fuel) :
    ∃ st', visit_geodesic_loop graph update (fun _ => false) (fun _ => false) fuel st =
        some (st', none) ∧ st'.queue = [] ∧ consistent graph.length st' ∧
      search_invariant graph field0 sources (label st'.field) st'.queue none := by
  induction fuel generalizing st with
  | zero => omega
  | succ fuel ih =>
    unfold visit_geodesic_loop
    cases hq : st.queue with
    | nil => exact ⟨st, rfl, hq, hc, hinv⟩
    | cons front rest =>
      obtain ⟨st1, h1, c1, inv1, m1⟩ := visit_geodesic_iteration_invariant graph hg field0
        sources hs update st hc hinv front rest hq
      obtain ⟨st2, h2, q2, c2, inv2⟩ := ih st1 c1 inv1 (by omega)
      exact ⟨st2, by simp only [h1, Option.some_bind, h2], q2, c2, inv2⟩

/-- The set-up of the queue on sources that are nodes of the graph, without
repetition and not yet in the queue, returns a consistent state with the
sources appended to the queue and the labels as they were. -/
theorem push_sources_consistent {σ : Type} (n : Nat) (sources : List Int)
    (st : visit_state F σ) (hc : consistent n st) (hs : ∀ s ∈ sources, valid_node n s)
    (hnd : sources.Nodup) (hdis : ∀ s ∈ sources, s ∉ st.queue) :
    ∃ st', push_sources sources st = some st' ∧ consistent n st' ∧ st'.field = st.field ∧
      st'.queue = st.queue ++ sources := by
  induction sources generalizing st with
  | nil => exact ⟨st, rfl, hc, rfl, by simp⟩
  | cons s sources ih =>
    have hc' := hc
    obtain ⟨h1, h2, h3, h4, h5, h6⟩ := hc'
    have hsv := hs s (List.mem_cons_self _ _)
    have hsq := hdis s (List.mem_cons_self _ _)
    obtain ⟨in_queue, hin⟩ := set_at_valid st.in_queue n s true h2 hsv
    obtain ⟨lbl, hlbl⟩ := get_at_valid st.field n s h1 hsv
    have hlab : label st.field s = lbl := by simp [label, hlbl]
    rw [List.nodup_cons] at hnd
    have hc1 : consistent n ({ st with
        in_queue := in_queue
        cumulative_weight := st.cumulative_weight + lbl
        queue := st.queue ++ [s] } : visit_state F σ) := by
      refine ⟨h1, by rw [set_at_length _ _ _ _ hin, h2], ?_, ?_, ?_, ?_⟩
      · intro q hq
        rcases List.mem_append.1 hq with h | h
        · exact h3 q h
        · rw [List.mem_singleton.1 h]
          exact hsv
      · exact (List.perm_append_comm.nodup_iff).2 (List.nodup_cons.2 ⟨hsq, h4⟩)
      · intro x hx
        show get_at in_queue x = some true ↔ x ∈ st.queue ++ [s]
        rw [get_at_set_at _ _ _ _ _ hin, List.mem_append, List.mem_singleton]
        by_cases hxs : x = s
        · simp [hxs]
        · simp [hxs, h5 x hx]
      · show st.cumulative_weight + lbl = ((st.queue ++ [s]).map (label st.field)).sum
        rw [List.map_append, List.sum_append, h6, List.map_singleton, List.sum_singleton, hlab]
    obtain ⟨st', hp, c', f', q'⟩ := ih _ hc1 (fun x hx => hs x (List.mem_cons_of_mem _ hx))
      hnd.2 (fun x hx hxq => by
        rcases List.mem_append.1 hxq with h | h
        · exact hdis x (List.mem_cons_of_mem _ hx) h
        · rw [List.mem_singleton.1 h] at hx
          exact hnd.1 hx)
    refine ⟨st', ?_, c', f', ?_⟩
    · simp only [push_sources, hin, hlbl, Option.bind_eq_bind, Option.some_bind]
      exact hp
    · rw [q']
      simp

/-- The state that `visit_geodesic_graph` sets up from sources that are nodes
of the graph, without repetition: it is consistent and satisfies the invariant
of the search for the initial labels. -/
theorem push_sources_invariant {σ : Type} (graph : List (List (dual_edge F))) (field : List F)
    (hlen : field.length = graph.length) (sources : List Int)
    (hs : ∀ s ∈ sources, valid_node graph.length s) (hnd : sources.Nodup) (user : σ) :
    ∃ st0, push_sources sources
        ({ field := field, in_queue := List.replicate graph.length false,
           cumulative_weight := 0, queue := [], user := user } : visit_state F σ) = some st0 ∧
      consistent graph.length st0 ∧
      search_invariant graph field sources (label st0.field) st0.queue none ∧
      st0.field = field ∧ st0.queue = sources := by
  have hc0 : consistent graph.length
      ({ field := field, in_queue := List.replicate graph.length false,
         cumulative_weight := 0, queue := [], user := user } : visit_state F σ) := by
    refine ⟨hlen, by simp, by simp, by simp, ?_, by simp⟩
    intro v hv
    obtain ⟨b, hb⟩ := get_at_valid (List.replicate graph.length false) graph.length v
      (by simp) hv
    have hb' := hb
    unfold get_at at hb'
    split_ifs at hb'
    have := (List.getElem?_eq_some_iff.1 hb').2
    simp only [List.getElem_replicate] at this
    show get_at (List.replicate graph.length false) v = some true ↔ v ∈ []
    rw [hb, ← this]
    simp
  obtain ⟨st0, h0, c0, f0, q0⟩ := push_sources_consistent graph.length sources _ hc0 hs hnd
    (by simp)
  have hq : st0.queue = sources := by rw [q0]; simp
  have hf : st0.field = field := f0
  refine ⟨st0, h0, c0, ?_, hf, hq⟩
  rw [hq, hf]
  have ht : ∀ v, touched field sources (label field) v → v ∈ sources := by
    intro v hv
    rcases hv with h | h
    · exact h
    · exact absurd h (lt_irrefl _)
  refine ⟨fun v => le_refl _, fun q hq' => Or.inl hq', fun v hv => ⟨[], ?_, by simp⟩,
    fun u hu huq _ => absurd (ht u hu) huq⟩
  exact witness_path.start v (ht v hv) (le_refl _)

/-- At the end of the search, on an empty queue, when the initial label of
every node that is not a source is above the values of the walks to it of fewer
edges than the graph has nodes: the label of a node that a walk from a source
reaches is the least value of such a walk, and the label of any other node is
the initial one. -/
theorem search_invariant_final (graph : List (List (dual_edge F))) (hg : valid_graph graph)
    (field0 : List F) (sources : List Int) (hs : ∀ s ∈ sources, valid_node graph.length s)
    (hinf : ∀ v : Nat, v < graph.length → (v : Int) ∉ sources →
      ∀ x ∈ candidates graph field0 sources (graph.length - 1) (v : Int),
        x < label field0 (v : Int))
    (lab : Int → F) (hinv : search_invariant graph field0 sources lab [] none) (v : Int) :
    ((∃ x, source_walk graph field0 sources v x) →
      source_walk graph field0 sources v (lab v) ∧
        ∀ x, source_walk graph field0 sources v x → lab v ≤ x) ∧
    ((¬ ∃ x, source_walk graph field0 sources v x) → lab v = label field0 v) := by
  obtain ⟨i1, _, i3, i4⟩ := hinv
  have hinf' : ∀ w, valid_node graph.length w → w ∉ sources →
      ∀ x ∈ candidates graph field0 sources (graph.length - 1) w, x < label field0 w := by
    intro w hw hws x hx
    have hcast : ((w.toNat : Nat) : Int) = w := Int.toNat_of_nonneg hw.1
    have := hinf w.toNat (by have := hw.2; omega)
    rw [hcast] at this
    exact this hws x hx
  have key : ∀ w x, source_walk graph field0 sources w x →
      touched field0 sources lab w ∧ lab w ≤ x := by
    intro w x h
    induction h with
    | start s hs' => exact ⟨Or.inl hs', i1 s⟩
    | step u x e _ he ih =>
      obtain ⟨htu, hux⟩ := ih
      have hrel := i4 u htu (by simp) (by simp) e he
      obtain ⟨hev, _⟩ := valid_graph_edges graph hg u e he
      refine ⟨?_, by linarith⟩
      by_cases hes : e.node ∈ sources
      · exact Or.inl hes
      · right
        obtain ⟨p, hw, hnd⟩ := i3 u htu
        by_cases hin : e.node ∈ u :: p
        · obtain ⟨k, hk, y, hy, hly, _⟩ := witness_path_mem graph hg field0 sources hs lab _ _
            hw e.node hin
          have hN := nodup_valid_length graph.length (u :: p)
            (fun w hw' => (witness_path_bound graph hg field0 sources hs lab _ _ hw w hw').1) hnd
          have := hinf' e.node hev hes y
            (candidates_mono graph field0 sources e.node k _ (by omega) hy)
          linarith
        · have hw' := witness_path.step u p _ e hw he hrel
          have := hinf' e.node hev hes _ (witness_path_candidate_nodup graph hg field0 sources
            hs lab _ _ _ hw' (List.nodup_cons.2 ⟨hin, hnd⟩))
          linarith
  have hwalk : ∀ w, touched field0 sources lab w → source_walk graph field0 sources w (lab w) := by
    intro w hw
    obtain ⟨p, hp, _⟩ := i3 w hw
    exact witness_path_source_walk graph field0 sources lab _ _ hp w rfl
  constructor
  · rintro ⟨x, hx⟩
    exact ⟨hwalk v (key v x hx).1, fun y hy => (key v y hy).2⟩
  · intro hno
    refine le_antisymm (i1 v) (not_lt.1 (fun hlt => hno ⟨_, hwalk v (Or.inr hlt)⟩))

/-- A read of the rows of a dual graph. -/
theorem get_at_dual_rows (graph : List (Array3 (dual_edge F))) (node : Int) :
    get_at (dual_rows graph) node =
      (get_at graph node).map (fun row => [row.a0, row.a1, row.a2]) := by
  unfold get_at dual_rows
  split_ifs
  · rfl
  · simp [List.getElem?_map]

/-- The main loop of `visit_dual_geodesic_graph` is the main loop of
`visit_geodesic_graph` on the rows of the dual graph. -/
theorem visit_loop_eq {σ : Type} (graph : List (Array3 (dual_edge F)))
    (update : σ → Int → Int → F → σ) (stop exit : Int → Bool) (fuel : Nat)
    (st : visit_state F σ) :
    visit_loop graph update stop exit fuel st =
      visit_geodesic_loop (dual_rows graph) update stop exit fuel st := by
  induction fuel generalizing st with
  | zero => rfl
  | succ fuel ih =>
    unfold visit_loop visit_geodesic_loop
    cases hq : st.queue with
    | nil => rfl
    | cons front rest =>
      simp only [visit_geodesic_iteration, hq, Option.bind_eq_bind]
      cases h1 : large_label_last st.field
          (st.cumulative_weight / ((front :: rest).length : F)) ((front :: rest).length + 1)
          (front :: rest) front with
      | none => simp
      | some r =>
        obtain ⟨queue, node⟩ := r
        simp only [Option.some_bind]
        cases h2 : get_at st.field node with
        | none => simp
        | some lbl =>
          simp only [Option.some_bind]
          cases h3 : set_at st.in_queue node false with
          | none => simp
          | some in_queue =>
            simp only [Option.some_bind]
            by_cases he : exit node = true
            · simp [he]
            · by_cases hs : stop node = true
              · simp [he, hs, ih]
              · simp only [he, hs, if_false, Bool.false_eq_true, get_at_dual_rows]
                cases h4 : get_at graph node with
                | none => simp
                | some row =>
                  simp only [Option.map_some', Option.some_bind, relax_edges]
                  cases h5 : relax_neighbor update node row.a0 _ with
                  | none => simp
                  | some s1 =>
                    simp only [Option.some_bind]
                    cases h6 : relax_neighbor update node row.a1 s1 with
                    | none => simp
                    | some s2 =>
                      simp only [Option.some_bind]
                      cases h7 : relax_neighbor update node row.a2 s2 with
                      | none => simp
                      | some s3 => simp [ih]

/-- The states at the head of the main loop, with `stop` and `exit` always
false, are consistent and satisfy the invariant of the search. -/
theorem visit_geodesic_states_invariant {σ : Type} (graph : List (List (dual_edge F)))
    (hg : valid_graph graph) (field0 : List F) (sources : List Int)
    (hs : ∀ s ∈ sources, valid_node graph.length s) (update : σ → Int → Int → F → σ)
    (k : Nat) (st0 st : visit_state F σ) (hc : consistent graph.length st0)
    (hinv : search_invariant graph field0 sources (label st0.field) st0.queue none)
    (h : visit_geodesic_states graph update (fun _ => false) (fun _ => false) k st0 = some st) :
    consistent graph.length st ∧
      search_invariant graph field0 sources (label st.field) st.queue none := by
  induction k generalizing st0 with
  | zero =>
    simp only [visit_geodesic_states, Option.some.injEq] at h
    exact h ▸ ⟨hc, hinv⟩
  | succ k ih =>
    unfold visit_geodesic_states at h
    cases hq : st0.queue with
    | nil => simp [hq] at h
    | cons front rest =>
      obtain ⟨st1, h1, c1, inv1, _⟩ := visit_geodesic_iteration_invariant graph hg field0
        sources hs update st0 hc hinv front rest hq
      simp only [hq, h1, Option.some_bind] at h
      exact ih st1 c1 inv1 h

/-- With fuel above the measure of the initial state, `visit_geodesic_graph`
with `stop` and `exit` always false returns on an empty queue, in a consistent
state that satisfies the invariant of the search. -/
theorem visit_geodesic_graph_returns {σ : Type} (graph : List (List (dual_edge F)))
    (hg : valid_graph graph) (field : List F) (hlen : field.length = graph.length)
    (sources : List Int) (hs : ∀ s ∈ sources, valid_node graph.length s) (hnd : sources.Nodup)
    (user : σ) (update : σ → Int → Int → F → σ) (fuel : Nat)
    (hfuel : 2 * label_rank graph field sources (label field) + sources.length < fuel) :
    ∃ st, visit_geodesic_graph fuel field graph sources user update (fun _ => false)
        (fun _ => false) = some (st, none) ∧ st.queue = [] ∧ consistent graph.length st ∧
      search_invariant graph field sources (label st.field) st.queue none := by
  obtain ⟨st0, h0, c0, inv0, f0, q0⟩ := push_sources_invariant graph field hlen sources hs hnd
    user
  obtain ⟨st, h1, q1, c1, inv1⟩ := visit_geodesic_loop_returns graph hg field sources hs update
    fuel st0 c0 inv0 (by rw [f0, q0]; exact hfuel)
  exact ⟨st, by simp only [visit_geodesic_graph, h0, Option.some_bind, h1], q1, c1, inv1⟩

/-- C31: on a graph whose edges lead to nodes of the graph and have
non-negative lengths, from sources that are nodes of the graph, each listed
once, and when the initial label of every other node is above the values of the
walks to it of fewer edges than the graph has nodes (the label `DBL_MAX` of
`compute_geodesic_distances`), `visit_geodesic_graph` with `stop` and `exit`
always false returns, given fuel above `2 * label_rank + sources.size()`, and
it ends with `field[v]` the least value, initial label of a source plus length
of a walk from it to `v`, over the walks from the sources to `v`, and with
`field[v]` the initial label when no walk from a source reaches `v`. -/
theorem visit_geodesic_graph_shortest {σ : Type} (graph : List (List (dual_edge F)))
    (hg : valid_graph graph) (field : List F) (hlen : field.length = graph.length)
    (sources : List Int) (hs : ∀ s ∈ sources, valid_node graph.length s) (hnd : sources.Nodup)
    (hinf : ∀ v : Nat, v < graph.length → (v : Int) ∉ sources →
      ∀ x ∈ candidates graph field sources (graph.length - 1) (v : Int),
        x < label field (v : Int))
    (user : σ) (update : σ → Int → Int → F → σ) (fuel : Nat)
    (hfuel : 2 * label_rank graph field sources (label field) + sources.length < fuel) :
    ∃ st, visit_geodesic_graph fuel field graph sources user update (fun _ => false)
        (fun _ => false) = some (st, none) ∧ st.field.length = graph.length ∧
      ∀ v, valid_node graph.length v →
        ((∃ x, source_walk graph field sources v x) →
          source_walk graph field sources v (label st.field v) ∧
            ∀ x, source_walk graph field sources v x → label st.field v ≤ x) ∧
        ((¬ ∃ x, source_walk graph field sources v x) → label st.field v = label field v) := by
  obtain ⟨st, h, hq, hc, hinv⟩ := visit_geodesic_graph_returns graph hg field hlen sources hs
    hnd user update fuel hfuel
  rw [hq] at hinv
  exact ⟨st, h, hc.1, fun v _ =>
    search_invariant_final graph hg field sources hs hinf (label st.field) hinv v⟩

theorem visit_geodesic_graph_shortest_witness :
    ∃ st, visit_geodesic_graph 10 [0, 50, 50, 50] path_graph [0] ()
        (fun _ _ _ _ => ()) (fun _ => false) (fun _ => false) = some (st, none) ∧
      st.field.length = path_graph.length ∧
      ∀ v, valid_node path_graph.length v →
        ((∃ x, source_walk path_graph [0, 50, 50, 50] [0] v x) →
          source_walk path_graph [0, 50, 50, 50] [0] v (label st.field v) ∧
            ∀ x, source_walk path_graph [0, 50, 50, 50] [0] v x → label st.field v ≤ x) ∧
        ((¬ ∃ x, source_walk path_graph [0, 50, 50, 50] [0] v x) →
          label st.field v = label [0, 50, 50, 50] v) :=
  visit_geodesic_graph_shortest path_graph
    (by unfold valid_graph valid_node; decide!) [0, 50, 50, 50] rfl [0]
    (by unfold valid_node; decide) (by decide) (by decide!) () (fun _ _ _ _ => ()) 10
    (by decide!)

/-- C36: on a graph whose edges lead to nodes of the graph and have
non-negative lengths, from sources that are nodes of the graph, each listed
once, and with `stop` and `exit` always false: given fuel above
`2 * label_rank + sources.size()`, `visit_geodesic_graph` returns, on an empty
queue; `visit_dual_geodesic_graph` on a dual graph of these rows runs the same
loop and returns, on an empty queue; and on every state at the head of the main
loop with a non-empty queue, the "large label last" rotation returns a node of
the queue whose label is at most the average `cumulative_weight / queue.size()`. -/
theorem visit_geodesic_graph_terminates {σ : Type} (graph : List (List (dual_edge F)))
    (hg : valid_graph graph) (field : List F) (hlen : field.length = graph.length)
    (sources : List Int) (hs : ∀ s ∈ sources, valid_node graph.length s) (hnd : sources.Nodup)
    (user : σ) (update : σ → Int → Int → F → σ) (fuel : Nat)
    (hfuel : 2 * label_rank graph field sources (label field) + sources.length < fuel) :
    (∃ st, visit_geodesic_graph fuel field graph sources user update (fun _ => false)
        (fun _ => false) = some (st, none) ∧ st.queue = []) ∧
    (∀ dual, dual_rows dual = graph →
      (∀ k st, visit_loop dual update (fun _ => false) (fun _ => false) k st =
        visit_geodesic_loop graph update (fun _ => false) (fun _ => false) k st) ∧
      ∃ st, visit_dual_geodesic_graph fuel field dual sources user update (fun _ => false)
        (fun _ => false) = some (st, none) ∧ st.queue = []) ∧
    (∀ st0, push_sources sources
        ({ field := field, in_queue := List.replicate graph.length false,
           cumulative_weight := 0, queue := [], user := user } : visit_state F σ) = some st0 →
      ∀ k st front rest,
        visit_geodesic_states graph update (fun _ => false) (fun _ => false) k st0 = some st →
        st.queue = front :: rest →
        ∃ queue node, large_label_last st.field (st.cumulative_weight / (st.queue.length : F))
            (st.queue.length + 1) st.queue front = some (queue, node) ∧
          node ∈ st.queue ∧
          label st.field node ≤ st.cumulative_weight / (st.queue.length : F)) := by
  obtain ⟨st, h, hq, _, _⟩ := visit_geodesic_graph_returns graph hg field hlen sources hs
    hnd user update fuel hfuel
  refine ⟨⟨st, h, hq⟩, ?_, ?_⟩
  · intro dual hdual
    subst hdual
    refine ⟨fun k st => visit_loop_eq dual update _ _ k st, st, ?_, hq⟩
    rw [← h]
    have hl : (dual_rows dual).length = dual.length := by simp [dual_rows]
    unfold visit_dual_geodesic_graph visit_geodesic_graph
    rw [hl]
    cases push_sources sources
        ({ field := field, in_queue := List.replicate dual.length false,
           cumulative_weight := 0, queue := [], user := user } : visit_state F σ) with
    | none => rfl
    | some st0 => simp only [Option.bind_eq_bind, Option.some_bind, visit_loop_eq]
  · intro st0 h0 k st' front rest hk hfront
    obtain ⟨st1, h1, c1, inv1, _, _⟩ := push_sources_invariant graph field hlen sources hs hnd
      user
    rw [h0] at h1
    simp only [Option.some.injEq] at h1
    subst h1
    obtain ⟨c, _⟩ := visit_geodesic_states_invariant graph hg field sources hs update k st0 st'
      c1 inv1 hk
    obtain ⟨queue, node, hrot, hhead, hperm, hle⟩ := rotation_finds graph.length st' c front
      rest hfront
    refine ⟨queue, node, hrot, hperm.subset ?_, hle⟩
    cases queue with
    | nil => simp at hhead
    | cons a tl =>
      simp only [List.head?_cons, Option.some.injEq] at hhead
      rw [hhead]
      exact List.mem_cons_self _ _

theorem visit_geodesic_graph_terminates_witness :
    (∃ st, visit_geodesic_graph 200 [0, 5000, 5000, 5000, 5000] (dual_rows detour_graph) [0] ()
        (fun _ _ _ _ => ()) (fun _ => false) (fun _ => false) = some (st, none) ∧
      st.queue = []) ∧
    (∀ dual, dual_rows dual = dual_rows detour_graph →
      (∀ k st, visit_loop dual (fun _ _ _ _ => ()) (fun _ => false) (fun _ => false) k st =
        visit_geodesic_loop (dual_rows detour_graph) (fun _ _ _ _ => ()) (fun _ => false)
          (fun _ => false) k st) ∧
      ∃ st, visit_dual_geodesic_graph 200 [0, 5000, 5000, 5000, 5000] dual [0] ()
        (fun _ _ _ _ => ()) (fun _ => false) (fun _ => false) = some (st, none) ∧
        st.queue = []) ∧
    (∀ st0, push_sources [0]
        ({ field := [0, 5000, 5000, 5000, 5000],
           in_queue := List.replicate (dual_rows detour_graph).length false,
           cumulative_weight := 0, queue := [], user := () } : visit_state ℚ Unit) = some st0 →
      ∀ k st front rest,
        visit_geodesic_states (dual_rows detour_graph) (fun _ _ _ _ => ()) (fun _ => false)
          (fun _ => false) k st0 = some st →
        st.queue = front :: rest →
        ∃ queue node, large_label_last st.field (st.cumulative_weight / (st.queue.length : ℚ))
            (st.queue.length + 1) st.queue front = some (queue, node) ∧
          node ∈ st.queue ∧
          label st.field node ≤ st.cumulative_weight / (st.queue.length : ℚ)) :=
  visit_geodesic_graph_terminates (dual_rows detour_graph)
    (by unfold valid_graph valid_node; decide!) [0, 5000, 5000, 5000, 5000] rfl [0]
    (by unfold valid_node; decide) (by decide) () (fun _ _ _ _ => ()) 200 (by decide!)

end Search

end Bsurf
